import Mathlib

/-!
# Two-pass linker (`linker.cc`): shallow embedding and verified properties

The C++ program is embedded as pure Lean functions.

* Mutable objects (`ParsingContext`, `SymbolTable`, `UseList`) become values that are
  passed in and returned; `cout` becomes a list of structured output records
  (`Output`), appended in the order the program prints them.
* `int` is modelled by `Int`.  Arithmetic on values that come from the input
  (`value + module_index`, `instruction_count + module_index`, the subtractions in
  `VerifySymbol`, ...) goes through `wrap32`, the two's-complement wrap-around of a
  32-bit `int`.  Counters that grow by one per token (`module_count`, `*_read`)
  cannot overflow on an input of fewer than `2^31` tokens and are left unbounded.
* `std::map` is modelled by an association list kept in ascending key order, which is
  the order a C++ loop over the map visits it.
* A C++ exception (`throw runtime_error`) becomes the `Except.error` result; it carries
  the state at the throw, so that everything printed before it is kept.
* Token text is a `String`; lengths that the program measures in bytes use
  `String.utf8ByteSize`.
-/

namespace Linker

/-! ## Constants -/

abbrev kMaxDefinitionListSize : Int := 16
abbrev kMaxUseListSize : Int := 16
abbrev kMaxUseInstructionsSize : Int := 512
abbrev kInvalidInstructionCodeOverflow : Int := 9999
abbrev kInvalidInstructionCodeUnderflow : Int := 0
abbrev kMemorySize : Int := 512
abbrev kMaxOperand : Int := 1000
abbrev kMaxOpCode : Int := 10

/-- Characters at which `strtok` splits a line (`kDelimiters`). -/
def isDelimiter (c : Char) : Bool :=
  c = ' ' || c = Char.ofNat 9 || c = Char.ofNat 10 || c = Char.ofNat 13

/-- Two's-complement wrap-around of a 32-bit `int`. -/
def wrap32 (x : Int) : Int := (x + 2147483648) % 4294967296 - 2147483648

inductive SyntaxError where
  | ERROR_OK
  | ERROR_NUM_EXPECTED
  | ERROR_SYM_EXPECTED
  | ERROR_ADDR_EXPECTED
  | ERROR_SYM_TOO_LONG
  | ERROR_TOO_MANY_DEF_IN_MODULE
  | ERROR_TOO_MANY_USE_IN_MODULE
  | ERROR_TOO_MANY_INSTR
  deriving DecidableEq, Repr

/-! ## namespace base: tokens and validators -/

/-- The class `base::Token` without its mutable `err_` cell, which the validators
below return instead. -/
structure Token where
  line_num : Int
  position : Int
  token : String
  deriving DecidableEq, Repr

/-- Result of one `ReadAs...` call: the returned `bool`, the content of the
out-parameter after the call, and the content of the token's `err_` cell after the
call (the cell holds `ERROR_OK` before). -/
structure ReadResult (α : Type) where
  ok : Bool
  val : α
  err : SyntaxError
  deriving DecidableEq, Repr

/-- The C locale's `isspace`, which `strtol` uses to skip leading blanks. -/
def isspace (c : Char) : Bool :=
  c = ' ' || c = Char.ofNat 9 || c = Char.ofNat 10 || c = Char.ofNat 11 ||
    c = Char.ofNat 12 || c = Char.ofNat 13

/-- Leading run of decimal digits: accumulated value and number of digits read. -/
def readDigits : List Char → Nat → Nat → Nat × Nat
  | [], acc, n => (acc, n)
  | c :: cs, acc, n =>
    if c.isDigit then readDigits cs (acc * 10 + (c.toNat - 48)) (n + 1) else (acc, n)

/-- The call `std::stoi(s, &sz)`: `none` when it throws (no digits, or a value outside
the range of `int`), else the value and the number `sz` of characters consumed
(blanks, an optional sign, the digits). -/
def stoi (s : String) : Option (Int × Nat) :=
  let ws := s.data.takeWhile isspace
  let r1 := s.data.dropWhile isspace
  let neg : Bool := match r1 with
    | c :: _ => c = '-'
    | [] => false
  let sgn : Nat := match r1 with
    | c :: _ => if c = '-' ∨ c = '+' then 1 else 0
    | [] => 0
  let dr := readDigits (r1.drop sgn) 0 0
  if dr.2 = 0 then none
  else
    let v : Int := if neg then -(dr.1 : Int) else (dr.1 : Int)
    if v < -2147483648 ∨ 2147483647 < v then none
    else some (v, ws.length + sgn + dr.2)

/-- The function `base::TryParseInt`; the second component is `*result` after the call
(`result` is its content before).  The consumed characters are all one byte long, so
comparing `sz` with the number of characters is the comparison with `s.length()`. -/
def TryParseInt (s : String) (result : Int) : Bool × Int :=
  match stoi s with
  | none => (false, result)
  | some (v, sz) => (sz == s.data.length, v)

def Token.ReadAsInt (t : Token) (int_token : Int) : ReadResult Int :=
  let r := TryParseInt t.token int_token
  if r.1 then ⟨true, r.2, .ERROR_OK⟩ else ⟨false, r.2, .ERROR_NUM_EXPECTED⟩

/-- The test `std::regex_match(token_, std::regex("[a-zA-Z][a-zA-Z0-9]*"))`. -/
def matchesSymbolRegex (s : String) : Bool :=
  match s.data with
  | [] => false
  | c :: cs => c.isAlpha && cs.all Char.isAlphanum

def Token.ReadAsSymbol (t : Token) (str_token : String) : ReadResult String :=
  if t.token.utf8ByteSize > 16 then ⟨false, str_token, .ERROR_SYM_TOO_LONG⟩
  else if !matchesSymbolRegex t.token then ⟨false, str_token, .ERROR_SYM_EXPECTED⟩
  else ⟨true, t.token, .ERROR_OK⟩

def Token.ReadAsIAER (t : Token) (char_token : Char) : ReadResult Char :=
  if t.token.utf8ByteSize ≠ 1 then ⟨false, char_token, .ERROR_ADDR_EXPECTED⟩
  else
    let c := t.token.data.headD (Char.ofNat 0)
    if c ≠ 'I' ∧ c ≠ 'A' ∧ c ≠ 'E' ∧ c ≠ 'R' then ⟨false, char_token, .ERROR_ADDR_EXPECTED⟩
    else ⟨true, c, .ERROR_OK⟩

/-- What `base::ErrorMessageForToken` formats: the token's line and position and its
error kind (`ERROR_OK` stands for the empty message). -/
structure ErrorMessage where
  line_num : Int
  position : Int
  err : SyntaxError
  deriving DecidableEq, Repr

def ErrorMessageForToken (token : Token) (err : SyntaxError) : ErrorMessage :=
  ⟨token.line_num, token.position, err⟩

/-! ## Output records -/

/-- One record per line written to `cout`. -/
inductive Output where
  /-- Line `Warning: Module m: s too big r (max=k) assume zero relative` -/
  | rule5Warning (module : Int) (symbol : String) (relative_value : Int) (max : Int)
  /-- Line `Warning: Module m: s was defined but never used` -/
  | rule4Warning (module : Int) (symbol : String)
  /-- Line `Warning: Module m: s appeared in the uselist but was not actually used` -/
  | rule7Warning (module : Int) (symbol : String)
  /-- Line `Symbol Table` -/
  | symbolTableHeader
  /-- Line `name=value`, followed by a blank and the note when the note is not empty -/
  | symbolLine (name : String) (value : Int) (err : String)
  /-- An empty line -/
  | blankLine
  /-- Line `Memory Map` -/
  | memoryMapHeader
  /-- Line `iii: vvvv`, followed by a blank and the diagnostic when it is not empty -/
  | mapLine (instruction_index : Int) (instruction : Int) (err : String)
  /-- The text of a caught `runtime_error`, printed by `main` -/
  | parseError (msg : ErrorMessage)
  deriving DecidableEq, Repr

/-! ## namespace tokenizer: symbol table -/

structure SymbolData where
  err : String
  value : Int
  module : Int
  used : Bool
  sorting_index : Int
  deriving DecidableEq, Repr

/-- The order `operator<` of `std::string`: lexicographic on the characters. -/
def keyLt : List Char → List Char → Bool
  | _, [] => false
  | [], _ :: _ => true
  | a :: as, b :: bs =>
    if a.toNat < b.toNat then true
    else if b.toNat < a.toNat then false
    else keyLt as bs

/-- The member `symbol_value_`, a `std::map<std::string, SymbolData>`: entries in
ascending key order. -/
abbrev SymbolTable := List (String × SymbolData)

/-- The call `symbol_value_.find(symbol)`, `none` standing for `end()`. -/
def SymbolTable.find : SymbolTable → String → Option SymbolData
  | [], _ => none
  | (k, d) :: rest, s => if k = s then some d else SymbolTable.find rest s

/-- The call `symbol_value_.insert`: the new entry goes before the first greater key,
and a map that already holds the key is left as it is. -/
def SymbolTable.insert : SymbolTable → String → SymbolData → SymbolTable
  | [], s, d => [(s, d)]
  | (k, e) :: rest, s, d =>
    if k = s then (k, e) :: rest
    else if keyLt s.data k.data then (s, d) :: (k, e) :: rest
    else (k, e) :: SymbolTable.insert rest s d

/-- A write through `symbol_value_[symbol]->` or `symbol_value_.at(symbol)->` for a key
that is present. -/
def SymbolTable.modify : SymbolTable → String → (SymbolData → SymbolData) → SymbolTable
  | [], _, _ => []
  | (k, d) :: rest, s, f =>
    if k = s then (k, f d) :: rest else (k, d) :: SymbolTable.modify rest s f

def multiplyDefinedNote : String :=
  "Error: This variable is multiple times defined; first value used"

def SymbolTable.AddSymbol (T : SymbolTable) (symbol : String) (value : Int) (module : Int) :
    SymbolTable :=
  if (T.find symbol).isSome then
    T.modify symbol (fun d => { d with err := multiplyDefinedNote })
  else
    T.insert symbol
      { err := "", value := value, module := module, used := false,
        sorting_index := (T.length : Int) }

/-- The loop of `SymbolTable::VerifySymbol` over the map. -/
def SymbolTable.VerifySymbolLoop (last_module last_module_size last_module_index : Int) :
    SymbolTable → SymbolTable × List Output
  | [] => ([], [])
  | (k, d) :: rest =>
    let r := SymbolTable.VerifySymbolLoop last_module last_module_size last_module_index rest
    if d.module ≠ last_module then ((k, d) :: r.1, r.2)
    else
      let relative_value := wrap32 (d.value - last_module_index)
      if relative_value ≥ last_module_size then
        ((k, { d with value := last_module_index }) :: r.1,
          Output.rule5Warning last_module k relative_value (wrap32 (last_module_size - 1))
            :: r.2)
      else ((k, d) :: r.1, r.2)

def SymbolTable.VerifySymbol (T : SymbolTable)
    (last_module last_module_size curr_module_index : Int) : SymbolTable × List Output :=
  let last_module_index := wrap32 (curr_module_index - last_module_size)
  SymbolTable.VerifySymbolLoop last_module last_module_size last_module_index T

def SymbolTable.VerifySymbolUsed : SymbolTable → List Output
  | [] => []
  | (k, d) :: rest =>
    if !d.used then Output.rule4Warning d.module k :: SymbolTable.VerifySymbolUsed rest
    else SymbolTable.VerifySymbolUsed rest

/-- The comparison `PairComparer`. -/
def PairComparer (a b : String × Int) : Bool := decide (a.2 < b.2)

/-- The call `sort(ordered_symbols.begin(), ordered_symbols.end(), PairComparer)`: the
result holds the same pairs and no pair stands before one that `PairComparer` puts
before it.  `std::sort` leaves the order of equivalent elements open; the sorting
indices of a symbol table are pairwise different, so every sort gives this result. -/
def sortPairs (l : List (String × Int)) : List (String × Int) :=
  l.insertionSort (fun a b => PairComparer b a = false)

/-- The lines that the second loop of `SymbolTable::Print` writes; an entry absent
from the map (`at` throws) does not occur, the names being those of the map. -/
def SymbolTable.PrintLines (T : SymbolTable) : List (String × Int) → List Output
  | [] => []
  | symbol :: rest =>
    match T.find symbol.1 with
    | some symbol_data =>
      Output.symbolLine symbol.1 symbol_data.value symbol_data.err ::
        SymbolTable.PrintLines T rest
    | none => SymbolTable.PrintLines T rest

def SymbolTable.Print (T : SymbolTable) : List Output :=
  let ordered_symbols := sortPairs (T.map fun kv => (kv.1, kv.2.sorting_index))
  [Output.symbolTableHeader] ++ SymbolTable.PrintLines T ordered_symbols ++ [Output.blankLine]

/-- The method `SymbolTable::Value`: the returned `int` and the table afterwards (the
`used` flag is written through the `const` map). -/
def SymbolTable.Value (T : SymbolTable) (symbol : String) (mark_use : Bool) :
    Int × SymbolTable :=
  match T.find symbol with
  | none => (-1, T)
  | some d =>
    let T1 := if mark_use then T.modify symbol (fun e => { e with used := true }) else T
    (d.value, T1)

/-! ## namespace tokenizer: use list -/

structure UseData where
  symbol : String
  used : Bool
  deriving DecidableEq, Repr

/-- The member `use_list_`, a `std::map<int, UseData>`: entries in ascending key
order. -/
abbrev UseList := List (Int × UseData)

/-- The call `use_list_.find(index)`, `none` standing for `end()`. -/
def UseList.find : UseList → Int → Option UseData
  | [], _ => none
  | (k, d) :: rest, i => if k = i then some d else UseList.find rest i

/-- The call `use_list_.insert` of `UseList::AddSymbol`. -/
def UseList.AddSymbol : UseList → String → Int → UseList
  | [], symbol, index => [(index, { symbol := symbol, used := false })]
  | (k, e) :: rest, symbol, index =>
    if k = index then (k, e) :: rest
    else if index < k then (index, { symbol := symbol, used := false }) :: (k, e) :: rest
    else (k, e) :: UseList.AddSymbol rest symbol index

def UseList.Reset (_U : UseList) : UseList := []

def UseList.Has (U : UseList) (index : Int) : Bool := (U.find index).isSome

def UseList.UnusedSymbols : UseList → List String
  | [] => []
  | (_, d) :: rest =>
    if !d.used then d.symbol :: UseList.UnusedSymbols rest else UseList.UnusedSymbols rest

/-- The call `use_list_.at(index)`; `none` stands for the exception of `at`. -/
def UseList.Get (U : UseList) (index : Int) : Option UseData := U.find index

/-- The write `extern_symbol->used(true)` through the reference that `Get` returned. -/
def UseList.markUsed : UseList → Int → UseList
  | [], _ => []
  | (k, d) :: rest, i =>
    if k = i then (k, { d with used := true }) :: rest else (k, d) :: UseList.markUsed rest i

/-! ## namespace tokenizer: the grammar state machine -/

inductive ParsingState where
  | STATE_MODULE_START
  | STATE_READ_DEFINITION_SYMBOL
  | STATE_READ_DEFINITION_VALUE
  | STATE_USE_LIST_START
  | STATE_USE_LIST_READ
  | STATE_INSTRUCTION_LIST_START
  | STATE_INSTRUCTION_TYPE_READ
  | STATE_INSTRUCTION_CODE_READ
  | STATE_SYNTAX_ERROR
  | STATE_TERMINATED
  deriving DecidableEq, Repr

structure ParsingContext where
  module_index : Int
  module_count : Int
  last_symbol : String
  last_instruction : Char
  definition_read : Int
  definition_count : Int
  use_list_read : Int
  use_list_count : Int
  instruction_count : Int
  instruction_read : Int
  last_module_instruction_count : Int
  current_state : ParsingState
  next_state : ParsingState
  index : Int
  position : Int
  deriving DecidableEq, Repr

/-- The constructor `ParsingContext()`.  It leaves `last_instruction_` without a value;
the member is written at every module start before it is read, and stands here as the
NUL character. -/
def ParsingContext.init : ParsingContext :=
  { module_index := 0, module_count := 0, last_symbol := "", last_instruction := Char.ofNat 0,
    definition_read := 0, definition_count := 0, use_list_read := 0, use_list_count := 0,
    instruction_count := 0, instruction_read := 0, last_module_instruction_count := 0,
    current_state := .STATE_MODULE_START, next_state := .STATE_MODULE_START,
    index := 1, position := 1 }

def ParsingContext.instruction_index (ctx : ParsingContext) : Int := ctx.instruction_read - 1

def ParsingContext.use_list_index (ctx : ParsingContext) : Int := ctx.use_list_read - 1

def ParsingContext.AdvanceState (ctx : ParsingContext) : ParsingContext :=
  { ctx with current_state := ctx.next_state }

/-- The assignments that `HandleEnd` and `HandleModuleStart` share, from
`module_count_++` to the second `last_symbol_ = ""`. -/
def ParsingContext.startModule (ctx : ParsingContext) : ParsingContext :=
  { ctx with
    module_count := ctx.module_count + 1
    module_index := wrap32 (ctx.module_index + ctx.instruction_count)
    last_symbol := ""
    last_instruction := Char.ofNat 0
    definition_read := 0
    use_list_read := 0
    use_list_count := 0
    last_module_instruction_count := ctx.instruction_count
    instruction_count := 0
    instruction_read := 0 }

def ParsingContext.HandleEnd (ctx : ParsingContext) : ParsingContext :=
  if ctx.current_state ≠ .STATE_MODULE_START then
    { ctx with next_state := ctx.current_state }
  else
    { ctx.startModule with next_state := .STATE_TERMINATED }

/-- Every handler returns the context afterwards and the token's `err_` cell
afterwards. -/
def ParsingContext.HandleModuleStart (ctx : ParsingContext) (token : Token) :
    ParsingContext × SyntaxError :=
  let r := token.ReadAsInt ctx.definition_count
  let ctx1 := { ctx with definition_count := r.val }
  if !r.ok then ({ ctx1 with next_state := .STATE_SYNTAX_ERROR }, r.err)
  else if ctx1.definition_count > kMaxDefinitionListSize then
    ({ ctx1 with next_state := .STATE_SYNTAX_ERROR }, .ERROR_TOO_MANY_DEF_IN_MODULE)
  else if ctx1.definition_count ≠ 0 then
    ({ ctx1.startModule with next_state := .STATE_READ_DEFINITION_SYMBOL }, r.err)
  else
    ({ ctx1.startModule with next_state := .STATE_USE_LIST_START }, r.err)

def ParsingContext.HandleReadDefinitionSymbol (ctx : ParsingContext) (token : Token) :
    ParsingContext × SyntaxError :=
  let r := token.ReadAsSymbol ctx.last_symbol
  let ctx1 := { ctx with last_symbol := r.val }
  if !r.ok then ({ ctx1 with next_state := .STATE_SYNTAX_ERROR }, r.err)
  else ({ ctx1 with next_state := .STATE_READ_DEFINITION_VALUE }, r.err)

/-- The local `int value` starts without a value and stands here as `0`; it is read
nowhere. -/
def ParsingContext.HandleReadDefinitionValue (ctx : ParsingContext) (token : Token) :
    ParsingContext × SyntaxError :=
  let r := token.ReadAsInt 0
  if !r.ok then ({ ctx with next_state := .STATE_SYNTAX_ERROR }, r.err)
  else
    let ctx1 := { ctx with definition_read := ctx.definition_read + 1 }
    if ctx1.definition_read = ctx1.definition_count then
      ({ ctx1 with next_state := .STATE_USE_LIST_START }, r.err)
    else ({ ctx1 with next_state := .STATE_READ_DEFINITION_SYMBOL }, r.err)

def ParsingContext.HandleUseListStart (ctx : ParsingContext) (token : Token) :
    ParsingContext × SyntaxError :=
  let r := token.ReadAsInt ctx.use_list_count
  let ctx1 := { ctx with use_list_count := r.val }
  if !r.ok then ({ ctx1 with next_state := .STATE_SYNTAX_ERROR }, r.err)
  else if ctx1.use_list_count > kMaxUseListSize then
    ({ ctx1 with next_state := .STATE_SYNTAX_ERROR }, .ERROR_TOO_MANY_USE_IN_MODULE)
  else if ctx1.use_list_count = 0 then
    ({ ctx1 with next_state := .STATE_INSTRUCTION_LIST_START }, r.err)
  else ({ ctx1 with next_state := .STATE_USE_LIST_READ }, r.err)

def ParsingContext.HandleUseListRead (ctx : ParsingContext) (token : Token) :
    ParsingContext × SyntaxError :=
  let r := token.ReadAsSymbol ""
  if !r.ok then ({ ctx with next_state := .STATE_SYNTAX_ERROR }, r.err)
  else
    let ctx1 := { ctx with use_list_read := ctx.use_list_read + 1 }
    if ctx1.use_list_read = ctx1.use_list_count then
      ({ ctx1 with next_state := .STATE_INSTRUCTION_LIST_START }, r.err)
    else ({ ctx1 with next_state := .STATE_USE_LIST_READ }, r.err)

def ParsingContext.HandleInstructionListStart (ctx : ParsingContext) (token : Token) :
    ParsingContext × SyntaxError :=
  let r := token.ReadAsInt ctx.instruction_count
  let ctx1 := { ctx with instruction_count := r.val }
  if !r.ok then ({ ctx1 with next_state := .STATE_SYNTAX_ERROR }, r.err)
  else if wrap32 (ctx1.instruction_count + ctx1.module_index) > kMaxUseInstructionsSize then
    ({ ctx1 with next_state := .STATE_SYNTAX_ERROR }, .ERROR_TOO_MANY_INSTR)
  else if ctx1.instruction_count ≠ 0 then
    ({ ctx1 with next_state := .STATE_INSTRUCTION_TYPE_READ }, r.err)
  else ({ ctx1 with next_state := .STATE_MODULE_START }, r.err)

def ParsingContext.HandleInstructionTypeRead (ctx : ParsingContext) (token : Token) :
    ParsingContext × SyntaxError :=
  let r := token.ReadAsIAER ctx.last_instruction
  let ctx1 := { ctx with last_instruction := r.val }
  if !r.ok then ({ ctx1 with next_state := .STATE_SYNTAX_ERROR }, r.err)
  else ({ ctx1 with next_state := .STATE_INSTRUCTION_CODE_READ }, r.err)

/-- The local `int code` starts without a value and stands here as `0`; it is read
nowhere. -/
def ParsingContext.HandleInstructionCodeRead (ctx : ParsingContext) (token : Token) :
    ParsingContext × SyntaxError :=
  let r := token.ReadAsInt 0
  if !r.ok then ({ ctx with next_state := .STATE_SYNTAX_ERROR }, r.err)
  else
    let ctx1 := { ctx with instruction_read := ctx.instruction_read + 1 }
    if ctx1.instruction_read = ctx1.instruction_count then
      ({ ctx1 with next_state := .STATE_MODULE_START }, r.err)
    else ({ ctx1 with next_state := .STATE_INSTRUCTION_TYPE_READ }, r.err)

def ParsingContext.ProcessState (ctx : ParsingContext) (token : Token) :
    ParsingContext × SyntaxError :=
  match ctx.current_state with
  | .STATE_MODULE_START => ctx.HandleModuleStart token
  | .STATE_READ_DEFINITION_SYMBOL => ctx.HandleReadDefinitionSymbol token
  | .STATE_READ_DEFINITION_VALUE => ctx.HandleReadDefinitionValue token
  | .STATE_USE_LIST_START => ctx.HandleUseListStart token
  | .STATE_USE_LIST_READ => ctx.HandleUseListRead token
  | .STATE_INSTRUCTION_LIST_START => ctx.HandleInstructionListStart token
  | .STATE_INSTRUCTION_TYPE_READ => ctx.HandleInstructionTypeRead token
  | .STATE_INSTRUCTION_CODE_READ => ctx.HandleInstructionCodeRead token
  | .STATE_SYNTAX_ERROR => (ctx, .ERROR_OK)
  | .STATE_TERMINATED => (ctx, .ERROR_OK)

/-! ## namespace linker: the two pass strategies -/

def SymbolTableGenerator.HandleModuleChange (context : ParsingContext)
    (symbol_table : SymbolTable) : SymbolTable × List Output :=
  let module_size := context.last_module_instruction_count
  let last_module_number := context.module_count - 1
  if last_module_number < 0 then (symbol_table, [])
  else symbol_table.VerifySymbol last_module_number module_size context.module_index

/-- Pass 1.  The local `int value` starts without a value and stands here as `0`; the
read succeeds, the grammar having accepted the token. -/
def SymbolTableGenerator.ProcessToken (token : Token) (context : ParsingContext)
    (symbol_table : SymbolTable) : SymbolTable × List Output :=
  let st1 :=
    if context.current_state = .STATE_READ_DEFINITION_VALUE then
      let value := (token.ReadAsInt 0).val
      let absolute_value := wrap32 (value + context.module_index)
      symbol_table.AddSymbol context.last_symbol absolute_value context.module_count
    else symbol_table
  if context.current_state = .STATE_MODULE_START then
    SymbolTableGenerator.HandleModuleChange context st1
  else (st1, [])

def SymbolTableGenerator.Stop (context : ParsingContext) (symbol_table : SymbolTable) :
    SymbolTable × List Output :=
  SymbolTableGenerator.HandleModuleChange context symbol_table

def InstructionGenerator.HandleModuleChange (context : ParsingContext) (use_list : UseList) :
    UseList × List Output :=
  (use_list.Reset,
    use_list.UnusedSymbols.map fun unused_symbol =>
      Output.rule7Warning (context.module_count - 1) unused_symbol)

/-- What `InstructionGenerator::ProcessToken` computes for one instruction between
reading it and printing it. -/
structure Translated where
  instruction : Int
  err : String
  symbol_table : SymbolTable
  use_list : UseList
  deriving DecidableEq, Repr

/-- The `if (op_code >= kMaxOpCode && ...) ... else switch (instruction_type)` part of
`InstructionGenerator::ProcessToken`. -/
def InstructionGenerator.Translate (instruction_type : Char) (instruction : Int)
    (context : ParsingContext) (symbol_table : SymbolTable) (use_list : UseList) :
    Translated :=
  let op_code := instruction.tdiv kMaxOperand
  let operand := instruction.tmod kMaxOperand
  if op_code ≥ kMaxOpCode ∧ instruction_type ≠ 'I' then
    ⟨kInvalidInstructionCodeOverflow, "Error: Illegal opcode; treated as 9999",
      symbol_table, use_list⟩
  else if instruction_type = 'A' then
    if operand ≥ kMemorySize then
      ⟨wrap32 (kMaxOperand * op_code + kInvalidInstructionCodeUnderflow),
        "Error: Absolute address exceeds machine size; zero used", symbol_table, use_list⟩
    else ⟨instruction, "", symbol_table, use_list⟩
  else if instruction_type = 'I' then
    if instruction > kInvalidInstructionCodeOverflow then
      ⟨kInvalidInstructionCodeOverflow, "Error: Illegal immediate value; treated as 9999",
        symbol_table, use_list⟩
    else ⟨instruction, "", symbol_table, use_list⟩
  else if instruction_type = 'R' then
    if operand ≥ context.instruction_count then
      ⟨wrap32 (kMaxOperand * op_code +
          wrap32 (kInvalidInstructionCodeUnderflow + context.module_index)),
        "Error: Relative address exceeds module size; zero used", symbol_table, use_list⟩
    else
      ⟨wrap32 (kMaxOperand * op_code + wrap32 (operand + context.module_index)), "",
        symbol_table, use_list⟩
  else if instruction_type = 'E' then
    if !use_list.Has operand then
      ⟨instruction, "Error: External address exceeds length of uselist; treated as immediate",
        symbol_table, use_list⟩
    else
      match use_list.Get operand with
      | none => ⟨instruction, "", symbol_table, use_list⟩
      | some extern_symbol =>
        let v := symbol_table.Value extern_symbol.symbol true
        if v.1 = -1 then
          ⟨wrap32 (kMaxOperand * op_code + kInvalidInstructionCodeUnderflow),
            "Error: " ++ extern_symbol.symbol ++ " is not defined; zero used",
            v.2, use_list.markUsed operand⟩
        else
          ⟨wrap32 (kMaxOperand * op_code + v.1), "", v.2, use_list.markUsed operand⟩
  else ⟨instruction, "", symbol_table, use_list⟩

/-- Pass 2.  The local `int instruction` starts without a value and stands here as `0`;
the read succeeds, the grammar having accepted the token. -/
def InstructionGenerator.ProcessToken (token : Token) (context : ParsingContext)
    (symbol_table : SymbolTable) (use_list : UseList) :
    SymbolTable × UseList × List Output :=
  let mc :=
    if context.current_state = .STATE_MODULE_START then
      InstructionGenerator.HandleModuleChange context use_list
    else (use_list, [])
  let ul2 :=
    if context.current_state = .STATE_USE_LIST_READ then
      mc.1.AddSymbol (token.ReadAsSymbol "").val context.use_list_index
    else mc.1
  if context.current_state = .STATE_INSTRUCTION_CODE_READ then
    let instruction_type := context.last_instruction
    let instruction := (token.ReadAsInt 0).val
    let tr := InstructionGenerator.Translate instruction_type instruction context
      symbol_table ul2
    let instruction_index := wrap32 (context.module_index + context.instruction_index)
    (tr.symbol_table, tr.use_list,
      mc.2 ++ [Output.mapLine instruction_index tr.instruction tr.err])
  else (symbol_table, ul2, mc.2)

def InstructionGenerator.Stop (context : ParsingContext) (symbol_table : SymbolTable)
    (use_list : UseList) : SymbolTable × UseList × List Output :=
  let mc := InstructionGenerator.HandleModuleChange context use_list
  (symbol_table, mc.1, mc.2 ++ symbol_table.VerifySymbolUsed)

/-- The two implementations of the interface `TokenProcessor` that `main` plugs in. -/
inductive TokenProcessor where
  | SymbolTableGenerator
  | InstructionGenerator
  deriving DecidableEq, Repr

def TokenProcessor.ProcessToken (p : TokenProcessor) (token : Token)
    (context : ParsingContext) (symbol_table : SymbolTable) (use_list : UseList) :
    SymbolTable × UseList × List Output :=
  match p with
  | .SymbolTableGenerator =>
    let r := SymbolTableGenerator.ProcessToken token context symbol_table
    (r.1, use_list, r.2)
  | .InstructionGenerator =>
    InstructionGenerator.ProcessToken token context symbol_table use_list

def TokenProcessor.Stop (p : TokenProcessor) (context : ParsingContext)
    (symbol_table : SymbolTable) (use_list : UseList) :
    SymbolTable × UseList × List Output :=
  match p with
  | .SymbolTableGenerator =>
    let r := SymbolTableGenerator.Stop context symbol_table
    (r.1, use_list, r.2)
  | .InstructionGenerator => InstructionGenerator.Stop context symbol_table use_list

/-! ## namespace tokenizer: the driver -/

/-- The class `Tokenizer`, with the part of `cout` written so far. -/
structure Tokenizer where
  token_processor : TokenProcessor
  context : ParsingContext
  symbol_table : SymbolTable
  use_list : UseList
  cout : List Output
  deriving DecidableEq, Repr

/-- The constructor `Tokenizer(filename, processor, symbol_table)`. -/
def Tokenizer.create (processor : TokenProcessor) (symbol_table : SymbolTable)
    (cout : List Output) : Tokenizer :=
  { token_processor := processor, context := ParsingContext.init,
    symbol_table := symbol_table, use_list := [], cout := cout }

/-- A thrown `runtime_error`: the tokenizer at the throw and the message. -/
abbrev Thrown := Tokenizer × ErrorMessage

/-- The body of the `while` loop of `Tokenizer::TokenizeLine` for one token. -/
def Tokenizer.ProcessOne (tk : Tokenizer) (t : Token) : Except Thrown Tokenizer :=
  let r := tk.context.ProcessState t
  let after : ParsingContext :=
    { r.1 with position := t.position + (t.token.utf8ByteSize : Int) }.AdvanceState
  if r.1.next_state = .STATE_SYNTAX_ERROR then
    .error ({ tk with context := after }, ErrorMessageForToken t r.2)
  else
    let pr := tk.token_processor.ProcessToken t r.1 tk.symbol_table tk.use_list
    .ok { tk with context := after, symbol_table := pr.1, use_list := pr.2.1,
                  cout := tk.cout ++ pr.2.2 }

/-- The `while` loop of `Tokenizer::TokenizeLine` over the tokens that `strtok` finds. -/
def Tokenizer.TokenizeTokens : Tokenizer → List Token → Except Thrown Tokenizer
  | tk, [] => .ok tk
  | tk, t :: ts =>
    match tk.ProcessOne t with
    | .error e => .error e
    | .ok tk1 => Tokenizer.TokenizeTokens tk1 ts

/-- The words that successive `strtok(..., kDelimiters)` calls find in a line, each with
its byte offset; `cur` is the word being read and where it starts. -/
def strtokWords : List Char → Nat → Option (Nat × List Char) → List (Nat × String)
  | [], _, none => []
  | [], _, some (start, acc) => [(start, String.mk acc.reverse)]
  | c :: cs, off, cur =>
    if isDelimiter c then
      match cur with
      | none => strtokWords cs (off + c.utf8Size) none
      | some (start, acc) =>
        (start, String.mk acc.reverse) :: strtokWords cs (off + c.utf8Size) none
    else
      match cur with
      | none => strtokWords cs (off + c.utf8Size) (some (off, [c]))
      | some (start, acc) => strtokWords cs (off + c.utf8Size) (some (start, c :: acc))

/-- The tokens of one line: `strcpy` copies the line up to its first NUL character, and
`token_start` is the byte offset of the word plus one. -/
def lineTokens (line_num : Int) (line : String) : List Token :=
  (strtokWords (line.data.takeWhile fun c => c ≠ Char.ofNat 0) 0 none).map fun w =>
    { line_num := line_num, position := (w.1 : Int) + 1, token := w.2 }

def Tokenizer.setPosition (tk : Tokenizer) (position : Int) : Tokenizer :=
  { tk with context := { tk.context with position := position } }

def Tokenizer.setIndex (tk : Tokenizer) (index : Int) : Tokenizer :=
  { tk with context := { tk.context with index := index } }

def Tokenizer.TokenizeLine (tk : Tokenizer) (line : String) : Except Thrown Tokenizer :=
  match (tk.setPosition 1).TokenizeTokens (lineTokens tk.context.index line) with
  | .error e => .error e
  | .ok tk1 => .ok (tk1.setPosition (1 + (line.utf8ByteSize : Int)))

/-- The `while (getline(stream_, line))` loop of `Tokenizer::TokenizeFile`. -/
def Tokenizer.TokenizeLines : Tokenizer → List String → Except Thrown Tokenizer
  | tk, [] => .ok tk
  | tk, line :: rest =>
    match tk.TokenizeLine line with
    | .error e => .error e
    | .ok tk1 => Tokenizer.TokenizeLines (tk1.setIndex (tk1.context.index + 1)) rest

/-- The part of `Tokenizer::TokenizeFile` after the input is exhausted, from
`context_->HandleEnd()` on. -/
def Tokenizer.Finish (tk : Tokenizer) : Except Thrown Tokenizer :=
  let ctx := tk.context.HandleEnd
  if ctx.next_state ≠ .STATE_TERMINATED then
    let t : Token := { line_num := ctx.index, position := ctx.position, token := "" }
    let r := ctx.ProcessState t
    .error ({ tk with context := r.1 }, ErrorMessageForToken t r.2)
  else
    let pr := tk.token_processor.Stop ctx tk.symbol_table tk.use_list
    .ok { tk with context := ctx, symbol_table := pr.1, use_list := pr.2.1,
                  cout := tk.cout ++ pr.2.2 }

/-- The method `Tokenizer::TokenizeFile` on the lines that `getline` delivers; the
stream ends at end of file, so the line index is moved back by one. -/
def Tokenizer.TokenizeFile (tk : Tokenizer) (lines : List String) : Except Thrown Tokenizer :=
  match tk.TokenizeLines lines with
  | .error e => .error e
  | .ok tk1 => (tk1.setIndex (tk1.context.index - 1)).Finish

/-- One pass over a token sequence: the token loop, then the end-of-input part of
`TokenizeFile`. -/
def Tokenizer.run (tk : Tokenizer) (tokens : List Token) : Except Thrown Tokenizer :=
  match tk.TokenizeTokens tokens with
  | .error e => .error e
  | .ok tk1 => tk1.Finish

/-- The two passes of `main` after a reader `pass` of the input (`TokenizeFile` on the
file, or `run` on its tokens): everything written to `cout`, and the symbol table at
the end. -/
def linkWith (pass : Tokenizer → Except Thrown Tokenizer) : List Output × SymbolTable :=
  match pass (Tokenizer.create .SymbolTableGenerator [] []) with
  | .error e => (e.1.cout ++ [Output.parseError e.2], e.1.symbol_table)
  | .ok pass1 =>
    let cout1 := pass1.cout ++ pass1.symbol_table.Print ++ [Output.memoryMapHeader]
    match pass (Tokenizer.create .InstructionGenerator pass1.symbol_table cout1) with
    | .error e => (e.1.cout ++ [Output.parseError e.2], e.1.symbol_table)
    | .ok pass2 => (pass2.cout, pass2.symbol_table)

/-- The function `main` on the lines of the input file: what it writes to `cout`. -/
def main (lines : List String) : List Output :=
  (linkWith fun tk => tk.TokenizeFile lines).1

/-! ## Well-formed input

A program is a sequence of modules; a module is given by its tokens, grouped as the
grammar groups them. -/

/-- The token is an integer denoting `k`: `ReadAsInt` accepts it and delivers `k`. -/
def Token.isInt (t : Token) (k : Int) : Prop := t.ReadAsInt 0 = ⟨true, k, .ERROR_OK⟩

instance (t : Token) (k : Int) : Decidable (t.isInt k) := by
  unfold Token.isInt; infer_instance

/-- The token is a valid symbol: `ReadAsSymbol` accepts it. -/
def Token.isSymbol (t : Token) : Prop := (t.ReadAsSymbol "").ok = true

instance (t : Token) : Decidable t.isSymbol := by
  unfold Token.isSymbol; infer_instance

/-- The tokens of one module: the definition count and the (symbol, value) pairs, the
use count and the use symbols, the instruction count and the (tag, code) pairs. -/
structure ObjectModule where
  def_count : Token
  definitions : List (Token × Token)
  use_count : Token
  uses : List Token
  instr_count : Token
  instructions : List (Token × Token)
  deriving DecidableEq, Repr

def pairTokens (l : List (Token × Token)) : List Token :=
  l.flatMap fun p => [p.1, p.2]

def ObjectModule.tokens (m : ObjectModule) : List Token :=
  m.def_count :: pairTokens m.definitions ++ m.use_count :: m.uses ++
    m.instr_count :: pairTokens m.instructions

/-- The declared instruction count of the module. -/
def ObjectModule.size (m : ObjectModule) : Int := (m.instructions.length : Int)

/-- Every count token denotes the number of items that follow it, there are at most 16
definitions and at most 16 use symbols, and every item has the shape the grammar
expects. -/
def ObjectModule.WellFormed (m : ObjectModule) : Prop :=
  m.def_count.isInt (m.definitions.length : Int) ∧ m.definitions.length ≤ 16 ∧
  (∀ p ∈ m.definitions, p.1.isSymbol ∧ (p.2.ReadAsInt 0).ok = true) ∧
  m.use_count.isInt (m.uses.length : Int) ∧ m.uses.length ≤ 16 ∧
  (∀ u ∈ m.uses, u.isSymbol) ∧
  m.instr_count.isInt (m.instructions.length : Int) ∧
  (∀ p ∈ m.instructions, (p.1.ReadAsIAER (Char.ofNat 0)).ok = true ∧
    (p.2.ReadAsInt 0).ok = true)

instance (m : ObjectModule) : Decidable m.WellFormed := by
  unfold ObjectModule.WellFormed; infer_instance

def programTokens (prog : List ObjectModule) : List Token :=
  prog.flatMap ObjectModule.tokens

/-- The base address of the module that follows the modules `prog`: the sum of their
instruction counts. -/
def programSize (prog : List ObjectModule) : Int := (prog.map ObjectModule.size).sum

/-- A well-formed program: well-formed modules with at most 512 instructions in all. -/
def WellFormedProgram (prog : List ObjectModule) : Prop :=
  (∀ m ∈ prog, m.WellFormed) ∧ programSize prog ≤ 512

instance (prog : List ObjectModule) : Decidable (WellFormedProgram prog) := by
  unfold WellFormedProgram; infer_instance

/-- The context after the tokens went through `ProcessState` and `AdvanceState` one by
one, as in the loop of `TokenizeLine`. -/
def ParsingContext.feed : ParsingContext → List Token → ParsingContext
  | ctx, [] => ctx
  | ctx, t :: ts => ParsingContext.feed (ctx.ProcessState t).1.AdvanceState ts

/-- No `ProcessState` call on the way sets `next_state` to `STATE_SYNTAX_ERROR`. -/
def ParsingContext.neverSyntaxError : ParsingContext → List Token → Prop
  | _, [] => True
  | ctx, t :: ts =>
    (ctx.ProcessState t).1.next_state ≠ .STATE_SYNTAX_ERROR ∧
      ParsingContext.neverSyntaxError (ctx.ProcessState t).1.AdvanceState ts

/-! ## Auxiliary definitions used in the proofs -/

/-- What `VerifySymbol` does to one entry. -/
def verifyEntry (last_module last_module_size last_module_index : Int) (d : SymbolData) :
    SymbolData :=
  if d.module ≠ last_module then d
  else if wrap32 (d.value - last_module_index) ≥ last_module_size then
    { d with value := last_module_index }
  else d

/-- A sequence of `AddSymbol` calls (symbol, value, module) on the empty table. -/
def addAll (calls : List (String × Int × Int)) : SymbolTable :=
  calls.foldl (fun T c => T.AddSymbol c.1 c.2.1 c.2.2) []

/-- The distinct names of a list, in the order of their first occurrences. -/
def firstNames (names : List String) : List String :=
  names.foldl (fun acc s => if s ∈ acc then acc else acc ++ [s]) []

/-- The value given in the first call for the symbol. -/
def firstValue (calls : List (String × Int × Int)) (s : String) : Int :=
  match calls.find? (fun c => c.1 = s) with
  | some c => c.2.1
  | none => 0

/-- The note of a symbol: the multiple-definition message when there is more than one
call for it. -/
def noteOf (calls : List (String × Int × Int)) (s : String) : String :=
  if 1 < (calls.map fun c => c.1).count s then multiplyDefinedNote else ""

/-- The names paired with consecutive numbers from `n` on. -/
def indexedFrom : Int → List String → List (String × Int)
  | _, [] => []
  | n, s :: rest => (s, n) :: indexedFrom (n + 1) rest

/-- The symbol table after pass 1 read the definition list `defs` of the module with
number `module` and base address `base`. -/
def pass1Defs (T : SymbolTable) (base module : Int) (defs : List (Token × Token)) :
    SymbolTable :=
  defs.foldl
    (fun T p => T.AddSymbol p.1.token (wrap32 ((p.2.ReadAsInt 0).val + base)) module) T

/-- The symbol table and the output of pass 1 over the modules `prog`, started at a
module boundary with table `T`, output `out`, module count `mc`, module index `mi` and
instruction count `ic` of the module before: at every boundary (the first token of a
module, or the end of the input) Rule 5 is checked for the module before, then the
definitions of the module are added. -/
def pass1Final : List ObjectModule → SymbolTable → List Output → Int → Int → Int →
    SymbolTable × List Output
  | [], T, out, mc, mi, ic =>
    ((T.VerifySymbol mc ic (mi + ic)).1, out ++ (T.VerifySymbol mc ic (mi + ic)).2)
  | m :: rest, T, out, mc, mi, ic =>
    pass1Final rest
      (pass1Defs (T.VerifySymbol mc ic (mi + ic)).1 (mi + ic) (mc + 1) m.definitions)
      (out ++ (T.VerifySymbol mc ic (mi + ic)).2) (mc + 1) (mi + ic) m.size

/-! ## Concrete inputs used in the examples -/

/-- A token with the given text (at line 1, column 1). -/
def tok (text : String) : Token := { line_num := 1, position := 1, token := text }

/-- A context in state `STATE_INSTRUCTION_CODE_READ`, as pass 2 sees it for the first
instruction of the second module of a program: the tag read is `mode`, the module has
base address `module_index` and declares `instruction_count` instructions. -/
def codeReadContext (mode : Char) (module_index instruction_count : Int) : ParsingContext :=
  { ParsingContext.init with
    module_index := module_index, module_count := 2, last_instruction := mode,
    instruction_count := instruction_count, instruction_read := 1,
    current_state := .STATE_INSTRUCTION_CODE_READ, next_state := .STATE_MODULE_START }

/-- The module `0  1 X  1 E 1000`: no definition, use list `X`, one instruction. -/
def moduleUsingX : ObjectModule :=
  { def_count := tok "0", definitions := [], use_count := tok "1", uses := [tok "X"],
    instr_count := tok "1", instructions := [(tok "E", tok "1000")] }

/-- The module `1 X 5  0  0`: it defines `X` with relative value 5 and has no
instruction. -/
def moduleDefiningX : ObjectModule :=
  { def_count := tok "1", definitions := [(tok "X", tok "5")], use_count := tok "0",
    uses := [], instr_count := tok "0", instructions := [] }

/-- The module `1 Y 1  0  2 I 7 A 8`: it defines `Y` with relative value 1 and has two
instructions. -/
def moduleDefiningY : ObjectModule :=
  { def_count := tok "1", definitions := [(tok "Y", tok "1")], use_count := tok "0",
    uses := [], instr_count := tok "2",
    instructions := [(tok "I", tok "7"), (tok "A", tok "8")] }

/-- A table that holds `X` with value 5, and a use list whose entry 0 names `X`. -/
def tableWithX : SymbolTable :=
  [("X", { err := "", value := 5, module := 1, used := false, sorting_index := 0 })]

def useListWithX : UseList := [(0, { symbol := "X", used := false })]

/-! ## Further definitions: pass 2, and what the statements speak of -/

/-- An ASCII letter, `A`..`Z` or `a`..`z`. -/
def isAsciiLetter (c : Char) : Prop :=
  (65 ≤ c.toNat ∧ c.toNat ≤ 90) ∨ (97 ≤ c.toNat ∧ c.toNat ≤ 122)

/-- An ASCII digit, `0`..`9`. -/
def isAsciiDigit (c : Char) : Prop := 48 ≤ c.toNat ∧ c.toNat ≤ 57

/-- The use list that pass 2 builds from use-list tokens: the token read when
`use_list_read` is `j` goes to index `j` (see `pass2_uses_loop`). -/
def pass2Uses : List Token → UseList → Int → UseList
  | [], ul, _ => ul
  | u :: rest, ul, j =>
    pass2Uses rest (ul.AddSymbol (u.ReadAsSymbol "").val (j + 1 - 1)) (j + 1)

/-- A table in which `X` is defined with the value -1. -/
def tableWithMinusOne : SymbolTable :=
  [("X", { err := "", value := -1, module := 1, used := false, sorting_index := 0 })]

/-- A context in state `STATE_INSTRUCTION_LIST_START` of the second module of a
program whose first module has one instruction. -/
def instrListStartContext : ParsingContext :=
  { ParsingContext.init with
    module_index := 1, module_count := 2, last_module_instruction_count := 1,
    current_state := .STATE_INSTRUCTION_LIST_START,
    next_state := .STATE_INSTRUCTION_LIST_START }

/-- The record is a Rule 5 warning. -/
def Output.isRule5Warning : Output → Bool
  | .rule5Warning _ _ _ _ => true
  | _ => false

/-- A tokenizer of pass 1 that has written nothing but Rule 5 warnings. -/
def Tokenizer.onlyRule5 (tk : Tokenizer) : Prop :=
  tk.token_processor = .SymbolTableGenerator ∧ ∀ o ∈ tk.cout, o.isRule5Warning = true

/-- The tokenizer that a step returns or throws is one of pass 1 that has written
nothing but Rule 5 warnings. -/
def resultOnlyRule5 : Except Thrown Tokenizer → Prop
  | .ok tk => tk.onlyRule5
  | .error e => e.1.onlyRule5

/-- What pass 1 throws on the input `1 X 3 0 1` / `I 3 2`, whose second module is cut
off after its definition count. -/
def thrownMidModule : Thrown :=
  match (Tokenizer.create .SymbolTableGenerator [] []).TokenizeFile ["1 X 3 0 1", "I 3 2"] with
  | .error e => e
  | .ok tk => (tk, { line_num := 0, position := 0, err := .ERROR_OK })

/-- A state of the use-list loop that was entered with a negative use count: the loop
can no longer end, since `use_list_read` never meets the count. -/
def ParsingContext.doomedUseList (ctx : ParsingContext) : Prop :=
  ctx.current_state = .STATE_USE_LIST_READ ∧ ctx.use_list_count < 0 ∧ 0 ≤ ctx.use_list_read

/-- Invariant of the state machine on the use-list counters: `use_list_read` is 0
before the use list of a module is read, and stays below a count of at most 16 while
the list is read, unless the loop was entered with a negative count. -/
def ParsingContext.useCountOK (ctx : ParsingContext) : Prop :=
  ctx.next_state = ctx.current_state ∧
  ctx.current_state ≠ .STATE_SYNTAX_ERROR ∧ ctx.current_state ≠ .STATE_TERMINATED ∧
  0 ≤ ctx.use_list_read ∧
  ((ctx.current_state = .STATE_READ_DEFINITION_SYMBOL ∨
    ctx.current_state = .STATE_READ_DEFINITION_VALUE ∨
    ctx.current_state = .STATE_USE_LIST_START) → ctx.use_list_read = 0) ∧
  (ctx.doomedUseList ∨
    (ctx.use_list_read ≤ 16 ∧
      (ctx.current_state = .STATE_USE_LIST_READ →
        ctx.use_list_read < ctx.use_list_count ∧ ctx.use_list_count ≤ 16)))

/-- Invariant of pass 2 on its use list: the list holds `use_list_read` entries, under
keys below `use_list_read`. -/
def Tokenizer.useListOK (tk : Tokenizer) : Prop :=
  tk.token_processor = .InstructionGenerator ∧
  (∀ e ∈ tk.use_list, e.1 < tk.context.use_list_read) ∧
  (tk.use_list.length : Int) = tk.context.use_list_read

/-- The tokenizer at the end of pass 1 on the tokens of the module `0  1 X  1 E 1000`. -/
def pass1OnModuleUsingX : Tokenizer :=
  match (Tokenizer.create .SymbolTableGenerator [] []).run (programTokens [moduleUsingX]) with
  | .ok tk => tk
  | .error e => e.1

/-- A context that holds the two members that the translation of an instruction reads:
the base address of the module and its instruction count. -/
def translateContext (base count : Int) : ParsingContext :=
  { ParsingContext.init with module_index := base, instruction_count := count }

/-- The symbol table, the use list and the memory-map lines after pass 2 read the
instructions `instrs` of a module with base address `base` and instruction count
`count`, `j` instructions of the module having been read before. -/
def pass2Instrs (base count : Int) :
    List (Token × Token) → SymbolTable → UseList → Int → SymbolTable × UseList × List Output
  | [], T, ul, _ => (T, ul, [])
  | p :: rest, T, ul, j =>
    let tr := InstructionGenerator.Translate (p.1.ReadAsIAER (Char.ofNat 0)).val
      (p.2.ReadAsInt 0).val (translateContext base count) T ul
    let r := pass2Instrs base count rest tr.symbol_table tr.use_list (j + 1)
    (r.1, r.2.1, Output.mapLine (wrap32 (base + (j + 1 - 1))) tr.instruction tr.err :: r.2.2)

/-- The symbol table, the use list and the output of pass 2 over the modules `prog`,
started at a module boundary with table `T`, use list `ul`, output `out`, module count
`mc`, module index `mi` and instruction count `ic` of the module before: at every
boundary the Rule 7 warnings of the module before are written and the use list is
emptied, then the use list of the module is built and its instructions are translated;
at the end of the input the Rule 4 warnings follow. -/
def pass2Final : List ObjectModule → SymbolTable → UseList → List Output → Int → Int → Int →
    SymbolTable × UseList × List Output
  | [], T, ul, out, mc, _, _ =>
    (T, [], out ++ (ul.UnusedSymbols.map fun s => Output.rule7Warning mc s) ++
      T.VerifySymbolUsed)
  | m :: rest, T, ul, out, mc, mi, ic =>
    pass2Final rest
      (pass2Instrs (mi + ic) m.size m.instructions T (pass2Uses m.uses [] 0) 0).1
      (pass2Instrs (mi + ic) m.size m.instructions T (pass2Uses m.uses [] 0) 0).2.1
      (out ++ (ul.UnusedSymbols.map fun s => Output.rule7Warning mc s) ++
        (pass2Instrs (mi + ic) m.size m.instructions T (pass2Uses m.uses [] 0) 0).2.2)
      (mc + 1) (mi + ic) m.size

/-- The use-list token at position `i`, counted from 0, if there is one. -/
def useAt : List Token → Int → Option Token
  | [], _ => none
  | u :: rest, i => if i = 0 then some u else useAt rest (i - 1)

/-- An instruction with tag `mode` and raw code `c` refers to use-list position `i`: it
is an E-mode instruction, its code is at most 9999, and `i` is the remainder of the
truncated division of the code by 1000. -/
def refersTo (mode : Char) (c i : Int) : Bool :=
  decide (mode = 'E') && decide (c ≤ 9999) && decide (c.tmod 1000 = i)

/-- Some instruction of the module refers to use-list position `i`. -/
def ObjectModule.references (m : ObjectModule) (i : Int) : Bool :=
  m.instructions.any fun p =>
    refersTo (p.1.ReadAsIAER (Char.ofNat 0)).val (p.2.ReadAsInt 0).val i

/-- One Rule 7 warning, labelled `label`, for each of the use-list tokens at the
positions from `j` on that `f` does not hold of, in increasing position order. -/
def rule7From (label : Int) (f : Int → Bool) : List Token → Int → List Output
  | [], _ => []
  | u :: rest, j =>
    if f j then rule7From label f rest (j + 1)
    else Output.rule7Warning label u.token :: rule7From label f rest (j + 1)

/-- The Rule 7 warnings of a module: one for each use-list position that no instruction
of the module refers to. -/
def rule7Lines (label : Int) (m : ObjectModule) : List Output :=
  rule7From label m.references m.uses 0

/-- An instruction with tag `mode` and raw code `c` looks the symbol `s` up through the
use list `uses`: it refers to a position of the use list and the entry there names `s`. -/
def looksUpBy (uses : List Token) (mode : Char) (c : Int) (s : String) : Bool :=
  match useAt uses (c.tmod 1000) with
  | some u => refersTo mode c (c.tmod 1000) && decide (u.token = s)
  | none => false

/-- Some instruction of the module looks the symbol `s` up. -/
def ObjectModule.looksUp (m : ObjectModule) (s : String) : Bool :=
  m.instructions.any fun p =>
    looksUpBy m.uses (p.1.ReadAsIAER (Char.ofNat 0)).val (p.2.ReadAsInt 0).val s

/-- Some module of the program looks the symbol `s` up. -/
def lookedUp (prog : List ObjectModule) (s : String) : Bool :=
  prog.any fun m => m.looksUp s

/-- One Rule 4 warning for each entry of the table, in the order of the table, whose
symbol no module of the program looks up. -/
def rule4Lines (T : SymbolTable) (prog : List ObjectModule) : List Output :=
  (T.filter fun kv => !lookedUp prog kv.1).map fun kv => Output.rule4Warning kv.2.module kv.1

/-- The label of a Rule 7 warning. -/
def Output.rule7Label : Output → Option Int
  | .rule7Warning m _ => some m
  | _ => none

def Output.isRule4Warning : Output → Bool
  | .rule4Warning _ _ => true
  | _ => false

/-- A memory-map line with address `a`. -/
def Output.isMapLineAt (a : Int) : Output → Bool
  | .mapLine i _ _ => decide (i = a)
  | _ => false

/-- The use list with the tokens `uses` at the positions from `j` on, the entry at
position `k` being marked used when `f k` holds. -/
def markedUseList (f : Int → Bool) : List Token → Int → UseList
  | [], _ => []
  | u :: rest, j => (j, { symbol := u.token, used := f j }) :: markedUseList f rest (j + 1)

/-- The table with the entries of the symbols that `g` holds of marked used. -/
def markAll (g : String → Bool) (T : SymbolTable) : SymbolTable :=
  T.map fun kv => (kv.1, { kv.2 with used := kv.2.used || g kv.1 })

/-- What pass 2 holds at a module boundary, before the boundary is handled: the table,
the use list of the module before, the output so far, and the module count, the module
index and the instruction count of the context. -/
structure Boundary where
  symbol_table : SymbolTable
  use_list : UseList
  cout : List Output
  module_count : Int
  module_index : Int
  instruction_count : Int

/-- The boundary after one more module, as in `pass2Final`. -/
def Boundary.step (b : Boundary) (m : ObjectModule) : Boundary :=
  { symbol_table := (pass2Instrs (b.module_index + b.instruction_count) m.size m.instructions
      b.symbol_table (pass2Uses m.uses [] 0) 0).1
    use_list := (pass2Instrs (b.module_index + b.instruction_count) m.size m.instructions
      b.symbol_table (pass2Uses m.uses [] 0) 0).2.1
    cout := b.cout ++ (b.use_list.UnusedSymbols.map fun s =>
        Output.rule7Warning b.module_count s) ++
      (pass2Instrs (b.module_index + b.instruction_count) m.size m.instructions
        b.symbol_table (pass2Uses m.uses [] 0) 0).2.2
    module_count := b.module_count + 1
    module_index := b.module_index + b.instruction_count
    instruction_count := m.size }

/-- The boundary after the modules `prog`. -/
def Boundary.after (b : Boundary) (prog : List ObjectModule) : Boundary :=
  prog.foldl Boundary.step b

/-- The module `0  1 X  1 E -1000`: no definition, use list `X`, and one E-mode
instruction with a negative code. -/
def moduleNegativeCode : ObjectModule :=
  { def_count := tok "0", definitions := [], use_count := tok "1", uses := [tok "X"],
    instr_count := tok "1", instructions := [(tok "E", tok "-1000")] }

/-- The module `1 X 0  1 X  1 E -1000`: it defines `X`, and its one instruction is an
E-mode instruction with a negative code. -/
def moduleDefiningNegativeCode : ObjectModule :=
  { def_count := tok "1", definitions := [(tok "X", tok "0")], use_count := tok "1",
    uses := [tok "X"], instr_count := tok "1", instructions := [(tok "E", tok "-1000")] }

/-- The module `0  2 X Z  1 E 1000`: use list `X Z`, and one instruction, which refers
to position 0. -/
def moduleUsingXZ : ObjectModule :=
  { def_count := tok "0", definitions := [], use_count := tok "2",
    uses := [tok "X", tok "Z"], instr_count := tok "1",
    instructions := [(tok "E", tok "1000")] }

/-- The keys of the table are pairwise different and no entry is marked used. -/
def freshTable (T : SymbolTable) : Prop :=
  (T.map Prod.fst).Nodup ∧ ∀ u ∈ T.map (fun kv => kv.2.used), u = false

/-! ## Further definitions: token shapes -/

/-- The characters are an optional sign followed by one decimal digit or more. -/
def signedDigits : List Char → Bool
  | [] => false
  | c :: rest =>
    if c = '-' ∨ c = '+' then !rest.isEmpty && rest.all Char.isDigit
    else (c :: rest).all Char.isDigit

/-- The number that a run of decimal digits denotes. -/
def digitsValue (cs : List Char) : Nat :=
  cs.foldl (fun acc c => acc * 10 + (c.toNat - 48)) 0

/-- The integer that an optional sign followed by decimal digits denotes. -/
def signedValue : List Char → Int
  | [] => 0
  | c :: rest =>
    if c = '-' then -(digitsValue rest : Int)
    else if c = '+' then (digitsValue rest : Int)
    else (digitsValue (c :: rest) : Int)

/-- The text is a decimal integer: a sign, if any, and then digits only. -/
def isDecimalInteger (s : String) : Bool := signedDigits s.data

/-- The text is what `ReadAsInt` takes for an integer: after leading blank characters,
if any (inside a token these are vertical tabs and form feeds, the other blank
characters being delimiters), an optional sign and digits only, which denote a number
within the range of `int`. -/
def isIntegerText (s : String) : Bool :=
  signedDigits (s.data.dropWhile isspace) &&
    decide (-2147483648 ≤ signedValue (s.data.dropWhile isspace)) &&
    decide (signedValue (s.data.dropWhile isspace) ≤ 2147483647)

/-- The five states that expect an integer. -/
def ParsingState.expectsInt (s : ParsingState) : Bool :=
  s = .STATE_MODULE_START || s = .STATE_READ_DEFINITION_VALUE || s = .STATE_USE_LIST_START ||
    s = .STATE_INSTRUCTION_LIST_START || s = .STATE_INSTRUCTION_CODE_READ

/-- A token whose text is a vertical tab followed by `5`. -/
def tokenTab5 : Token := tok (String.mk [Char.ofNat 11, '5'])

/-! ## Further definitions: the memory map -/

def Output.isMapLine : Output → Bool
  | .mapLine _ _ _ => true
  | _ => false

/-- The number of instructions of a program. -/
def instructionCount (prog : List ObjectModule) : Nat :=
  (prog.map fun m => m.instructions.length).sum

/-- The memory-map lines that pass 2 writes for the modules `prog` from the boundary
`b` on, module by module. -/
def mapLinesOf : List ObjectModule → Boundary → List Output
  | [], _ => []
  | m :: rest, b =>
    (pass2Instrs (b.module_index + b.instruction_count) m.size m.instructions
      b.symbol_table (pass2Uses m.uses [] 0) 0).2.2 ++ mapLinesOf rest (b.step m)

/-! ## Further definitions: what pass 2 may change in the table -/

/-- The entry `b` is the entry `a` but for the used flag, which is set in `b` if it is
set in `a`. -/
def SymbolData.sameButUsed (a b : SymbolData) : Prop :=
  a.err = b.err ∧ a.value = b.value ∧ a.module = b.module ∧
    a.sorting_index = b.sorting_index ∧ (a.used = true → b.used = true)

/-- Entry by entry, the table `T1` has the names of `T` in the same places, with the same
note, value, owner module and definition order, and every used flag that is set in `T`
is set in `T1`. -/
def SymbolTable.sameButUsed (T T1 : SymbolTable) : Prop :=
  List.Forall₂ (fun a b => a.1 = b.1 ∧ a.2.sameButUsed b.2) T T1

/-- The tokenizer that a run leaves behind, thrown or not. -/
def resultTokenizer : Except Thrown Tokenizer → Tokenizer
  | .ok tk => tk
  | .error e => e.1

/-- The tokenizer runs pass 2 on a table that came from `T` by setting used flags. -/
def Tokenizer.tableFrom (T : SymbolTable) (tk : Tokenizer) : Prop :=
  tk.token_processor = .InstructionGenerator ∧ T.sameButUsed tk.symbol_table

/-! ## Further definitions: the text of the lines -/

/-- The characters that `cout << n` writes for an `int`. -/
def decimalText (n : Int) : String := toString n

/-- The characters that `cout << setfill('0') << setw(width) << n` writes: the text of
`n`, filled up on the left with `0` to the width. -/
def zeroFilled (width : Nat) (n : Int) : String :=
  String.mk (List.replicate (width - (decimalText n).data.length) '0') ++ decimalText n

/-- The line that `SymbolTable::Print` writes for one symbol, without the line end. -/
def symbolLineText (name : String) (value : Int) (err : String) : String :=
  name ++ "=" ++ decimalText value ++ (if err.isEmpty then "" else " " ++ err)

/-- The line that `InstructionGenerator::ProcessToken` writes for one instruction,
without the line end. -/
def mapLineText (instruction_index instruction : Int) (err : String) : String :=
  zeroFilled 3 instruction_index ++ ": " ++ zeroFilled 4 instruction ++
    (if err.isEmpty then "" else " " ++ err)

/-! ## Further definitions: the counters of the state machine -/

/-- The instruction count of the last module of the list, and `d` for the empty list. -/
def lastSize (d : Int) : List ObjectModule → Int
  | [] => d
  | m :: rest => lastSize m.size rest

/-- The tokens `0 0 1 I 5  0 0 2147483647 R`: a module with one instruction, then a
module with base address 1 that declares 2147483647 instructions, up to the tag of its
first instruction. -/
def tokensBeforeRelative : List Token :=
  [tok "0", tok "0", tok "1", tok "I", tok "5",
   tok "0", tok "0", tok "2147483647", tok "R"]

/-! ## Further definitions: comparing programs and runs -/

/-- The texts of a definition list. -/
def definitionTexts (defs : List (Token × Token)) : List (String × String) :=
  defs.map fun p => (p.1.token, p.2.token)

/-- The two modules have the same definitions, as many use symbols and as many
instructions. -/
def ObjectModule.sameDefinitionsAndSizes (a b : ObjectModule) : Prop :=
  definitionTexts a.definitions = definitionTexts b.definitions ∧
    a.uses.length = b.uses.length ∧ a.instructions.length = b.instructions.length

/-- The module `0  1 Z  1 A 7`: like `moduleUsingX` but for the use symbol and the
instruction. -/
def moduleUsingZ : ObjectModule :=
  { def_count := tok "0", definitions := [], use_count := tok "1", uses := [tok "Z"],
    instr_count := tok "1", instructions := [(tok "A", tok "7")] }

/-- The module `1 Y 1  0  2 R 0 R 1`: like `moduleDefiningY` but for the instructions. -/
def moduleDefiningYRelative : ObjectModule :=
  { def_count := tok "1", definitions := [(tok "Y", tok "1")], use_count := tok "0",
    uses := [], instr_count := tok "2",
    instructions := [(tok "R", tok "0"), (tok "R", tok "1")] }

/-- Two runs went the same way: both ended, in the same context, or both threw, in the
same context and with the same message. -/
def sameTrajectory : Except Thrown Tokenizer → Except Thrown Tokenizer → Prop
  | .ok a, .ok b => a.context = b.context
  | .error a, .error b => a.1.context = b.1.context ∧ a.2 = b.2
  | _, _ => False

/-! ## Further definitions: the range of the values -/

/-- Every value of the table lies in `0..512`. -/
def valuesWithin (T : SymbolTable) : Prop :=
  ∀ kv ∈ T, 0 ≤ kv.2.value ∧ kv.2.value ≤ 512

/-- The table while pass 1 is in the module with number `mc` and base `mi`: the values
of the modules before lie in `0..512`, and a value of the module `mc` is a relative
value from 0 on with the base added in 32 bits. -/
def pendingValues (T : SymbolTable) (mc mi : Int) : Prop :=
  ∀ kv ∈ T, kv.2.module ≤ mc ∧
    (kv.2.module ≠ mc → 0 ≤ kv.2.value ∧ kv.2.value ≤ 512) ∧
    (kv.2.module = mc →
      ∃ r : Int, 0 ≤ r ∧ r ≤ 2147483647 ∧ kv.2.value = wrap32 (r + mi))

/-- The value of a memory-map line fits its field of four digits. -/
def Output.valueFits : Output → Prop
  | .mapLine _ v _ => 0 ≤ v ∧ v ≤ 9999
  | _ => True

/-- The module `1 X 600  1 X  2 R 1001 E 9000`: a definition beyond the module, a
relative address beyond the module and an external reference. -/
def moduleWithErrors : ObjectModule :=
  { def_count := tok "1", definitions := [(tok "X", tok "600")], use_count := tok "1",
    uses := [tok "X"], instr_count := tok "2",
    instructions := [(tok "R", tok "1001"), (tok "E", tok "9000")] }

/-! ## Further definitions: a negative use count -/

/-- The tokens that the loops of `TokenizeFile` and `TokenizeLine` meet in the lines of
a file, the first line having the index `index`. -/
def fileTokens : Int → List String → List Token
  | _, [] => []
  | index, line :: rest => lineTokens index line ++ fileTokens (index + 1) rest

/-- Fed from the context, no token of the list is accepted in `STATE_MODULE_START`: up
to the first token that the state machine rejects, if there is one, every token is
read in another state. -/
def ParsingContext.startsNoModule : ParsingContext → List Token → Bool
  | _, [] => true
  | ctx, t :: ts =>
    decide ((ctx.ProcessState t).1.next_state = .STATE_SYNTAX_ERROR) ||
      (decide (ctx.current_state ≠ .STATE_MODULE_START) &&
        ParsingContext.startsNoModule (ctx.ProcessState t).1.AdvanceState ts)

/-- The two tokenizers differ at most in the line index and the position that their
contexts hold. -/
def Tokenizer.sameButPlace (a b : Tokenizer) : Prop :=
  a.token_processor = b.token_processor ∧ a.symbol_table = b.symbol_table ∧
  a.use_list = b.use_list ∧ a.cout = b.cout ∧
  ∃ i p, a.context = { b.context with index := i, position := p }

/-- Two runs came out alike: both ended, with tokenizers that differ at most in line
index and position, or both threw, with the same output written before. -/
def sameOutcome : Except Thrown Tokenizer → Except Thrown Tokenizer → Prop
  | .ok a, .ok b => a.sameButPlace b
  | .error a, .error b => a.1.cout = b.1.cout
  | _, _ => False

/-- The tokens of the first module of the input `1 X 3 0 1` / `I 3 2`, which are the
seven tokens before the last one. -/
def tokensBeforeCutModule : List Token :=
  (fileTokens 1 ["1 X 3 0 1", "I 3 2"]).take 7

/-- The tokenizer at the end of a run of pass 1 on `tokensBeforeCutModule`. -/
def pass1BeforeCutModule : Tokenizer :=
  match (Tokenizer.create .SymbolTableGenerator [] []).run tokensBeforeCutModule with
  | .ok tk => tk
  | .error e => e.1

/-! ## Basic facts: machine integers and validators -/

theorem wrap32_eq (x : Int) (h1 : -2147483648 ≤ x) (h2 : x ≤ 2147483647) : wrap32 x = x := by
  unfold wrap32; omega

theorem TryParseInt_ok_indep (s : String) (r r' : Int) (k : Int)
    (h : TryParseInt s r = (true, k)) : TryParseInt s r' = (true, k) := by
  unfold TryParseInt at *
  cases hs : stoi s with
  | none => simp [hs] at h
  | some p => simpa [hs] using h

theorem ReadAsInt_ok_iff (t : Token) (r : Int) :
    (t.ReadAsInt r).ok = (TryParseInt t.token r).1 := by
  unfold Token.ReadAsInt
  cases h : (TryParseInt t.token r).1 <;> simp [h]

theorem TryParseInt_fst_indep (s : String) (r r' : Int) :
    (TryParseInt s r).1 = (TryParseInt s r').1 := by
  unfold TryParseInt
  cases hs : stoi s <;> simp

theorem TryParseInt_snd_indep (s : String) (r r' : Int) (h : (TryParseInt s r).1 = true) :
    (TryParseInt s r).2 = (TryParseInt s r').2 := by
  unfold TryParseInt at *
  cases hs : stoi s with
  | none => simp [hs] at h
  | some p => simp

theorem ReadAsInt_of_isInt {t : Token} {k : Int} (h : t.isInt k) (r : Int) :
    t.ReadAsInt r = ⟨true, k, .ERROR_OK⟩ := by
  unfold Token.isInt Token.ReadAsInt at h
  have h1 : TryParseInt t.token 0 = (true, k) := by
    cases hp : TryParseInt t.token 0 with
    | mk b v =>
      rw [hp] at h
      cases b <;> simp at h
      rw [h]
  have h2 := TryParseInt_ok_indep t.token 0 r k h1
  simp [Token.ReadAsInt, h2]

theorem isInt_of_ok {t : Token} (h : (t.ReadAsInt 0).ok = true) :
    t.isInt (t.ReadAsInt 0).val := by
  unfold Token.isInt
  unfold Token.ReadAsInt at *
  cases hp : (TryParseInt t.token 0).1 <;> simp [hp] at h ⊢

theorem stoi_range (s : String) (v : Int) (sz : Nat) (h : stoi s = some (v, sz)) :
    -2147483648 ≤ v ∧ v ≤ 2147483647 := by
  have key : ∀ (c1 : Prop) [Decidable c1] (w : Int) (n : Nat),
      (if c1 then none
        else if w < -2147483648 ∨ 2147483647 < w then none else some (w, n)) = some (v, sz) →
      -2147483648 ≤ v ∧ v ≤ 2147483647 := by
    intro c1 _ w n hk
    by_cases hc : c1
    · simp [hc] at hk
    · by_cases hw : w < -2147483648 ∨ 2147483647 < w
      · simp [hc, hw] at hk
      · simp only [hc, hw, if_false, Option.some.injEq, Prod.mk.injEq] at hk
        rw [← hk.1]; omega
  unfold stoi at h
  exact key _ _ _ h

theorem isInt_range {t : Token} {k : Int} (h : t.isInt k) :
    -2147483648 ≤ k ∧ k ≤ 2147483647 := by
  unfold Token.isInt Token.ReadAsInt TryParseInt at h
  cases hs : stoi t.token with
  | none => simp [hs] at h
  | some p =>
    obtain ⟨v, sz⟩ := p
    have hr := stoi_range _ _ _ hs
    simp only [hs] at h
    split at h
    · simp only [ReadResult.mk.injEq, and_true, true_and] at h
      rw [← h]; exact hr
    · simp at h

theorem ReadAsSymbol_of_isSymbol {t : Token} (h : t.isSymbol) (old : String) :
    t.ReadAsSymbol old = ⟨true, t.token, .ERROR_OK⟩ := by
  unfold Token.isSymbol Token.ReadAsSymbol at *
  split at h
  · simp at h
  · split at h
    · simp at h
    · rename_i h1 h2
      simp [h1, h2]

theorem ReadAsIAER_ok_indep {t : Token} (h : (t.ReadAsIAER (Char.ofNat 0)).ok = true)
    (old : Char) :
    t.ReadAsIAER old = ⟨true, (t.ReadAsIAER (Char.ofNat 0)).val, .ERROR_OK⟩ := by
  unfold Token.ReadAsIAER at *
  by_cases h1 : t.token.utf8ByteSize ≠ 1
  · simp [h1] at h
  · by_cases h2 : (t.token.data.headD (Char.ofNat 0) ≠ 'I' ∧
        t.token.data.headD (Char.ofNat 0) ≠ 'A' ∧
        t.token.data.headD (Char.ofNat 0) ≠ 'E' ∧ t.token.data.headD (Char.ofNat 0) ≠ 'R')
    · rw [if_neg h1, if_pos h2] at h
      simp at h
    · rw [if_neg h1, if_neg h2, if_neg h1, if_neg h2]

/-! ## Pass 2: translation of one instruction -/

theorem tdiv_tmod_nonneg {c : Int} (h : 0 ≤ c) :
    c.tdiv 1000 = c / 1000 ∧ c.tmod 1000 = c % 1000 :=
  ⟨Int.tdiv_eq_ediv h (by omega), Int.tmod_eq_emod h (by omega)⟩

/-- In state `STATE_INSTRUCTION_CODE_READ` pass 2 prints one memory-map line, made of
the translated instruction. -/
theorem ProcessToken_code_read (token : Token) (ctx : ParsingContext) (st : SymbolTable)
    (ul : UseList) (c : Int)
    (hstate : ctx.current_state = .STATE_INSTRUCTION_CODE_READ) (hc : token.isInt c) :
    InstructionGenerator.ProcessToken token ctx st ul =
      ((InstructionGenerator.Translate ctx.last_instruction c ctx st ul).symbol_table,
       (InstructionGenerator.Translate ctx.last_instruction c ctx st ul).use_list,
       [Output.mapLine (wrap32 (ctx.module_index + ctx.instruction_index))
          (InstructionGenerator.Translate ctx.last_instruction c ctx st ul).instruction
          (InstructionGenerator.Translate ctx.last_instruction c ctx st ul).err]) := by
  simp [InstructionGenerator.ProcessToken, hstate, ReadAsInt_of_isInt hc]

theorem Translate_R (c : Int) (ctx : ParsingContext) (st : SymbolTable) (ul : UseList)
    (h0 : 0 ≤ c) (h9 : c ≤ 9999)
    (hb1 : -2147483648 ≤ ctx.module_index) (hb2 : ctx.module_index + 9999 ≤ 2147483647) :
    InstructionGenerator.Translate 'R' c ctx st ul =
      if c % 1000 < ctx.instruction_count then
        ⟨c / 1000 * 1000 + ctx.module_index + c % 1000, "", st, ul⟩
      else
        ⟨c / 1000 * 1000 + ctx.module_index,
          "Error: Relative address exceeds module size; zero used", st, ul⟩ := by
  obtain ⟨hd, hm⟩ := tdiv_tmod_nonneg h0
  have hop : ¬ (c / 1000 ≥ 10) := by omega
  unfold InstructionGenerator.Translate
  simp only [hd, hm, kMaxOperand, kMaxOpCode, kInvalidInstructionCodeUnderflow]
  rw [if_neg (by intro h; exact hop h.1)]
  rw [if_neg (by decide), if_neg (by decide), if_pos trivial]
  by_cases hlt : c % 1000 < ctx.instruction_count
  · rw [if_neg (by omega), if_pos hlt]
    have e1 : wrap32 (c % 1000 + ctx.module_index) = c % 1000 + ctx.module_index :=
      wrap32_eq _ (by omega) (by omega)
    rw [e1, wrap32_eq _ (by omega) (by omega)]
    congr 1; omega
  · rw [if_pos (by omega), if_neg hlt]
    have e1 : wrap32 (0 + ctx.module_index) = ctx.module_index := by
      rw [wrap32_eq _ (by omega) (by omega)]; omega
    rw [e1, wrap32_eq _ (by omega) (by omega)]
    congr 1; omega

theorem Translate_A (c : Int) (ctx : ParsingContext) (st : SymbolTable) (ul : UseList)
    (h0 : 0 ≤ c) (h9 : c ≤ 9999) :
    InstructionGenerator.Translate 'A' c ctx st ul =
      if c % 1000 < 512 then ⟨c, "", st, ul⟩
      else ⟨c / 1000 * 1000,
        "Error: Absolute address exceeds machine size; zero used", st, ul⟩ := by
  obtain ⟨hd, hm⟩ := tdiv_tmod_nonneg h0
  have hop : ¬ (c / 1000 ≥ 10) := by omega
  unfold InstructionGenerator.Translate
  simp only [hd, hm, kMaxOperand, kMaxOpCode, kInvalidInstructionCodeUnderflow, kMemorySize]
  rw [if_neg (by intro h; exact hop h.1), if_pos trivial]
  by_cases hlt : c % 1000 < 512
  · rw [if_neg (by omega), if_pos hlt]
  · rw [if_pos (by omega), if_neg hlt, wrap32_eq _ (by omega) (by omega)]
    congr 1; omega

theorem Translate_I (c : Int) (ctx : ParsingContext) (st : SymbolTable) (ul : UseList) :
    InstructionGenerator.Translate 'I' c ctx st ul =
      if c ≤ 9999 then ⟨c, "", st, ul⟩
      else ⟨9999, "Error: Illegal immediate value; treated as 9999", st, ul⟩ := by
  unfold InstructionGenerator.Translate
  simp only [kInvalidInstructionCodeOverflow]
  rw [if_neg (by intro h; exact h.2 rfl), if_neg (by decide), if_pos trivial]
  by_cases hle : c ≤ 9999
  · rw [if_neg (by omega), if_pos hle]
  · rw [if_pos (by omega), if_neg hle]

theorem Translate_rule11 (mode : Char) (c : Int) (ctx : ParsingContext) (st : SymbolTable)
    (ul : UseList) (hmode : mode ≠ 'I') (hc : 10000 ≤ c) :
    InstructionGenerator.Translate mode c ctx st ul =
      ⟨9999, "Error: Illegal opcode; treated as 9999", st, ul⟩ := by
  obtain ⟨hd, _⟩ := tdiv_tmod_nonneg (show 0 ≤ c by omega)
  unfold InstructionGenerator.Translate
  simp only [hd, kMaxOperand, kMaxOpCode, kInvalidInstructionCodeOverflow]
  rw [if_pos ⟨by omega, hmode⟩]

theorem not_defined_ne_illegal_opcode (sym : String) :
    "Error: " ++ sym ++ " is not defined; zero used" ≠
      "Error: Illegal opcode; treated as 9999" := by
  intro h
  have h2 := congrArg (fun s : String => s.data.reverse.head?) h
  simp [String.data_append, List.reverse_append] at h2

/-- For a raw code in `0..9999` no branch of the translation gives the Rule 11
diagnostic. -/
theorem Translate_not_rule11 (mode : Char) (c : Int) (ctx : ParsingContext)
    (st : SymbolTable) (ul : UseList) (h0 : 0 ≤ c) (h9 : c ≤ 9999) :
    (InstructionGenerator.Translate mode c ctx st ul).err ≠
      "Error: Illegal opcode; treated as 9999" := by
  obtain ⟨hd, hm⟩ := tdiv_tmod_nonneg h0
  have hop : ¬ (c / 1000 ≥ 10) := by omega
  unfold InstructionGenerator.Translate
  simp only [hd, hm, kMaxOperand, kMaxOpCode]
  rw [if_neg (by intro h; exact hop h.1)]
  repeat' split
  all_goals first
    | exact not_defined_ne_illegal_opcode _
    | (dsimp only; decide)

/-! ## The symbol table as a map -/

theorem find_split : ∀ (T : SymbolTable) (s : String) (d : SymbolData),
    T.find s = some d →
    ∃ pre post, T = pre ++ (s, d) :: post ∧ ∀ e ∈ pre, e.1 ≠ s
  | [], s, d, h => by simp [SymbolTable.find] at h
  | (k, e) :: rest, s, d, h => by
    unfold SymbolTable.find at h
    by_cases hk : k = s
    · rw [if_pos hk] at h
      refine ⟨[], rest, ?_, by simp⟩
      simp only [Option.some.injEq] at h
      simp [hk, h]
    · rw [if_neg hk] at h
      obtain ⟨pre, post, hT, hpre⟩ := find_split rest s d h
      refine ⟨(k, e) :: pre, post, by simp [hT], ?_⟩
      intro x hx
      rcases List.mem_cons.mp hx with hx | hx
      · rw [hx]; exact hk
      · exact hpre x hx

theorem find_mem {T : SymbolTable} {s : String} {d : SymbolData} (h : T.find s = some d) :
    (s, d) ∈ T := by
  obtain ⟨pre, post, hT, _⟩ := find_split T s d h
  rw [hT]; simp

theorem modify_split (pre post : SymbolTable) (s : String) (d : SymbolData)
    (f : SymbolData → SymbolData) (hpre : ∀ e ∈ pre, e.1 ≠ s) :
    SymbolTable.modify (pre ++ (s, d) :: post) s f = pre ++ (s, f d) :: post := by
  induction pre with
  | nil => simp [SymbolTable.modify]
  | cons x xs ih =>
    obtain ⟨k, e⟩ := x
    have hk : k ≠ s := hpre (k, e) (by simp)
    have ih2 := ih (fun y hy => hpre y (List.mem_cons_of_mem _ hy))
    simp only [List.cons_append, SymbolTable.modify, if_neg hk]
    exact congrArg _ ih2

theorem find_modify : ∀ (T : SymbolTable) (s t : String) (f : SymbolData → SymbolData),
    (SymbolTable.modify T s f).find t = if t = s then (T.find s).map f else T.find t
  | [], s, t, f => by simp [SymbolTable.modify, SymbolTable.find]
  | (k, e) :: rest, s, t, f => by
    have ih := find_modify rest s t f
    by_cases hk : k = s
    · by_cases ht : t = s
      · simp [SymbolTable.modify, SymbolTable.find, hk, ht]
      · have hkt : ¬ s = t := fun h => ht h.symm
        simp [SymbolTable.modify, SymbolTable.find, hk, ht, hkt]
    · by_cases ht : t = s
      · have hkt : ¬ k = t := by rw [ht]; exact hk
        rw [if_pos ht] at ih ⊢
        simp only [SymbolTable.modify, if_neg hk, SymbolTable.find, if_neg hkt]
        rw [ih, ← ht]
      · rw [if_neg ht] at ih ⊢
        simp only [SymbolTable.modify, if_neg hk, SymbolTable.find]
        rw [ih]

theorem length_modify : ∀ (T : SymbolTable) (s : String) (f : SymbolData → SymbolData),
    (SymbolTable.modify T s f).length = T.length
  | [], _, _ => rfl
  | (k, e) :: rest, s, f => by
    by_cases hk : k = s
    · simp [SymbolTable.modify, hk]
    · simp [SymbolTable.modify, hk, length_modify rest s f]

theorem map_modify {β : Type} (g : String × SymbolData → β) (f : SymbolData → SymbolData)
    (hg : ∀ k d, g (k, f d) = g (k, d)) : ∀ (T : SymbolTable) (s : String),
    (SymbolTable.modify T s f).map g = T.map g
  | [], _ => rfl
  | (k, e) :: rest, s => by
    by_cases hk : k = s
    · simp [SymbolTable.modify, hk, hg]
    · simp [SymbolTable.modify, hk, map_modify g f hg rest s]

theorem find_insert : ∀ (T : SymbolTable) (s t : String) (d : SymbolData),
    T.find s = none →
    (SymbolTable.insert T s d).find t = if t = s then some d else T.find t
  | [], s, t, d, _ => by
    by_cases ht : t = s
    · simp [SymbolTable.insert, SymbolTable.find, ht]
    · have : ¬ s = t := fun h => ht h.symm
      simp [SymbolTable.insert, SymbolTable.find, ht, this]
  | (k, e) :: rest, s, t, d, h => by
    unfold SymbolTable.find at h
    by_cases hk : k = s
    · rw [if_pos hk] at h; simp at h
    · rw [if_neg hk] at h
      have ih := find_insert rest s t d h
      unfold SymbolTable.insert
      rw [if_neg hk]
      by_cases hlt : keyLt s.data k.data = true
      · rw [if_pos hlt]
        by_cases ht : t = s
        · simp [SymbolTable.find, ht]
        · have : ¬ s = t := fun h => ht h.symm
          simp [SymbolTable.find, ht, this]
      · rw [if_neg hlt]
        by_cases ht : t = s
        · have hkt : ¬ k = t := by rw [ht]; exact hk
          rw [if_pos ht] at ih ⊢
          simp only [SymbolTable.find, if_neg hkt]
          exact ih
        · rw [if_neg ht] at ih ⊢
          simp only [SymbolTable.find]
          rw [ih]

theorem insert_perm : ∀ (T : SymbolTable) (s : String) (d : SymbolData),
    T.find s = none → (SymbolTable.insert T s d).Perm ((s, d) :: T)
  | [], s, d, _ => by simp [SymbolTable.insert]
  | (k, e) :: rest, s, d, h => by
    unfold SymbolTable.find at h
    by_cases hk : k = s
    · rw [if_pos hk] at h; simp at h
    · rw [if_neg hk] at h
      unfold SymbolTable.insert
      rw [if_neg hk]
      by_cases hlt : keyLt s.data k.data = true
      · rw [if_pos hlt]
      · rw [if_neg hlt]
        exact ((insert_perm rest s d h).cons (k, e)).trans (List.Perm.swap _ _ _)

theorem find_VerifySymbolLoop (lm ls lmi : Int) : ∀ (T : SymbolTable) (t : String),
    (SymbolTable.VerifySymbolLoop lm ls lmi T).1.find t =
      (T.find t).map (verifyEntry lm ls lmi)
  | [], t => by simp [SymbolTable.VerifySymbolLoop, SymbolTable.find]
  | (k, d) :: rest, t => by
    have ih := find_VerifySymbolLoop lm ls lmi rest t
    unfold SymbolTable.VerifySymbolLoop
    by_cases hm : d.module ≠ lm
    · simp only [if_pos hm, SymbolTable.find]
      by_cases hk : k = t
      · simp [hk, verifyEntry, hm]
      · simp only [if_neg hk]; exact ih
    · by_cases hr : wrap32 (d.value - lmi) ≥ ls
      · simp only [if_neg hm, if_pos hr, SymbolTable.find]
        by_cases hk : k = t
        · simp [hk, verifyEntry, hm, hr]
        · simp only [if_neg hk]; exact ih
      · simp only [if_neg hm, if_neg hr, SymbolTable.find]
        by_cases hk : k = t
        · simp [hk, verifyEntry, hm, hr]
        · simp only [if_neg hk]; exact ih

theorem warning_VerifySymbolLoop (lm ls lmi : Int) : ∀ (T : SymbolTable) (k : String)
    (d : SymbolData), (k, d) ∈ T → d.module = lm → wrap32 (d.value - lmi) ≥ ls →
    Output.rule5Warning lm k (wrap32 (d.value - lmi)) (wrap32 (ls - 1)) ∈
      (SymbolTable.VerifySymbolLoop lm ls lmi T).2
  | [], _, _, h, _, _ => by simp at h
  | (k', d') :: rest, k, d, h, hm, hr => by
    unfold SymbolTable.VerifySymbolLoop
    rcases List.mem_cons.mp h with h | h
    · have e1 : k = k' := congrArg Prod.fst h
      have e2 : d = d' := congrArg Prod.snd h
      subst e1; subst e2
      have hm' : ¬ d.module ≠ lm := fun hne => hne hm
      simp only [if_neg hm', if_pos hr]
      exact List.mem_cons_self _ _
    · have ih := warning_VerifySymbolLoop lm ls lmi rest k d h hm hr
      by_cases hm' : d'.module ≠ lm
      · simp only [if_pos hm']; exact ih
      · by_cases hr' : wrap32 (d'.value - lmi) ≥ ls
        · simp only [if_neg hm', if_pos hr']
          exact List.mem_cons_of_mem _ ih
        · simp only [if_neg hm', if_neg hr']; exact ih

/-! ## Printing the symbol table in definition order -/

theorem firstNames_snoc (l : List String) (s : String) :
    firstNames (l ++ [s]) =
      if s ∈ firstNames l then firstNames l else firstNames l ++ [s] := by
  simp [firstNames, List.foldl_append]

theorem mem_firstNames (l : List String) (s : String) : s ∈ firstNames l ↔ s ∈ l := by
  induction l using List.reverseRecOn with
  | nil => simp [firstNames]
  | append_singleton l x ih =>
    rw [firstNames_snoc]
    by_cases hx : x ∈ firstNames l
    · rw [if_pos hx]
      constructor
      · intro h; exact List.mem_append_left _ (ih.mp h)
      · intro h
        rcases List.mem_append.mp h with h | h
        · exact ih.mpr h
        · have : s = x := by simpa using h
          rw [this]; exact hx
    · rw [if_neg hx]
      simp [List.mem_append, ih]

theorem indexedFrom_append (l : List String) (s : String) : ∀ n : Int,
    indexedFrom n (l ++ [s]) = indexedFrom n l ++ [(s, n + (l.length : Int))] := by
  induction l with
  | nil => intro n; simp [indexedFrom]
  | cons x xs ih =>
    intro n
    have e : n + 1 + (xs.length : Int) = n + ((xs.length + 1 : Nat) : Int) := by
      push_cast; omega
    show (x, n) :: indexedFrom (n + 1) (xs ++ [s]) =
      (x, n) :: (indexedFrom (n + 1) xs ++ [(s, n + ((xs.length + 1 : Nat) : Int))])
    rw [ih (n + 1), e]

theorem length_indexedFrom (l : List String) : ∀ n : Int, (indexedFrom n l).length = l.length := by
  induction l with
  | nil => intro n; rfl
  | cons x xs ih => intro n; simp [indexedFrom, ih]

theorem indexedFrom_ge (l : List String) : ∀ (n : Int) (p : String × Int),
    p ∈ indexedFrom n l → n ≤ p.2 := by
  induction l with
  | nil => intro n p h; simp [indexedFrom] at h
  | cons x xs ih =>
    intro n p h
    simp only [indexedFrom, List.mem_cons] at h
    rcases h with h | h
    · rw [h]
    · have := ih (n + 1) p h; omega

theorem indexedFrom_sorted (l : List String) : ∀ n : Int,
    List.Pairwise (fun a b : String × Int => a.2 < b.2) (indexedFrom n l) := by
  induction l with
  | nil => intro n; simp [indexedFrom]
  | cons x xs ih =>
    intro n
    simp only [indexedFrom, List.pairwise_cons]
    refine ⟨?_, ih (n + 1)⟩
    intro p hp
    have := indexedFrom_ge xs (n + 1) p hp
    show n < p.2
    omega

/-- A list of pairs with pairwise different second components has one sorted
arrangement, which `sortPairs` finds. -/
theorem sortPairs_unique (l l' : List (String × Int)) (hp : l.Perm l')
    (hs : List.Pairwise (fun a b : String × Int => a.2 < b.2) l') : sortPairs l = l' := by
  haveI : IsTotal (String × Int) (fun a b => PairComparer b a = false) :=
    ⟨fun a b => by
      simp only [PairComparer, decide_eq_false_iff_not]
      rcases le_total a.2 b.2 with h | h
      · left; omega
      · right; omega⟩
  haveI : IsTrans (String × Int) (fun a b => PairComparer b a = false) :=
    ⟨fun a b c h1 h2 => by
      simp only [PairComparer, decide_eq_false_iff_not] at *
      omega⟩
  haveI : IsAntisymm (String × Int) (fun a b => a.2 < b.2) :=
    ⟨fun a b h1 h2 => absurd h1 (by omega)⟩
  have hsorted := List.sorted_insertionSort (fun a b : String × Int => PairComparer b a = false) l
  have hperm := List.perm_insertionSort (fun a b : String × Int => PairComparer b a = false) l
  have hperm' : (sortPairs l).Perm l' := hperm.trans hp
  have hnd' : (l'.map Prod.snd).Nodup := by
    rw [List.Nodup, List.pairwise_map]
    exact hs.imp (fun h => ne_of_lt h)
  have hnd : ((sortPairs l).map Prod.snd).Nodup := (hperm'.map Prod.snd).nodup_iff.mpr hnd'
  have hnd2 : List.Pairwise (fun a b : String × Int => a.2 ≠ b.2) (sortPairs l) := by
    rw [List.Nodup, List.pairwise_map] at hnd
    exact hnd
  have hlt : List.Pairwise (fun a b : String × Int => a.2 < b.2) (sortPairs l) := by
    have h2 : List.Pairwise (fun a b : String × Int => PairComparer b a = false)
        (sortPairs l) := hsorted
    refine (h2.and hnd2).imp ?_
    intro a b h
    have h1 := h.1
    simp only [PairComparer, decide_eq_false_iff_not] at h1
    have h3 := h.2
    omega
  exact List.eq_of_perm_of_sorted hperm' hlt hs

theorem find_AddSymbol (T : SymbolTable) (s t : String) (v m : Int) :
    (T.AddSymbol s v m).find t =
      if t = s then
        match T.find s with
        | some d => some { d with err := multiplyDefinedNote }
        | none => some ⟨"", v, m, false, (T.length : Int)⟩
      else T.find t := by
  unfold SymbolTable.AddSymbol
  cases hf : T.find s with
  | none =>
    simp only [Option.isSome_none, Bool.false_eq_true, if_false]
    rw [find_insert T s t _ hf]
  | some d =>
    simp only [Option.isSome_some, if_true]
    rw [find_modify, hf]
    rfl

theorem firstValue_snoc_mem (calls : List (String × Int × Int)) (c : String × Int × Int)
    (s : String) (h : s ∈ calls.map fun c => c.1) :
    firstValue (calls ++ [c]) s = firstValue calls s := by
  unfold firstValue
  rw [List.find?_append]
  obtain ⟨x, hx, hxs⟩ := List.mem_map.mp h
  cases hf : calls.find? (fun c => decide (c.1 = s)) with
  | none =>
    have := List.find?_eq_none.mp hf x hx
    simp [hxs] at this
  | some y => simp

theorem firstValue_snoc_new (calls : List (String × Int × Int)) (s : String) (v m : Int)
    (h : s ∉ calls.map fun c => c.1) :
    firstValue (calls ++ [(s, v, m)]) s = v := by
  unfold firstValue
  rw [List.find?_append]
  have hf : calls.find? (fun c => decide (c.1 = s)) = none := by
    rw [List.find?_eq_none]
    intro x hx hxs
    exact h (List.mem_map.mpr ⟨x, hx, by simpa using hxs⟩)
  simp [hf]

theorem noteOf_snoc_other (calls : List (String × Int × Int)) (c : String × Int × Int)
    (t : String) (h : t ≠ c.1) : noteOf (calls ++ [c]) t = noteOf calls t := by
  unfold noteOf
  have hne : ¬ c.1 = t := fun e => h e.symm
  simp [List.count_append, List.count_singleton, hne]

theorem noteOf_snoc_again (calls : List (String × Int × Int)) (s : String) (v m : Int)
    (h : s ∈ calls.map fun c => c.1) :
    noteOf (calls ++ [(s, v, m)]) s = multiplyDefinedNote := by
  unfold noteOf
  have hc : 0 < (calls.map fun c => c.1).count s := List.count_pos_iff.mpr h
  have e : (List.map (fun c => c.1) (calls ++ [(s, v, m)])).count s =
      (calls.map fun c => c.1).count s + 1 := by
    rw [List.map_append, List.count_append]
    simp [List.count_singleton]
  have : 1 < (List.map (fun c => c.1) (calls ++ [(s, v, m)])).count s := by omega
  rw [if_pos this]

theorem noteOf_snoc_new (calls : List (String × Int × Int)) (s : String) (v m : Int)
    (h : s ∉ calls.map fun c => c.1) : noteOf (calls ++ [(s, v, m)]) s = "" := by
  unfold noteOf
  have hc : (calls.map fun c => c.1).count s = 0 := List.count_eq_zero.mpr h
  have : ¬ 1 < (List.map (fun c => c.1) (calls ++ [(s, v, m)])).count s := by
    simp [List.count_append, List.count_singleton, hc]
  rw [if_neg this]

/-- The table after a sequence of `AddSymbol` calls: its sorting indices number the
distinct names in the order of their first calls, and every name holds the value of its
first call and the note of `noteOf`. -/
theorem addAll_inv (calls : List (String × Int × Int)) :
    ((addAll calls).map fun kv => (kv.1, kv.2.sorting_index)).Perm
        (indexedFrom 0 (firstNames (calls.map fun c => c.1))) ∧
    (∀ s, s ∈ (calls.map fun c => c.1) →
      ∃ d, (addAll calls).find s = some d ∧ d.value = firstValue calls s ∧
        d.err = noteOf calls s) ∧
    (∀ s, s ∉ (calls.map fun c => c.1) → (addAll calls).find s = none) := by
  induction calls using List.reverseRecOn with
  | nil =>
    refine ⟨by simp [addAll, firstNames, indexedFrom], by simp, ?_⟩
    intro s _; rfl
  | append_singleton calls c ih =>
    obtain ⟨hP, hF, hN⟩ := ih
    obtain ⟨s, v, m⟩ := c
    have hadd : addAll (calls ++ [(s, v, m)]) = (addAll calls).AddSymbol s v m := by
      simp [addAll, List.foldl_append]
    have hlen : (addAll calls).length = (firstNames (calls.map fun c => c.1)).length := by
      have := hP.length_eq
      simpa [length_indexedFrom] using this
    rw [hadd]
    simp only [List.map_append, List.map_cons, List.map_nil]
    by_cases hs : s ∈ calls.map fun c => c.1
    · obtain ⟨d, hd, hdv, hde⟩ := hF s hs
      have hfn : firstNames (List.map (fun c => c.1) calls ++ [s]) =
          firstNames (calls.map fun c => c.1) := by
        rw [firstNames_snoc, if_pos ((mem_firstNames _ _).mpr hs)]
      refine ⟨?_, ?_, ?_⟩
      · rw [hfn]
        have : (addAll calls).AddSymbol s v m =
            SymbolTable.modify (addAll calls) s (fun d => { d with err := multiplyDefinedNote }) := by
          simp [SymbolTable.AddSymbol, hd]
        rw [this, map_modify (fun kv => (kv.1, kv.2.sorting_index))
          (fun d => { d with err := multiplyDefinedNote }) (fun _ _ => rfl)]
        exact hP
      · intro t ht
        have ht' : t ∈ calls.map fun c => c.1 := by
          rcases List.mem_append.mp ht with h | h
          · exact h
          · have : t = s := by simpa using h
            rw [this]; exact hs
        rw [find_AddSymbol]
        by_cases hts : t = s
        · subst hts
          rw [if_pos rfl, hd]
          refine ⟨_, rfl, ?_, ?_⟩
          · show d.value = _
            rw [firstValue_snoc_mem _ _ _ hs]; exact hdv
          · show multiplyDefinedNote = _
            rw [noteOf_snoc_again _ _ _ _ hs]
        · rw [if_neg hts]
          obtain ⟨d', hd', hdv', hde'⟩ := hF t ht'
          refine ⟨d', hd', ?_, ?_⟩
          · rw [firstValue_snoc_mem _ _ _ ht']; exact hdv'
          · rw [noteOf_snoc_other _ _ _ hts]; exact hde'
      · intro t ht
        have ht1 : t ∉ calls.map fun c => c.1 := fun h => ht (List.mem_append_left _ h)
        have hts : t ≠ s := fun h => ht (by simp [h])
        rw [find_AddSymbol, if_neg hts]
        exact hN t ht1
    · have hd := hN s hs
      have hfn : firstNames (List.map (fun c => c.1) calls ++ [s]) =
          firstNames (calls.map fun c => c.1) ++ [s] := by
        rw [firstNames_snoc, if_neg (fun h => hs ((mem_firstNames _ _).mp h))]
      refine ⟨?_, ?_, ?_⟩
      · rw [hfn, indexedFrom_append]
        have : (addAll calls).AddSymbol s v m =
            SymbolTable.insert (addAll calls) s ⟨"", v, m, false, ((addAll calls).length : Int)⟩ := by
          simp [SymbolTable.AddSymbol, hd]
        rw [this]
        have hp1 := (insert_perm (addAll calls) s
          ⟨"", v, m, false, ((addAll calls).length : Int)⟩ hd).map
            (fun kv => (kv.1, kv.2.sorting_index))
        refine hp1.trans ?_
        simp only [List.map_cons]
        rw [hlen, zero_add]
        exact (List.perm_append_singleton _ _).symm.trans (List.Perm.append_right _ hP)
      · intro t ht
        rw [find_AddSymbol]
        by_cases hts : t = s
        · subst hts
          rw [if_pos rfl, hd]
          refine ⟨_, rfl, ?_, ?_⟩
          · show v = _
            rw [firstValue_snoc_new _ _ _ _ hs]
          · show "" = _
            rw [noteOf_snoc_new _ _ _ _ hs]
        · rw [if_neg hts]
          have ht' : t ∈ calls.map fun c => c.1 := by
            rcases List.mem_append.mp ht with h | h
            · exact h
            · exact absurd (by simpa using h) hts
          obtain ⟨d', hd', hdv', hde'⟩ := hF t ht'
          refine ⟨d', hd', ?_, ?_⟩
          · rw [firstValue_snoc_mem _ _ _ ht']; exact hdv'
          · rw [noteOf_snoc_other _ _ _ hts]; exact hde'
      · intro t ht
        have ht1 : t ∉ calls.map fun c => c.1 := fun h => ht (List.mem_append_left _ h)
        have hts : t ≠ s := fun h => ht (by simp [h])
        rw [find_AddSymbol, if_neg hts]
        exact hN t ht1

theorem PrintLines_indexed (T : SymbolTable) (val : String → Int) (note : String → String) :
    ∀ (l : List String) (n : Int),
    (∀ s ∈ l, ∃ d, T.find s = some d ∧ d.value = val s ∧ d.err = note s) →
    SymbolTable.PrintLines T (indexedFrom n l) =
      l.map fun s => Output.symbolLine s (val s) (note s) := by
  intro l
  induction l with
  | nil => intro n _; rfl
  | cons x xs ih =>
    intro n h
    obtain ⟨d, hd, hv, he⟩ := h x (List.mem_cons_self _ _)
    have ih2 := ih (n + 1) (fun s hs => h s (List.mem_cons_of_mem _ hs))
    simp only [indexedFrom, SymbolTable.PrintLines, hd, List.map_cons, ih2, hv, he]

/-! ## The grammar state machine on well-formed tokens -/

theorem ProcessState_moduleStart (ctx : ParsingContext) (t : Token) (k : Int)
    (hs : ctx.current_state = .STATE_MODULE_START) (hk : t.isInt k) (h16 : k ≤ 16) :
    ctx.ProcessState t =
      ({ ({ ctx with definition_count := k } : ParsingContext).startModule with
          next_state := if k ≠ 0 then .STATE_READ_DEFINITION_SYMBOL
                        else .STATE_USE_LIST_START }, .ERROR_OK) := by
  have h16' : ¬ k > kMaxDefinitionListSize := by simp only [kMaxDefinitionListSize]; omega
  unfold ParsingContext.ProcessState
  rw [hs]
  simp only [ParsingContext.HandleModuleStart, ReadAsInt_of_isInt hk, Bool.not_true,
    Bool.false_eq_true, if_false, if_neg h16']
  by_cases h0 : k ≠ 0
  · rw [if_pos h0, if_pos h0]; simp only [hs]
  · rw [if_neg h0, if_neg h0]; simp only [hs]

theorem ProcessState_defSymbol (ctx : ParsingContext) (t : Token)
    (hs : ctx.current_state = .STATE_READ_DEFINITION_SYMBOL) (ht : t.isSymbol) :
    ctx.ProcessState t =
      ({ ctx with last_symbol := t.token, next_state := .STATE_READ_DEFINITION_VALUE },
        .ERROR_OK) := by
  unfold ParsingContext.ProcessState
  rw [hs]
  simp only [ParsingContext.HandleReadDefinitionSymbol, ReadAsSymbol_of_isSymbol ht,
    Bool.not_true, Bool.false_eq_true, if_false, hs]

theorem ProcessState_defValue (ctx : ParsingContext) (t : Token)
    (hs : ctx.current_state = .STATE_READ_DEFINITION_VALUE) (ht : (t.ReadAsInt 0).ok = true) :
    ctx.ProcessState t =
      ({ ctx with
          definition_read := ctx.definition_read + 1
          next_state := if ctx.definition_read + 1 = ctx.definition_count
                        then .STATE_USE_LIST_START else .STATE_READ_DEFINITION_SYMBOL },
        .ERROR_OK) := by
  have hk := isInt_of_ok ht
  generalize (t.ReadAsInt 0).val = k at hk
  unfold ParsingContext.ProcessState
  rw [hs]
  simp only [ParsingContext.HandleReadDefinitionValue, ReadAsInt_of_isInt hk,
    Bool.not_true, Bool.false_eq_true, if_false]
  by_cases h0 : ctx.definition_read + 1 = ctx.definition_count
  · rw [if_pos h0, if_pos h0]; simp only [hs]
  · rw [if_neg h0, if_neg h0]; simp only [hs]

theorem ProcessState_useStart (ctx : ParsingContext) (t : Token) (k : Int)
    (hs : ctx.current_state = .STATE_USE_LIST_START) (hk : t.isInt k) (h16 : k ≤ 16) :
    ctx.ProcessState t =
      ({ ctx with
          use_list_count := k
          next_state := if k = 0 then .STATE_INSTRUCTION_LIST_START
                        else .STATE_USE_LIST_READ }, .ERROR_OK) := by
  have h16' : ¬ k > kMaxUseListSize := by simp only [kMaxUseListSize]; omega
  unfold ParsingContext.ProcessState
  rw [hs]
  simp only [ParsingContext.HandleUseListStart, ReadAsInt_of_isInt hk, Bool.not_true,
    Bool.false_eq_true, if_false, if_neg h16']
  by_cases h0 : k = 0
  · rw [if_pos h0, if_pos h0]; simp only [hs]
  · rw [if_neg h0, if_neg h0]; simp only [hs]

theorem ProcessState_useRead (ctx : ParsingContext) (t : Token)
    (hs : ctx.current_state = .STATE_USE_LIST_READ) (ht : t.isSymbol) :
    ctx.ProcessState t =
      ({ ctx with
          use_list_read := ctx.use_list_read + 1
          next_state := if ctx.use_list_read + 1 = ctx.use_list_count
                        then .STATE_INSTRUCTION_LIST_START else .STATE_USE_LIST_READ },
        .ERROR_OK) := by
  unfold ParsingContext.ProcessState
  rw [hs]
  simp only [ParsingContext.HandleUseListRead, ReadAsSymbol_of_isSymbol ht, Bool.not_true,
    Bool.false_eq_true, if_false]
  by_cases h0 : ctx.use_list_read + 1 = ctx.use_list_count
  · rw [if_pos h0, if_pos h0]; simp only [hs]
  · rw [if_neg h0, if_neg h0]; simp only [hs]

theorem ProcessState_instrStart (ctx : ParsingContext) (t : Token) (k : Int)
    (hs : ctx.current_state = .STATE_INSTRUCTION_LIST_START) (hk : t.isInt k)
    (hfit : wrap32 (k + ctx.module_index) ≤ 512) :
    ctx.ProcessState t =
      ({ ctx with
          instruction_count := k
          next_state := if k ≠ 0 then .STATE_INSTRUCTION_TYPE_READ
                        else .STATE_MODULE_START }, .ERROR_OK) := by
  have hfit' : ¬ wrap32 (k + ctx.module_index) > kMaxUseInstructionsSize := by
    simp only [kMaxUseInstructionsSize]; omega
  unfold ParsingContext.ProcessState
  rw [hs]
  simp only [ParsingContext.HandleInstructionListStart, ReadAsInt_of_isInt hk, Bool.not_true,
    Bool.false_eq_true, if_false, if_neg hfit']
  by_cases h0 : k ≠ 0
  · rw [if_pos h0, if_pos h0]; simp only [hs]
  · rw [if_neg h0, if_neg h0]; simp only [hs]

theorem ProcessState_typeRead (ctx : ParsingContext) (t : Token)
    (hs : ctx.current_state = .STATE_INSTRUCTION_TYPE_READ)
    (ht : (t.ReadAsIAER (Char.ofNat 0)).ok = true) :
    ctx.ProcessState t =
      ({ ctx with
          last_instruction := (t.ReadAsIAER (Char.ofNat 0)).val
          next_state := .STATE_INSTRUCTION_CODE_READ }, .ERROR_OK) := by
  unfold ParsingContext.ProcessState
  rw [hs]
  simp only [ParsingContext.HandleInstructionTypeRead]
  rw [ReadAsIAER_ok_indep ht ctx.last_instruction]
  simp only [Bool.not_true, Bool.false_eq_true, if_false, hs]

theorem ProcessState_codeRead (ctx : ParsingContext) (t : Token)
    (hs : ctx.current_state = .STATE_INSTRUCTION_CODE_READ) (ht : (t.ReadAsInt 0).ok = true) :
    ctx.ProcessState t =
      ({ ctx with
          instruction_read := ctx.instruction_read + 1
          next_state := if ctx.instruction_read + 1 = ctx.instruction_count
                        then .STATE_MODULE_START else .STATE_INSTRUCTION_TYPE_READ },
        .ERROR_OK) := by
  have hk := isInt_of_ok ht
  generalize (t.ReadAsInt 0).val = k at hk
  unfold ParsingContext.ProcessState
  rw [hs]
  simp only [ParsingContext.HandleInstructionCodeRead, ReadAsInt_of_isInt hk,
    Bool.not_true, Bool.false_eq_true, if_false]
  by_cases h0 : ctx.instruction_read + 1 = ctx.instruction_count
  · rw [if_pos h0, if_pos h0]; simp only [hs]
  · rw [if_neg h0, if_neg h0]; simp only [hs]

/-! ## Pass 1 token by token -/

theorem ProcessOne_pass1_defSymbol (tk : Tokenizer) (t : Token)
    (hp : tk.token_processor = .SymbolTableGenerator)
    (hs : tk.context.current_state = .STATE_READ_DEFINITION_SYMBOL) (ht : t.isSymbol) :
    tk.ProcessOne t = .ok { tk with
      context := { tk.context with
        last_symbol := t.token
        position := t.position + (t.token.utf8ByteSize : Int)
        current_state := .STATE_READ_DEFINITION_VALUE
        next_state := .STATE_READ_DEFINITION_VALUE } } := by
  unfold Tokenizer.ProcessOne
  simp only [ProcessState_defSymbol _ _ hs ht, hp, TokenProcessor.ProcessToken,
    SymbolTableGenerator.ProcessToken, hs, ParsingContext.AdvanceState, List.append_nil]
  simp

theorem ProcessOne_pass1_defValue (tk : Tokenizer) (t : Token)
    (hp : tk.token_processor = .SymbolTableGenerator)
    (hs : tk.context.current_state = .STATE_READ_DEFINITION_VALUE)
    (ht : (t.ReadAsInt 0).ok = true) :
    tk.ProcessOne t = .ok { tk with
      context := { tk.context with
        definition_read := tk.context.definition_read + 1
        position := t.position + (t.token.utf8ByteSize : Int)
        current_state := if tk.context.definition_read + 1 = tk.context.definition_count
                         then .STATE_USE_LIST_START else .STATE_READ_DEFINITION_SYMBOL
        next_state := if tk.context.definition_read + 1 = tk.context.definition_count
                      then .STATE_USE_LIST_START else .STATE_READ_DEFINITION_SYMBOL }
      symbol_table := tk.symbol_table.AddSymbol tk.context.last_symbol
        (wrap32 ((t.ReadAsInt 0).val + tk.context.module_index)) tk.context.module_count } := by
  unfold Tokenizer.ProcessOne
  simp only [ProcessState_defValue _ _ hs ht, hp, TokenProcessor.ProcessToken,
    SymbolTableGenerator.ProcessToken, hs, ParsingContext.AdvanceState, List.append_nil]
  by_cases h0 : tk.context.definition_read + 1 = tk.context.definition_count
  · simp [h0]
  · simp [h0]

theorem ProcessOne_pass1_moduleStart (tk : Tokenizer) (t : Token) (k : Int)
    (hp : tk.token_processor = .SymbolTableGenerator)
    (hs : tk.context.current_state = .STATE_MODULE_START) (hk : t.isInt k) (h16 : k ≤ 16)
    (hm : 0 ≤ tk.context.module_count) :
    tk.ProcessOne t = .ok { tk with
      context := { ({ tk.context with definition_count := k } : ParsingContext).startModule with
        position := t.position + (t.token.utf8ByteSize : Int)
        current_state := if k ≠ 0 then .STATE_READ_DEFINITION_SYMBOL
                         else .STATE_USE_LIST_START
        next_state := if k ≠ 0 then .STATE_READ_DEFINITION_SYMBOL
                      else .STATE_USE_LIST_START }
      symbol_table := (tk.symbol_table.VerifySymbol tk.context.module_count
        tk.context.instruction_count
        (wrap32 (tk.context.module_index + tk.context.instruction_count))).1
      cout := tk.cout ++ (tk.symbol_table.VerifySymbol tk.context.module_count
        tk.context.instruction_count
        (wrap32 (tk.context.module_index + tk.context.instruction_count))).2 } := by
  have hneg : ¬ (tk.context.module_count + 1 - 1 < 0) := by omega
  have hneg2 : ¬ (tk.context.module_count < 0) := by omega
  have hmc : tk.context.module_count + 1 - 1 = tk.context.module_count := by omega
  unfold Tokenizer.ProcessOne
  simp only [ProcessState_moduleStart _ _ _ hs hk h16, hp, TokenProcessor.ProcessToken,
    SymbolTableGenerator.ProcessToken, SymbolTableGenerator.HandleModuleChange, hs,
    ParsingContext.AdvanceState, ParsingContext.startModule, if_neg hneg, hmc]
  by_cases h0 : k ≠ 0
  · simp [h0, hneg2]
  · simp [h0, hneg2]

theorem ProcessOne_pass1_useStart (tk : Tokenizer) (t : Token) (k : Int)
    (hp : tk.token_processor = .SymbolTableGenerator)
    (hs : tk.context.current_state = .STATE_USE_LIST_START) (hk : t.isInt k) (h16 : k ≤ 16) :
    tk.ProcessOne t = .ok { tk with
      context := { tk.context with
        use_list_count := k
        position := t.position + (t.token.utf8ByteSize : Int)
        current_state := if k = 0 then .STATE_INSTRUCTION_LIST_START
                         else .STATE_USE_LIST_READ
        next_state := if k = 0 then .STATE_INSTRUCTION_LIST_START
                      else .STATE_USE_LIST_READ } } := by
  unfold Tokenizer.ProcessOne
  simp only [ProcessState_useStart _ _ _ hs hk h16, hp, TokenProcessor.ProcessToken,
    SymbolTableGenerator.ProcessToken, hs, ParsingContext.AdvanceState, List.append_nil]
  by_cases h0 : k = 0
  · simp [h0]
  · simp [h0]

theorem ProcessOne_pass1_useRead (tk : Tokenizer) (t : Token)
    (hp : tk.token_processor = .SymbolTableGenerator)
    (hs : tk.context.current_state = .STATE_USE_LIST_READ) (ht : t.isSymbol) :
    tk.ProcessOne t = .ok { tk with
      context := { tk.context with
        use_list_read := tk.context.use_list_read + 1
        position := t.position + (t.token.utf8ByteSize : Int)
        current_state := if tk.context.use_list_read + 1 = tk.context.use_list_count
                         then .STATE_INSTRUCTION_LIST_START else .STATE_USE_LIST_READ
        next_state := if tk.context.use_list_read + 1 = tk.context.use_list_count
                      then .STATE_INSTRUCTION_LIST_START else .STATE_USE_LIST_READ } } := by
  unfold Tokenizer.ProcessOne
  simp only [ProcessState_useRead _ _ hs ht, hp, TokenProcessor.ProcessToken,
    SymbolTableGenerator.ProcessToken, hs, ParsingContext.AdvanceState, List.append_nil]
  by_cases h0 : tk.context.use_list_read + 1 = tk.context.use_list_count
  · simp [h0]
  · simp [h0]

theorem ProcessOne_pass1_instrStart (tk : Tokenizer) (t : Token) (k : Int)
    (hp : tk.token_processor = .SymbolTableGenerator)
    (hs : tk.context.current_state = .STATE_INSTRUCTION_LIST_START) (hk : t.isInt k)
    (hfit : wrap32 (k + tk.context.module_index) ≤ 512) :
    tk.ProcessOne t = .ok { tk with
      context := { tk.context with
        instruction_count := k
        position := t.position + (t.token.utf8ByteSize : Int)
        current_state := if k ≠ 0 then .STATE_INSTRUCTION_TYPE_READ
                         else .STATE_MODULE_START
        next_state := if k ≠ 0 then .STATE_INSTRUCTION_TYPE_READ
                      else .STATE_MODULE_START } } := by
  unfold Tokenizer.ProcessOne
  simp only [ProcessState_instrStart _ _ _ hs hk hfit, hp, TokenProcessor.ProcessToken,
    SymbolTableGenerator.ProcessToken, hs, ParsingContext.AdvanceState, List.append_nil]
  by_cases h0 : k ≠ 0
  · simp [h0]
  · simp [h0]

theorem ProcessOne_pass1_typeRead (tk : Tokenizer) (t : Token)
    (hp : tk.token_processor = .SymbolTableGenerator)
    (hs : tk.context.current_state = .STATE_INSTRUCTION_TYPE_READ)
    (ht : (t.ReadAsIAER (Char.ofNat 0)).ok = true) :
    tk.ProcessOne t = .ok { tk with
      context := { tk.context with
        last_instruction := (t.ReadAsIAER (Char.ofNat 0)).val
        position := t.position + (t.token.utf8ByteSize : Int)
        current_state := .STATE_INSTRUCTION_CODE_READ
        next_state := .STATE_INSTRUCTION_CODE_READ } } := by
  unfold Tokenizer.ProcessOne
  simp only [ProcessState_typeRead _ _ hs ht, hp, TokenProcessor.ProcessToken,
    SymbolTableGenerator.ProcessToken, hs, ParsingContext.AdvanceState, List.append_nil]
  simp

theorem ProcessOne_pass1_codeRead (tk : Tokenizer) (t : Token)
    (hp : tk.token_processor = .SymbolTableGenerator)
    (hs : tk.context.current_state = .STATE_INSTRUCTION_CODE_READ)
    (ht : (t.ReadAsInt 0).ok = true) :
    tk.ProcessOne t = .ok { tk with
      context := { tk.context with
        instruction_read := tk.context.instruction_read + 1
        position := t.position + (t.token.utf8ByteSize : Int)
        current_state := if tk.context.instruction_read + 1 = tk.context.instruction_count
                         then .STATE_MODULE_START else .STATE_INSTRUCTION_TYPE_READ
        next_state := if tk.context.instruction_read + 1 = tk.context.instruction_count
                      then .STATE_MODULE_START else .STATE_INSTRUCTION_TYPE_READ } } := by
  unfold Tokenizer.ProcessOne
  simp only [ProcessState_codeRead _ _ hs ht, hp, TokenProcessor.ProcessToken,
    SymbolTableGenerator.ProcessToken, hs, ParsingContext.AdvanceState, List.append_nil]
  by_cases h0 : tk.context.instruction_read + 1 = tk.context.instruction_count
  · simp [h0]
  · simp [h0]

/-! ## Pass 1 over the parts of a module -/

theorem TokenizeTokens_cons_ok {tk tk1 : Tokenizer} {t : Token} (ts : List Token)
    (h : tk.ProcessOne t = .ok tk1) : tk.TokenizeTokens (t :: ts) = tk1.TokenizeTokens ts := by
  simp [Tokenizer.TokenizeTokens, h]

theorem TokenizeTokens_append : ∀ (a b : List Token) (tk tk1 : Tokenizer),
    tk.TokenizeTokens a = .ok tk1 → tk.TokenizeTokens (a ++ b) = tk1.TokenizeTokens b
  | [], b, tk, tk1, h => by
    simp only [Tokenizer.TokenizeTokens, Except.ok.injEq] at h
    simp [h]
  | t :: ts, b, tk, tk1, h => by
    simp only [Tokenizer.TokenizeTokens, List.cons_append] at h ⊢
    cases hp : tk.ProcessOne t with
    | error e => simp [hp] at h
    | ok tk2 =>
      simp only [hp] at h ⊢
      exact TokenizeTokens_append ts b tk2 tk1 h

theorem pass1_defs_loop : ∀ (defs : List (Token × Token)) (tk : Tokenizer),
    tk.token_processor = .SymbolTableGenerator →
    tk.context.current_state = .STATE_READ_DEFINITION_SYMBOL →
    defs ≠ [] →
    tk.context.definition_count = tk.context.definition_read + (defs.length : Int) →
    (∀ p ∈ defs, p.1.isSymbol ∧ (p.2.ReadAsInt 0).ok = true) →
    ∃ ls pos, tk.TokenizeTokens (pairTokens defs) = .ok { tk with
      context := { tk.context with
        definition_read := tk.context.definition_count
        last_symbol := ls
        position := pos
        current_state := .STATE_USE_LIST_START
        next_state := .STATE_USE_LIST_START }
      symbol_table :=
        pass1Defs tk.symbol_table tk.context.module_index tk.context.module_count defs }
  | [], _, _, _, h, _, _ => absurd rfl h
  | p :: rest, tk, hp, hs, _, hcount, hwf => by
    obtain ⟨hsym, hval⟩ := hwf p (List.mem_cons_self _ _)
    have e1 := ProcessOne_pass1_defSymbol tk p.1 hp hs hsym
    have e2 := ProcessOne_pass1_defValue
      { tk with
        context := { tk.context with
          last_symbol := p.1.token
          position := p.1.position + (p.1.token.utf8ByteSize : Int)
          current_state := .STATE_READ_DEFINITION_VALUE
          next_state := .STATE_READ_DEFINITION_VALUE } }
      p.2 hp rfl hval
    have etoks : pairTokens (p :: rest) = p.1 :: p.2 :: pairTokens rest := by
      simp [pairTokens]
    rw [etoks, TokenizeTokens_cons_ok _ e1, TokenizeTokens_cons_ok _ e2]
    cases rest with
    | nil =>
      have hc : tk.context.definition_read + 1 = tk.context.definition_count := by
        simp at hcount; omega
      refine ⟨p.1.token, p.2.position + (p.2.token.utf8ByteSize : Int), ?_⟩
      simp [pairTokens, Tokenizer.TokenizeTokens, hc, pass1Defs]
    | cons q rest2 =>
      have hc : ¬ tk.context.definition_read + 1 = tk.context.definition_count := by
        simp at hcount; omega
      obtain ⟨ls, pos, ih⟩ := pass1_defs_loop (q :: rest2)
        { tk with
          context := { tk.context with
            last_symbol := p.1.token
            definition_read := tk.context.definition_read + 1
            position := p.2.position + (p.2.token.utf8ByteSize : Int)
            current_state := if tk.context.definition_read + 1 = tk.context.definition_count
                             then .STATE_USE_LIST_START else .STATE_READ_DEFINITION_SYMBOL
            next_state := if tk.context.definition_read + 1 = tk.context.definition_count
                          then .STATE_USE_LIST_START else .STATE_READ_DEFINITION_SYMBOL }
          symbol_table := tk.symbol_table.AddSymbol p.1.token
            (wrap32 ((p.2.ReadAsInt 0).val + tk.context.module_index))
            tk.context.module_count }
        hp (by simp [hc]) (by simp)
        (by simp at hcount ⊢; omega)
        (fun x hx => hwf x (List.mem_cons_of_mem _ hx))
      refine ⟨ls, pos, ?_⟩
      rw [ih]
      simp [pass1Defs]

theorem pass1_uses_loop : ∀ (uses : List Token) (tk : Tokenizer),
    tk.token_processor = .SymbolTableGenerator →
    tk.context.current_state = .STATE_USE_LIST_READ →
    uses ≠ [] →
    tk.context.use_list_count = tk.context.use_list_read + (uses.length : Int) →
    (∀ u ∈ uses, u.isSymbol) →
    ∃ pos, tk.TokenizeTokens uses = .ok { tk with
      context := { tk.context with
        use_list_read := tk.context.use_list_count
        position := pos
        current_state := .STATE_INSTRUCTION_LIST_START
        next_state := .STATE_INSTRUCTION_LIST_START } }
  | [], _, _, _, h, _, _ => absurd rfl h
  | u :: rest, tk, hp, hs, _, hcount, hwf => by
    have e1 := ProcessOne_pass1_useRead tk u hp hs (hwf u (List.mem_cons_self _ _))
    rw [TokenizeTokens_cons_ok _ e1]
    cases rest with
    | nil =>
      have hc : tk.context.use_list_read + 1 = tk.context.use_list_count := by
        simp at hcount; omega
      refine ⟨u.position + (u.token.utf8ByteSize : Int), ?_⟩
      simp [Tokenizer.TokenizeTokens, hc]
    | cons q rest2 =>
      have hc : ¬ tk.context.use_list_read + 1 = tk.context.use_list_count := by
        simp at hcount; omega
      obtain ⟨pos, ih⟩ := pass1_uses_loop (q :: rest2)
        { tk with
          context := { tk.context with
            use_list_read := tk.context.use_list_read + 1
            position := u.position + (u.token.utf8ByteSize : Int)
            current_state := if tk.context.use_list_read + 1 = tk.context.use_list_count
                             then .STATE_INSTRUCTION_LIST_START else .STATE_USE_LIST_READ
            next_state := if tk.context.use_list_read + 1 = tk.context.use_list_count
                          then .STATE_INSTRUCTION_LIST_START else .STATE_USE_LIST_READ } }
        hp (by simp [hc]) (by simp)
        (by simp at hcount ⊢; omega)
        (fun x hx => hwf x (List.mem_cons_of_mem _ hx))
      refine ⟨pos, ?_⟩
      rw [ih]

theorem pass1_instr_loop : ∀ (instrs : List (Token × Token)) (tk : Tokenizer),
    tk.token_processor = .SymbolTableGenerator →
    tk.context.current_state = .STATE_INSTRUCTION_TYPE_READ →
    instrs ≠ [] →
    tk.context.instruction_count = tk.context.instruction_read + (instrs.length : Int) →
    (∀ p ∈ instrs, (p.1.ReadAsIAER (Char.ofNat 0)).ok = true ∧ (p.2.ReadAsInt 0).ok = true) →
    ∃ li pos, tk.TokenizeTokens (pairTokens instrs) = .ok { tk with
      context := { tk.context with
        instruction_read := tk.context.instruction_count
        last_instruction := li
        position := pos
        current_state := .STATE_MODULE_START
        next_state := .STATE_MODULE_START } }
  | [], _, _, _, h, _, _ => absurd rfl h
  | p :: rest, tk, hp, hs, _, hcount, hwf => by
    obtain ⟨htag, hval⟩ := hwf p (List.mem_cons_self _ _)
    have e1 := ProcessOne_pass1_typeRead tk p.1 hp hs htag
    have e2 := ProcessOne_pass1_codeRead
      { tk with
        context := { tk.context with
          last_instruction := (p.1.ReadAsIAER (Char.ofNat 0)).val
          position := p.1.position + (p.1.token.utf8ByteSize : Int)
          current_state := .STATE_INSTRUCTION_CODE_READ
          next_state := .STATE_INSTRUCTION_CODE_READ } }
      p.2 hp rfl hval
    have etoks : pairTokens (p :: rest) = p.1 :: p.2 :: pairTokens rest := by
      simp [pairTokens]
    rw [etoks, TokenizeTokens_cons_ok _ e1, TokenizeTokens_cons_ok _ e2]
    cases rest with
    | nil =>
      have hc : tk.context.instruction_read + 1 = tk.context.instruction_count := by
        simp at hcount; omega
      refine ⟨(p.1.ReadAsIAER (Char.ofNat 0)).val,
        p.2.position + (p.2.token.utf8ByteSize : Int), ?_⟩
      simp [pairTokens, Tokenizer.TokenizeTokens, hc]
    | cons q rest2 =>
      have hc : ¬ tk.context.instruction_read + 1 = tk.context.instruction_count := by
        simp at hcount; omega
      obtain ⟨li, pos, ih⟩ := pass1_instr_loop (q :: rest2)
        { tk with
          context := { tk.context with
            last_instruction := (p.1.ReadAsIAER (Char.ofNat 0)).val
            instruction_read := tk.context.instruction_read + 1
            position := p.2.position + (p.2.token.utf8ByteSize : Int)
            current_state := if tk.context.instruction_read + 1 = tk.context.instruction_count
                             then .STATE_MODULE_START else .STATE_INSTRUCTION_TYPE_READ
            next_state := if tk.context.instruction_read + 1 = tk.context.instruction_count
                          then .STATE_MODULE_START else .STATE_INSTRUCTION_TYPE_READ } }
        hp (by simp [hc]) (by simp)
        (by simp at hcount ⊢; omega)
        (fun x hx => hwf x (List.mem_cons_of_mem _ hx))
      refine ⟨li, pos, ?_⟩
      rw [ih]

theorem pass1_defs_phase (defs : List (Token × Token)) (tk : Tokenizer)
    (hp : tk.token_processor = .SymbolTableGenerator)
    (hs : tk.context.current_state =
      if (defs.length : Int) ≠ 0 then .STATE_READ_DEFINITION_SYMBOL else .STATE_USE_LIST_START)
    (hn : tk.context.next_state = tk.context.current_state)
    (hcount : tk.context.definition_count = tk.context.definition_read + (defs.length : Int))
    (hwf : ∀ p ∈ defs, p.1.isSymbol ∧ (p.2.ReadAsInt 0).ok = true) :
    ∃ ls pos, tk.TokenizeTokens (pairTokens defs) = .ok { tk with
      context := { tk.context with
        definition_read := tk.context.definition_count
        last_symbol := ls
        position := pos
        current_state := .STATE_USE_LIST_START
        next_state := .STATE_USE_LIST_START }
      symbol_table :=
        pass1Defs tk.symbol_table tk.context.module_index tk.context.module_count defs } := by
  cases defs with
  | nil =>
    refine ⟨tk.context.last_symbol, tk.context.position, ?_⟩
    simp only [List.length_nil, Nat.cast_zero, ne_eq, not_true_eq_false, if_false,
      add_zero] at hs hcount
    rw [hs] at hn
    obtain ⟨tp, ctx, st, ul, out⟩ := tk
    obtain ⟨a1, a2, a3, a4, a5, a6, a7, a8, a9, a10, a11, a12, a13, a14, a15⟩ := ctx
    simp only at hs hn hcount
    subst hs; subst hn; subst hcount
    rfl
  | cons q rest =>
    have h0 : ((q :: rest).length : Int) ≠ 0 := by simp; omega
    rw [if_pos h0] at hs
    exact pass1_defs_loop (q :: rest) tk hp hs (by simp) hcount hwf

theorem pass1_uses_phase (uses : List Token) (tk : Tokenizer)
    (hp : tk.token_processor = .SymbolTableGenerator)
    (hs : tk.context.current_state =
      if (uses.length : Int) = 0 then .STATE_INSTRUCTION_LIST_START else .STATE_USE_LIST_READ)
    (hn : tk.context.next_state = tk.context.current_state)
    (hcount : tk.context.use_list_count = tk.context.use_list_read + (uses.length : Int))
    (hwf : ∀ u ∈ uses, u.isSymbol) :
    ∃ pos, tk.TokenizeTokens uses = .ok { tk with
      context := { tk.context with
        use_list_read := tk.context.use_list_count
        position := pos
        current_state := .STATE_INSTRUCTION_LIST_START
        next_state := .STATE_INSTRUCTION_LIST_START } } := by
  cases uses with
  | nil =>
    refine ⟨tk.context.position, ?_⟩
    simp only [List.length_nil, Nat.cast_zero, if_true, add_zero] at hs hcount
    rw [hs] at hn
    obtain ⟨tp, ctx, st, ul, out⟩ := tk
    obtain ⟨a1, a2, a3, a4, a5, a6, a7, a8, a9, a10, a11, a12, a13, a14, a15⟩ := ctx
    simp only at hs hn hcount
    subst hs; subst hn; subst hcount
    rfl
  | cons q rest =>
    have h0 : ¬ ((q :: rest).length : Int) = 0 := by simp; omega
    rw [if_neg h0] at hs
    exact pass1_uses_loop (q :: rest) tk hp hs (by simp) hcount hwf

theorem pass1_instr_phase (instrs : List (Token × Token)) (tk : Tokenizer)
    (hp : tk.token_processor = .SymbolTableGenerator)
    (hs : tk.context.current_state =
      if (instrs.length : Int) ≠ 0 then .STATE_INSTRUCTION_TYPE_READ else .STATE_MODULE_START)
    (hn : tk.context.next_state = tk.context.current_state)
    (hcount : tk.context.instruction_count =
      tk.context.instruction_read + (instrs.length : Int))
    (hwf : ∀ p ∈ instrs,
      (p.1.ReadAsIAER (Char.ofNat 0)).ok = true ∧ (p.2.ReadAsInt 0).ok = true) :
    ∃ li pos, tk.TokenizeTokens (pairTokens instrs) = .ok { tk with
      context := { tk.context with
        instruction_read := tk.context.instruction_count
        last_instruction := li
        position := pos
        current_state := .STATE_MODULE_START
        next_state := .STATE_MODULE_START } } := by
  cases instrs with
  | nil =>
    refine ⟨tk.context.last_instruction, tk.context.position, ?_⟩
    simp only [List.length_nil, Nat.cast_zero, ne_eq, not_true_eq_false, if_false,
      add_zero] at hs hcount
    rw [hs] at hn
    obtain ⟨tp, ctx, st, ul, out⟩ := tk
    obtain ⟨a1, a2, a3, a4, a5, a6, a7, a8, a9, a10, a11, a12, a13, a14, a15⟩ := ctx
    simp only at hs hn hcount
    subst hs; subst hn; subst hcount
    rfl
  | cons q rest =>
    have h0 : ((q :: rest).length : Int) ≠ 0 := by simp; omega
    rw [if_pos h0] at hs
    exact pass1_instr_loop (q :: rest) tk hp hs (by simp) hcount hwf

theorem tokens_eq (m : ObjectModule) :
    m.tokens = m.def_count :: (pairTokens m.definitions ++
      m.use_count :: (m.uses ++ m.instr_count :: pairTokens m.instructions)) := by
  simp [ObjectModule.tokens, List.append_assoc]

/-- Pass 1 over the tokens of one well-formed module, started at a module boundary. -/
theorem pass1_module (m : ObjectModule) (tk : Tokenizer)
    (hp : tk.token_processor = .SymbolTableGenerator)
    (hs : tk.context.current_state = .STATE_MODULE_START)
    (hmc : 0 ≤ tk.context.module_count) (hmi : 0 ≤ tk.context.module_index)
    (hic : 0 ≤ tk.context.instruction_count)
    (hfit : tk.context.module_index + tk.context.instruction_count + m.size ≤ 512)
    (hwf : m.WellFormed) :
    ∃ ls li pos, tk.TokenizeTokens m.tokens = .ok { tk with
      context :=
        { module_index := tk.context.module_index + tk.context.instruction_count
          module_count := tk.context.module_count + 1
          last_symbol := ls
          last_instruction := li
          definition_read := (m.definitions.length : Int)
          definition_count := (m.definitions.length : Int)
          use_list_read := (m.uses.length : Int)
          use_list_count := (m.uses.length : Int)
          instruction_count := m.size
          instruction_read := m.size
          last_module_instruction_count := tk.context.instruction_count
          current_state := .STATE_MODULE_START
          next_state := .STATE_MODULE_START
          index := tk.context.index
          position := pos }
      symbol_table := pass1Defs
        (tk.symbol_table.VerifySymbol tk.context.module_count tk.context.instruction_count
          (tk.context.module_index + tk.context.instruction_count)).1
        (tk.context.module_index + tk.context.instruction_count)
        (tk.context.module_count + 1) m.definitions
      cout := tk.cout ++
        (tk.symbol_table.VerifySymbol tk.context.module_count tk.context.instruction_count
          (tk.context.module_index + tk.context.instruction_count)).2 } := by
  obtain ⟨hd, hd16, hdefs, hu, hu16, huses, hi, hinstrs⟩ := hwf
  have hsize : m.size = (m.instructions.length : Int) := rfl
  have hw : wrap32 (tk.context.module_index + tk.context.instruction_count) =
      tk.context.module_index + tk.context.instruction_count :=
    wrap32_eq _ (by omega) (by omega)
  -- the definition count
  have e1 := ProcessOne_pass1_moduleStart tk m.def_count _ hp hs hd (by omega) hmc
  rw [hw] at e1
  obtain ⟨tk1, htk1, e1⟩ : ∃ tk1, tk1 = _ ∧ tk.ProcessOne m.def_count = .ok tk1 :=
    ⟨_, rfl, e1⟩
  -- the definitions
  obtain ⟨ls, pos2, e2⟩ := pass1_defs_phase m.definitions tk1
    (by rw [htk1]; exact hp) (by rw [htk1]) (by rw [htk1])
    (by rw [htk1]; simp [ParsingContext.startModule]) hdefs
  obtain ⟨tk2, htk2, e2⟩ : ∃ tk2, tk2 = _ ∧
      tk1.TokenizeTokens (pairTokens m.definitions) = .ok tk2 := ⟨_, rfl, e2⟩
  -- the use count
  have e3 := ProcessOne_pass1_useStart tk2 m.use_count _
    (by rw [htk2, htk1]; exact hp) (by rw [htk2]) hu (by omega)
  obtain ⟨tk3, htk3, e3⟩ : ∃ tk3, tk3 = _ ∧ tk2.ProcessOne m.use_count = .ok tk3 :=
    ⟨_, rfl, e3⟩
  -- the use list
  obtain ⟨pos4, e4⟩ := pass1_uses_phase m.uses tk3
    (by rw [htk3, htk2, htk1]; exact hp) (by rw [htk3]) (by rw [htk3])
    (by rw [htk3, htk2, htk1]; simp [ParsingContext.startModule]) huses
  obtain ⟨tk4, htk4, e4⟩ : ∃ tk4, tk4 = _ ∧ tk3.TokenizeTokens m.uses = .ok tk4 :=
    ⟨_, rfl, e4⟩
  -- the instruction count
  have hmi4 : tk4.context.module_index =
      tk.context.module_index + tk.context.instruction_count := by
    rw [htk4, htk3, htk2, htk1]; simp [ParsingContext.startModule, hw]
  have e5 := ProcessOne_pass1_instrStart tk4 m.instr_count _
    (by rw [htk4, htk3, htk2, htk1]; exact hp) (by rw [htk4]) hi
    (by rw [hmi4, wrap32_eq _ (by omega) (by omega)]; omega)
  obtain ⟨tk5, htk5, e5⟩ : ∃ tk5, tk5 = _ ∧ tk4.ProcessOne m.instr_count = .ok tk5 :=
    ⟨_, rfl, e5⟩
  -- the instructions
  obtain ⟨li, pos6, e6⟩ := pass1_instr_phase m.instructions tk5
    (by rw [htk5, htk4, htk3, htk2, htk1]; exact hp) (by rw [htk5]) (by rw [htk5])
    (by rw [htk5, htk4, htk3, htk2, htk1]; simp [ParsingContext.startModule]) hinstrs
  refine ⟨ls, li, pos6, ?_⟩
  rw [tokens_eq, TokenizeTokens_cons_ok _ e1, TokenizeTokens_append _ _ _ _ e2,
    TokenizeTokens_cons_ok _ e3, TokenizeTokens_append _ _ _ _ e4,
    TokenizeTokens_cons_ok _ e5, e6]
  subst htk5; subst htk4; subst htk3; subst htk2; subst htk1
  simp [ParsingContext.startModule, hsize, hw]

/-! ## Pass 1 over a program -/

theorem size_nonneg (m : ObjectModule) : 0 ≤ m.size := by
  unfold ObjectModule.size; omega

theorem programSize_nonneg : ∀ prog : List ObjectModule, 0 ≤ programSize prog
  | [] => by simp [programSize]
  | m :: rest => by
    have h1 := size_nonneg m
    have h2 := programSize_nonneg rest
    simp only [programSize, List.map_cons, List.sum_cons] at h2 ⊢
    omega

theorem programSize_cons (m : ObjectModule) (rest : List ObjectModule) :
    programSize (m :: rest) = m.size + programSize rest := by
  simp [programSize]

theorem programSize_append (a b : List ObjectModule) :
    programSize (a ++ b) = programSize a + programSize b := by
  simp [programSize]

/-- Pass 1 over the tokens of a well-formed program, started at a module boundary: the
token loop ends at a module boundary, and what is left to do at the end of the input
gives the table and the output of `pass1Final`. -/
theorem pass1_program : ∀ (prog : List ObjectModule) (tk : Tokenizer),
    tk.token_processor = .SymbolTableGenerator →
    tk.context.current_state = .STATE_MODULE_START →
    0 ≤ tk.context.module_count → 0 ≤ tk.context.module_index →
    0 ≤ tk.context.instruction_count →
    tk.context.module_index + tk.context.instruction_count + programSize prog ≤ 512 →
    (∀ m ∈ prog, m.WellFormed) →
    ∃ tk1, tk.TokenizeTokens (programTokens prog) = .ok tk1 ∧
      tk1.token_processor = .SymbolTableGenerator ∧
      tk1.context.current_state = .STATE_MODULE_START ∧
      0 ≤ tk1.context.module_count ∧ 0 ≤ tk1.context.module_index ∧
      0 ≤ tk1.context.instruction_count ∧
      tk1.context.module_index + tk1.context.instruction_count ≤ 512 ∧
      tk1.context.module_count = tk.context.module_count + (prog.length : Int) ∧
      tk1.context.module_index + tk1.context.instruction_count =
        tk.context.module_index + tk.context.instruction_count + programSize prog ∧
      pass1Final [] tk1.symbol_table tk1.cout tk1.context.module_count
          tk1.context.module_index tk1.context.instruction_count =
        pass1Final prog tk.symbol_table tk.cout tk.context.module_count
          tk.context.module_index tk.context.instruction_count
  | [], tk, hp, hs, hmc, hmi, hic, hfit, _ => by
    refine ⟨tk, rfl, hp, hs, hmc, hmi, hic, ?_, ?_, ?_, rfl⟩
    · simp [programSize] at hfit; exact hfit
    · simp
    · simp [programSize]
  | m :: rest, tk, hp, hs, hmc, hmi, hic, hfit, hwf => by
    have hsz := size_nonneg m
    have hrest := programSize_nonneg rest
    rw [programSize_cons] at hfit
    obtain ⟨ls, li, pos, e1⟩ := pass1_module m tk hp hs hmc hmi hic (by omega)
      (hwf m (List.mem_cons_self _ _))
    obtain ⟨tk1, htk1, e1⟩ : ∃ tk1, tk1 = _ ∧ tk.TokenizeTokens m.tokens = .ok tk1 :=
      ⟨_, rfl, e1⟩
    obtain ⟨tk2, e2, h2p, h2s, h2mc, h2mi, h2ic, h2fit, h2cnt, h2sum, h2fin⟩ :=
      pass1_program rest tk1 (by rw [htk1]; exact hp) (by rw [htk1])
        (by rw [htk1]; show 0 ≤ tk.context.module_count + 1; omega)
        (by rw [htk1]; show 0 ≤ tk.context.module_index + tk.context.instruction_count; omega)
        (by rw [htk1]; exact hsz)
        (by rw [htk1]
            show tk.context.module_index + tk.context.instruction_count + m.size +
              programSize rest ≤ 512
            omega)
        (fun x hx => hwf x (List.mem_cons_of_mem _ hx))
    refine ⟨tk2, ?_, h2p, h2s, h2mc, h2mi, h2ic, h2fit, ?_, ?_, ?_⟩
    · have : programTokens (m :: rest) = m.tokens ++ programTokens rest := by
        simp [programTokens]
      rw [this, TokenizeTokens_append _ _ _ _ e1]
      exact e2
    · rw [h2cnt, htk1]
      show tk.context.module_count + 1 + (rest.length : Int) = _
      simp only [List.length_cons]; push_cast; omega
    · rw [h2sum, htk1, programSize_cons]
      show tk.context.module_index + tk.context.instruction_count + m.size +
        programSize rest = _
      omega
    · rw [h2fin, htk1]
      rfl

/-- The end of pass 1 at a module boundary: the last Rule 5 check. -/
theorem pass1_Finish (tk : Tokenizer)
    (hp : tk.token_processor = .SymbolTableGenerator)
    (hs : tk.context.current_state = .STATE_MODULE_START)
    (hmc : 0 ≤ tk.context.module_count) (hmi : 0 ≤ tk.context.module_index)
    (hic : 0 ≤ tk.context.instruction_count)
    (hfit : tk.context.module_index + tk.context.instruction_count ≤ 512) :
    ∃ tk1, tk.Finish = .ok tk1 ∧
      tk1.context.next_state = .STATE_TERMINATED ∧
      tk1.symbol_table = (pass1Final [] tk.symbol_table tk.cout tk.context.module_count
        tk.context.module_index tk.context.instruction_count).1 ∧
      tk1.cout = (pass1Final [] tk.symbol_table tk.cout tk.context.module_count
        tk.context.module_index tk.context.instruction_count).2 := by
  have hw : wrap32 (tk.context.module_index + tk.context.instruction_count) =
      tk.context.module_index + tk.context.instruction_count :=
    wrap32_eq _ (by omega) (by omega)
  have hneg : ¬ (tk.context.module_count + 1 - 1 < 0) := by omega
  have hmc' : tk.context.module_count + 1 - 1 = tk.context.module_count := by omega
  have e : tk.Finish = .ok { tk with
      context := { tk.context.startModule with next_state := .STATE_TERMINATED }
      symbol_table := (tk.symbol_table.VerifySymbol tk.context.module_count
        tk.context.instruction_count
        (tk.context.module_index + tk.context.instruction_count)).1
      cout := tk.cout ++ (tk.symbol_table.VerifySymbol tk.context.module_count
        tk.context.instruction_count
        (tk.context.module_index + tk.context.instruction_count)).2 } := by
    unfold Tokenizer.Finish
    simp only [ParsingContext.HandleEnd, hs, ne_eq, not_true_eq_false, if_false,
      hp, TokenProcessor.Stop, SymbolTableGenerator.Stop,
      SymbolTableGenerator.HandleModuleChange, ParsingContext.startModule, hw, if_neg hneg,
      hmc', if_neg (show ¬ tk.context.module_count < 0 by omega)]
  exact ⟨_, e, rfl, rfl, rfl⟩

/-! ## What pass 1 does to one symbol -/

theorem find_VerifySymbol (T : SymbolTable) (lm ls cur : Int) (t : String) :
    (T.VerifySymbol lm ls cur).1.find t =
      (T.find t).map (verifyEntry lm ls (wrap32 (cur - ls))) := by
  unfold SymbolTable.VerifySymbol
  exact find_VerifySymbolLoop _ _ _ _ _

theorem find_pass1Defs_none (s : String) (b m : Int) : ∀ (defs : List (Token × Token))
    (T : SymbolTable), (∀ p ∈ defs, p.1.token ≠ s) → T.find s = none →
    (pass1Defs T b m defs).find s = none
  | [], T, _, h => h
  | p :: rest, T, hne, h => by
    have hp : s ≠ p.1.token := fun e => hne p (List.mem_cons_self _ _) e.symm
    have h1 : (T.AddSymbol p.1.token (wrap32 ((p.2.ReadAsInt 0).val + b)) m).find s = none := by
      rw [find_AddSymbol, if_neg hp]; exact h
    exact find_pass1Defs_none s b m rest _ (fun x hx => hne x (List.mem_cons_of_mem _ hx)) h1

/-- An entry keeps its value and its module through every later `AddSymbol`. -/
theorem AddSymbol_keeps (T : SymbolTable) (s t : String) (v m V M : Int)
    (h : ∃ d, T.find s = some d ∧ d.value = V ∧ d.module = M) :
    ∃ d, (T.AddSymbol t v m).find s = some d ∧ d.value = V ∧ d.module = M := by
  obtain ⟨d, hd, hv, hm⟩ := h
  rw [find_AddSymbol]
  by_cases hst : s = t
  · subst hst
    rw [if_pos rfl, hd]
    exact ⟨_, rfl, hv, hm⟩
  · rw [if_neg hst]
    exact ⟨d, hd, hv, hm⟩

theorem pass1Defs_keeps (s : String) (b m V M : Int) : ∀ (defs : List (Token × Token))
    (T : SymbolTable), (∃ d, T.find s = some d ∧ d.value = V ∧ d.module = M) →
    ∃ d, (pass1Defs T b m defs).find s = some d ∧ d.value = V ∧ d.module = M
  | [], _, h => h
  | p :: rest, T, h =>
    pass1Defs_keeps s b m V M rest _ (AddSymbol_keeps T s p.1.token _ m V M h)

theorem VerifySymbol_keeps (T : SymbolTable) (s : String) (lm ls cur V M : Int) (hne : M ≠ lm)
    (h : ∃ d, T.find s = some d ∧ d.value = V ∧ d.module = M) :
    ∃ d, (T.VerifySymbol lm ls cur).1.find s = some d ∧ d.value = V ∧ d.module = M := by
  obtain ⟨d, hd, hv, hm⟩ := h
  rw [find_VerifySymbol, hd]
  have hdm : d.module ≠ lm := by rw [hm]; exact hne
  refine ⟨d, ?_, hv, hm⟩
  simp [verifyEntry, hdm]

/-- An entry of module `M` keeps its value through the rest of pass 1 once the Rule 5
check of module `M` is done. -/
theorem pass1Final_keeps (s : String) (V M : Int) : ∀ (prog : List ObjectModule)
    (T : SymbolTable) (out : List Output) (mc mi ic : Int), M < mc →
    (∃ d, T.find s = some d ∧ d.value = V ∧ d.module = M) →
    ∃ d, (pass1Final prog T out mc mi ic).1.find s = some d ∧ d.value = V ∧ d.module = M
  | [], T, out, mc, mi, ic, hlt, h =>
    VerifySymbol_keeps T s mc ic (mi + ic) V M (by omega) h
  | m :: rest, T, out, mc, mi, ic, hlt, h => by
    unfold pass1Final
    exact pass1Final_keeps s V M rest _ _ _ _ _ (by omega)
      (pass1Defs_keeps s _ _ V M _ _ (VerifySymbol_keeps T s mc ic (mi + ic) V M (by omega) h))

theorem pass1Final_cout_mono (x : Output) : ∀ (prog : List ObjectModule)
    (T : SymbolTable) (out : List Output) (mc mi ic : Int), x ∈ out →
    x ∈ (pass1Final prog T out mc mi ic).2
  | [], T, out, mc, mi, ic, h => List.mem_append_left _ h
  | m :: rest, T, out, mc, mi, ic, h => by
    unfold pass1Final
    exact pass1Final_cout_mono x rest _ _ _ _ _ (List.mem_append_left _ h)

/-- The Rule 5 check of the module that was just read: the check is the first thing
that the rest of pass 1 does, whether another module follows or the input ends. -/
theorem pass1Final_after_module (s : String) (d : SymbolData) (post : List ObjectModule)
    (T : SymbolTable) (out : List Output) (mc mi ic : Int)
    (hfind : T.find s = some d) (hmod : d.module = mc) :
    (∃ e, (pass1Final post T out mc mi ic).1.find s = some e ∧
      e.value = (verifyEntry mc ic (wrap32 (mi + ic - ic)) d).value ∧ e.module = mc) ∧
    (wrap32 (d.value - wrap32 (mi + ic - ic)) ≥ ic →
      Output.rule5Warning mc s (wrap32 (d.value - wrap32 (mi + ic - ic))) (wrap32 (ic - 1)) ∈
        (pass1Final post T out mc mi ic).2) := by
  have hv : ∃ e, (T.VerifySymbol mc ic (mi + ic)).1.find s = some e ∧
      e.value = (verifyEntry mc ic (wrap32 (mi + ic - ic)) d).value ∧ e.module = mc := by
    rw [find_VerifySymbol, hfind]
    refine ⟨_, rfl, rfl, ?_⟩
    unfold verifyEntry
    split
    · exact hmod
    · split <;> exact hmod
  have hw : wrap32 (d.value - wrap32 (mi + ic - ic)) ≥ ic →
      Output.rule5Warning mc s (wrap32 (d.value - wrap32 (mi + ic - ic))) (wrap32 (ic - 1)) ∈
        (T.VerifySymbol mc ic (mi + ic)).2 := by
    intro hge
    unfold SymbolTable.VerifySymbol
    exact warning_VerifySymbolLoop mc ic _ T s d (find_mem hfind) hmod hge
  cases post with
  | nil =>
    unfold pass1Final
    exact ⟨hv, fun hge => List.mem_append_right _ (hw hge)⟩
  | cons m rest =>
    unfold pass1Final
    refine ⟨?_, fun hge => ?_⟩
    · exact pass1Final_keeps s _ mc rest _ _ _ _ _ (by omega)
        (pass1Defs_keeps s _ _ _ mc _ _ hv)
    · exact pass1Final_cout_mono _ rest _ _ _ _ _ (List.mem_append_right _ (hw hge))

theorem wrap32_sub_add (r base : Int) (h1 : -2147483648 ≤ r) (h2 : r ≤ 2147483647)
    (_h3 : 0 ≤ base) (_h4 : base ≤ 512) : wrap32 (wrap32 (r + base) - base) = r := by
  unfold wrap32; omega

theorem pass1Defs_append (T : SymbolTable) (b m : Int) (l1 l2 : List (Token × Token)) :
    pass1Defs T b m (l1 ++ l2) = pass1Defs (pass1Defs T b m l1) b m l2 := by
  simp [pass1Defs, List.foldl_append]

/-- The first definition of a symbol: in the table at the end of pass 1 the symbol
belongs to the defining module and has the value base + r, or the base when r is not
below the module's instruction count, in which case the Rule 5 warning was written. -/
theorem pass1Final_first_definition (s : String) (sym val : Token) (r : Int)
    (dpre dpost : List (Token × Token)) (md : ObjectModule) (post : List ObjectModule)
    (hsym : sym.token = s) (hval : val.isInt r)
    (hdefs : md.definitions = dpre ++ (sym, val) :: dpost)
    (hdpre : ∀ p ∈ dpre, p.1.token ≠ s) :
    ∀ (pre : List ObjectModule) (T : SymbolTable) (out : List Output) (mc mi ic : Int),
    (∀ x ∈ pre, ∀ p ∈ x.definitions, p.1.token ≠ s) →
    T.find s = none → 0 ≤ mi + ic →
    mi + ic + programSize (pre ++ md :: post) ≤ 512 →
    (∃ e, (pass1Final (pre ++ md :: post) T out mc mi ic).1.find s = some e ∧
      e.module = mc + (pre.length : Int) + 1 ∧
      e.value = if r < md.size then mi + ic + programSize pre + r
                else mi + ic + programSize pre) ∧
    (md.size ≤ r →
      Output.rule5Warning (mc + (pre.length : Int) + 1) s r (md.size - 1) ∈
        (pass1Final (pre ++ md :: post) T out mc mi ic).2)
  | [], T, out, mc, mi, ic, _, hT, h0, hfit => by
    obtain ⟨hr1, hr2⟩ := isInt_range hval
    have hsz := size_nonneg md
    have hpost := programSize_nonneg post
    simp only [List.nil_append, programSize_cons] at hfit
    simp only [List.nil_append, List.length_nil, Nat.cast_zero, add_zero]
    have hps : programSize [] = 0 := by simp [programSize]
    rw [hps, add_zero]
    -- the table after the definitions of the module
    have h1 : (T.VerifySymbol mc ic (mi + ic)).1.find s = none := by
      rw [find_VerifySymbol, hT]; rfl
    have h2 := find_pass1Defs_none s (mi + ic) (mc + 1) dpre _ hdpre h1
    have h3 : ∃ d, (pass1Defs (T.VerifySymbol mc ic (mi + ic)).1 (mi + ic) (mc + 1)
        md.definitions).find s = some d ∧ d.value = wrap32 (r + (mi + ic)) ∧
        d.module = mc + 1 := by
      rw [hdefs, pass1Defs_append]
      have : pass1Defs (pass1Defs (T.VerifySymbol mc ic (mi + ic)).1 (mi + ic) (mc + 1) dpre)
          (mi + ic) (mc + 1) ((sym, val) :: dpost) =
          pass1Defs ((pass1Defs (T.VerifySymbol mc ic (mi + ic)).1 (mi + ic) (mc + 1)
            dpre).AddSymbol sym.token (wrap32 ((val.ReadAsInt 0).val + (mi + ic))) (mc + 1))
            (mi + ic) (mc + 1) dpost := rfl
      rw [this]
      apply pass1Defs_keeps
      rw [find_AddSymbol, hsym, if_pos rfl, h2]
      refine ⟨_, rfl, ?_, rfl⟩
      show wrap32 ((val.ReadAsInt 0).val + (mi + ic)) = _
      rw [ReadAsInt_of_isInt hval]
    obtain ⟨d, hd, hdv, hdm⟩ := h3
    have key := pass1Final_after_module s d post _ (out ++ (T.VerifySymbol mc ic (mi + ic)).2)
      (mc + 1) (mi + ic) md.size hd hdm
    have hbase : wrap32 (mi + ic + md.size - md.size) = mi + ic := by
      rw [wrap32_eq _ (by omega) (by omega)]; omega
    have hrel : wrap32 (d.value - wrap32 (mi + ic + md.size - md.size)) = r := by
      rw [hbase, hdv]
      exact wrap32_sub_add r (mi + ic) hr1 hr2 h0 (by omega)
    rw [hrel, hbase] at key
    have hmax : wrap32 (md.size - 1) = md.size - 1 := wrap32_eq _ (by omega) (by omega)
    rw [hmax] at key
    obtain ⟨⟨e, he, hev, hem⟩, hwarn⟩ := key
    refine ⟨⟨e, he, hem, ?_⟩, fun hge => hwarn hge⟩
    rw [hev]
    unfold verifyEntry
    have hdm' : ¬ d.module ≠ mc + 1 := fun h => h hdm
    rw [if_neg hdm']
    have hrel2 : wrap32 (d.value - (mi + ic)) = r := by
      rw [hdv]; exact wrap32_sub_add r (mi + ic) hr1 hr2 h0 (by omega)
    rw [hrel2]
    by_cases hlt : r < md.size
    · rw [if_neg (by omega), if_pos hlt, hdv, wrap32_eq _ (by omega) (by omega)]
      omega
    · rw [if_pos (by omega), if_neg hlt]
  | p :: pre, T, out, mc, mi, ic, hpre, hT, h0, hfit => by
    have hsz := size_nonneg p
    simp only [List.cons_append, programSize_cons] at hfit
    have h1 : (T.VerifySymbol mc ic (mi + ic)).1.find s = none := by
      rw [find_VerifySymbol, hT]; rfl
    have h2 := find_pass1Defs_none s (mi + ic) (mc + 1) p.definitions _
      (hpre p (List.mem_cons_self _ _)) h1
    have ih := pass1Final_first_definition s sym val r dpre dpost md post hsym hval hdefs
      hdpre pre _ (out ++ (T.VerifySymbol mc ic (mi + ic)).2) (mc + 1) (mi + ic) p.size
      (fun x hx => hpre x (List.mem_cons_of_mem _ hx)) h2 (by omega) (by omega)
    have e1 : mc + 1 + (pre.length : Int) + 1 = mc + ((p :: pre).length : Int) + 1 := by
      simp only [List.length_cons]; push_cast; omega
    have e2 : mi + ic + p.size + programSize pre = mi + ic + programSize (p :: pre) := by
      rw [programSize_cons]; omega
    rw [e1, e2] at ih
    exact ih

/-- Pass 1 on a well-formed program runs to the end, and its table and output are
those of `pass1Final`. -/
theorem pass1_run (prog : List ObjectModule) (hwf : WellFormedProgram prog) :
    ∃ tk, (Tokenizer.create .SymbolTableGenerator [] []).run (programTokens prog) = .ok tk ∧
      tk.context.next_state = .STATE_TERMINATED ∧
      tk.symbol_table = (pass1Final prog [] [] 0 0 0).1 ∧
      tk.cout = (pass1Final prog [] [] 0 0 0).2 := by
  obtain ⟨hmods, hsum⟩ := hwf
  obtain ⟨tk1, e1, h1p, h1s, h1mc, h1mi, h1ic, h1fit, _, _, h1fin⟩ :=
    pass1_program prog (Tokenizer.create .SymbolTableGenerator [] []) rfl rfl
      (by decide) (by decide) (by decide)
      (by show (0 : Int) + 0 + programSize prog ≤ 512; omega) hmods
  obtain ⟨tk2, e2, h2n, h2t, h2c⟩ := pass1_Finish tk1 h1p h1s h1mc h1mi h1ic h1fit
  refine ⟨tk2, ?_, h2n, ?_, ?_⟩
  · unfold Tokenizer.run
    rw [e1]
    exact e2
  · rw [h2t, h1fin]; rfl
  · rw [h2c, h1fin]; rfl

/-! ## The driver and the bare state machine -/

theorem ProcessState_position (ctx : ParsingContext) (t : Token) (p : Int) :
    ({ ctx with position := p } : ParsingContext).ProcessState t =
      ({ (ctx.ProcessState t).1 with position := p }, (ctx.ProcessState t).2) := by
  unfold ParsingContext.ProcessState
  cases h : ctx.current_state <;>
    simp only [h, ParsingContext.HandleModuleStart, ParsingContext.HandleReadDefinitionSymbol,
      ParsingContext.HandleReadDefinitionValue, ParsingContext.HandleUseListStart,
      ParsingContext.HandleUseListRead, ParsingContext.HandleInstructionListStart,
      ParsingContext.HandleInstructionTypeRead, ParsingContext.HandleInstructionCodeRead,
      ParsingContext.startModule] <;>
    (repeat' split) <;> rfl

theorem feed_position : ∀ (toks : List Token) (ctx : ParsingContext) (p : Int),
    ({ ctx with position := p } : ParsingContext).feed toks =
      { ctx.feed toks with position := p }
  | [], _, _ => rfl
  | t :: ts, ctx, p => by
    simp only [ParsingContext.feed, ProcessState_position]
    exact feed_position ts (ctx.ProcessState t).1.AdvanceState p

theorem neverSyntaxError_position : ∀ (toks : List Token) (ctx : ParsingContext) (p : Int),
    ({ ctx with position := p } : ParsingContext).neverSyntaxError toks ↔
      ctx.neverSyntaxError toks
  | [], _, _ => Iff.rfl
  | t :: ts, ctx, p => by
    simp only [ParsingContext.neverSyntaxError, ProcessState_position]
    exact and_congr Iff.rfl (neverSyntaxError_position ts (ctx.ProcessState t).1.AdvanceState p)

/-- A token loop of the driver that ends without a throw took the state machine
through the same states as `feed`, and never into `STATE_SYNTAX_ERROR`. -/
theorem TokenizeTokens_ok_feed : ∀ (toks : List Token) (tk tk1 : Tokenizer),
    tk.TokenizeTokens toks = .ok tk1 →
    tk.context.neverSyntaxError toks ∧
      ∃ p, tk1.context = { tk.context.feed toks with position := p }
  | [], tk, tk1, h => by
    simp only [Tokenizer.TokenizeTokens, Except.ok.injEq] at h
    subst h
    exact ⟨trivial, tk.context.position, rfl⟩
  | t :: ts, tk, tk1, h => by
    simp only [Tokenizer.TokenizeTokens] at h
    cases hp : tk.ProcessOne t with
    | error e => simp [hp] at h
    | ok tk2 =>
      simp only [hp] at h
      obtain ⟨hn, p, hfeed⟩ := TokenizeTokens_ok_feed ts tk2 tk1 h
      unfold Tokenizer.ProcessOne at hp
      by_cases herr : (tk.context.ProcessState t).1.next_state = .STATE_SYNTAX_ERROR
      · simp [herr] at hp
      · simp only [herr, if_false, Except.ok.injEq] at hp
        have hctx : tk2.context =
            { (tk.context.ProcessState t).1.AdvanceState with
              position := t.position + (t.token.utf8ByteSize : Int) } := by
          rw [← hp]; rfl
        rw [hctx] at hn hfeed
        rw [neverSyntaxError_position] at hn
        rw [feed_position] at hfeed
        exact ⟨⟨herr, hn⟩, p, hfeed⟩

/-! ## Validators -/

theorem isAlpha_iff (c : Char) : c.isAlpha = true ↔
    ((65 ≤ c.toNat ∧ c.toNat ≤ 90) ∨ (97 ≤ c.toNat ∧ c.toNat ≤ 122)) := by
  simp only [Char.isAlpha, Char.isUpper, Char.isLower, Char.toNat, Bool.or_eq_true, Bool.and_eq_true, decide_eq_true_eq, ge_iff_le, UInt32.le_def, BitVec.le_def]
  exact Iff.rfl

theorem isAlphanum_iff (c : Char) : c.isAlphanum = true ↔
    ((65 ≤ c.toNat ∧ c.toNat ≤ 90) ∨ (97 ≤ c.toNat ∧ c.toNat ≤ 122) ∨
      (48 ≤ c.toNat ∧ c.toNat ≤ 57)) := by
  simp only [Char.isAlphanum, Char.isDigit, Char.isAlpha, Char.isUpper, Char.isLower, Char.toNat, Bool.or_eq_true, Bool.and_eq_true, decide_eq_true_eq, ge_iff_le, UInt32.le_def, BitVec.le_def, or_assoc]
  exact Iff.rfl

theorem utf8ByteSize_go_pos (c : Char) (cs : List Char) :
    1 ≤ String.utf8ByteSize.go (c :: cs) := by
  simp only [String.utf8ByteSize.go]
  have := Char.utf8Size_pos c
  omega

/-! ## The use list as a map -/

theorem UseList_AddSymbol_append : ∀ (ul : UseList) (s : String) (i : Int),
    (∀ e ∈ ul, e.1 < i) → ul.AddSymbol s i = ul ++ [(i, { symbol := s, used := false })]
  | [], _, _, _ => rfl
  | (k, e) :: rest, s, i, h => by
    have hk : k < i := h (k, e) (List.mem_cons_self _ _)
    have ih := UseList_AddSymbol_append rest s i (fun x hx => h x (List.mem_cons_of_mem _ hx))
    simp only [UseList.AddSymbol, if_neg (show ¬ k = i by omega), if_neg (show ¬ i < k by omega),
      List.cons_append]
    exact congrArg _ ih

theorem UseList_find_none_of_lt : ∀ (ul : UseList) (i : Int),
    (∀ e ∈ ul, e.1 < i) → ul.find i = none
  | [], _, _ => rfl
  | (k, e) :: rest, i, h => by
    have hk : k < i := h (k, e) (List.mem_cons_self _ _)
    simp only [UseList.find, if_neg (show ¬ k = i by omega)]
    exact UseList_find_none_of_lt rest i (fun x hx => h x (List.mem_cons_of_mem _ hx))

/-- The keys of the use list that pass 2 builds stay below the number of tokens read. -/
theorem pass2Uses_keys_lt : ∀ (uses : List Token) (ul : UseList) (j : Int),
    (∀ e ∈ ul, e.1 < j) → ∀ e ∈ pass2Uses uses ul j, e.1 < j + (uses.length : Int)
  | [], ul, j, h => by
    intro e he
    have := h e he
    simp only [List.length_nil, Nat.cast_zero, add_zero]
    exact this
  | u :: rest, ul, j, h => by
    intro e he
    unfold pass2Uses at he
    have hj : j + 1 - 1 = j := by omega
    rw [hj, UseList_AddSymbol_append ul _ j h] at he
    have := pass2Uses_keys_lt rest _ (j + 1) (by
      intro x hx
      rcases List.mem_append.mp hx with hx | hx
      · have := h x hx; omega
      · simp only [List.mem_singleton] at hx
        rw [hx]; show j < j + 1; omega) e he
    simp only [List.length_cons]; push_cast; omega

theorem pass2Uses_no_entry_at_length (uses : List Token) :
    (pass2Uses uses [] 0).Has (uses.length : Int) = false := by
  unfold UseList.Has
  have := UseList_find_none_of_lt (pass2Uses uses [] 0) (uses.length : Int) (by
    intro e he
    have := pass2Uses_keys_lt uses [] 0 (by simp) e he
    omega)
  rw [this]; rfl

theorem Translate_rule6 (c : Int) (ctx : ParsingContext) (st : SymbolTable) (ul : UseList)
    (h0 : 0 ≤ c) (h9 : c ≤ 9999) (hhas : ul.Has (c % 1000) = false) :
    InstructionGenerator.Translate 'E' c ctx st ul =
      ⟨c, "Error: External address exceeds length of uselist; treated as immediate",
        st, ul⟩ := by
  obtain ⟨hd, hm⟩ := tdiv_tmod_nonneg h0
  have hop : ¬ (c / 1000 ≥ 10) := by omega
  unfold InstructionGenerator.Translate
  simp only [hd, hm, kMaxOperand, kMaxOpCode]
  rw [if_neg (by intro h; exact hop h.1), if_neg (by decide), if_neg (by decide),
    if_neg (by decide), if_pos trivial, hhas]
  rfl

/-! ## End of input -/

theorem ProcessState_next_ne_terminated (ctx : ParsingContext) (t : Token)
    (h : ctx.next_state ≠ .STATE_TERMINATED) :
    (ctx.ProcessState t).1.next_state ≠ .STATE_TERMINATED := by
  unfold ParsingContext.ProcessState
  cases hs : ctx.current_state <;>
    simp only [ParsingContext.HandleModuleStart, ParsingContext.HandleReadDefinitionSymbol,
      ParsingContext.HandleReadDefinitionValue, ParsingContext.HandleUseListStart,
      ParsingContext.HandleUseListRead, ParsingContext.HandleInstructionListStart,
      ParsingContext.HandleInstructionTypeRead, ParsingContext.HandleInstructionCodeRead,
      ParsingContext.startModule] <;>
    (repeat' split) <;> first | exact h | (dsimp only; decide)

theorem feed_ne_terminated : ∀ (toks : List Token) (ctx : ParsingContext),
    ctx.current_state ≠ .STATE_TERMINATED → ctx.next_state ≠ .STATE_TERMINATED →
    (ctx.feed toks).current_state ≠ .STATE_TERMINATED
  | [], _, h, _ => h
  | t :: ts, ctx, _, hn => by
    have h1 := ProcessState_next_ne_terminated ctx t hn
    exact feed_ne_terminated ts (ctx.ProcessState t).1.AdvanceState h1 h1

theorem ReadAsInt_empty (i p r : Int) :
    ({ line_num := i, position := p, token := "" } : Token).ReadAsInt r =
      ⟨false, r, .ERROR_NUM_EXPECTED⟩ := by
  have h : stoi "" = none := by decide
  simp [Token.ReadAsInt, TryParseInt, h]

theorem ReadAsSymbol_empty (i p : Int) (old : String) :
    ({ line_num := i, position := p, token := "" } : Token).ReadAsSymbol old =
      ⟨false, old, .ERROR_SYM_EXPECTED⟩ := by
  have h1 : ¬ ("".utf8ByteSize > 16) := by decide
  have h2 : (!matchesSymbolRegex "") = true := by decide
  simp only [Token.ReadAsSymbol, if_neg h1, h2, if_true]

theorem ReadAsIAER_empty (i p : Int) (old : Char) :
    ({ line_num := i, position := p, token := "" } : Token).ReadAsIAER old =
      ⟨false, old, .ERROR_ADDR_EXPECTED⟩ := by
  have h1 : "".utf8ByteSize ≠ 1 := by decide
  simp only [Token.ReadAsIAER, if_pos h1]

/-- End of input away from a module boundary: `Finish` throws the diagnostic of the
state's validator on the empty token and runs no `Stop` hook. -/
theorem Finish_mid_module (tk : Tokenizer) (s : ParsingState) (kind : SyntaxError)
    (hmem : (s, kind) ∈
      [(ParsingState.STATE_READ_DEFINITION_SYMBOL, SyntaxError.ERROR_SYM_EXPECTED),
       (ParsingState.STATE_READ_DEFINITION_VALUE, SyntaxError.ERROR_NUM_EXPECTED),
       (ParsingState.STATE_USE_LIST_START, SyntaxError.ERROR_NUM_EXPECTED),
       (ParsingState.STATE_USE_LIST_READ, SyntaxError.ERROR_SYM_EXPECTED),
       (ParsingState.STATE_INSTRUCTION_LIST_START, SyntaxError.ERROR_NUM_EXPECTED),
       (ParsingState.STATE_INSTRUCTION_TYPE_READ, SyntaxError.ERROR_ADDR_EXPECTED),
       (ParsingState.STATE_INSTRUCTION_CODE_READ, SyntaxError.ERROR_NUM_EXPECTED)])
    (hs : tk.context.current_state = s) :
    tk.Finish = .error
      ({ tk with context := { tk.context with next_state := .STATE_SYNTAX_ERROR } },
        { line_num := tk.context.index, position := tk.context.position, err := kind }) := by
  simp only [List.mem_cons, Prod.mk.injEq, List.mem_singleton, List.not_mem_nil, or_false] at hmem
  rcases hmem with ⟨h1, h2⟩ | ⟨h1, h2⟩ | ⟨h1, h2⟩ | ⟨h1, h2⟩ | ⟨h1, h2⟩ | ⟨h1, h2⟩ | ⟨h1, h2⟩ <;>
    subst h1 <;> subst h2 <;>
    simp [Tokenizer.Finish, ParsingContext.HandleEnd, hs, ParsingContext.ProcessState,
      ParsingContext.HandleReadDefinitionSymbol, ParsingContext.HandleReadDefinitionValue,
      ParsingContext.HandleUseListStart, ParsingContext.HandleUseListRead,
      ParsingContext.HandleInstructionListStart, ParsingContext.HandleInstructionTypeRead,
      ParsingContext.HandleInstructionCodeRead, ReadAsInt_empty, ReadAsSymbol_empty,
      ReadAsIAER_empty, ErrorMessageForToken]

/-! ## The output of pass 1 -/

theorem VerifySymbolLoop_only_rule5 (lm ls lmi : Int) : ∀ (T : SymbolTable),
    ∀ o ∈ (SymbolTable.VerifySymbolLoop lm ls lmi T).2, o.isRule5Warning = true
  | [] => by intro o ho; simp [SymbolTable.VerifySymbolLoop] at ho
  | (k, d) :: rest => by
    intro o ho
    have ih := VerifySymbolLoop_only_rule5 lm ls lmi rest
    unfold SymbolTable.VerifySymbolLoop at ho
    by_cases hm : d.module ≠ lm
    · simp only [if_pos hm] at ho; exact ih o ho
    · by_cases hr : wrap32 (d.value - lmi) ≥ ls
      · simp only [if_neg hm, if_pos hr, List.mem_cons] at ho
        rcases ho with ho | ho
        · rw [ho]; rfl
        · exact ih o ho
      · simp only [if_neg hm, if_neg hr] at ho; exact ih o ho

theorem HandleModuleChange_only_rule5 (ctx : ParsingContext) (T : SymbolTable) :
    ∀ o ∈ (SymbolTableGenerator.HandleModuleChange ctx T).2, o.isRule5Warning = true := by
  intro o ho
  unfold SymbolTableGenerator.HandleModuleChange at ho
  simp only at ho
  split at ho
  · simp at ho
  · exact VerifySymbolLoop_only_rule5 _ _ _ _ o ho

theorem ProcessToken_pass1_only_rule5 (t : Token) (ctx : ParsingContext) (T : SymbolTable) :
    ∀ o ∈ (SymbolTableGenerator.ProcessToken t ctx T).2, o.isRule5Warning = true := by
  intro o ho
  unfold SymbolTableGenerator.ProcessToken at ho
  simp only at ho
  split at ho
  · exact HandleModuleChange_only_rule5 _ _ o ho
  · simp at ho

theorem onlyRule5_append (tk : Tokenizer) (h : tk.onlyRule5) (l : List Output)
    (hl : ∀ o ∈ l, o.isRule5Warning = true) : ∀ o ∈ tk.cout ++ l, o.isRule5Warning = true := by
  intro o ho
  rcases List.mem_append.mp ho with ho | ho
  · exact h.2 o ho
  · exact hl o ho

theorem ProcessOne_only_rule5 (tk : Tokenizer) (t : Token) (h : tk.onlyRule5) :
    resultOnlyRule5 (tk.ProcessOne t) := by
  unfold Tokenizer.ProcessOne
  simp only
  split
  · exact ⟨h.1, h.2⟩
  · refine ⟨h.1, ?_⟩
    simp only [h.1, TokenProcessor.ProcessToken]
    exact onlyRule5_append tk h _ (ProcessToken_pass1_only_rule5 _ _ _)

theorem TokenizeTokens_only_rule5 : ∀ (toks : List Token) (tk : Tokenizer), tk.onlyRule5 →
    resultOnlyRule5 (tk.TokenizeTokens toks)
  | [], _, h => h
  | t :: ts, tk, h => by
    have h1 := ProcessOne_only_rule5 tk t h
    unfold Tokenizer.TokenizeTokens
    cases hp : tk.ProcessOne t with
    | error e => rw [hp] at h1; exact h1
    | ok tk1 =>
      rw [hp] at h1
      exact TokenizeTokens_only_rule5 ts tk1 h1

theorem TokenizeLine_only_rule5 (tk : Tokenizer) (line : String) (h : tk.onlyRule5) :
    resultOnlyRule5 (tk.TokenizeLine line) := by
  have h1 := TokenizeTokens_only_rule5 (lineTokens tk.context.index line) (tk.setPosition 1)
    ⟨h.1, h.2⟩
  unfold Tokenizer.TokenizeLine
  cases hp : (tk.setPosition 1).TokenizeTokens (lineTokens tk.context.index line) with
  | error e => rw [hp] at h1; exact h1
  | ok tk1 =>
    rw [hp] at h1
    exact ⟨h1.1, h1.2⟩

theorem TokenizeLines_only_rule5 : ∀ (lines : List String) (tk : Tokenizer), tk.onlyRule5 →
    resultOnlyRule5 (tk.TokenizeLines lines)
  | [], _, h => h
  | l :: ls, tk, h => by
    have h1 := TokenizeLine_only_rule5 tk l h
    unfold Tokenizer.TokenizeLines
    cases hp : tk.TokenizeLine l with
    | error e => rw [hp] at h1; exact h1
    | ok tk1 =>
      rw [hp] at h1
      exact TokenizeLines_only_rule5 ls _ ⟨h1.1, h1.2⟩

theorem Finish_only_rule5 (tk : Tokenizer) (h : tk.onlyRule5) :
    resultOnlyRule5 (tk.Finish) := by
  unfold Tokenizer.Finish
  simp only
  split
  · exact ⟨h.1, h.2⟩
  · refine ⟨h.1, ?_⟩
    simp only [h.1, TokenProcessor.Stop, SymbolTableGenerator.Stop]
    exact onlyRule5_append tk h _ (HandleModuleChange_only_rule5 _ _)

theorem TokenizeFile_only_rule5 (tk : Tokenizer) (lines : List String) (h : tk.onlyRule5) :
    resultOnlyRule5 (tk.TokenizeFile lines) := by
  have h1 := TokenizeLines_only_rule5 lines tk h
  unfold Tokenizer.TokenizeFile
  cases hp : tk.TokenizeLines lines with
  | error e => rw [hp] at h1; exact h1
  | ok tk1 =>
    rw [hp] at h1
    exact Finish_only_rule5 _ ⟨h1.1, h1.2⟩

/-! ## The use-list counters -/

theorem feed_append : ∀ (a b : List Token) (ctx : ParsingContext),
    ctx.feed (a ++ b) = (ctx.feed a).feed b
  | [], _, _ => rfl
  | t :: ts, b, ctx => by
    simp only [List.cons_append, ParsingContext.feed]
    exact feed_append ts b _

theorem neverSyntaxError_append : ∀ (a b : List Token) (ctx : ParsingContext),
    ctx.neverSyntaxError (a ++ b) ↔ ctx.neverSyntaxError a ∧ (ctx.feed a).neverSyntaxError b
  | [], _, _ => by simp [ParsingContext.neverSyntaxError, ParsingContext.feed]
  | t :: ts, b, ctx => by
    have ih := neverSyntaxError_append ts b (ctx.ProcessState t).1.AdvanceState
    show (_ ∧ ParsingContext.neverSyntaxError _ (ts ++ b)) ↔ ((_ ∧ _) ∧ _)
    rw [ih, and_assoc]
    rfl

/-- The token loop of the driver runs through wherever the state machine never reaches
`STATE_SYNTAX_ERROR`, whatever the pass strategy. -/
theorem TokenizeTokens_of_never : ∀ (toks : List Token) (tk : Tokenizer),
    tk.context.neverSyntaxError toks → ∃ tk1, tk.TokenizeTokens toks = .ok tk1
  | [], tk, _ => ⟨tk, rfl⟩
  | t :: ts, tk, h => by
    obtain ⟨h1, h2⟩ := h
    have hp : ∃ tk2, tk.ProcessOne t = .ok tk2 ∧ tk2.context =
        { (tk.context.ProcessState t).1.AdvanceState with
          position := t.position + (t.token.utf8ByteSize : Int) } := by
      unfold Tokenizer.ProcessOne
      simp only [if_neg h1]
      exact ⟨_, rfl, rfl⟩
    obtain ⟨tk2, hp, hctx⟩ := hp
    have h3 : tk2.context.neverSyntaxError ts := by
      rw [hctx, neverSyntaxError_position]; exact h2
    obtain ⟨tk1, h4⟩ := TokenizeTokens_of_never ts tk2 h3
    exact ⟨tk1, by rw [TokenizeTokens_cons_ok ts hp]; exact h4⟩

theorem step_useCountOK (ctx : ParsingContext) (t : Token) (h : ctx.useCountOK)
    (hne : (ctx.ProcessState t).1.next_state ≠ .STATE_SYNTAX_ERROR) :
    (ctx.ProcessState t).1.AdvanceState.useCountOK := by
  obtain ⟨h1, h2, h3, h4, h5, h6⟩ := h
  revert hne
  unfold ParsingContext.ProcessState
  cases hcs : ctx.current_state <;>
    simp only [ParsingContext.HandleModuleStart, ParsingContext.HandleReadDefinitionSymbol,
      ParsingContext.HandleReadDefinitionValue, ParsingContext.HandleUseListStart,
      ParsingContext.HandleUseListRead, ParsingContext.HandleInstructionListStart,
      ParsingContext.HandleInstructionTypeRead, ParsingContext.HandleInstructionCodeRead,
      ParsingContext.startModule] <;>
    (repeat' split) <;> intro hne <;>
    simp only [ParsingContext.useCountOK, ParsingContext.doomedUseList,
      ParsingContext.AdvanceState, hcs, ne_eq, not_true_eq_false, not_false_eq_true,
      reduceCtorEq, true_and, false_and, and_true, and_false, false_or, or_false, true_or,
      or_true, false_implies, implies_true, true_implies, forall_const, kMaxUseListSize,
      gt_iff_lt, not_lt] at * <;>
    omega

theorem feed_useCountOK : ∀ (toks : List Token) (ctx : ParsingContext),
    ctx.useCountOK → ctx.neverSyntaxError toks → (ctx.feed toks).useCountOK
  | [], _, h, _ => h
  | t :: ts, ctx, h, hn =>
    feed_useCountOK ts _ (step_useCountOK ctx t h hn.1) hn.2

/-- Once the use-list loop runs with a negative count, it can only go on or fail. -/
theorem step_doomed (ctx : ParsingContext) (t : Token) (h : ctx.doomedUseList)
    (hne : (ctx.ProcessState t).1.next_state ≠ .STATE_SYNTAX_ERROR) :
    (ctx.ProcessState t).1.AdvanceState.doomedUseList := by
  obtain ⟨hcs, h1, h2⟩ := h
  revert hne
  unfold ParsingContext.ProcessState
  rw [hcs]
  simp only [ParsingContext.HandleUseListRead]
  (repeat' split) <;> intro hne <;>
    simp only [ParsingContext.doomedUseList, ParsingContext.AdvanceState, ne_eq,
      not_true_eq_false, reduceCtorEq, true_and, false_and] at * <;>
    omega

theorem feed_doomed : ∀ (toks : List Token) (ctx : ParsingContext),
    ctx.doomedUseList → ctx.neverSyntaxError toks → (ctx.feed toks).doomedUseList
  | [], _, h, _ => h
  | t :: ts, ctx, h, hn => feed_doomed ts _ (step_doomed ctx t h hn.1) hn.2

theorem init_useCountOK : ParsingContext.init.useCountOK := by
  refine ⟨rfl, by decide, by decide, by decide, fun _ => rfl, Or.inr ⟨by decide, ?_⟩⟩
  intro h
  exact absurd h (by decide)

/-- When a pass runs to the end without a throw, the state machine went through the
tokens without a syntax error and stopped at a module boundary. -/
theorem run_ok_boundary (p : TokenProcessor) (T : SymbolTable) (out : List Output)
    (toks : List Token) (tk1 : Tokenizer)
    (h : (Tokenizer.create p T out).run toks = .ok tk1) :
    ParsingContext.init.neverSyntaxError toks ∧
    (ParsingContext.init.feed toks).current_state = .STATE_MODULE_START := by
  unfold Tokenizer.run at h
  cases ht : (Tokenizer.create p T out).TokenizeTokens toks with
  | error e => rw [ht] at h; exact absurd h (by simp)
  | ok tkm =>
    rw [ht] at h
    obtain ⟨hn, pos, hctx⟩ := TokenizeTokens_ok_feed _ _ _ ht
    refine ⟨hn, ?_⟩
    have hne := feed_ne_terminated toks ParsingContext.init (by decide) (by decide)
    by_contra hms
    unfold Tokenizer.Finish at h
    have hcs : tkm.context.current_state = (ParsingContext.init.feed toks).current_state := by
      rw [hctx]; rfl
    have hend : tkm.context.HandleEnd.next_state ≠ .STATE_TERMINATED := by
      unfold ParsingContext.HandleEnd
      rw [if_pos (by rw [hcs]; exact hms)]
      show tkm.context.current_state ≠ _
      rw [hcs]; exact hne
    simp only [if_pos hend] at h
    exact absurd h (by simp)

theorem ProcessState_current (ctx : ParsingContext) (t : Token) :
    (ctx.ProcessState t).1.current_state = ctx.current_state := by
  unfold ParsingContext.ProcessState
  cases hcs : ctx.current_state <;>
    simp only [ParsingContext.HandleModuleStart, ParsingContext.HandleReadDefinitionSymbol,
      ParsingContext.HandleReadDefinitionValue, ParsingContext.HandleUseListStart,
      ParsingContext.HandleUseListRead, ParsingContext.HandleInstructionListStart,
      ParsingContext.HandleInstructionTypeRead, ParsingContext.HandleInstructionCodeRead,
      ParsingContext.startModule] <;>
    (repeat' split) <;> exact hcs

theorem ProcessState_use_list_read (ctx : ParsingContext) (t : Token)
    (hne : (ctx.ProcessState t).1.next_state ≠ .STATE_SYNTAX_ERROR) :
    (ctx.ProcessState t).1.use_list_read =
      if ctx.current_state = .STATE_MODULE_START then 0
      else if ctx.current_state = .STATE_USE_LIST_READ then ctx.use_list_read + 1
      else ctx.use_list_read := by
  revert hne
  unfold ParsingContext.ProcessState
  cases hcs : ctx.current_state <;>
    simp only [reduceCtorEq, if_false, if_true, ParsingContext.HandleModuleStart,
      ParsingContext.HandleReadDefinitionSymbol,
      ParsingContext.HandleReadDefinitionValue, ParsingContext.HandleUseListStart,
      ParsingContext.HandleUseListRead, ParsingContext.HandleInstructionListStart,
      ParsingContext.HandleInstructionTypeRead, ParsingContext.HandleInstructionCodeRead,
      ParsingContext.startModule] <;>
    (repeat' split) <;> intro hne <;>
    first
      | rfl
      | trivial

theorem markUsed_length : ∀ (ul : UseList) (i : Int), (ul.markUsed i).length = ul.length
  | [], _ => rfl
  | (k, d) :: rest, i => by
    by_cases hk : k = i
    · simp [UseList.markUsed, hk]
    · simp [UseList.markUsed, hk, markUsed_length rest i]

theorem markUsed_keys_lt : ∀ (ul : UseList) (i n : Int), (∀ e ∈ ul, e.1 < n) →
    ∀ e ∈ ul.markUsed i, e.1 < n
  | [], _, _, _ => by intro e he; simp [UseList.markUsed] at he
  | (k, d) :: rest, i, n, h => by
    intro e he
    have hk := h (k, d) (List.mem_cons_self _ _)
    by_cases hki : k = i
    · simp only [UseList.markUsed, if_pos hki, List.mem_cons] at he
      rcases he with he | he
      · rw [he]; exact hk
      · exact h e (List.mem_cons_of_mem _ he)
    · simp only [UseList.markUsed, if_neg hki, List.mem_cons] at he
      rcases he with he | he
      · rw [he]; exact hk
      · exact markUsed_keys_lt rest i n (fun x hx => h x (List.mem_cons_of_mem _ hx)) e he

/-- The translation of an instruction leaves the use list as it is or marks one of its
entries used. -/
theorem Translate_use_list (mode : Char) (c : Int) (ctx : ParsingContext) (st : SymbolTable)
    (ul : UseList) :
    (InstructionGenerator.Translate mode c ctx st ul).use_list = ul ∨
    (InstructionGenerator.Translate mode c ctx st ul).use_list =
      ul.markUsed (c.tmod kMaxOperand) := by
  unfold InstructionGenerator.Translate
  simp only
  (repeat' split) <;> first | exact Or.inl rfl | exact Or.inr rfl

theorem ProcessOne_useListOK (tk tk1 : Tokenizer) (t : Token) (h : tk.useListOK)
    (hp : tk.ProcessOne t = .ok tk1) : tk1.useListOK := by
  obtain ⟨hproc, hkeys, hlen⟩ := h
  unfold Tokenizer.ProcessOne at hp
  simp only at hp
  split at hp
  · exact absurd hp (by simp)
  · rename_i hne
    simp only [Except.ok.injEq] at hp
    subst hp
    have hcur := ProcessState_current tk.context t
    have hread := ProcessState_use_list_read tk.context t hne
    simp only [Tokenizer.useListOK, hproc, TokenProcessor.ProcessToken,
      InstructionGenerator.ProcessToken, hcur, ParsingContext.AdvanceState, hread,
      ParsingContext.use_list_index, InstructionGenerator.HandleModuleChange, UseList.Reset,
      true_and]
    by_cases h1 : tk.context.current_state = .STATE_MODULE_START
    · simp [h1]
    · by_cases h2 : tk.context.current_state = .STATE_USE_LIST_READ
      · have hj : tk.context.use_list_read + 1 - 1 = tk.context.use_list_read := by omega
        simp only [h2, reduceCtorEq, if_false, if_true, hj,
          UseList_AddSymbol_append tk.use_list _ _ hkeys]
        constructor
        · intro e he
          rcases List.mem_append.mp he with he | he
          · have := hkeys e he; omega
          · simp only [List.mem_singleton] at he
            rw [he]; show tk.context.use_list_read < _; omega
        · simp only [List.length_append, List.length_singleton]; push_cast; omega
      · by_cases h3 : tk.context.current_state = .STATE_INSTRUCTION_CODE_READ
        · simp only [h3, reduceCtorEq, if_false, if_true]
          rcases Translate_use_list (tk.context.ProcessState t).1.last_instruction
            (t.ReadAsInt 0).val
            (tk.context.ProcessState t).1 tk.symbol_table tk.use_list with hu | hu
          · rw [hu]; exact ⟨hkeys, hlen⟩
          · rw [hu]
            exact ⟨markUsed_keys_lt _ _ _ hkeys, by rw [markUsed_length]; exact hlen⟩
        · simp only [h1, h2, h3, if_false]
          exact ⟨hkeys, hlen⟩

theorem TokenizeTokens_useListOK : ∀ (toks : List Token) (tk tk1 : Tokenizer),
    tk.useListOK → tk.TokenizeTokens toks = .ok tk1 → tk1.useListOK
  | [], tk, tk1, h, hp => by
    simp only [Tokenizer.TokenizeTokens, Except.ok.injEq] at hp
    rw [← hp]; exact h
  | t :: ts, tk, tk1, h, hp => by
    simp only [Tokenizer.TokenizeTokens] at hp
    cases h1 : tk.ProcessOne t with
    | error e => simp [h1] at hp
    | ok tk2 =>
      simp only [h1] at hp
      exact TokenizeTokens_useListOK ts tk2 tk1 (ProcessOne_useListOK tk tk2 t h h1) hp

/-! ## Pass 2 token by token -/

theorem Translate_congr (mode : Char) (c : Int) (ctx1 ctx2 : ParsingContext)
    (st : SymbolTable) (ul : UseList) (h1 : ctx1.module_index = ctx2.module_index)
    (h2 : ctx1.instruction_count = ctx2.instruction_count) :
    InstructionGenerator.Translate mode c ctx1 st ul =
      InstructionGenerator.Translate mode c ctx2 st ul := by
  unfold InstructionGenerator.Translate
  rw [h1, h2]

theorem ProcessOne_pass2_moduleStart (tk : Tokenizer) (t : Token) (k : Int)
    (hp : tk.token_processor = .InstructionGenerator)
    (hs : tk.context.current_state = .STATE_MODULE_START) (hk : t.isInt k) (h16 : k ≤ 16) :
    tk.ProcessOne t = .ok { tk with
      context := { ({ tk.context with definition_count := k } : ParsingContext).startModule with
        position := t.position + (t.token.utf8ByteSize : Int)
        current_state := if k ≠ 0 then .STATE_READ_DEFINITION_SYMBOL
                         else .STATE_USE_LIST_START
        next_state := if k ≠ 0 then .STATE_READ_DEFINITION_SYMBOL
                      else .STATE_USE_LIST_START }
      use_list := []
      cout := tk.cout ++ tk.use_list.UnusedSymbols.map fun s =>
        Output.rule7Warning tk.context.module_count s } := by
  have hmc : tk.context.module_count + 1 - 1 = tk.context.module_count := by omega
  unfold Tokenizer.ProcessOne
  simp only [ProcessState_moduleStart _ _ _ hs hk h16, hp, TokenProcessor.ProcessToken,
    InstructionGenerator.ProcessToken, InstructionGenerator.HandleModuleChange, UseList.Reset,
    hs, ParsingContext.AdvanceState, ParsingContext.startModule, hmc]
  by_cases h0 : k ≠ 0
  · simp [h0]
  · simp [h0]

theorem ProcessOne_pass2_defSymbol (tk : Tokenizer) (t : Token)
    (hp : tk.token_processor = .InstructionGenerator)
    (hs : tk.context.current_state = .STATE_READ_DEFINITION_SYMBOL) (ht : t.isSymbol) :
    tk.ProcessOne t = .ok { tk with
      context := { tk.context with
        last_symbol := t.token
        position := t.position + (t.token.utf8ByteSize : Int)
        current_state := .STATE_READ_DEFINITION_VALUE
        next_state := .STATE_READ_DEFINITION_VALUE } } := by
  unfold Tokenizer.ProcessOne
  simp only [ProcessState_defSymbol _ _ hs ht, hp, TokenProcessor.ProcessToken,
    InstructionGenerator.ProcessToken, hs, ParsingContext.AdvanceState, List.append_nil]
  simp

theorem ProcessOne_pass2_defValue (tk : Tokenizer) (t : Token)
    (hp : tk.token_processor = .InstructionGenerator)
    (hs : tk.context.current_state = .STATE_READ_DEFINITION_VALUE)
    (ht : (t.ReadAsInt 0).ok = true) :
    tk.ProcessOne t = .ok { tk with
      context := { tk.context with
        definition_read := tk.context.definition_read + 1
        position := t.position + (t.token.utf8ByteSize : Int)
        current_state := if tk.context.definition_read + 1 = tk.context.definition_count
                         then .STATE_USE_LIST_START else .STATE_READ_DEFINITION_SYMBOL
        next_state := if tk.context.definition_read + 1 = tk.context.definition_count
                      then .STATE_USE_LIST_START else .STATE_READ_DEFINITION_SYMBOL } } := by
  unfold Tokenizer.ProcessOne
  simp only [ProcessState_defValue _ _ hs ht, hp, TokenProcessor.ProcessToken,
    InstructionGenerator.ProcessToken, hs, ParsingContext.AdvanceState, List.append_nil]
  by_cases h0 : tk.context.definition_read + 1 = tk.context.definition_count
  · simp [h0]
  · simp [h0]

theorem ProcessOne_pass2_useStart (tk : Tokenizer) (t : Token) (k : Int)
    (hp : tk.token_processor = .InstructionGenerator)
    (hs : tk.context.current_state = .STATE_USE_LIST_START) (hk : t.isInt k) (h16 : k ≤ 16) :
    tk.ProcessOne t = .ok { tk with
      context := { tk.context with
        use_list_count := k
        position := t.position + (t.token.utf8ByteSize : Int)
        current_state := if k = 0 then .STATE_INSTRUCTION_LIST_START
                         else .STATE_USE_LIST_READ
        next_state := if k = 0 then .STATE_INSTRUCTION_LIST_START
                      else .STATE_USE_LIST_READ } } := by
  unfold Tokenizer.ProcessOne
  simp only [ProcessState_useStart _ _ _ hs hk h16, hp, TokenProcessor.ProcessToken,
    InstructionGenerator.ProcessToken, hs, ParsingContext.AdvanceState, List.append_nil]
  by_cases h0 : k = 0
  · simp [h0]
  · simp [h0]

theorem ProcessOne_pass2_useRead (tk : Tokenizer) (t : Token)
    (hp : tk.token_processor = .InstructionGenerator)
    (hs : tk.context.current_state = .STATE_USE_LIST_READ) (ht : t.isSymbol) :
    tk.ProcessOne t = .ok { tk with
      context := { tk.context with
        use_list_read := tk.context.use_list_read + 1
        position := t.position + (t.token.utf8ByteSize : Int)
        current_state := if tk.context.use_list_read + 1 = tk.context.use_list_count
                         then .STATE_INSTRUCTION_LIST_START else .STATE_USE_LIST_READ
        next_state := if tk.context.use_list_read + 1 = tk.context.use_list_count
                      then .STATE_INSTRUCTION_LIST_START else .STATE_USE_LIST_READ }
      use_list := tk.use_list.AddSymbol (t.ReadAsSymbol "").val
        (tk.context.use_list_read + 1 - 1) } := by
  unfold Tokenizer.ProcessOne
  simp only [ProcessState_useRead _ _ hs ht, hp, TokenProcessor.ProcessToken,
    InstructionGenerator.ProcessToken, hs, ParsingContext.AdvanceState, List.append_nil,
    ParsingContext.use_list_index]
  by_cases h0 : tk.context.use_list_read + 1 = tk.context.use_list_count
  · simp [h0]
  · simp [h0]

theorem ProcessOne_pass2_instrStart (tk : Tokenizer) (t : Token) (k : Int)
    (hp : tk.token_processor = .InstructionGenerator)
    (hs : tk.context.current_state = .STATE_INSTRUCTION_LIST_START) (hk : t.isInt k)
    (hfit : wrap32 (k + tk.context.module_index) ≤ 512) :
    tk.ProcessOne t = .ok { tk with
      context := { tk.context with
        instruction_count := k
        position := t.position + (t.token.utf8ByteSize : Int)
        current_state := if k ≠ 0 then .STATE_INSTRUCTION_TYPE_READ
                         else .STATE_MODULE_START
        next_state := if k ≠ 0 then .STATE_INSTRUCTION_TYPE_READ
                      else .STATE_MODULE_START } } := by
  unfold Tokenizer.ProcessOne
  simp only [ProcessState_instrStart _ _ _ hs hk hfit, hp, TokenProcessor.ProcessToken,
    InstructionGenerator.ProcessToken, hs, ParsingContext.AdvanceState, List.append_nil]
  by_cases h0 : k ≠ 0
  · simp [h0]
  · simp [h0]

theorem ProcessOne_pass2_typeRead (tk : Tokenizer) (t : Token)
    (hp : tk.token_processor = .InstructionGenerator)
    (hs : tk.context.current_state = .STATE_INSTRUCTION_TYPE_READ)
    (ht : (t.ReadAsIAER (Char.ofNat 0)).ok = true) :
    tk.ProcessOne t = .ok { tk with
      context := { tk.context with
        last_instruction := (t.ReadAsIAER (Char.ofNat 0)).val
        position := t.position + (t.token.utf8ByteSize : Int)
        current_state := .STATE_INSTRUCTION_CODE_READ
        next_state := .STATE_INSTRUCTION_CODE_READ } } := by
  unfold Tokenizer.ProcessOne
  simp only [ProcessState_typeRead _ _ hs ht, hp, TokenProcessor.ProcessToken,
    InstructionGenerator.ProcessToken, hs, ParsingContext.AdvanceState, List.append_nil]
  simp

theorem ProcessOne_pass2_codeRead (tk : Tokenizer) (t : Token)
    (hp : tk.token_processor = .InstructionGenerator)
    (hs : tk.context.current_state = .STATE_INSTRUCTION_CODE_READ)
    (ht : (t.ReadAsInt 0).ok = true) :
    tk.ProcessOne t = .ok { tk with
      context := { tk.context with
        instruction_read := tk.context.instruction_read + 1
        position := t.position + (t.token.utf8ByteSize : Int)
        current_state := if tk.context.instruction_read + 1 = tk.context.instruction_count
                         then .STATE_MODULE_START else .STATE_INSTRUCTION_TYPE_READ
        next_state := if tk.context.instruction_read + 1 = tk.context.instruction_count
                      then .STATE_MODULE_START else .STATE_INSTRUCTION_TYPE_READ }
      symbol_table := (InstructionGenerator.Translate tk.context.last_instruction
        (t.ReadAsInt 0).val
        (translateContext tk.context.module_index tk.context.instruction_count)
        tk.symbol_table tk.use_list).symbol_table
      use_list := (InstructionGenerator.Translate tk.context.last_instruction
        (t.ReadAsInt 0).val
        (translateContext tk.context.module_index tk.context.instruction_count)
        tk.symbol_table tk.use_list).use_list
      cout := tk.cout ++
        [Output.mapLine
          (wrap32 (tk.context.module_index + (tk.context.instruction_read + 1 - 1)))
          (InstructionGenerator.Translate tk.context.last_instruction (t.ReadAsInt 0).val
            (translateContext tk.context.module_index tk.context.instruction_count)
            tk.symbol_table tk.use_list).instruction
          (InstructionGenerator.Translate tk.context.last_instruction (t.ReadAsInt 0).val
            (translateContext tk.context.module_index tk.context.instruction_count)
            tk.symbol_table tk.use_list).err] } := by
  have hcongr : ∀ ctx : ParsingContext, ctx.module_index = tk.context.module_index →
      ctx.instruction_count = tk.context.instruction_count →
      InstructionGenerator.Translate tk.context.last_instruction (t.ReadAsInt 0).val ctx
        tk.symbol_table tk.use_list =
      InstructionGenerator.Translate tk.context.last_instruction (t.ReadAsInt 0).val
        (translateContext tk.context.module_index tk.context.instruction_count)
        tk.symbol_table tk.use_list :=
    fun ctx h1 h2 => Translate_congr _ _ _ _ _ _ h1 h2
  unfold Tokenizer.ProcessOne
  simp only [ProcessState_codeRead _ _ hs ht, hp, TokenProcessor.ProcessToken,
    InstructionGenerator.ProcessToken, hs, ParsingContext.AdvanceState, List.nil_append,
    ParsingContext.instruction_index, reduceCtorEq, if_false, if_true]
  by_cases h0 : tk.context.instruction_read + 1 = tk.context.instruction_count
  · simp only [h0, if_true]
    rw [hcongr _ (by rfl) (by rfl)]
    rfl
  · simp only [h0, if_false]
    rw [hcongr _ (by rfl) (by rfl)]
    rfl
/-! ## Pass 2 over the parts of a module -/

theorem pass2_defs_loop : ∀ (defs : List (Token × Token)) (tk : Tokenizer),
    tk.token_processor = .InstructionGenerator →
    tk.context.current_state = .STATE_READ_DEFINITION_SYMBOL →
    defs ≠ [] →
    tk.context.definition_count = tk.context.definition_read + (defs.length : Int) →
    (∀ p ∈ defs, p.1.isSymbol ∧ (p.2.ReadAsInt 0).ok = true) →
    ∃ ls pos, tk.TokenizeTokens (pairTokens defs) = .ok { tk with
      context := { tk.context with
        definition_read := tk.context.definition_count
        last_symbol := ls
        position := pos
        current_state := .STATE_USE_LIST_START
        next_state := .STATE_USE_LIST_START } }
  | [], _, _, _, h, _, _ => absurd rfl h
  | p :: rest, tk, hp, hs, _, hcount, hwf => by
    obtain ⟨hsym, hval⟩ := hwf p (List.mem_cons_self _ _)
    have e1 := ProcessOne_pass2_defSymbol tk p.1 hp hs hsym
    have e2 := ProcessOne_pass2_defValue
      { tk with
        context := { tk.context with
          last_symbol := p.1.token
          position := p.1.position + (p.1.token.utf8ByteSize : Int)
          current_state := .STATE_READ_DEFINITION_VALUE
          next_state := .STATE_READ_DEFINITION_VALUE } }
      p.2 hp rfl hval
    have etoks : pairTokens (p :: rest) = p.1 :: p.2 :: pairTokens rest := by
      simp [pairTokens]
    rw [etoks, TokenizeTokens_cons_ok _ e1, TokenizeTokens_cons_ok _ e2]
    cases rest with
    | nil =>
      have hc : tk.context.definition_read + 1 = tk.context.definition_count := by
        simp at hcount; omega
      refine ⟨p.1.token, p.2.position + (p.2.token.utf8ByteSize : Int), ?_⟩
      simp [pairTokens, Tokenizer.TokenizeTokens, hc]
    | cons q rest2 =>
      have hc : ¬ tk.context.definition_read + 1 = tk.context.definition_count := by
        simp at hcount; omega
      obtain ⟨ls, pos, ih⟩ := pass2_defs_loop (q :: rest2)
        { tk with
          context := { tk.context with
            last_symbol := p.1.token
            definition_read := tk.context.definition_read + 1
            position := p.2.position + (p.2.token.utf8ByteSize : Int)
            current_state := if tk.context.definition_read + 1 = tk.context.definition_count
                             then .STATE_USE_LIST_START else .STATE_READ_DEFINITION_SYMBOL
            next_state := if tk.context.definition_read + 1 = tk.context.definition_count
                          then .STATE_USE_LIST_START else .STATE_READ_DEFINITION_SYMBOL } }
        hp (by simp [hc]) (by simp)
        (by simp at hcount ⊢; omega)
        (fun x hx => hwf x (List.mem_cons_of_mem _ hx))
      refine ⟨ls, pos, ?_⟩
      rw [ih]

theorem pass2_uses_loop : ∀ (uses : List Token) (tk : Tokenizer),
    tk.token_processor = .InstructionGenerator →
    tk.context.current_state = .STATE_USE_LIST_READ →
    uses ≠ [] →
    tk.context.use_list_count = tk.context.use_list_read + (uses.length : Int) →
    (∀ u ∈ uses, u.isSymbol) →
    ∃ pos, tk.TokenizeTokens uses = .ok { tk with
      context := { tk.context with
        use_list_read := tk.context.use_list_count
        position := pos
        current_state := .STATE_INSTRUCTION_LIST_START
        next_state := .STATE_INSTRUCTION_LIST_START }
      use_list := pass2Uses uses tk.use_list tk.context.use_list_read }
  | [], _, _, _, h, _, _ => absurd rfl h
  | u :: rest, tk, hp, hs, _, hcount, hwf => by
    have e1 := ProcessOne_pass2_useRead tk u hp hs (hwf u (List.mem_cons_self _ _))
    rw [TokenizeTokens_cons_ok _ e1]
    cases rest with
    | nil =>
      have hc : tk.context.use_list_read + 1 = tk.context.use_list_count := by
        simp at hcount; omega
      refine ⟨u.position + (u.token.utf8ByteSize : Int), ?_⟩
      simp [Tokenizer.TokenizeTokens, hc, pass2Uses]
    | cons q rest2 =>
      have hc : ¬ tk.context.use_list_read + 1 = tk.context.use_list_count := by
        simp at hcount; omega
      obtain ⟨pos, ih⟩ := pass2_uses_loop (q :: rest2)
        { tk with
          context := { tk.context with
            use_list_read := tk.context.use_list_read + 1
            position := u.position + (u.token.utf8ByteSize : Int)
            current_state := if tk.context.use_list_read + 1 = tk.context.use_list_count
                             then .STATE_INSTRUCTION_LIST_START else .STATE_USE_LIST_READ
            next_state := if tk.context.use_list_read + 1 = tk.context.use_list_count
                          then .STATE_INSTRUCTION_LIST_START else .STATE_USE_LIST_READ }
          use_list := tk.use_list.AddSymbol (u.ReadAsSymbol "").val
            (tk.context.use_list_read + 1 - 1) }
        hp (by simp [hc]) (by simp)
        (by simp at hcount ⊢; omega)
        (fun x hx => hwf x (List.mem_cons_of_mem _ hx))
      refine ⟨pos, ?_⟩
      rw [ih]
      rfl

theorem pass2_instr_loop : ∀ (instrs : List (Token × Token)) (tk : Tokenizer),
    tk.token_processor = .InstructionGenerator →
    tk.context.current_state = .STATE_INSTRUCTION_TYPE_READ →
    instrs ≠ [] →
    tk.context.instruction_count = tk.context.instruction_read + (instrs.length : Int) →
    (∀ p ∈ instrs, (p.1.ReadAsIAER (Char.ofNat 0)).ok = true ∧ (p.2.ReadAsInt 0).ok = true) →
    ∃ li pos, tk.TokenizeTokens (pairTokens instrs) = .ok { tk with
      context := { tk.context with
        instruction_read := tk.context.instruction_count
        last_instruction := li
        position := pos
        current_state := .STATE_MODULE_START
        next_state := .STATE_MODULE_START }
      symbol_table := (pass2Instrs tk.context.module_index tk.context.instruction_count
        instrs tk.symbol_table tk.use_list tk.context.instruction_read).1
      use_list := (pass2Instrs tk.context.module_index tk.context.instruction_count
        instrs tk.symbol_table tk.use_list tk.context.instruction_read).2.1
      cout := tk.cout ++ (pass2Instrs tk.context.module_index tk.context.instruction_count
        instrs tk.symbol_table tk.use_list tk.context.instruction_read).2.2 }
  | [], _, _, _, h, _, _ => absurd rfl h
  | p :: rest, tk, hp, hs, _, hcount, hwf => by
    obtain ⟨htag, hval⟩ := hwf p (List.mem_cons_self _ _)
    have e1 := ProcessOne_pass2_typeRead tk p.1 hp hs htag
    have e2 := ProcessOne_pass2_codeRead
      { tk with
        context := { tk.context with
          last_instruction := (p.1.ReadAsIAER (Char.ofNat 0)).val
          position := p.1.position + (p.1.token.utf8ByteSize : Int)
          current_state := .STATE_INSTRUCTION_CODE_READ
          next_state := .STATE_INSTRUCTION_CODE_READ } }
      p.2 hp rfl hval
    have etoks : pairTokens (p :: rest) = p.1 :: p.2 :: pairTokens rest := by
      simp [pairTokens]
    rw [etoks, TokenizeTokens_cons_ok _ e1, TokenizeTokens_cons_ok _ e2]
    cases rest with
    | nil =>
      have hc : tk.context.instruction_read + 1 = tk.context.instruction_count := by
        simp at hcount; omega
      refine ⟨(p.1.ReadAsIAER (Char.ofNat 0)).val,
        p.2.position + (p.2.token.utf8ByteSize : Int), ?_⟩
      simp [pairTokens, Tokenizer.TokenizeTokens, hc, pass2Instrs]
    | cons q rest2 =>
      have hc : ¬ tk.context.instruction_read + 1 = tk.context.instruction_count := by
        simp at hcount; omega
      obtain ⟨li, pos, ih⟩ := pass2_instr_loop (q :: rest2)
        { tk with
          context := { tk.context with
            last_instruction := (p.1.ReadAsIAER (Char.ofNat 0)).val
            instruction_read := tk.context.instruction_read + 1
            position := p.2.position + (p.2.token.utf8ByteSize : Int)
            current_state := if tk.context.instruction_read + 1 = tk.context.instruction_count
                             then .STATE_MODULE_START else .STATE_INSTRUCTION_TYPE_READ
            next_state := if tk.context.instruction_read + 1 = tk.context.instruction_count
                          then .STATE_MODULE_START else .STATE_INSTRUCTION_TYPE_READ }
          symbol_table := (InstructionGenerator.Translate (p.1.ReadAsIAER (Char.ofNat 0)).val
            (p.2.ReadAsInt 0).val
            (translateContext tk.context.module_index tk.context.instruction_count)
            tk.symbol_table tk.use_list).symbol_table
          use_list := (InstructionGenerator.Translate (p.1.ReadAsIAER (Char.ofNat 0)).val
            (p.2.ReadAsInt 0).val
            (translateContext tk.context.module_index tk.context.instruction_count)
            tk.symbol_table tk.use_list).use_list
          cout := tk.cout ++
            [Output.mapLine
              (wrap32 (tk.context.module_index + (tk.context.instruction_read + 1 - 1)))
              (InstructionGenerator.Translate (p.1.ReadAsIAER (Char.ofNat 0)).val
                (p.2.ReadAsInt 0).val
                (translateContext tk.context.module_index tk.context.instruction_count)
                tk.symbol_table tk.use_list).instruction
              (InstructionGenerator.Translate (p.1.ReadAsIAER (Char.ofNat 0)).val
                (p.2.ReadAsInt 0).val
                (translateContext tk.context.module_index tk.context.instruction_count)
                tk.symbol_table tk.use_list).err] }
        hp (by simp [hc]) (by simp)
        (by simp at hcount ⊢; omega)
        (fun x hx => hwf x (List.mem_cons_of_mem _ hx))
      refine ⟨li, pos, ?_⟩
      rw [ih]
      simp [pass2Instrs]

theorem pass2_defs_phase (defs : List (Token × Token)) (tk : Tokenizer)
    (hp : tk.token_processor = .InstructionGenerator)
    (hs : tk.context.current_state =
      if (defs.length : Int) ≠ 0 then .STATE_READ_DEFINITION_SYMBOL else .STATE_USE_LIST_START)
    (hn : tk.context.next_state = tk.context.current_state)
    (hcount : tk.context.definition_count = tk.context.definition_read + (defs.length : Int))
    (hwf : ∀ p ∈ defs, p.1.isSymbol ∧ (p.2.ReadAsInt 0).ok = true) :
    ∃ ls pos, tk.TokenizeTokens (pairTokens defs) = .ok { tk with
      context := { tk.context with
        definition_read := tk.context.definition_count
        last_symbol := ls
        position := pos
        current_state := .STATE_USE_LIST_START
        next_state := .STATE_USE_LIST_START } } := by
  cases defs with
  | nil =>
    refine ⟨tk.context.last_symbol, tk.context.position, ?_⟩
    simp only [List.length_nil, Nat.cast_zero, ne_eq, not_true_eq_false, if_false,
      add_zero] at hs hcount
    rw [hs] at hn
    obtain ⟨tp, ctx, st, ul, out⟩ := tk
    obtain ⟨a1, a2, a3, a4, a5, a6, a7, a8, a9, a10, a11, a12, a13, a14, a15⟩ := ctx
    simp only at hs hn hcount
    subst hs; subst hn; subst hcount
    rfl
  | cons q rest =>
    have h0 : ((q :: rest).length : Int) ≠ 0 := by simp; omega
    rw [if_pos h0] at hs
    exact pass2_defs_loop (q :: rest) tk hp hs (by simp) hcount hwf

theorem pass2_uses_phase (uses : List Token) (tk : Tokenizer)
    (hp : tk.token_processor = .InstructionGenerator)
    (hs : tk.context.current_state =
      if (uses.length : Int) = 0 then .STATE_INSTRUCTION_LIST_START else .STATE_USE_LIST_READ)
    (hn : tk.context.next_state = tk.context.current_state)
    (hcount : tk.context.use_list_count = tk.context.use_list_read + (uses.length : Int))
    (hwf : ∀ u ∈ uses, u.isSymbol) :
    ∃ pos, tk.TokenizeTokens uses = .ok { tk with
      context := { tk.context with
        use_list_read := tk.context.use_list_count
        position := pos
        current_state := .STATE_INSTRUCTION_LIST_START
        next_state := .STATE_INSTRUCTION_LIST_START }
      use_list := pass2Uses uses tk.use_list tk.context.use_list_read } := by
  cases uses with
  | nil =>
    refine ⟨tk.context.position, ?_⟩
    simp only [List.length_nil, Nat.cast_zero, if_true, add_zero] at hs hcount
    rw [hs] at hn
    obtain ⟨tp, ctx, st, ul, out⟩ := tk
    obtain ⟨a1, a2, a3, a4, a5, a6, a7, a8, a9, a10, a11, a12, a13, a14, a15⟩ := ctx
    simp only at hs hn hcount
    subst hs; subst hn; subst hcount
    rfl
  | cons q rest =>
    have h0 : ¬ ((q :: rest).length : Int) = 0 := by simp; omega
    rw [if_neg h0] at hs
    exact pass2_uses_loop (q :: rest) tk hp hs (by simp) hcount hwf

theorem pass2_instr_phase (instrs : List (Token × Token)) (tk : Tokenizer)
    (hp : tk.token_processor = .InstructionGenerator)
    (hs : tk.context.current_state =
      if (instrs.length : Int) ≠ 0 then .STATE_INSTRUCTION_TYPE_READ else .STATE_MODULE_START)
    (hn : tk.context.next_state = tk.context.current_state)
    (hcount : tk.context.instruction_count =
      tk.context.instruction_read + (instrs.length : Int))
    (hwf : ∀ p ∈ instrs,
      (p.1.ReadAsIAER (Char.ofNat 0)).ok = true ∧ (p.2.ReadAsInt 0).ok = true) :
    ∃ li pos, tk.TokenizeTokens (pairTokens instrs) = .ok { tk with
      context := { tk.context with
        instruction_read := tk.context.instruction_count
        last_instruction := li
        position := pos
        current_state := .STATE_MODULE_START
        next_state := .STATE_MODULE_START }
      symbol_table := (pass2Instrs tk.context.module_index tk.context.instruction_count
        instrs tk.symbol_table tk.use_list tk.context.instruction_read).1
      use_list := (pass2Instrs tk.context.module_index tk.context.instruction_count
        instrs tk.symbol_table tk.use_list tk.context.instruction_read).2.1
      cout := tk.cout ++ (pass2Instrs tk.context.module_index tk.context.instruction_count
        instrs tk.symbol_table tk.use_list tk.context.instruction_read).2.2 } := by
  cases instrs with
  | nil =>
    refine ⟨tk.context.last_instruction, tk.context.position, ?_⟩
    simp only [List.length_nil, Nat.cast_zero, ne_eq, not_true_eq_false, if_false,
      add_zero] at hs hcount
    rw [hs] at hn
    obtain ⟨tp, ctx, st, ul, out⟩ := tk
    obtain ⟨a1, a2, a3, a4, a5, a6, a7, a8, a9, a10, a11, a12, a13, a14, a15⟩ := ctx
    simp only at hs hn hcount
    subst hs; subst hn; subst hcount
    simp only [pass2Instrs, List.append_nil]
    rfl
  | cons q rest =>
    have h0 : ((q :: rest).length : Int) ≠ 0 := by simp; omega
    rw [if_pos h0] at hs
    exact pass2_instr_loop (q :: rest) tk hp hs (by simp) hcount hwf

/-- Pass 2 over the tokens of one well-formed module, started at a module boundary. -/
theorem pass2_module (m : ObjectModule) (tk : Tokenizer)
    (hp : tk.token_processor = .InstructionGenerator)
    (hs : tk.context.current_state = .STATE_MODULE_START)
    (hmi : 0 ≤ tk.context.module_index)
    (hic : 0 ≤ tk.context.instruction_count)
    (hfit : tk.context.module_index + tk.context.instruction_count + m.size ≤ 512)
    (hwf : m.WellFormed) :
    ∃ ls li pos, tk.TokenizeTokens m.tokens = .ok { tk with
      context :=
        { module_index := tk.context.module_index + tk.context.instruction_count
          module_count := tk.context.module_count + 1
          last_symbol := ls
          last_instruction := li
          definition_read := (m.definitions.length : Int)
          definition_count := (m.definitions.length : Int)
          use_list_read := (m.uses.length : Int)
          use_list_count := (m.uses.length : Int)
          instruction_count := m.size
          instruction_read := m.size
          last_module_instruction_count := tk.context.instruction_count
          current_state := .STATE_MODULE_START
          next_state := .STATE_MODULE_START
          index := tk.context.index
          position := pos }
      symbol_table := (pass2Instrs (tk.context.module_index + tk.context.instruction_count)
        m.size m.instructions tk.symbol_table (pass2Uses m.uses [] 0) 0).1
      use_list := (pass2Instrs (tk.context.module_index + tk.context.instruction_count)
        m.size m.instructions tk.symbol_table (pass2Uses m.uses [] 0) 0).2.1
      cout := tk.cout ++
        (tk.use_list.UnusedSymbols.map fun s =>
          Output.rule7Warning tk.context.module_count s) ++
        (pass2Instrs (tk.context.module_index + tk.context.instruction_count)
          m.size m.instructions tk.symbol_table (pass2Uses m.uses [] 0) 0).2.2 } := by
  obtain ⟨hd, hd16, hdefs, hu, hu16, huses, hi, hinstrs⟩ := hwf
  have hsize : m.size = (m.instructions.length : Int) := rfl
  have hw : wrap32 (tk.context.module_index + tk.context.instruction_count) =
      tk.context.module_index + tk.context.instruction_count :=
    wrap32_eq _ (by omega) (by omega)
  -- the definition count
  have e1 := ProcessOne_pass2_moduleStart tk m.def_count _ hp hs hd (by omega)
  obtain ⟨tk1, htk1, e1⟩ : ∃ tk1, tk1 = _ ∧ tk.ProcessOne m.def_count = .ok tk1 :=
    ⟨_, rfl, e1⟩
  -- the definitions
  obtain ⟨ls, pos2, e2⟩ := pass2_defs_phase m.definitions tk1
    (by rw [htk1]; exact hp) (by rw [htk1]) (by rw [htk1])
    (by rw [htk1]; simp [ParsingContext.startModule]) hdefs
  obtain ⟨tk2, htk2, e2⟩ : ∃ tk2, tk2 = _ ∧
      tk1.TokenizeTokens (pairTokens m.definitions) = .ok tk2 := ⟨_, rfl, e2⟩
  -- the use count
  have e3 := ProcessOne_pass2_useStart tk2 m.use_count _
    (by rw [htk2, htk1]; exact hp) (by rw [htk2]) hu (by omega)
  obtain ⟨tk3, htk3, e3⟩ : ∃ tk3, tk3 = _ ∧ tk2.ProcessOne m.use_count = .ok tk3 :=
    ⟨_, rfl, e3⟩
  -- the use list
  obtain ⟨pos4, e4⟩ := pass2_uses_phase m.uses tk3
    (by rw [htk3, htk2, htk1]; exact hp) (by rw [htk3]) (by rw [htk3])
    (by rw [htk3, htk2, htk1]; simp [ParsingContext.startModule]) huses
  obtain ⟨tk4, htk4, e4⟩ : ∃ tk4, tk4 = _ ∧ tk3.TokenizeTokens m.uses = .ok tk4 :=
    ⟨_, rfl, e4⟩
  -- the instruction count
  have hmi4 : tk4.context.module_index =
      tk.context.module_index + tk.context.instruction_count := by
    rw [htk4, htk3, htk2, htk1]; simp [ParsingContext.startModule, hw]
  have e5 := ProcessOne_pass2_instrStart tk4 m.instr_count _
    (by rw [htk4, htk3, htk2, htk1]; exact hp) (by rw [htk4]) hi
    (by rw [hmi4, wrap32_eq _ (by omega) (by omega)]; omega)
  obtain ⟨tk5, htk5, e5⟩ : ∃ tk5, tk5 = _ ∧ tk4.ProcessOne m.instr_count = .ok tk5 :=
    ⟨_, rfl, e5⟩
  -- the instructions
  obtain ⟨li, pos6, e6⟩ := pass2_instr_phase m.instructions tk5
    (by rw [htk5, htk4, htk3, htk2, htk1]; exact hp) (by rw [htk5]) (by rw [htk5])
    (by rw [htk5, htk4, htk3, htk2, htk1]; simp [ParsingContext.startModule]) hinstrs
  refine ⟨ls, li, pos6, ?_⟩
  rw [tokens_eq, TokenizeTokens_cons_ok _ e1, TokenizeTokens_append _ _ _ _ e2,
    TokenizeTokens_cons_ok _ e3, TokenizeTokens_append _ _ _ _ e4,
    TokenizeTokens_cons_ok _ e5, e6]
  subst htk5; subst htk4; subst htk3; subst htk2; subst htk1
  simp [ParsingContext.startModule, hsize, hw]
/-! ## Pass 2 over a program -/

/-- Pass 2 over the tokens of a well-formed program, started at a module boundary: the
token loop ends at a module boundary, and what is left to do at the end of the input
gives the table, the use list and the output of `pass2Final`. -/
theorem pass2_program : ∀ (prog : List ObjectModule) (tk : Tokenizer),
    tk.token_processor = .InstructionGenerator →
    tk.context.current_state = .STATE_MODULE_START →
    0 ≤ tk.context.module_index →
    0 ≤ tk.context.instruction_count →
    tk.context.module_index + tk.context.instruction_count + programSize prog ≤ 512 →
    (∀ m ∈ prog, m.WellFormed) →
    ∃ tk1, tk.TokenizeTokens (programTokens prog) = .ok tk1 ∧
      tk1.token_processor = .InstructionGenerator ∧
      tk1.context.current_state = .STATE_MODULE_START ∧
      0 ≤ tk1.context.module_index ∧
      0 ≤ tk1.context.instruction_count ∧
      tk1.context.module_index + tk1.context.instruction_count ≤ 512 ∧
      pass2Final [] tk1.symbol_table tk1.use_list tk1.cout tk1.context.module_count
          tk1.context.module_index tk1.context.instruction_count =
        pass2Final prog tk.symbol_table tk.use_list tk.cout tk.context.module_count
          tk.context.module_index tk.context.instruction_count
  | [], tk, hp, hs, hmi, hic, hfit, _ => by
    refine ⟨tk, rfl, hp, hs, hmi, hic, ?_, rfl⟩
    simp [programSize] at hfit; exact hfit
  | m :: rest, tk, hp, hs, hmi, hic, hfit, hwf => by
    have hsz := size_nonneg m
    have hrest := programSize_nonneg rest
    rw [programSize_cons] at hfit
    obtain ⟨ls, li, pos, e1⟩ := pass2_module m tk hp hs hmi hic (by omega)
      (hwf m (List.mem_cons_self _ _))
    obtain ⟨tk1, htk1, e1⟩ : ∃ tk1, tk1 = _ ∧ tk.TokenizeTokens m.tokens = .ok tk1 :=
      ⟨_, rfl, e1⟩
    obtain ⟨tk2, e2, h2p, h2s, h2mi, h2ic, h2fit, h2fin⟩ :=
      pass2_program rest tk1 (by rw [htk1]; exact hp) (by rw [htk1])
        (by rw [htk1]; show 0 ≤ tk.context.module_index + tk.context.instruction_count; omega)
        (by rw [htk1]; exact hsz)
        (by rw [htk1]
            show tk.context.module_index + tk.context.instruction_count + m.size +
              programSize rest ≤ 512
            omega)
        (fun x hx => hwf x (List.mem_cons_of_mem _ hx))
    refine ⟨tk2, ?_, h2p, h2s, h2mi, h2ic, h2fit, ?_⟩
    · have : programTokens (m :: rest) = m.tokens ++ programTokens rest := by
        simp [programTokens]
      rw [this, TokenizeTokens_append _ _ _ _ e1]
      exact e2
    · rw [h2fin, htk1]
      rfl

/-- The end of pass 2 at a module boundary: the last Rule 7 check, then Rule 4. -/
theorem pass2_Finish (tk : Tokenizer)
    (hp : tk.token_processor = .InstructionGenerator)
    (hs : tk.context.current_state = .STATE_MODULE_START) :
    ∃ tk1, tk.Finish = .ok tk1 ∧
      tk1.context.next_state = .STATE_TERMINATED ∧
      tk1.symbol_table = (pass2Final [] tk.symbol_table tk.use_list tk.cout
        tk.context.module_count tk.context.module_index tk.context.instruction_count).1 ∧
      tk1.use_list = (pass2Final [] tk.symbol_table tk.use_list tk.cout
        tk.context.module_count tk.context.module_index tk.context.instruction_count).2.1 ∧
      tk1.cout = (pass2Final [] tk.symbol_table tk.use_list tk.cout
        tk.context.module_count tk.context.module_index tk.context.instruction_count).2.2 := by
  have hmc : tk.context.module_count + 1 - 1 = tk.context.module_count := by omega
  have e : tk.Finish = .ok { tk with
      context := { tk.context.startModule with next_state := .STATE_TERMINATED }
      use_list := []
      cout := tk.cout ++ ((tk.use_list.UnusedSymbols.map fun s =>
          Output.rule7Warning tk.context.module_count s) ++
        tk.symbol_table.VerifySymbolUsed) } := by
    unfold Tokenizer.Finish
    simp only [ParsingContext.HandleEnd, hs, ne_eq, not_true_eq_false, if_false,
      hp, TokenProcessor.Stop, InstructionGenerator.Stop,
      InstructionGenerator.HandleModuleChange, ParsingContext.startModule, hmc,
      UseList.Reset]
  refine ⟨_, e, rfl, rfl, rfl, ?_⟩
  simp [pass2Final, List.append_assoc]

/-- Pass 2 on a well-formed program, from any symbol table. -/
theorem pass2_run (prog : List ObjectModule) (hwf : WellFormedProgram prog)
    (T : SymbolTable) (out : List Output) :
    ∃ tk, (Tokenizer.create .InstructionGenerator T out).run (programTokens prog) = .ok tk ∧
      tk.context.next_state = .STATE_TERMINATED ∧
      tk.symbol_table = (pass2Final prog T [] out 0 0 0).1 ∧
      tk.use_list = (pass2Final prog T [] out 0 0 0).2.1 ∧
      tk.cout = (pass2Final prog T [] out 0 0 0).2.2 := by
  obtain ⟨hmods, hsum⟩ := hwf
  obtain ⟨tk1, e1, h1p, h1s, h1mi, h1ic, h1fit, h1fin⟩ :=
    pass2_program prog (Tokenizer.create .InstructionGenerator T out) rfl rfl
      (le_refl (0 : Int)) (le_refl (0 : Int))
      (by show (0 : Int) + 0 + programSize prog ≤ 512; omega) hmods
  obtain ⟨tk2, e2, h2n, h2t, h2u, h2c⟩ := pass2_Finish tk1 h1p h1s
  refine ⟨tk2, ?_, h2n, ?_, ?_, ?_⟩
  · unfold Tokenizer.run
    rw [e1]
    exact e2
  · rw [h2t, h1fin]; rfl
  · rw [h2u, h1fin]; rfl
  · rw [h2c, h1fin]; rfl
/-! ## The use list that pass 2 builds for a module -/

theorem markedUseList_congr (f g : Int → Bool) : ∀ (uses : List Token) (j : Int),
    (∀ k, j ≤ k → k < j + (uses.length : Int) → f k = g k) →
    markedUseList f uses j = markedUseList g uses j
  | [], _, _ => rfl
  | u :: rest, j, h => by
    have hlen : ((u :: rest).length : Int) = (rest.length : Int) + 1 := by
      simp only [List.length_cons]; push_cast; rfl
    simp only [markedUseList]
    rw [h j (le_refl j) (by rw [hlen]; omega),
      markedUseList_congr f g rest (j + 1) (fun k h1 h2 => h k (by omega) (by rw [hlen]; omega))]

theorem markedUseList_keys (f : Int → Bool) : ∀ (uses : List Token) (j : Int),
    ∀ e ∈ markedUseList f uses j, j ≤ e.1 ∧ e.1 < j + (uses.length : Int)
  | [], _ => by intro e he; simp [markedUseList] at he
  | u :: rest, j => by
    intro e he
    have hlen : ((u :: rest).length : Int) = (rest.length : Int) + 1 := by
      simp only [List.length_cons]; push_cast; rfl
    simp only [markedUseList, List.mem_cons] at he
    rcases he with he | he
    · rw [he, hlen]; constructor <;> (show _; first | exact le_refl j | (dsimp only; omega))
    · have := markedUseList_keys f rest (j + 1) e he
      rw [hlen]; omega

theorem pass2Uses_eq : ∀ (uses : List Token) (ul : UseList) (j : Int),
    (∀ u ∈ uses, u.isSymbol) → (∀ e ∈ ul, e.1 < j) →
    pass2Uses uses ul j = ul ++ markedUseList (fun _ => false) uses j
  | [], ul, j, _, _ => by simp [pass2Uses, markedUseList]
  | u :: rest, ul, j, hsym, h => by
    have hj : j + 1 - 1 = j := by omega
    have hu := ReadAsSymbol_of_isSymbol (hsym u (List.mem_cons_self _ _)) ""
    unfold pass2Uses
    rw [hj, UseList_AddSymbol_append ul _ j h,
      pass2Uses_eq rest _ (j + 1) (fun x hx => hsym x (List.mem_cons_of_mem _ hx)) (by
        intro x hx
        rcases List.mem_append.mp hx with hx | hx
        · have := h x hx; omega
        · simp only [List.mem_singleton] at hx
          rw [hx]; show j < j + 1; omega)]
    simp [markedUseList, hu]

theorem find_markedUseList (f : Int → Bool) : ∀ (uses : List Token) (j i : Int),
    (markedUseList f uses j).find i =
      (useAt uses (i - j)).map fun u => { symbol := u.token, used := f i }
  | [], _, _ => rfl
  | u :: rest, j, i => by
    simp only [markedUseList, UseList.find, useAt]
    by_cases h : j = i
    · rw [if_pos h, if_pos (show i - j = 0 by omega), h]
      rfl
    · rw [if_neg h, if_neg (show ¬ i - j = 0 by omega), find_markedUseList f rest (j + 1) i,
        show i - (j + 1) = i - j - 1 by omega]

theorem markUsed_markedUseList (f : Int → Bool) (i : Int) : ∀ (uses : List Token) (j : Int),
    (markedUseList f uses j).markUsed i =
      markedUseList (fun k => f k || decide (k = i)) uses j
  | [], _ => rfl
  | u :: rest, j => by
    simp only [markedUseList, UseList.markUsed]
    by_cases h : j = i
    · rw [if_pos h, markedUseList_congr f (fun k => f k || decide (k = i)) rest (j + 1)
        (fun k h1 _ => by simp [show ¬ k = i by omega])]
      simp [h]
    · rw [if_neg h, markUsed_markedUseList f i rest (j + 1)]
      simp [h]

theorem UnusedSymbols_markedUseList (label : Int) (f : Int → Bool) :
    ∀ (uses : List Token) (j : Int),
    ((markedUseList f uses j).UnusedSymbols.map fun s => Output.rule7Warning label s) =
      rule7From label f uses j
  | [], _ => rfl
  | u :: rest, j => by
    simp only [markedUseList, UseList.UnusedSymbols, rule7From]
    cases hf : f j
    · simp [UnusedSymbols_markedUseList label f rest (j + 1)]
    · simp [UnusedSymbols_markedUseList label f rest (j + 1)]

theorem useAt_some_range : ∀ (uses : List Token) (i : Int) (u : Token),
    useAt uses i = some u → 0 ≤ i ∧ i < (uses.length : Int)
  | [], _, _, h => by simp [useAt] at h
  | v :: rest, i, u, h => by
    have hlen : ((v :: rest).length : Int) = (rest.length : Int) + 1 := by
      simp only [List.length_cons]; push_cast; rfl
    simp only [useAt] at h
    by_cases h0 : i = 0
    · rw [hlen]; omega
    · rw [if_neg h0] at h
      have := useAt_some_range rest (i - 1) u h
      rw [hlen]; omega

theorem useAt_none_range : ∀ (uses : List Token) (i : Int),
    useAt uses i = none → i < 0 ∨ (uses.length : Int) ≤ i
  | [], i, _ => by simp only [List.length_nil, Nat.cast_zero]; omega
  | v :: rest, i, h => by
    have hlen : ((v :: rest).length : Int) = (rest.length : Int) + 1 := by
      simp only [List.length_cons]; push_cast; rfl
    simp only [useAt] at h
    by_cases h0 : i = 0
    · rw [if_pos h0] at h; exact absurd h (by simp)
    · rw [if_neg h0] at h
      have := useAt_none_range rest (i - 1) h
      rw [hlen]; omega
/-! ## What the translation of an instruction marks -/

theorem tdiv_ge_ten (c : Int) : c.tdiv kMaxOperand ≥ kMaxOpCode ↔ 10000 ≤ c := by
  show c.tdiv 1000 ≥ 10 ↔ 10000 ≤ c
  by_cases h : 0 ≤ c
  · rw [(tdiv_tmod_nonneg h).1]; omega
  · have hn : c = -(-c) := by omega
    have h1 : (-c).tdiv 1000 = (-c) / 1000 := (tdiv_tmod_nonneg (by omega)).1
    rw [hn, Int.neg_tdiv, h1]
    omega

theorem modify_of_find_none : ∀ (T : SymbolTable) (s : String) (f : SymbolData → SymbolData),
    T.find s = none → T.modify s f = T
  | [], _, _, _ => rfl
  | (k, d) :: rest, s, f, h => by
    simp only [SymbolTable.find] at h
    by_cases hk : k = s
    · rw [if_pos hk] at h; exact absurd h (by simp)
    · rw [if_neg hk] at h
      simp only [SymbolTable.modify, if_neg hk, modify_of_find_none rest s f h]

theorem Value_mark (T : SymbolTable) (s : String) :
    (T.Value s true).2 = T.modify s fun e => { e with used := true } := by
  unfold SymbolTable.Value
  cases h : T.find s with
  | none => simp only [modify_of_find_none T s _ h]
  | some d => simp

/-- The translation marks the use-list entry that the instruction refers to, and the
table entry of the symbol named there, and nothing else. -/
theorem Translate_effect (mode : Char) (c : Int) (ctx : ParsingContext) (T : SymbolTable)
    (ul : UseList) :
    (InstructionGenerator.Translate mode c ctx T ul).use_list =
        (if refersTo mode c (c.tmod 1000) = true ∧ ul.Has (c.tmod 1000) = true
          then ul.markUsed (c.tmod 1000) else ul) ∧
    (InstructionGenerator.Translate mode c ctx T ul).symbol_table =
        (if refersTo mode c (c.tmod 1000) = true ∧ ul.Has (c.tmod 1000) = true then
          match ul.find (c.tmod 1000) with
          | some e => T.modify e.symbol fun d => { d with used := true }
          | none => T
        else T) := by
  have hten := tdiv_ge_ten c
  have hop : c.tmod kMaxOperand = c.tmod 1000 := rfl
  unfold InstructionGenerator.Translate
  simp only [hop]
  by_cases h11 : c.tdiv kMaxOperand ≥ kMaxOpCode ∧ mode ≠ 'I'
  · have hc : ¬ c ≤ 9999 := by have := hten.mp h11.1; omega
    simp [h11, refersTo, hc]
  · rw [if_neg h11]
    by_cases hA : mode = 'A'
    · subst hA
      simp only [if_true, refersTo]
      split <;> simp
    · rw [if_neg hA]
      by_cases hI : mode = 'I'
      · subst hI
        simp only [if_true, refersTo]
        split <;> simp
      · rw [if_neg hI]
        by_cases hR : mode = 'R'
        · subst hR
          simp only [if_true, refersTo]
          split <;> simp
        · rw [if_neg hR]
          by_cases hE : mode = 'E'
          · subst hE
            have hc : c ≤ 9999 := by
              by_contra hcon
              exact h11 ⟨hten.mpr (by omega), by decide⟩
            have href : refersTo 'E' c (c.tmod 1000) = true := by simp [refersTo, hc]
            simp only [if_true, href, true_and]
            cases hhas : ul.Has (c.tmod 1000)
            · simp
            · simp only [Bool.not_true, Bool.false_eq_true, if_false, if_true, UseList.Get]
              cases hfind : ul.find (c.tmod 1000) with
              | none => simp [UseList.Has, hfind] at hhas
              | some e =>
                simp only [Value_mark]
                split <;> exact ⟨rfl, rfl⟩
          · simp [hE, refersTo]

theorem markAll_congr (g h : String → Bool) : ∀ T : SymbolTable,
    (∀ kv ∈ T, g kv.1 = h kv.1) → markAll g T = markAll h T := by
  intro T hT
  unfold markAll
  apply List.map_congr_left
  intro kv hkv
  rw [hT kv hkv]

theorem markAll_keys (g : String → Bool) (T : SymbolTable) :
    (markAll g T).map Prod.fst = T.map Prod.fst := by
  simp [markAll, List.map_map, Function.comp_def]

theorem modify_markAll (g : String → Bool) (s : String) : ∀ T : SymbolTable,
    (T.map Prod.fst).Nodup →
    (markAll g T).modify s (fun d => { d with used := true }) =
      markAll (fun k => g k || decide (k = s)) T
  | [], _ => rfl
  | (k, d) :: rest, hnd => by
    simp only [List.map_cons, List.nodup_cons] at hnd
    have econs : ∀ f : String → Bool, markAll f ((k, d) :: rest) =
        (k, { d with used := d.used || f k }) :: markAll f rest := fun _ => rfl
    rw [econs, econs]
    simp only [SymbolTable.modify]
    by_cases hk : k = s
    · rw [if_pos hk, markAll_congr g (fun k => g k || decide (k = s)) rest (by
        intro kv hkv
        have hne : ¬ kv.1 = s := by
          intro e
          exact hnd.1 (by rw [hk, ← e]; exact List.mem_map_of_mem Prod.fst hkv)
        simp [hne])]
      simp [hk]
    · rw [if_neg hk, modify_markAll g s rest hnd.2]
      simp [hk]

theorem markAll_false (T : SymbolTable) : markAll (fun _ => false) T = T := by
  unfold markAll
  conv_rhs => rw [← List.map_id T]
  apply List.map_congr_left
  intro kv _
  simp

theorem VerifySymbolUsed_markAll (g : String → Bool) : ∀ T : SymbolTable,
    (∀ kv ∈ T, kv.2.used = false) →
    (markAll g T).VerifySymbolUsed =
      (T.filter fun kv => !g kv.1).map fun kv => Output.rule4Warning kv.2.module kv.1
  | [], _ => rfl
  | (k, d) :: rest, h => by
    have hd : d.used = false := h (k, d) (List.mem_cons_self _ _)
    have ih := VerifySymbolUsed_markAll g rest (fun x hx => h x (List.mem_cons_of_mem _ hx))
    have econs : markAll g ((k, d) :: rest) =
        (k, { d with used := d.used || g k }) :: markAll g rest := rfl
    rw [econs]
    simp only [SymbolTable.VerifySymbolUsed, hd, Bool.false_or, List.filter_cons]
    cases hg : g k
    · simp [ih]
    · simp [ih]

/-- The translation of an instruction on a use list given by its marks. -/
theorem Translate_marked_use_list (mode : Char) (c : Int) (ctx : ParsingContext)
    (T : SymbolTable) (uses : List Token) (f : Int → Bool) :
    (InstructionGenerator.Translate mode c ctx T (markedUseList f uses 0)).use_list =
        markedUseList (fun k => f k || refersTo mode c k) uses 0 := by
  rw [(Translate_effect mode c ctx T (markedUseList f uses 0)).1]
  have hfind := find_markedUseList f uses 0 (c.tmod 1000)
  rw [show c.tmod 1000 - 0 = c.tmod 1000 by omega] at hfind
  cases hu : useAt uses (c.tmod 1000) with
  | none =>
    rw [hu] at hfind
    have hhas : (markedUseList f uses 0).Has (c.tmod 1000) = false := by
      simp [UseList.Has, hfind]
    simp only [hhas, Bool.false_eq_true, and_false, if_false]
    have hr := useAt_none_range uses _ hu
    apply markedUseList_congr
    intro k h1 h2
    have : ¬ c.tmod 1000 = k := by omega
    simp [refersTo, this]
  | some u =>
    rw [hu] at hfind
    have hhas : (markedUseList f uses 0).Has (c.tmod 1000) = true := by
      simp [UseList.Has, hfind]
    simp only [hhas, and_true]
    by_cases href : refersTo mode c (c.tmod 1000) = true
    · simp only [href, if_true]
      rw [markUsed_markedUseList]
      have hmc : mode = 'E' ∧ c ≤ 9999 := by
        simp only [refersTo, Bool.and_eq_true, decide_eq_true_eq] at href
        exact href.1
      apply markedUseList_congr
      intro k _ _
      simp only [refersTo, hmc.1, hmc.2, decide_True, Bool.true_and]
      by_cases hk : k = c.tmod 1000
      · simp [hk]
      · have hk2 : ¬ c.tmod 1000 = k := fun e => hk e.symm
        simp [hk, hk2]
    · simp only [href, if_false]
      have href2 : refersTo mode c (c.tmod 1000) = false := by
        cases h : refersTo mode c (c.tmod 1000)
        · rfl
        · exact absurd h href
      apply markedUseList_congr
      intro k _ _
      have : refersTo mode c k = false := by
        simp only [refersTo, decide_True, Bool.and_true] at href2
        simp only [refersTo, href2, Bool.false_and]
      simp [this]

/-- The translation of an instruction on a table given by its marks. -/
theorem Translate_marked_table (mode : Char) (c : Int) (ctx : ParsingContext)
    (T : SymbolTable) (hnd : (T.map Prod.fst).Nodup) (uses : List Token) (f : Int → Bool)
    (g : String → Bool) :
    (InstructionGenerator.Translate mode c ctx (markAll g T)
        (markedUseList f uses 0)).symbol_table =
        markAll (fun s => g s || looksUpBy uses mode c s) T := by
  rw [(Translate_effect mode c ctx (markAll g T) (markedUseList f uses 0)).2]
  have hfind := find_markedUseList f uses 0 (c.tmod 1000)
  rw [show c.tmod 1000 - 0 = c.tmod 1000 by omega] at hfind
  cases hu : useAt uses (c.tmod 1000) with
  | none =>
    rw [hu] at hfind
    have hhas : (markedUseList f uses 0).Has (c.tmod 1000) = false := by
      simp [UseList.Has, hfind]
    simp only [hhas, Bool.false_eq_true, and_false, if_false]
    apply markAll_congr
    intro kv _
    simp [looksUpBy, hu]
  | some u =>
    rw [hu] at hfind
    have hhas : (markedUseList f uses 0).Has (c.tmod 1000) = true := by
      simp [UseList.Has, hfind]
    simp only [hhas, and_true, hfind, Option.map_some']
    by_cases href : refersTo mode c (c.tmod 1000) = true
    · simp only [href, if_true]
      rw [modify_markAll g u.token T hnd]
      apply markAll_congr
      intro kv _
      simp only [looksUpBy, hu, href, Bool.true_and]
      by_cases hk : kv.1 = u.token
      · simp [hk]
      · have hk2 : ¬ u.token = kv.1 := fun e => hk e.symm
        simp [hk, hk2]
    · simp only [href, if_false]
      have href2 : refersTo mode c (c.tmod 1000) = false := by
        cases h : refersTo mode c (c.tmod 1000)
        · rfl
        · exact absurd h href
      apply markAll_congr
      intro kv _
      simp [looksUpBy, hu, href2]

/-! ## Pass 2 over the instructions of a module -/

theorem pass2Instrs_use_list (base count : Int) (uses : List Token) :
    ∀ (instrs : List (Token × Token)) (T : SymbolTable) (f : Int → Bool) (j : Int),
    (pass2Instrs base count instrs T (markedUseList f uses 0) j).2.1 =
      markedUseList (fun k => f k || instrs.any fun p =>
        refersTo (p.1.ReadAsIAER (Char.ofNat 0)).val (p.2.ReadAsInt 0).val k) uses 0
  | [], T, f, j => by
    simp only [pass2Instrs, List.any_nil, Bool.or_false]
  | p :: rest, T, f, j => by
    simp only [pass2Instrs, Translate_marked_use_list, pass2Instrs_use_list base count uses rest,
      List.any_cons, Bool.or_assoc]

theorem pass2Instrs_table (base count : Int) (uses : List Token) (T : SymbolTable)
    (hnd : (T.map Prod.fst).Nodup) :
    ∀ (instrs : List (Token × Token)) (g : String → Bool) (f : Int → Bool) (j : Int),
    (pass2Instrs base count instrs (markAll g T) (markedUseList f uses 0) j).1 =
      markAll (fun s => g s || instrs.any fun p =>
        looksUpBy uses (p.1.ReadAsIAER (Char.ofNat 0)).val (p.2.ReadAsInt 0).val s) T
  | [], g, f, j => by
    simp only [pass2Instrs, List.any_nil, Bool.or_false]
  | p :: rest, g, f, j => by
    simp only [pass2Instrs, Translate_marked_use_list, Translate_marked_table _ _ _ _ hnd,
      pass2Instrs_table base count uses T hnd rest, List.any_cons, Bool.or_assoc]

theorem pass2Instrs_lines (base count : Int) :
    ∀ (instrs : List (Token × Token)) (T : SymbolTable) (ul : UseList) (j : Int),
    0 ≤ base + j → base + j + (instrs.length : Int) ≤ 512 →
    (pass2Instrs base count instrs T ul j).2.2.length = instrs.length ∧
    ∀ (k : Nat) (o : Output), (pass2Instrs base count instrs T ul j).2.2[k]? = some o →
      o.isMapLineAt (base + j + (k : Int)) = true ∧ o.rule7Label = none ∧
        o.isRule4Warning = false
  | [], T, ul, j, _, _ => by
    simp [pass2Instrs]
  | p :: rest, T, ul, j, h0, h512 => by
    have hlen : ((p :: rest).length : Int) = (rest.length : Int) + 1 := by
      simp only [List.length_cons]; push_cast; rfl
    rw [hlen] at h512
    obtain ⟨ih1, ih2⟩ := pass2Instrs_lines base count rest
      (InstructionGenerator.Translate (p.1.ReadAsIAER (Char.ofNat 0)).val
        (p.2.ReadAsInt 0).val (translateContext base count) T ul).symbol_table
      (InstructionGenerator.Translate (p.1.ReadAsIAER (Char.ofNat 0)).val
        (p.2.ReadAsInt 0).val (translateContext base count) T ul).use_list (j + 1)
      (by omega) (by omega)
    simp only [pass2Instrs, List.length_cons, ih1, true_and]
    intro k o hk
    cases k with
    | zero =>
      simp only [List.getElem?_cons_zero, Option.some.injEq] at hk
      subst hk
      have hj : j + 1 - 1 = j := by omega
      have hw : wrap32 (base + j) = base + j := wrap32_eq _ (by omega) (by omega)
      simp [Output.isMapLineAt, Output.rule7Label, Output.isRule4Warning, hj, hw]
    | succ n =>
      simp only [List.getElem?_cons_succ] at hk
      have := ih2 n o hk
      rw [show base + j + ((n + 1 : Nat) : Int) = base + (j + 1) + (n : Int) by push_cast; omega]
      exact this
/-! ## Pass 2 from boundary to boundary -/

theorem pass2Instrs_lines_kind (base count : Int) :
    ∀ (instrs : List (Token × Token)) (T : SymbolTable) (ul : UseList) (j : Int),
    ∀ o ∈ (pass2Instrs base count instrs T ul j).2.2,
      o.rule7Label = none ∧ o.isRule4Warning = false
  | [], T, ul, j => by simp [pass2Instrs]
  | p :: rest, T, ul, j => by
    intro o ho
    simp only [pass2Instrs, List.mem_cons] at ho
    rcases ho with ho | ho
    · subst ho; exact ⟨rfl, rfl⟩
    · exact pass2Instrs_lines_kind base count rest _ _ _ o ho

theorem rule7_warnings_kind (ul : UseList) (mc : Int) :
    ∀ o ∈ ul.UnusedSymbols.map fun s => Output.rule7Warning mc s,
      o.rule7Label = some mc ∧ o.isRule4Warning = false := by
  intro o ho
  obtain ⟨s, _, hs⟩ := List.mem_map.mp ho
  subst hs
  exact ⟨rfl, rfl⟩

theorem VerifySymbolUsed_kind : ∀ (T : SymbolTable), ∀ o ∈ T.VerifySymbolUsed,
    o.rule7Label = none
  | [] => by simp [SymbolTable.VerifySymbolUsed]
  | (k, d) :: rest => by
    intro o ho
    simp only [SymbolTable.VerifySymbolUsed] at ho
    split at ho
    · simp only [List.mem_cons] at ho
      rcases ho with ho | ho
      · subst ho; rfl
      · exact VerifySymbolUsed_kind rest o ho
    · exact VerifySymbolUsed_kind rest o ho

theorem pass2Final_append : ∀ (pre rest : List ObjectModule) (b : Boundary),
    pass2Final (pre ++ rest) b.symbol_table b.use_list b.cout b.module_count b.module_index
        b.instruction_count =
      pass2Final rest (b.after pre).symbol_table (b.after pre).use_list (b.after pre).cout
        (b.after pre).module_count (b.after pre).module_index (b.after pre).instruction_count
  | [], _, _ => rfl
  | m :: pre, rest, b => by
    have := pass2Final_append pre rest (b.step m)
    exact this

theorem pass2Final_use_list : ∀ (prog : List ObjectModule) (T : SymbolTable) (ul : UseList)
    (out : List Output) (mc mi ic : Int), (pass2Final prog T ul out mc mi ic).2.1 = []
  | [], _, _, _, _, _, _ => rfl
  | m :: rest, T, ul, out, mc, mi, ic => by
    unfold pass2Final
    exact pass2Final_use_list rest _ _ _ _ _ _

/-- The output of pass 2 from a boundary on: the Rule 7 warnings of the module before,
then lines whose Rule 7 warnings carry greater module numbers. -/
theorem pass2Final_tail : ∀ (prog : List ObjectModule) (T : SymbolTable) (ul : UseList)
    (out : List Output) (mc mi ic : Int),
    ∃ B, (pass2Final prog T ul out mc mi ic).2.2 =
        out ++ (ul.UnusedSymbols.map fun s => Output.rule7Warning mc s) ++ B ∧
      ∀ o ∈ B, ∀ l, o.rule7Label = some l → mc < l
  | [], T, ul, out, mc, mi, ic => by
    refine ⟨T.VerifySymbolUsed, rfl, ?_⟩
    intro o ho l hl
    rw [VerifySymbolUsed_kind T o ho] at hl
    exact absurd hl (by simp)
  | m :: rest, T, ul, out, mc, mi, ic => by
    obtain ⟨B, hB, hlab⟩ := pass2Final_tail rest
      (pass2Instrs (mi + ic) m.size m.instructions T (pass2Uses m.uses [] 0) 0).1
      (pass2Instrs (mi + ic) m.size m.instructions T (pass2Uses m.uses [] 0) 0).2.1
      (out ++ (ul.UnusedSymbols.map fun s => Output.rule7Warning mc s) ++
        (pass2Instrs (mi + ic) m.size m.instructions T (pass2Uses m.uses [] 0) 0).2.2)
      (mc + 1) (mi + ic) m.size
    refine ⟨(pass2Instrs (mi + ic) m.size m.instructions T (pass2Uses m.uses [] 0) 0).2.2 ++
      ((pass2Instrs (mi + ic) m.size m.instructions T
          (pass2Uses m.uses [] 0) 0).2.1.UnusedSymbols.map fun s =>
        Output.rule7Warning (mc + 1) s) ++ B, ?_, ?_⟩
    · unfold pass2Final
      rw [hB]
      simp only [List.append_assoc]
    · intro o ho l hl
      simp only [List.mem_append] at ho
      rcases ho with (ho | ho) | ho
      · rw [(pass2Instrs_lines_kind _ _ _ _ _ _ o ho).1] at hl
        exact absurd hl (by simp)
      · rw [(rule7_warnings_kind _ _ o ho).1] at hl
        simp only [Option.some.injEq] at hl
        omega
      · have := hlab o ho l hl
        omega

theorem after_nil (b : Boundary) : b.after [] = b := rfl

theorem after_cons (b : Boundary) (m : ObjectModule) (rest : List ObjectModule) :
    b.after (m :: rest) = (b.step m).after rest := rfl

theorem after_snoc (b : Boundary) (pre : List ObjectModule) (last : ObjectModule) :
    b.after (pre ++ [last]) = (b.after pre).step last := by
  simp [Boundary.after, List.foldl_append]

theorem after_count : ∀ (prog : List ObjectModule) (b : Boundary),
    (b.after prog).module_count = b.module_count + (prog.length : Int)
  | [], b => by simp [after_nil]
  | m :: rest, b => by
    rw [after_cons, after_count rest (b.step m)]
    simp only [List.length_cons]; push_cast
    show b.module_count + 1 + (rest.length : Int) = _
    omega

theorem after_base : ∀ (prog : List ObjectModule) (b : Boundary),
    (b.after prog).module_index + (b.after prog).instruction_count =
      b.module_index + b.instruction_count + programSize prog
  | [], b => by simp [after_nil, programSize]
  | m :: rest, b => by
    rw [after_cons, after_base rest (b.step m), programSize_cons]
    show b.module_index + b.instruction_count + m.size + programSize rest = _
    omega

/-- The use list at the end of a well-formed module: the entries that an instruction of
the module refers to are marked used, and no others. -/
theorem step_use_list (b : Boundary) (m : ObjectModule) (hwf : m.WellFormed) :
    (b.step m).use_list = markedUseList m.references m.uses 0 := by
  obtain ⟨_, _, _, _, _, huses, _, _⟩ := hwf
  have h1 := pass2Uses_eq m.uses [] 0 huses (by intro e he; simp at he)
  simp only [List.nil_append] at h1
  show (pass2Instrs _ _ _ _ (pass2Uses m.uses [] 0) 0).2.1 = _
  rw [h1, pass2Instrs_use_list]
  apply markedUseList_congr
  intro k _ _
  simp [ObjectModule.references]

theorem step_table (b : Boundary) (m : ObjectModule) (hwf : m.WellFormed) (T : SymbolTable)
    (hnd : (T.map Prod.fst).Nodup) (g : String → Bool) (hb : b.symbol_table = markAll g T) :
    (b.step m).symbol_table = markAll (fun s => g s || m.looksUp s) T := by
  obtain ⟨_, _, _, _, _, huses, _, _⟩ := hwf
  have h1 := pass2Uses_eq m.uses [] 0 huses (by intro e he; simp at he)
  simp only [List.nil_append] at h1
  show (pass2Instrs _ _ _ b.symbol_table (pass2Uses m.uses [] 0) 0).1 = _
  rw [h1, hb, pass2Instrs_table _ _ _ T hnd]
  rfl

theorem after_table (T : SymbolTable) (hnd : (T.map Prod.fst).Nodup) :
    ∀ (prog : List ObjectModule) (b : Boundary) (g : String → Bool),
    (∀ m ∈ prog, m.WellFormed) → b.symbol_table = markAll g T →
    (b.after prog).symbol_table = markAll (fun s => g s || lookedUp prog s) T
  | [], b, g, _, hb => by
    rw [after_nil, hb]
    apply markAll_congr
    intro kv _
    simp [lookedUp]
  | m :: rest, b, g, hwf, hb => by
    rw [after_cons, after_table T hnd rest (b.step m) (fun s => g s || m.looksUp s)
      (fun x hx => hwf x (List.mem_cons_of_mem _ hx))
      (step_table b m (hwf m (List.mem_cons_self _ _)) T hnd g hb)]
    apply markAll_congr
    intro kv _
    simp [lookedUp, Bool.or_assoc]

/-- The output between two boundaries: Rule 7 warnings of the modules before the last
one, and memory-map lines. -/
theorem after_cout : ∀ (prog : List ObjectModule) (b : Boundary),
    ∃ A, (b.after prog).cout = b.cout ++ A ∧
      (prog = [] → A = []) ∧
      ∀ o ∈ A, (∀ l, o.rule7Label = some l →
        b.module_count ≤ l ∧ l < b.module_count + (prog.length : Int)) ∧
        o.isRule4Warning = false
  | [], b => ⟨[], by simp [after_nil], fun _ => rfl, by intro o ho; simp at ho⟩
  | m :: rest, b => by
    obtain ⟨A, hA, _, hlab⟩ := after_cout rest (b.step m)
    have hlen : ((m :: rest).length : Int) = (rest.length : Int) + 1 := by
      simp only [List.length_cons]; push_cast; rfl
    refine ⟨(b.use_list.UnusedSymbols.map fun s => Output.rule7Warning b.module_count s) ++
      (pass2Instrs (b.module_index + b.instruction_count) m.size m.instructions
        b.symbol_table (pass2Uses m.uses [] 0) 0).2.2 ++ A, ?_, ?_, ?_⟩
    · rw [after_cons, hA]
      show (b.cout ++ _ ++ _) ++ A = _
      simp only [List.append_assoc]
    · intro h; exact absurd h (by simp)
    · intro o ho
      simp only [List.mem_append] at ho
      rcases ho with (ho | ho) | ho
      · obtain ⟨h1, h2⟩ := rule7_warnings_kind _ _ o ho
        refine ⟨?_, h2⟩
        intro l hl
        rw [h1] at hl
        simp only [Option.some.injEq] at hl
        rw [hlen]; omega
      · obtain ⟨h1, h2⟩ := pass2Instrs_lines_kind _ _ _ _ _ _ o ho
        refine ⟨?_, h2⟩
        intro l hl
        rw [h1] at hl
        exact absurd hl (by simp)
      · obtain ⟨h1, h2⟩ := hlab o ho
        refine ⟨?_, h2⟩
        intro l hl
        have := h1 l hl
        have hmc : (b.step m).module_count = b.module_count + 1 := rfl
        rw [hmc] at this
        rw [hlen]; omega
/-! ## The table that pass 1 hands to pass 2 -/

theorem not_mem_keys_of_find_none : ∀ (T : SymbolTable) (s : String),
    T.find s = none → s ∉ T.map Prod.fst
  | [], _, _ => by simp
  | (k, d) :: rest, s, h => by
    simp only [SymbolTable.find] at h
    by_cases hk : k = s
    · rw [if_pos hk] at h; exact absurd h (by simp)
    · rw [if_neg hk] at h
      have := not_mem_keys_of_find_none rest s h
      simp only [List.map_cons, List.mem_cons, not_or]
      exact ⟨fun e => hk e.symm, this⟩

theorem freshTable_AddSymbol (T : SymbolTable) (s : String) (v m : Int) (h : freshTable T) :
    freshTable (T.AddSymbol s v m) := by
  obtain ⟨hk, hu⟩ := h
  unfold SymbolTable.AddSymbol
  cases hf : T.find s with
  | some d =>
    simp only [Option.isSome_some, if_true]
    constructor
    · rw [map_modify Prod.fst (fun d => { d with err := multiplyDefinedNote })
        (fun _ _ => rfl)]
      exact hk
    · rw [map_modify (fun kv => kv.2.used) (fun d => { d with err := multiplyDefinedNote })
        (fun _ _ => rfl)]
      exact hu
  | none =>
    simp only [Option.isSome_none, Bool.false_eq_true, if_false]
    have hperm := insert_perm T s
      { err := "", value := v, module := m, used := false,
        sorting_index := (T.length : Int) } hf
    constructor
    · rw [(hperm.map Prod.fst).nodup_iff]
      simp only [List.map_cons, List.nodup_cons]
      exact ⟨not_mem_keys_of_find_none T s hf, hk⟩
    · intro u hmem
      have := (hperm.map fun kv => kv.2.used).mem_iff.mp hmem
      simp only [List.map_cons, List.mem_cons] at this
      rcases this with h1 | h1
      · exact h1
      · exact hu u h1

theorem VerifySymbolLoop_keys_flags (lm ls lmi : Int) : ∀ T : SymbolTable,
    (SymbolTable.VerifySymbolLoop lm ls lmi T).1.map Prod.fst = T.map Prod.fst ∧
    (SymbolTable.VerifySymbolLoop lm ls lmi T).1.map (fun kv => kv.2.used) =
      T.map (fun kv => kv.2.used)
  | [] => ⟨rfl, rfl⟩
  | (k, d) :: rest => by
    obtain ⟨ih1, ih2⟩ := VerifySymbolLoop_keys_flags lm ls lmi rest
    unfold SymbolTable.VerifySymbolLoop
    simp only
    split
    · simp [ih1, ih2]
    · split
      · simp [ih1, ih2]
      · simp [ih1, ih2]

theorem freshTable_VerifySymbol (T : SymbolTable) (lm ls cur : Int) (h : freshTable T) :
    freshTable (T.VerifySymbol lm ls cur).1 := by
  obtain ⟨hk, hu⟩ := h
  unfold SymbolTable.VerifySymbol
  obtain ⟨e1, e2⟩ := VerifySymbolLoop_keys_flags lm ls (wrap32 (cur - ls)) T
  exact ⟨by rw [e1]; exact hk, by rw [e2]; exact hu⟩

theorem freshTable_pass1Defs (b m : Int) : ∀ (defs : List (Token × Token)) (T : SymbolTable),
    freshTable T → freshTable (pass1Defs T b m defs)
  | [], _, h => h
  | p :: rest, T, h => by
    have := freshTable_pass1Defs b m rest _ (freshTable_AddSymbol T p.1.token
      (wrap32 ((p.2.ReadAsInt 0).val + b)) m h)
    simpa [pass1Defs] using this

theorem freshTable_pass1Final : ∀ (prog : List ObjectModule) (T : SymbolTable)
    (out : List Output) (mc mi ic : Int), freshTable T →
    freshTable (pass1Final prog T out mc mi ic).1
  | [], T, out, mc, mi, ic, h => freshTable_VerifySymbol T _ _ _ h
  | m :: rest, T, out, mc, mi, ic, h => by
    unfold pass1Final
    exact freshTable_pass1Final rest _ _ _ _ _
      (freshTable_pass1Defs _ _ _ _ (freshTable_VerifySymbol T _ _ _ h))

/-- Pass 2 on a well-formed program, from a table whose keys are pairwise different and
whose entries are all unused: the output ends with the Rule 4 warnings of the entries
that no module looks up, after the Rule 7 warnings of the last module. -/
theorem pass2_rule4 (prog : List ObjectModule) (T : SymbolTable) (out : List Output)
    (hwf : WellFormedProgram prog) (hkeys : (T.map Prod.fst).Nodup)
    (hfresh : ∀ kv ∈ T, kv.2.used = false) :
    ∃ tk X,
      (Tokenizer.create .InstructionGenerator T out).run (programTokens prog) = .ok tk ∧
      tk.cout = out ++ X ++ rule4Lines T prog ∧
      (∀ o ∈ X, o.isRule4Warning = false) ∧
      ∀ (pre : List ObjectModule) (last : ObjectModule), prog = pre ++ [last] →
        ∃ Y, X = Y ++ rule7Lines ((pre.length : Int) + 1) last := by
  obtain ⟨tk, hrun, _, _, _, hcout⟩ := pass2_run prog hwf T out
  obtain ⟨hmods, hsum⟩ := hwf
  obtain ⟨A, hA, _, hAlab⟩ := after_cout prog (Boundary.mk T [] out 0 0 0)
  have hcount := after_count prog (Boundary.mk T [] out 0 0 0)
  have htable := after_table T hkeys prog (Boundary.mk T [] out 0 0 0) (fun _ => false)
    hmods (markAll_false T).symm
  have happ := pass2Final_append prog [] (Boundary.mk T [] out 0 0 0)
  rw [List.append_nil] at happ
  obtain ⟨b1, hb1⟩ : ∃ b1, b1 = (Boundary.mk T [] out 0 0 0).after prog := ⟨_, rfl⟩
  rw [← hb1] at hA hcount htable happ
  simp only [zero_add] at hcount
  simp only at hA happ
  have hfin : pass2Final [] b1.symbol_table b1.use_list b1.cout b1.module_count
      b1.module_index b1.instruction_count =
      (b1.symbol_table, [], b1.cout ++
        (b1.use_list.UnusedSymbols.map fun s => Output.rule7Warning b1.module_count s) ++
        b1.symbol_table.VerifySymbolUsed) := rfl
  have hrule4 : b1.symbol_table.VerifySymbolUsed = rule4Lines T prog := by
    rw [htable, VerifySymbolUsed_markAll _ T hfresh]
    simp [rule4Lines]
  refine ⟨tk,
    A ++ (b1.use_list.UnusedSymbols.map fun s => Output.rule7Warning b1.module_count s),
    hrun, ?_, ?_, ?_⟩
  · rw [hcout, happ, hfin, hrule4, hA]
    simp only [List.append_assoc]
  · intro o ho
    rcases List.mem_append.mp ho with ho | ho
    · exact (hAlab o ho).2
    · exact (rule7_warnings_kind _ _ o ho).2
  · intro pre last hprog
    refine ⟨A, ?_⟩
    have hlast : last.WellFormed := hmods last (by rw [hprog]; simp)
    have hul : b1.use_list = markedUseList last.references last.uses 0 := by
      rw [hb1, hprog, after_snoc]
      exact step_use_list _ last hlast
    have hmc : b1.module_count = (pre.length : Int) + 1 := by
      rw [hcount, hprog]
      simp
    rw [hul, hmc, UnusedSymbols_markedUseList]
    rfl

/-! ## Which tokens the validators accept -/

theorem readDigits_count : ∀ (cs : List Char) (acc n : Nat),
    (readDigits cs acc n).2 = n + (cs.takeWhile Char.isDigit).length
  | [], _, _ => by simp [readDigits]
  | c :: cs, acc, n => by
    unfold readDigits
    by_cases h : c.isDigit = true
    · rw [if_pos h, readDigits_count cs _ (n + 1)]
      simp [List.takeWhile, h]
      omega
    · rw [if_neg h]
      simp [List.takeWhile, h]

theorem readDigits_value_acc : ∀ (cs : List Char) (acc n : Nat),
    (∀ c ∈ cs, c.isDigit = true) →
    (readDigits cs acc n).1 = cs.foldl (fun a c => a * 10 + (c.toNat - 48)) acc
  | [], _, _, _ => rfl
  | c :: cs, acc, n, h => by
    unfold readDigits
    rw [if_pos (h c (List.mem_cons_self _ _)),
      readDigits_value_acc cs _ (n + 1) (fun x hx => h x (List.mem_cons_of_mem _ hx))]
    rfl

theorem takeWhile_length_eq_iff (p : Char → Bool) (l : List Char) :
    (l.takeWhile p).length = l.length ↔ ∀ c ∈ l, p c = true := by
  constructor
  · intro h
    have hpre : (l.takeWhile p).IsPrefix l := List.takeWhile_prefix p
    have heq : l.takeWhile p = l := hpre.eq_of_length h
    exact List.takeWhile_eq_self_iff.mp heq
  · intro h
    rw [List.takeWhile_eq_self_iff.mpr h]

theorem length_takeWhile_add_dropWhile (p : Char → Bool) (l : List Char) :
    l.length = (l.takeWhile p).length + (l.dropWhile p).length := by
  rw [← List.length_append, List.takeWhile_append_dropWhile]

theorem TryParseInt_core (s : String) (r : Int) (ws body : List Char) (sgn : Nat)
    (sign : Int → Int)
    (hstoi : stoi s =
      if (readDigits body 0 0).2 = 0 then none
      else if sign ((readDigits body 0 0).1 : Int) < -2147483648 ∨
          2147483647 < sign ((readDigits body 0 0).1 : Int) then none
      else some (sign ((readDigits body 0 0).1 : Int), ws.length + sgn + (readDigits body 0 0).2))
    (hlen : s.data.length = ws.length + sgn + body.length) :
    (TryParseInt s r).1 = true ↔
      (body ≠ [] ∧ (∀ c ∈ body, c.isDigit = true) ∧
        -2147483648 ≤ sign (digitsValue body : Int) ∧ sign (digitsValue body : Int) ≤ 2147483647) := by
  have hiff := takeWhile_length_eq_iff Char.isDigit body
  unfold TryParseInt
  rw [hstoi, readDigits_count, zero_add]
  by_cases h0 : (List.takeWhile Char.isDigit body).length = 0
  · rw [if_pos h0]
    simp only [Bool.false_eq_true, false_iff, not_and]
    intro hne hall
    have := hiff.mpr hall
    rw [h0] at this
    exact absurd (List.length_eq_zero.mp this.symm) hne
  · rw [if_neg h0]
    by_cases hrange : sign ((readDigits body 0 0).1 : Int) < -2147483648 ∨
        2147483647 < sign ((readDigits body 0 0).1 : Int)
    · rw [if_pos hrange]
      simp only [Bool.false_eq_true, false_iff, not_and]
      intro _ hall
      have hval : (readDigits body 0 0).1 = digitsValue body :=
        readDigits_value_acc body 0 0 hall
      rw [hval] at hrange
      omega
    · rw [if_neg hrange]
      simp only [beq_iff_eq, hlen]
      constructor
      · intro h
        have hcnt : (List.takeWhile Char.isDigit body).length = body.length := by omega
        have hall := hiff.mp hcnt
        have hval : (readDigits body 0 0).1 = digitsValue body :=
          readDigits_value_acc body 0 0 hall
        rw [hval] at hrange
        refine ⟨?_, hall, by omega, by omega⟩
        intro hnil
        rw [hnil] at h0
        exact h0 rfl
      · intro h
        rw [hiff.mpr h.2.1]

/-- The call `TryParseInt` succeeds exactly on the integer texts, whatever the
out-parameter holds. -/
theorem TryParseInt_ok_iff (s : String) (r : Int) :
    (TryParseInt s r).1 = true ↔ isIntegerText s = true := by
  have hlen := length_takeWhile_add_dropWhile isspace s.data
  unfold isIntegerText
  cases hr1 : s.data.dropWhile isspace with
  | nil =>
    have hstoi : stoi s = none := by
      unfold stoi
      simp only [hr1]
      simp [readDigits]
    unfold TryParseInt
    rw [hstoi]
    simp [signedDigits]
  | cons c rest =>
    rw [hr1] at hlen
    by_cases hm : c = '-'
    · subst hm
      rw [TryParseInt_core s r (s.data.takeWhile isspace) rest 1 (fun x => -x)
        (by unfold stoi; simp only [hr1]; simp)
        (by rw [hlen]; simp; omega)]
      cases rest with
      | nil => simp [signedDigits]
      | cons d rest2 =>
        simp [signedDigits, signedValue, and_assoc]
    · by_cases hp : c = '+'
      · subst hp
        rw [TryParseInt_core s r (s.data.takeWhile isspace) rest 1 (fun x => x)
          (by unfold stoi; simp only [hr1]; simp)
          (by rw [hlen]; simp; omega)]
        cases rest with
        | nil => simp [signedDigits]
        | cons d rest2 =>
          simp [signedDigits, signedValue, and_assoc]
      · rw [TryParseInt_core s r (s.data.takeWhile isspace) (c :: rest) 0 (fun x => x)
          (by unfold stoi; simp only [hr1]; simp [hm, hp])
          (by rw [hlen]; simp)]
        simp [signedDigits, signedValue, hm, hp, and_assoc]
theorem ReadAsInt_ok_iff_text (t : Token) (r : Int) :
    (t.ReadAsInt r).ok = true ↔ isIntegerText t.token = true := by
  rw [ReadAsInt_ok_iff, TryParseInt_ok_iff]

theorem ReadAsInt_err (t : Token) (r : Int) :
    (t.ReadAsInt r).err = if (t.ReadAsInt r).ok = true then .ERROR_OK else .ERROR_NUM_EXPECTED := by
  unfold Token.ReadAsInt
  simp only
  split <;> simp

theorem utf8ByteSize_one (s : String) (h : s.utf8ByteSize = 1) :
    ∃ c, s.data = [c] := by
  obtain ⟨data⟩ := s
  simp only [String.utf8ByteSize] at h
  cases data with
  | nil => simp [String.utf8ByteSize.go] at h
  | cons c cs =>
    cases cs with
    | nil => exact ⟨c, rfl⟩
    | cons d ds =>
      have h1 := utf8ByteSize_go_pos d ds
      have h2 := Char.utf8Size_pos c
      simp only [String.utf8ByteSize.go] at h h1
      omega

/-- The call `ReadAsIAER` succeeds exactly on the four one-character texts. -/
theorem ReadAsIAER_ok_iff (t : Token) (r : Char) :
    (t.ReadAsIAER r).ok = true ↔
      (t.token = "I" ∨ t.token = "A" ∨ t.token = "E" ∨ t.token = "R") := by
  unfold Token.ReadAsIAER
  constructor
  · intro h
    by_cases h1 : t.token.utf8ByteSize ≠ 1
    · rw [if_pos h1] at h; simp at h
    · rw [if_neg h1] at h
      obtain ⟨c, hc⟩ := utf8ByteSize_one t.token (by omega)
      simp only [hc, List.headD_cons] at h
      have htok : t.token = String.mk [c] := String.ext hc
      by_cases h2 : c ≠ 'I' ∧ c ≠ 'A' ∧ c ≠ 'E' ∧ c ≠ 'R'
      · rw [if_pos h2] at h; simp at h
      · rw [htok]
        by_cases hI : c = 'I'
        · left; rw [hI]
        · by_cases hA : c = 'A'
          · right; left; rw [hA]
          · by_cases hE : c = 'E'
            · right; right; left; rw [hE]
            · by_cases hR : c = 'R'
              · right; right; right; rw [hR]
              · exact absurd ⟨hI, hA, hE, hR⟩ h2
  · intro h
    rcases h with h | h | h | h <;> rw [h] <;> rfl

theorem ReadAsIAER_err (t : Token) (r : Char) (h : (t.ReadAsIAER r).ok = false) :
    (t.ReadAsIAER r).err = .ERROR_ADDR_EXPECTED := by
  unfold Token.ReadAsIAER at h ⊢
  simp only at h ⊢
  split
  · rfl
  · split
    · rfl
    · rename_i h1 h2
      rw [if_neg h1, if_neg h2] at h
      simp at h

/-- In a state that expects an integer, a token that `ReadAsInt` rejects takes the state
machine to `STATE_SYNTAX_ERROR` with `NUM_EXPECTED`, and a token that it accepts never
gives `NUM_EXPECTED`. -/
theorem ProcessState_expectsInt (ctx : ParsingContext) (t : Token)
    (hs : ctx.current_state.expectsInt = true) :
    ((t.ReadAsInt 0).ok = false →
      (ctx.ProcessState t).1.next_state = .STATE_SYNTAX_ERROR ∧
      (ctx.ProcessState t).2 = .ERROR_NUM_EXPECTED) ∧
    ((t.ReadAsInt 0).ok = true → (ctx.ProcessState t).2 ≠ .ERROR_NUM_EXPECTED) := by
  have hok : ∀ r, (t.ReadAsInt r).ok = (t.ReadAsInt 0).ok := by
    intro r
    rw [ReadAsInt_ok_iff, ReadAsInt_ok_iff]
    exact TryParseInt_fst_indep _ _ _
  have herr : ∀ r, (t.ReadAsInt r).err =
      if (t.ReadAsInt 0).ok = true then .ERROR_OK else .ERROR_NUM_EXPECTED := by
    intro r
    rw [ReadAsInt_err, hok]
  unfold ParsingContext.ProcessState
  cases hcs : ctx.current_state <;> rw [hcs] at hs <;>
    first
      | exact absurd hs (by decide)
      | (simp only [ParsingContext.HandleModuleStart, ParsingContext.HandleReadDefinitionValue,
          ParsingContext.HandleUseListStart, ParsingContext.HandleInstructionListStart,
          ParsingContext.HandleInstructionCodeRead, hok, herr]
         cases hk : (t.ReadAsInt 0).ok
         · simp
         · simp only [Bool.not_true, Bool.false_eq_true, if_false, if_true]
           refine ⟨fun h => absurd h (by decide), fun _ => ?_⟩
           (repeat' split) <;> (dsimp only; decide))
/-! ## The memory-map lines of pass 2 -/

theorem programSize_eq_count : ∀ prog : List ObjectModule,
    programSize prog = (instructionCount prog : Int)
  | [] => rfl
  | m :: rest => by
    rw [programSize_cons, programSize_eq_count rest]
    simp [instructionCount, ObjectModule.size]

theorem instructionCount_append (a b : List ObjectModule) :
    instructionCount (a ++ b) = instructionCount a + instructionCount b := by
  simp [instructionCount]

theorem instructionCount_cons (m : ObjectModule) (rest : List ObjectModule) :
    instructionCount (m :: rest) = m.instructions.length + instructionCount rest := by
  simp [instructionCount]

theorem pass2Instrs_lines_filter (base count : Int) :
    ∀ (instrs : List (Token × Token)) (T : SymbolTable) (ul : UseList) (j : Int),
    (pass2Instrs base count instrs T ul j).2.2.filter Output.isMapLine =
      (pass2Instrs base count instrs T ul j).2.2
  | [], _, _, _ => rfl
  | p :: rest, T, ul, j => by
    simp only [pass2Instrs, List.filter_cons, Output.isMapLine, if_true]
    rw [pass2Instrs_lines_filter base count rest]

theorem rule7_warnings_filter (ul : UseList) (mc : Int) :
    (ul.UnusedSymbols.map fun s => Output.rule7Warning mc s).filter Output.isMapLine = [] := by
  rw [List.filter_eq_nil_iff]
  intro o ho
  obtain ⟨s, _, hs⟩ := List.mem_map.mp ho
  subst hs
  simp [Output.isMapLine]

theorem VerifySymbolUsed_filter : ∀ T : SymbolTable,
    T.VerifySymbolUsed.filter Output.isMapLine = []
  | [] => rfl
  | (k, d) :: rest => by
    simp only [SymbolTable.VerifySymbolUsed]
    split
    · simp [Output.isMapLine, VerifySymbolUsed_filter rest]
    · exact VerifySymbolUsed_filter rest

/-- The instruction at position `k` of a module gives the line at position `k` of the
lines of the module: its address is the base plus the position, and its value and
diagnostic are the translation of the instruction. -/
theorem pass2Instrs_line_at (base count : Int) :
    ∀ (instrs : List (Token × Token)) (T : SymbolTable) (ul : UseList) (j : Int) (k : Nat)
      (p : Token × Token), instrs[k]? = some p →
    ∃ T1 ul1, (pass2Instrs base count instrs T ul j).2.2[k]? = some
      (Output.mapLine (wrap32 (base + (j + (k : Int))))
        (InstructionGenerator.Translate (p.1.ReadAsIAER (Char.ofNat 0)).val
          (p.2.ReadAsInt 0).val (translateContext base count) T1 ul1).instruction
        (InstructionGenerator.Translate (p.1.ReadAsIAER (Char.ofNat 0)).val
          (p.2.ReadAsInt 0).val (translateContext base count) T1 ul1).err)
  | [], _, _, _, k, p, h => by simp at h
  | q :: rest, T, ul, j, 0, p, h => by
    simp only [List.getElem?_cons_zero, Option.some.injEq] at h
    subst h
    refine ⟨T, ul, ?_⟩
    simp only [pass2Instrs, List.getElem?_cons_zero, Nat.cast_zero, add_zero,
      show j + 1 - 1 = j by omega]
  | q :: rest, T, ul, j, k + 1, p, h => by
    simp only [List.getElem?_cons_succ] at h
    obtain ⟨T1, ul1, h1⟩ := pass2Instrs_line_at base count rest
      (InstructionGenerator.Translate (q.1.ReadAsIAER (Char.ofNat 0)).val
        (q.2.ReadAsInt 0).val (translateContext base count) T ul).symbol_table
      (InstructionGenerator.Translate (q.1.ReadAsIAER (Char.ofNat 0)).val
        (q.2.ReadAsInt 0).val (translateContext base count) T ul).use_list (j + 1) k p h
    refine ⟨T1, ul1, ?_⟩
    simp only [pass2Instrs, List.getElem?_cons_succ]
    rw [h1, show j + 1 + (k : Int) = j + ((k + 1 : Nat) : Int) by push_cast; omega]

theorem after_cout_mapLines : ∀ (prog : List ObjectModule) (b : Boundary),
    ∃ A, (b.after prog).cout = b.cout ++ A ∧ A.filter Output.isMapLine = mapLinesOf prog b
  | [], b => ⟨[], by simp [after_nil], rfl⟩
  | m :: rest, b => by
    obtain ⟨A, hA, hf⟩ := after_cout_mapLines rest (b.step m)
    refine ⟨(b.use_list.UnusedSymbols.map fun s => Output.rule7Warning b.module_count s) ++
      (pass2Instrs (b.module_index + b.instruction_count) m.size m.instructions
        b.symbol_table (pass2Uses m.uses [] 0) 0).2.2 ++ A, ?_, ?_⟩
    · rw [after_cons, hA]
      show (b.cout ++ _ ++ _) ++ A = _
      simp only [List.append_assoc]
    · simp only [List.filter_append, rule7_warnings_filter, pass2Instrs_lines_filter, hf,
        List.nil_append, mapLinesOf]

theorem mapLinesOf_append : ∀ (pre rest : List ObjectModule) (b : Boundary),
    mapLinesOf (pre ++ rest) b = mapLinesOf pre b ++ mapLinesOf rest (b.after pre)
  | [], _, _ => rfl
  | m :: pre, rest, b => by
    have ih := mapLinesOf_append pre rest (b.step m)
    show _ ++ mapLinesOf (pre ++ rest) (b.step m) = (_ ++ mapLinesOf pre (b.step m)) ++ _
    rw [ih, List.append_assoc]
    rfl

theorem mapLinesOf_length : ∀ (prog : List ObjectModule) (b : Boundary),
    0 ≤ b.module_index + b.instruction_count →
    b.module_index + b.instruction_count + programSize prog ≤ 512 →
    (mapLinesOf prog b).length = instructionCount prog ∧
    ∀ (k : Nat) (o : Output), (mapLinesOf prog b)[k]? = some o →
      o.isMapLineAt (b.module_index + b.instruction_count + (k : Int)) = true
  | [], b, _, _ => by simp [mapLinesOf, instructionCount]
  | m :: rest, b, h0, h512 => by
    rw [programSize_cons] at h512
    have hsz : m.size = (m.instructions.length : Int) := rfl
    have hrest := programSize_nonneg rest
    obtain ⟨hl, hat⟩ := pass2Instrs_lines (b.module_index + b.instruction_count) m.size
      m.instructions b.symbol_table (pass2Uses m.uses [] 0) 0 (by omega) (by omega)
    have hbase : (b.step m).module_index + (b.step m).instruction_count =
        b.module_index + b.instruction_count + m.size := rfl
    obtain ⟨ihl, ihat⟩ := mapLinesOf_length rest (b.step m) (by rw [hbase]; omega)
      (by rw [hbase]; omega)
    constructor
    · simp only [mapLinesOf, List.length_append, hl, ihl, instructionCount_cons]
    · intro k o hk
      simp only [mapLinesOf] at hk
      by_cases hlt : k < m.instructions.length
      · rw [List.getElem?_append_left (by rw [hl]; exact hlt)] at hk
        have := (hat k o hk).1
        simpa using this
      · rw [List.getElem?_append_right (by rw [hl]; omega), hl] at hk
        have := ihat _ o hk
        rw [hbase, hsz] at this
        rw [show b.module_index + b.instruction_count + (k : Int) =
          b.module_index + b.instruction_count + (m.instructions.length : Int) +
            ((k - m.instructions.length : Nat) : Int) by omega]
        exact this
/-! ## Pass 2 changes nothing but used flags -/

theorem entry_sameButUsed_refl (a : SymbolData) : a.sameButUsed a :=
  ⟨rfl, rfl, rfl, rfl, fun h => h⟩

theorem entry_sameButUsed_trans {a b c : SymbolData} (h1 : a.sameButUsed b)
    (h2 : b.sameButUsed c) : a.sameButUsed c :=
  ⟨h1.1.trans h2.1, h1.2.1.trans h2.2.1, h1.2.2.1.trans h2.2.2.1,
    h1.2.2.2.1.trans h2.2.2.2.1, fun h => h2.2.2.2.2 (h1.2.2.2.2 h)⟩

theorem sameButUsed_refl : ∀ T : SymbolTable, T.sameButUsed T
  | [] => List.Forall₂.nil
  | _ :: rest => List.Forall₂.cons ⟨rfl, entry_sameButUsed_refl _⟩ (sameButUsed_refl rest)

theorem sameButUsed_trans : ∀ {T1 T2 T3 : SymbolTable}, T1.sameButUsed T2 →
    T2.sameButUsed T3 → T1.sameButUsed T3
  | _, _, _, List.Forall₂.nil, List.Forall₂.nil => List.Forall₂.nil
  | _, _, _, List.Forall₂.cons h1 t1, List.Forall₂.cons h2 t2 =>
    List.Forall₂.cons ⟨h1.1.trans h2.1, entry_sameButUsed_trans h1.2 h2.2⟩
      (sameButUsed_trans t1 t2)

theorem sameButUsed_modify (s : String) : ∀ T : SymbolTable,
    T.sameButUsed (T.modify s fun d => { d with used := true })
  | [] => List.Forall₂.nil
  | (k, d) :: rest => by
    simp only [SymbolTable.modify]
    split
    · exact List.Forall₂.cons ⟨rfl, rfl, rfl, rfl, rfl, fun _ => rfl⟩ (sameButUsed_refl rest)
    · exact List.Forall₂.cons ⟨rfl, entry_sameButUsed_refl _⟩ (sameButUsed_modify s rest)

theorem sameButUsed_Translate (mode : Char) (c : Int) (ctx : ParsingContext)
    (T : SymbolTable) (ul : UseList) :
    T.sameButUsed (InstructionGenerator.Translate mode c ctx T ul).symbol_table := by
  rw [(Translate_effect mode c ctx T ul).2]
  split
  · split
    · exact sameButUsed_modify _ T
    · exact sameButUsed_refl T
  · exact sameButUsed_refl T

theorem sameButUsed_ProcessToken (t : Token) (ctx : ParsingContext) (T : SymbolTable)
    (ul : UseList) : T.sameButUsed (InstructionGenerator.ProcessToken t ctx T ul).1 := by
  unfold InstructionGenerator.ProcessToken
  simp only
  split
  · exact sameButUsed_Translate _ _ _ _ _
  · exact sameButUsed_refl T

theorem ProcessOne_tableFrom (T : SymbolTable) (tk : Tokenizer) (t : Token)
    (h : tk.tableFrom T) : (resultTokenizer (tk.ProcessOne t)).tableFrom T := by
  unfold Tokenizer.ProcessOne
  simp only
  split
  · exact ⟨h.1, h.2⟩
  · refine ⟨h.1, ?_⟩
    simp only [resultTokenizer, h.1, TokenProcessor.ProcessToken]
    exact sameButUsed_trans h.2 (sameButUsed_ProcessToken _ _ _ _)

theorem TokenizeTokens_tableFrom (T : SymbolTable) : ∀ (toks : List Token) (tk : Tokenizer),
    tk.tableFrom T → (resultTokenizer (tk.TokenizeTokens toks)).tableFrom T
  | [], _, h => h
  | t :: ts, tk, h => by
    have h1 := ProcessOne_tableFrom T tk t h
    unfold Tokenizer.TokenizeTokens
    cases hp : tk.ProcessOne t with
    | error e => rw [hp] at h1; exact h1
    | ok tk1 =>
      rw [hp] at h1
      exact TokenizeTokens_tableFrom T ts tk1 h1

theorem TokenizeLine_tableFrom (T : SymbolTable) (tk : Tokenizer) (line : String)
    (h : tk.tableFrom T) : (resultTokenizer (tk.TokenizeLine line)).tableFrom T := by
  have h1 := TokenizeTokens_tableFrom T (lineTokens tk.context.index line) (tk.setPosition 1)
    ⟨h.1, h.2⟩
  unfold Tokenizer.TokenizeLine
  cases hp : (tk.setPosition 1).TokenizeTokens (lineTokens tk.context.index line) with
  | error e => rw [hp] at h1; exact h1
  | ok tk1 =>
    rw [hp] at h1
    exact ⟨h1.1, h1.2⟩

theorem TokenizeLines_tableFrom (T : SymbolTable) : ∀ (lines : List String) (tk : Tokenizer),
    tk.tableFrom T → (resultTokenizer (tk.TokenizeLines lines)).tableFrom T
  | [], _, h => h
  | l :: ls, tk, h => by
    have h1 := TokenizeLine_tableFrom T tk l h
    unfold Tokenizer.TokenizeLines
    cases hp : tk.TokenizeLine l with
    | error e => rw [hp] at h1; exact h1
    | ok tk1 =>
      rw [hp] at h1
      exact TokenizeLines_tableFrom T ls _ ⟨h1.1, h1.2⟩

theorem Finish_tableFrom (T : SymbolTable) (tk : Tokenizer) (h : tk.tableFrom T) :
    (resultTokenizer tk.Finish).tableFrom T := by
  unfold Tokenizer.Finish
  simp only
  split
  · exact ⟨h.1, h.2⟩
  · refine ⟨h.1, ?_⟩
    simp only [resultTokenizer, h.1, TokenProcessor.Stop, InstructionGenerator.Stop]
    exact h.2

theorem TokenizeFile_tableFrom (T : SymbolTable) (tk : Tokenizer) (lines : List String)
    (h : tk.tableFrom T) : (resultTokenizer (tk.TokenizeFile lines)).tableFrom T := by
  have h1 := TokenizeLines_tableFrom T lines tk h
  unfold Tokenizer.TokenizeFile
  cases hp : tk.TokenizeLines lines with
  | error e => rw [hp] at h1; exact h1
  | ok tk1 =>
    rw [hp] at h1
    exact Finish_tableFrom T _ ⟨h1.1, h1.2⟩

theorem sameButUsed_map : ∀ {T T1 : SymbolTable}, T.sameButUsed T1 →
    T1.map (fun kv => (kv.1, kv.2.err, kv.2.value, kv.2.module, kv.2.sorting_index)) =
      T.map (fun kv => (kv.1, kv.2.err, kv.2.value, kv.2.module, kv.2.sorting_index))
  | _, _, List.Forall₂.nil => rfl
  | _, _, List.Forall₂.cons h t => by
    simp only [List.map_cons, sameButUsed_map t]
    obtain ⟨h1, h2, h3, h4, h5, _⟩ := h
    rw [h1, h2, h3, h4, h5]

theorem sameButUsed_used : ∀ {T T1 : SymbolTable}, T.sameButUsed T1 →
    ∀ (i : Nat) (a b : String × SymbolData), T[i]? = some a → T1[i]? = some b →
      a.2.used = true → b.2.used = true
  | _, _, List.Forall₂.nil, i, a, b, h, _, _ => by simp at h
  | _, _, List.Forall₂.cons h t, 0, a, b, ha, hb, hu => by
    simp only [List.getElem?_cons_zero, Option.some.injEq] at ha hb
    subst ha; subst hb
    exact h.2.2.2.2.2 hu
  | _, _, List.Forall₂.cons h t, i + 1, a, b, ha, hb, hu => by
    simp only [List.getElem?_cons_succ] at ha hb
    exact sameButUsed_used t i a b ha hb hu
/-! ## The module counters of the state machine -/

theorem lastSize_snoc : ∀ (pre : List ObjectModule) (m : ObjectModule) (d : Int),
    lastSize d (pre ++ [m]) = m.size
  | [], _, _ => rfl
  | q :: pre, m, _ => lastSize_snoc pre m q.size

/-- Pass 1 over the tokens of a well-formed program, started at a module boundary: the
counters of the context afterwards. -/
theorem pass1_program_counters : ∀ (prog : List ObjectModule) (tk : Tokenizer),
    tk.token_processor = .SymbolTableGenerator →
    tk.context.current_state = .STATE_MODULE_START →
    0 ≤ tk.context.module_count → 0 ≤ tk.context.module_index →
    0 ≤ tk.context.instruction_count →
    tk.context.module_index + tk.context.instruction_count + programSize prog ≤ 512 →
    (∀ m ∈ prog, m.WellFormed) →
    ∃ tk1, tk.TokenizeTokens (programTokens prog) = .ok tk1 ∧
      tk1.context.current_state = .STATE_MODULE_START ∧
      tk1.context.module_count = tk.context.module_count + (prog.length : Int) ∧
      tk1.context.module_index + tk1.context.instruction_count =
        tk.context.module_index + tk.context.instruction_count + programSize prog ∧
      tk1.context.instruction_count = lastSize tk.context.instruction_count prog
  | [], tk, _, hs, _, _, _, _, _ => by
    refine ⟨tk, rfl, hs, ?_, ?_, rfl⟩
    · simp
    · simp [programSize]
  | m :: rest, tk, hp, hs, hmc, hmi, hic, hfit, hwf => by
    have hsz := size_nonneg m
    have hrest := programSize_nonneg rest
    rw [programSize_cons] at hfit
    obtain ⟨ls, li, pos, e1⟩ := pass1_module m tk hp hs hmc hmi hic (by omega)
      (hwf m (List.mem_cons_self _ _))
    obtain ⟨tk1, htk1, e1⟩ : ∃ tk1, tk1 = _ ∧ tk.TokenizeTokens m.tokens = .ok tk1 :=
      ⟨_, rfl, e1⟩
    obtain ⟨tk2, e2, h2s, h2cnt, h2sum, h2ic⟩ :=
      pass1_program_counters rest tk1 (by rw [htk1]; exact hp) (by rw [htk1])
        (by rw [htk1]; show 0 ≤ tk.context.module_count + 1; omega)
        (by rw [htk1]; show 0 ≤ tk.context.module_index + tk.context.instruction_count; omega)
        (by rw [htk1]; exact hsz)
        (by rw [htk1]
            show tk.context.module_index + tk.context.instruction_count + m.size +
              programSize rest ≤ 512
            omega)
        (fun x hx => hwf x (List.mem_cons_of_mem _ hx))
    refine ⟨tk2, ?_, h2s, ?_, ?_, ?_⟩
    · have : programTokens (m :: rest) = m.tokens ++ programTokens rest := by
        simp [programTokens]
      rw [this, TokenizeTokens_append _ _ _ _ e1]
      exact e2
    · rw [h2cnt, htk1]
      show tk.context.module_count + 1 + (rest.length : Int) = _
      simp only [List.length_cons]; push_cast; omega
    · rw [h2sum, htk1, programSize_cons]
      show tk.context.module_index + tk.context.instruction_count + m.size +
        programSize rest = _
      omega
    · rw [h2ic, htk1]
      rfl

/-- The counters of the state machine after the tokens of a well-formed program. -/
theorem feed_program_counters (prog : List ObjectModule) (hmods : ∀ m ∈ prog, m.WellFormed)
    (hsum : programSize prog ≤ 512) :
    ParsingContext.init.neverSyntaxError (programTokens prog) ∧
    (ParsingContext.init.feed (programTokens prog)).current_state = .STATE_MODULE_START ∧
    (ParsingContext.init.feed (programTokens prog)).module_count = (prog.length : Int) ∧
    (ParsingContext.init.feed (programTokens prog)).module_index +
      (ParsingContext.init.feed (programTokens prog)).instruction_count = programSize prog ∧
    (ParsingContext.init.feed (programTokens prog)).instruction_count = lastSize 0 prog := by
  obtain ⟨tk1, e1, h1s, h1cnt, h1sum, h1ic⟩ :=
    pass1_program_counters prog (Tokenizer.create .SymbolTableGenerator [] []) rfl rfl
      (le_refl (0 : Int)) (le_refl (0 : Int)) (le_refl (0 : Int))
      (by show (0 : Int) + 0 + programSize prog ≤ 512; omega) hmods
  obtain ⟨hn, p, hctx⟩ := TokenizeTokens_ok_feed _ _ _ e1
  rw [hctx] at h1s h1cnt h1sum h1ic
  refine ⟨hn, h1s, ?_, ?_, h1ic⟩
  · have : (0 : Int) + (prog.length : Int) = (prog.length : Int) := by omega
    rw [← this]; exact h1cnt
  · have : (0 : Int) + 0 + programSize prog = programSize prog := by omega
    rw [← this]; exact h1sum
/-! ## Pass 1 and the definitions -/

theorem ReadAsInt_congr (t u : Token) (h : t.token = u.token) (r : Int) :
    t.ReadAsInt r = u.ReadAsInt r := by
  unfold Token.ReadAsInt
  rw [h]

theorem pass1Defs_congr (b m : Int) : ∀ (d1 d2 : List (Token × Token)) (T : SymbolTable),
    definitionTexts d1 = definitionTexts d2 → pass1Defs T b m d1 = pass1Defs T b m d2
  | [], [], _, _ => rfl
  | [], _ :: _, _, h => by simp [definitionTexts] at h
  | _ :: _, [], _, h => by simp [definitionTexts] at h
  | p :: r1, q :: r2, T, h => by
    simp only [definitionTexts, List.map_cons, List.cons.injEq, Prod.mk.injEq] at h
    obtain ⟨⟨h1, h2⟩, h3⟩ := h
    simp only [pass1Defs, List.foldl_cons]
    rw [h1, ReadAsInt_congr p.2 q.2 h2 0]
    exact pass1Defs_congr b m r1 r2 _ h3

theorem pass1Final_congr : ∀ (p q : List ObjectModule),
    List.Forall₂ ObjectModule.sameDefinitionsAndSizes p q →
    ∀ (T : SymbolTable) (out : List Output) (mc mi ic : Int),
      pass1Final p T out mc mi ic = pass1Final q T out mc mi ic
  | _, _, List.Forall₂.nil, _, _, _, _, _ => rfl
  | a :: p, b :: q, List.Forall₂.cons h t, T, out, mc, mi, ic => by
    obtain ⟨h1, _, h3⟩ := h
    have hsize : a.size = b.size := by
      unfold ObjectModule.size; rw [h3]
    simp only [pass1Final]
    rw [pass1Defs_congr _ _ a.definitions b.definitions _ h1, hsize]
    exact pass1Final_congr p q t _ _ _ _ _

/-! ## The state machine does not see the pass -/

theorem ProcessOne_sameTrajectory (tk tk1 : Tokenizer) (t : Token)
    (h : tk.context = tk1.context) : sameTrajectory (tk.ProcessOne t) (tk1.ProcessOne t) := by
  unfold Tokenizer.ProcessOne
  simp only [h]
  split
  · exact ⟨rfl, rfl⟩
  · rfl

theorem TokenizeTokens_sameTrajectory : ∀ (toks : List Token) (tk tk1 : Tokenizer),
    tk.context = tk1.context → sameTrajectory (tk.TokenizeTokens toks) (tk1.TokenizeTokens toks)
  | [], _, _, h => h
  | t :: ts, tk, tk1, h => by
    have h1 := ProcessOne_sameTrajectory tk tk1 t h
    unfold Tokenizer.TokenizeTokens
    cases hp : tk.ProcessOne t with
    | error e =>
      cases hq : tk1.ProcessOne t with
      | error e1 => rw [hp, hq] at h1; exact h1
      | ok b => rw [hp, hq] at h1; exact h1.elim
    | ok a =>
      cases hq : tk1.ProcessOne t with
      | error e1 => rw [hp, hq] at h1; exact h1.elim
      | ok b =>
        rw [hp, hq] at h1
        exact TokenizeTokens_sameTrajectory ts a b h1

theorem TokenizeLine_sameTrajectory (tk tk1 : Tokenizer) (line : String)
    (h : tk.context = tk1.context) :
    sameTrajectory (tk.TokenizeLine line) (tk1.TokenizeLine line) := by
  have h1 := TokenizeTokens_sameTrajectory (lineTokens tk.context.index line)
    (tk.setPosition 1) (tk1.setPosition 1) (by simp only [Tokenizer.setPosition, h])
  unfold Tokenizer.TokenizeLine
  rw [← h]
  cases hp : (tk.setPosition 1).TokenizeTokens (lineTokens tk.context.index line) with
  | error e =>
    cases hq : (tk1.setPosition 1).TokenizeTokens (lineTokens tk.context.index line) with
    | error e1 => rw [hp, hq] at h1; exact h1
    | ok b => rw [hp, hq] at h1; exact h1.elim
  | ok a =>
    cases hq : (tk1.setPosition 1).TokenizeTokens (lineTokens tk.context.index line) with
    | error e1 => rw [hp, hq] at h1; exact h1.elim
    | ok b =>
      rw [hp, hq] at h1
      have h2 : a.context = b.context := h1
      show (a.setPosition _).context = (b.setPosition _).context
      simp only [Tokenizer.setPosition, h2]

theorem TokenizeLines_sameTrajectory : ∀ (lines : List String) (tk tk1 : Tokenizer),
    tk.context = tk1.context →
    sameTrajectory (tk.TokenizeLines lines) (tk1.TokenizeLines lines)
  | [], _, _, h => h
  | l :: ls, tk, tk1, h => by
    have h1 := TokenizeLine_sameTrajectory tk tk1 l h
    unfold Tokenizer.TokenizeLines
    cases hp : tk.TokenizeLine l with
    | error e =>
      cases hq : tk1.TokenizeLine l with
      | error e1 => rw [hp, hq] at h1; exact h1
      | ok b => rw [hp, hq] at h1; exact h1.elim
    | ok a =>
      cases hq : tk1.TokenizeLine l with
      | error e1 => rw [hp, hq] at h1; exact h1.elim
      | ok b =>
        rw [hp, hq] at h1
        have h2 : a.context = b.context := h1
        exact TokenizeLines_sameTrajectory ls _ _ (by simp only [Tokenizer.setIndex, h2])

theorem Finish_sameTrajectory (tk tk1 : Tokenizer) (h : tk.context = tk1.context) :
    sameTrajectory tk.Finish tk1.Finish := by
  unfold Tokenizer.Finish
  simp only [h]
  split
  · exact ⟨rfl, rfl⟩
  · rfl

theorem TokenizeFile_sameTrajectory (tk tk1 : Tokenizer) (lines : List String)
    (h : tk.context = tk1.context) :
    sameTrajectory (tk.TokenizeFile lines) (tk1.TokenizeFile lines) := by
  have h1 := TokenizeLines_sameTrajectory lines tk tk1 h
  unfold Tokenizer.TokenizeFile
  cases hp : tk.TokenizeLines lines with
  | error e =>
    cases hq : tk1.TokenizeLines lines with
    | error e1 => rw [hp, hq] at h1; exact h1
    | ok b => rw [hp, hq] at h1; exact h1.elim
  | ok a =>
    cases hq : tk1.TokenizeLines lines with
    | error e1 => rw [hp, hq] at h1; exact h1.elim
    | ok b =>
      rw [hp, hq] at h1
      have h2 : a.context = b.context := h1
      exact Finish_sameTrajectory _ _ (by simp only [Tokenizer.setIndex, h2])

theorem Finish_ok_terminated (tk tk1 : Tokenizer) (h : tk.Finish = .ok tk1) :
    tk1.context.next_state = .STATE_TERMINATED := by
  unfold Tokenizer.Finish at h
  simp only at h
  split at h
  · exact absurd h (by simp)
  · rename_i hterm
    simp only [Except.ok.injEq] at h
    rw [← h]
    simpa using hterm

theorem TokenizeFile_ok_terminated (tk tk1 : Tokenizer) (lines : List String)
    (h : tk.TokenizeFile lines = .ok tk1) : tk1.context.next_state = .STATE_TERMINATED := by
  unfold Tokenizer.TokenizeFile at h
  cases hp : tk.TokenizeLines lines with
  | error e => rw [hp] at h; exact absurd h (by simp)
  | ok a =>
    rw [hp] at h
    exact Finish_ok_terminated _ _ h
/-! ## The values of the table after pass 1 -/

theorem VerifySymbolLoop_map (lm ls lmi : Int) : ∀ T : SymbolTable,
    (SymbolTable.VerifySymbolLoop lm ls lmi T).1 =
      T.map fun kv => (kv.1, verifyEntry lm ls lmi kv.2)
  | [] => rfl
  | (k, d) :: rest => by
    have ih := VerifySymbolLoop_map lm ls lmi rest
    unfold SymbolTable.VerifySymbolLoop
    simp only [List.map_cons]
    by_cases hm : d.module ≠ lm
    · simp only [if_pos hm, ih, verifyEntry]
    · by_cases hr : wrap32 (d.value - lmi) ≥ ls
      · simp only [if_neg hm, if_pos hr, ih, verifyEntry]
      · simp only [if_neg hm, if_neg hr, ih, verifyEntry]

theorem mem_modify : ∀ (T : SymbolTable) (s : String) (f : SymbolData → SymbolData)
    (kv : String × SymbolData), kv ∈ T.modify s f →
    ∃ kv0 ∈ T, kv = kv0 ∨ kv = (kv0.1, f kv0.2)
  | [], _, _, _, h => by simp [SymbolTable.modify] at h
  | (k, d) :: rest, s, f, kv, h => by
    simp only [SymbolTable.modify] at h
    split at h
    · rcases List.mem_cons.mp h with h | h
      · exact ⟨(k, d), List.mem_cons_self _ _, Or.inr h⟩
      · exact ⟨kv, List.mem_cons_of_mem _ h, Or.inl rfl⟩
    · rcases List.mem_cons.mp h with h | h
      · exact ⟨(k, d), List.mem_cons_self _ _, Or.inl h⟩
      · obtain ⟨kv0, h0, h1⟩ := mem_modify rest s f kv h
        exact ⟨kv0, List.mem_cons_of_mem _ h0, h1⟩

/-- An entry of the table after `AddSymbol` has the value and the module of an entry
before, or those of the call. -/
theorem mem_AddSymbol (T : SymbolTable) (s : String) (v m : Int) (kv : String × SymbolData)
    (h : kv ∈ T.AddSymbol s v m) :
    (∃ kv0 ∈ T, kv.2.value = kv0.2.value ∧ kv.2.module = kv0.2.module) ∨
      (kv.2.value = v ∧ kv.2.module = m) := by
  unfold SymbolTable.AddSymbol at h
  cases hf : T.find s with
  | some d =>
    simp only [hf, Option.isSome_some, if_true] at h
    obtain ⟨kv0, h0, h1⟩ := mem_modify T s _ kv h
    left
    refine ⟨kv0, h0, ?_⟩
    rcases h1 with h1 | h1
    · rw [h1]; exact ⟨rfl, rfl⟩
    · rw [h1]; exact ⟨rfl, rfl⟩
  | none =>
    simp only [hf, Option.isSome_none, Bool.false_eq_true, if_false] at h
    have hperm := insert_perm T s
      { err := "", value := v, module := m, used := false,
        sorting_index := (T.length : Int) } hf
    rcases List.mem_cons.mp (hperm.mem_iff.mp h) with h1 | h1
    · right; rw [h1]; exact ⟨rfl, rfl⟩
    · left; exact ⟨kv, h1, rfl, rfl⟩

theorem pendingValues_AddSymbol (T : SymbolTable) (s : String) (r mc mi : Int)
    (h : pendingValues T mc mi) (h0 : 0 ≤ r) (h1 : r ≤ 2147483647) :
    pendingValues (T.AddSymbol s (wrap32 (r + mi)) mc) mc mi := by
  intro kv hkv
  rcases mem_AddSymbol T s _ _ kv hkv with ⟨kv0, hk0, hv, hm⟩ | ⟨hv, hm⟩
  · rw [hv, hm]; exact h kv0 hk0
  · rw [hv, hm]
    exact ⟨le_refl _, fun hne => absurd rfl hne, fun _ => ⟨r, h0, h1, rfl⟩⟩

theorem pendingValues_pass1Defs (mc mi : Int) : ∀ (defs : List (Token × Token))
    (T : SymbolTable), pendingValues T mc mi →
    (∀ p ∈ defs, (p.2.ReadAsInt 0).ok = true ∧ 0 ≤ (p.2.ReadAsInt 0).val) →
    pendingValues (pass1Defs T mi mc defs) mc mi
  | [], _, h, _ => h
  | p :: rest, T, h, hd => by
    obtain ⟨hok, h0⟩ := hd p (List.mem_cons_self _ _)
    have hr := isInt_range (isInt_of_ok hok)
    have := pendingValues_pass1Defs mc mi rest _
      (pendingValues_AddSymbol T p.1.token (p.2.ReadAsInt 0).val mc mi h h0 hr.2)
      (fun x hx => hd x (List.mem_cons_of_mem _ hx))
    simpa [pass1Defs] using this

theorem pendingValues_next (T : SymbolTable) (mc mi : Int)
    (h : ∀ kv ∈ T, kv.2.module ≤ mc ∧ 0 ≤ kv.2.value ∧ kv.2.value ≤ 512) :
    pendingValues T (mc + 1) mi := by
  intro kv hkv
  obtain ⟨h1, h2, h3⟩ := h kv hkv
  exact ⟨by omega, fun _ => ⟨h2, h3⟩, fun he => by omega⟩

/-- The Rule 5 check at the end of a module brings every value of the module into the
module. -/
theorem settled_VerifySymbol (T : SymbolTable) (mc mi ic : Int) (h : pendingValues T mc mi)
    (hmi : 0 ≤ mi) (hic : 0 ≤ ic) (hfit : mi + ic ≤ 512) :
    ∀ kv ∈ (T.VerifySymbol mc ic (mi + ic)).1,
      kv.2.module ≤ mc ∧ 0 ≤ kv.2.value ∧ kv.2.value ≤ 512 := by
  have hbase : wrap32 (mi + ic - ic) = mi := by
    rw [show mi + ic - ic = mi by omega]
    exact wrap32_eq _ (by omega) (by omega)
  unfold SymbolTable.VerifySymbol
  simp only [hbase, VerifySymbolLoop_map]
  intro kv hkv
  obtain ⟨kv0, hk0, he⟩ := List.mem_map.mp hkv
  obtain ⟨h1, h2, h3⟩ := h kv0 hk0
  rw [← he]
  simp only [verifyEntry]
  by_cases hm : kv0.2.module ≠ mc
  · rw [if_pos hm]
    exact ⟨h1, h2 hm⟩
  · rw [if_neg hm]
    obtain ⟨r, hr0, hr1, hv⟩ := h3 (by simpa using hm)
    have hrel : wrap32 (kv0.2.value - mi) = r := by
      rw [hv]; exact wrap32_sub_add r mi (by omega) hr1 hmi (by omega)
    rw [hrel]
    by_cases hbig : r ≥ ic
    · rw [if_pos hbig]
      exact ⟨h1, by show 0 ≤ mi; exact hmi, by show mi ≤ 512; omega⟩
    · rw [if_neg hbig]
      have hw : wrap32 (r + mi) = r + mi := wrap32_eq _ (by omega) (by omega)
      exact ⟨h1, by rw [hv, hw]; omega, by rw [hv, hw]; omega⟩

theorem valuesWithin_pass1Final : ∀ (prog : List ObjectModule) (T : SymbolTable)
    (out : List Output) (mc mi ic : Int), pendingValues T mc mi →
    0 ≤ mi → 0 ≤ ic → mi + ic + programSize prog ≤ 512 →
    (∀ m ∈ prog, ∀ p ∈ m.definitions,
      (p.2.ReadAsInt 0).ok = true ∧ 0 ≤ (p.2.ReadAsInt 0).val) →
    valuesWithin (pass1Final prog T out mc mi ic).1
  | [], T, out, mc, mi, ic, h, hmi, hic, hfit, _ => by
    intro kv hkv
    simp only [programSize, List.map_nil, List.sum_nil, add_zero] at hfit
    exact (settled_VerifySymbol T mc mi ic h hmi hic hfit kv hkv).2
  | m :: rest, T, out, mc, mi, ic, h, hmi, hic, hfit, hd => by
    rw [programSize_cons] at hfit
    have hsz := size_nonneg m
    have hrest := programSize_nonneg rest
    unfold pass1Final
    exact valuesWithin_pass1Final rest _ _ (mc + 1) (mi + ic) m.size
      (pendingValues_pass1Defs (mc + 1) (mi + ic) m.definitions _
        (pendingValues_next _ mc (mi + ic)
          (settled_VerifySymbol T mc mi ic h hmi hic (by omega)))
        (hd m (List.mem_cons_self _ _)))
      (by omega) hsz (by omega)
      (fun x hx => hd x (List.mem_cons_of_mem _ hx))
/-! ## The values of the memory map -/

/-- The translation of an instruction with a code from 0 on, in a module that fits the
memory, on a table with values in `0..512`, gives a value in `0..9999`. -/
theorem Translate_value_fits (mode : Char) (c : Int) (ctx : ParsingContext) (T : SymbolTable)
    (ul : UseList) (h0 : 0 ≤ c) (hmi : 0 ≤ ctx.module_index)
    (hic : 0 ≤ ctx.instruction_count)
    (hfit : ctx.module_index + ctx.instruction_count ≤ 512) (hT : valuesWithin T) :
    0 ≤ (InstructionGenerator.Translate mode c ctx T ul).instruction ∧
    (InstructionGenerator.Translate mode c ctx T ul).instruction ≤ 9999 := by
  obtain ⟨hd, hm⟩ := tdiv_tmod_nonneg h0
  unfold InstructionGenerator.Translate
  simp only [kMaxOperand, kMaxOpCode, kInvalidInstructionCodeOverflow,
    kInvalidInstructionCodeUnderflow, kMemorySize, hd, hm]
  by_cases h11 : c / 1000 ≥ 10 ∧ mode ≠ 'I'
  · rw [if_pos h11]; dsimp only; constructor <;> omega
  · rw [if_neg h11]
    by_cases hI : mode = 'I'
    · subst hI
      simp only [show ¬ ('I' : Char) = 'A' by decide, if_false, if_true]
      split
      · dsimp only; constructor <;> omega
      · rename_i hle
        dsimp only; constructor <;> omega
    · have hop : c / 1000 < 10 := by
        by_contra hcon
        exact h11 ⟨by omega, hI⟩
      have hc : c ≤ 9999 := by omega
      have hw : ∀ x : Int, 0 ≤ x → x ≤ 512 →
          wrap32 (1000 * (c / 1000) + x) = 1000 * (c / 1000) + x :=
        fun x hx0 hx1 => wrap32_eq _ (by omega) (by omega)
      by_cases hA : mode = 'A'
      · subst hA
        simp only [if_true]
        split
        · have := hw 0 (le_refl 0) (by omega)
          simp only [this]
          constructor <;> omega
        · dsimp only; constructor <;> omega
      · rw [if_neg hA, if_neg hI]
        by_cases hR : mode = 'R'
        · subst hR
          simp only [if_true]
          split
          · rename_i hbig
            have h1 : wrap32 (0 + ctx.module_index) = ctx.module_index := by
              rw [zero_add]; exact wrap32_eq _ (by omega) (by omega)
            have := hw ctx.module_index hmi (by omega)
            simp only [h1, this]
            constructor <;> omega
          · rename_i hsmall
            have h1 : wrap32 (c % 1000 + ctx.module_index) = c % 1000 + ctx.module_index :=
              wrap32_eq _ (by omega) (by omega)
            have := hw (c % 1000 + ctx.module_index) (by omega) (by omega)
            simp only [h1, this]
            constructor <;> omega
        · rw [if_neg hR]
          by_cases hE : mode = 'E'
          · subst hE
            simp only [if_true]
            split
            · dsimp only; constructor <;> omega
            · cases hget : ul.Get (c % 1000) with
              | none => dsimp only; constructor <;> omega
              | some e =>
                simp only
                have hval : (T.Value e.symbol true).1 = -1 ∨
                    (0 ≤ (T.Value e.symbol true).1 ∧ (T.Value e.symbol true).1 ≤ 512) := by
                  unfold SymbolTable.Value
                  cases hf : T.find e.symbol with
                  | none => left; rfl
                  | some d =>
                    right
                    exact hT (e.symbol, d) (find_mem hf)
                split
                · have := hw 0 (le_refl 0) (by omega)
                  simp only [this]
                  constructor <;> omega
                · rename_i hne
                  rcases hval with hv | hv
                  · exact absurd hv hne
                  · have := hw _ hv.1 hv.2
                    simp only [this]
                    constructor <;> omega
          · rw [if_neg hE]
            dsimp only; constructor <;> omega

theorem sameButUsed_valuesWithin {T T1 : SymbolTable} (h : T.sameButUsed T1)
    (hT : valuesWithin T) : valuesWithin T1 := by
  induction h with
  | nil => intro kv hkv; simp at hkv
  | cons hab _ ih =>
    intro kv hkv
    rcases List.mem_cons.mp hkv with hkv | hkv
    · rw [hkv, ← hab.2.2.1]
      exact hT _ (List.mem_cons_self _ _)
    · exact ih (fun x hx => hT x (List.mem_cons_of_mem _ hx)) kv hkv

/-- The lines of a module whose codes are from 0 on carry values in `0..9999`, and the
values of the table stay in `0..512`. -/
theorem pass2Instrs_values (base count : Int) (hb : 0 ≤ base) (hc : 0 ≤ count)
    (hfit : base + count ≤ 512) :
    ∀ (instrs : List (Token × Token)) (T : SymbolTable) (ul : UseList) (j : Int),
    valuesWithin T → (∀ p ∈ instrs, 0 ≤ (p.2.ReadAsInt 0).val) →
    valuesWithin (pass2Instrs base count instrs T ul j).1 ∧
    ∀ o ∈ (pass2Instrs base count instrs T ul j).2.2, o.valueFits
  | [], T, ul, j, hT, _ => ⟨hT, by intro o ho; simp [pass2Instrs] at ho⟩
  | p :: rest, T, ul, j, hT, hcodes => by
    have hp := hcodes p (List.mem_cons_self _ _)
    have hv := Translate_value_fits (p.1.ReadAsIAER (Char.ofNat 0)).val (p.2.ReadAsInt 0).val
      (translateContext base count) T ul hp hb hc hfit hT
    obtain ⟨ih1, ih2⟩ := pass2Instrs_values base count hb hc hfit rest
      (InstructionGenerator.Translate (p.1.ReadAsIAER (Char.ofNat 0)).val
        (p.2.ReadAsInt 0).val (translateContext base count) T ul).symbol_table
      (InstructionGenerator.Translate (p.1.ReadAsIAER (Char.ofNat 0)).val
        (p.2.ReadAsInt 0).val (translateContext base count) T ul).use_list (j + 1)
      (sameButUsed_valuesWithin (sameButUsed_Translate _ _ _ _ _) hT)
      (fun x hx => hcodes x (List.mem_cons_of_mem _ hx))
    simp only [pass2Instrs]
    refine ⟨ih1, ?_⟩
    intro o ho
    rcases List.mem_cons.mp ho with ho | ho
    · rw [ho]; exact hv
    · exact ih2 o ho

theorem rule7_warnings_fit (ul : UseList) (mc : Int) :
    ∀ o ∈ ul.UnusedSymbols.map fun s => Output.rule7Warning mc s, o.valueFits := by
  intro o ho
  obtain ⟨s, _, hs⟩ := List.mem_map.mp ho
  subst hs
  trivial

theorem VerifySymbolUsed_fit : ∀ (T : SymbolTable), ∀ o ∈ T.VerifySymbolUsed, o.valueFits
  | [] => by simp [SymbolTable.VerifySymbolUsed]
  | (k, d) :: rest => by
    intro o ho
    simp only [SymbolTable.VerifySymbolUsed] at ho
    split at ho
    · simp only [List.mem_cons] at ho
      rcases ho with ho | ho
      · subst ho; trivial
      · exact VerifySymbolUsed_fit rest o ho
    · exact VerifySymbolUsed_fit rest o ho

/-- From boundary to boundary over modules whose codes are from 0 on: the values of the
lines written fit, and the values of the table stay in `0..512`. -/
theorem after_values : ∀ (prog : List ObjectModule) (b : Boundary),
    valuesWithin b.symbol_table →
    0 ≤ b.module_index → 0 ≤ b.instruction_count →
    b.module_index + b.instruction_count + programSize prog ≤ 512 →
    (∀ m ∈ prog, ∀ p ∈ m.instructions, 0 ≤ (p.2.ReadAsInt 0).val) →
    valuesWithin (b.after prog).symbol_table ∧
    ∃ A, (b.after prog).cout = b.cout ++ A ∧ ∀ o ∈ A, o.valueFits
  | [], b, hT, _, _, _, _ => ⟨hT, [], by simp [after_nil], by intro o ho; simp at ho⟩
  | m :: rest, b, hT, hmi, hic, hfit, hcodes => by
    rw [programSize_cons] at hfit
    have hsz := size_nonneg m
    have hrest := programSize_nonneg rest
    obtain ⟨h1, h2⟩ := pass2Instrs_values (b.module_index + b.instruction_count) m.size
      (by omega) hsz (by omega) m.instructions b.symbol_table (pass2Uses m.uses [] 0) 0 hT
      (hcodes m (List.mem_cons_self _ _))
    obtain ⟨ihT, A, hA, hAfit⟩ := after_values rest (b.step m) h1
      (by show 0 ≤ b.module_index + b.instruction_count; omega) hsz
      (by show b.module_index + b.instruction_count + m.size + programSize rest ≤ 512; omega)
      (fun x hx => hcodes x (List.mem_cons_of_mem _ hx))
    refine ⟨ihT, (b.use_list.UnusedSymbols.map fun s =>
        Output.rule7Warning b.module_count s) ++
      (pass2Instrs (b.module_index + b.instruction_count) m.size m.instructions
        b.symbol_table (pass2Uses m.uses [] 0) 0).2.2 ++ A, ?_, ?_⟩
    · rw [after_cons, hA]
      show (b.cout ++ _ ++ _) ++ A = _
      simp only [List.append_assoc]
    · intro o ho
      simp only [List.mem_append] at ho
      rcases ho with (ho | ho) | ho
      · exact rule7_warnings_fit _ _ o ho
      · exact h2 o ho
      · exact hAfit o ho

/-! ## The use list of pass 2 on an input that pass 1 accepted -/

/-- When pass 1 has accepted an input to its end, every state that pass 2 reaches on
it, after any number `pre` of its tokens, has a use list of at most 16 entries, as many
as `use_list_read`, which lies in `0..16`: a negative use count, which
`HandleUseListStart` lets through, keeps the use-list loop from ever ending, so that
pass 1 throws on such an input at the latest at its end. -/
theorem pass2_use_list_bounded (pre suf : List Token) (T : SymbolTable) (out : List Output)
    (tk1 : Tokenizer)
    (h : (Tokenizer.create .SymbolTableGenerator [] []).run (pre ++ suf) = .ok tk1) :
    ∃ tk2, (Tokenizer.create .InstructionGenerator T out).TokenizeTokens pre = .ok tk2 ∧
      tk2.use_list.length ≤ 16 ∧ (tk2.use_list.length : Int) = tk2.context.use_list_read ∧
      0 ≤ tk2.context.use_list_read ∧ tk2.context.use_list_read ≤ 16 := by
  obtain ⟨hnever, hms⟩ := run_ok_boundary _ _ _ _ _ h
  rw [neverSyntaxError_append] at hnever
  rw [feed_append] at hms
  obtain ⟨hn1, hn2⟩ := hnever
  obtain ⟨tk2, h2⟩ := TokenizeTokens_of_never pre (Tokenizer.create .InstructionGenerator T out)
    hn1
  obtain ⟨_, pos, hctx⟩ := TokenizeTokens_ok_feed _ _ _ h2
  have hok := feed_useCountOK pre ParsingContext.init init_useCountOK hn1
  have hul := TokenizeTokens_useListOK pre _ tk2
    ⟨rfl, by intro e he; simp [Tokenizer.create] at he, rfl⟩ h2
  have hread : tk2.context.use_list_read = (ParsingContext.init.feed pre).use_list_read := by
    rw [hctx]; rfl
  have hnd : ¬ (ParsingContext.init.feed pre).doomedUseList := by
    intro hd
    have := feed_doomed suf _ hd hn2
    rw [this.1] at hms
    exact absurd hms (by decide)
  obtain ⟨_, _, _, h0, _, h6⟩ := hok
  have h16 : (ParsingContext.init.feed pre).use_list_read ≤ 16 := by
    rcases h6 with h6 | h6
    · exact absurd h6 hnd
    · exact h6.1
  refine ⟨tk2, h2, ?_, hul.2.2, by rw [hread]; exact h0, by rw [hread]; exact h16⟩
  have := hul.2.2
  rw [hread] at this
  omega

/-- The bound at the tokens `0 1 X` of the input `0 1 X 1 E 1000`. -/
theorem pass2_use_list_bounded_witness :
    ∃ tk2, (Tokenizer.create .InstructionGenerator tableWithX []).TokenizeTokens
        [tok "0", tok "1", tok "X"] = .ok tk2 ∧
      tk2.use_list.length ≤ 16 ∧ (tk2.use_list.length : Int) = tk2.context.use_list_read ∧
      0 ≤ tk2.context.use_list_read ∧ tk2.context.use_list_read ≤ 16 :=
  pass2_use_list_bounded [tok "0", tok "1", tok "X"] [tok "1", tok "E", tok "1000"]
    tableWithX [] pass1OnModuleUsingX (by rfl)

/-! ## The place in the file does not steer the state machine -/

theorem ProcessState_place (ctx : ParsingContext) (t : Token) (i p : Int) :
    ({ ctx with index := i, position := p } : ParsingContext).ProcessState t =
      ({ (ctx.ProcessState t).1 with index := i, position := p }, (ctx.ProcessState t).2) := by
  unfold ParsingContext.ProcessState
  cases h : ctx.current_state <;>
    simp only [h, ParsingContext.HandleModuleStart, ParsingContext.HandleReadDefinitionSymbol,
      ParsingContext.HandleReadDefinitionValue, ParsingContext.HandleUseListStart,
      ParsingContext.HandleUseListRead, ParsingContext.HandleInstructionListStart,
      ParsingContext.HandleInstructionTypeRead, ParsingContext.HandleInstructionCodeRead,
      ParsingContext.startModule] <;>
    (repeat' split) <;> rfl

theorem ProcessState_keeps_index (ctx : ParsingContext) (t : Token) :
    (ctx.ProcessState t).1.index = ctx.index := by
  unfold ParsingContext.ProcessState
  cases h : ctx.current_state <;>
    simp only [h, ParsingContext.HandleModuleStart, ParsingContext.HandleReadDefinitionSymbol,
      ParsingContext.HandleReadDefinitionValue, ParsingContext.HandleUseListStart,
      ParsingContext.HandleUseListRead, ParsingContext.HandleInstructionListStart,
      ParsingContext.HandleInstructionTypeRead, ParsingContext.HandleInstructionCodeRead,
      ParsingContext.startModule] <;>
    (repeat' split) <;> rfl

theorem feed_keeps_index : ∀ (toks : List Token) (ctx : ParsingContext),
    (ctx.feed toks).index = ctx.index
  | [], _ => rfl
  | t :: ts, ctx => by
    simp only [ParsingContext.feed]
    rw [feed_keeps_index ts]
    exact ProcessState_keeps_index ctx t

theorem ProcessToken_place (proc : TokenProcessor) (t : Token) (ctx : ParsingContext)
    (i p : Int) (T : SymbolTable) (U : UseList) :
    proc.ProcessToken t { ctx with index := i, position := p } T U =
      proc.ProcessToken t ctx T U := by
  cases proc <;> rfl

theorem Stop_place (proc : TokenProcessor) (ctx : ParsingContext)
    (i p : Int) (T : SymbolTable) (U : UseList) :
    proc.Stop { ctx with index := i, position := p } T U = proc.Stop ctx T U := by
  cases proc <;> rfl

theorem sameButPlace_refl (a : Tokenizer) : a.sameButPlace a :=
  ⟨rfl, rfl, rfl, rfl, a.context.index, a.context.position, rfl⟩

theorem sameButPlace_setPosition {a b : Tokenizer} (h : a.sameButPlace b) (q : Int) :
    (a.setPosition q).sameButPlace b := by
  obtain ⟨h1, h2, h3, h4, i, p, h5⟩ := h
  refine ⟨h1, h2, h3, h4, i, q, ?_⟩
  simp only [Tokenizer.setPosition, h5]

theorem sameButPlace_setIndex {a b : Tokenizer} (h : a.sameButPlace b) (j : Int) :
    (a.setIndex j).sameButPlace b := by
  obtain ⟨h1, h2, h3, h4, i, p, h5⟩ := h
  refine ⟨h1, h2, h3, h4, j, p, ?_⟩
  simp only [Tokenizer.setIndex, h5]

theorem ProcessOne_sameButPlace (a b : Tokenizer) (t : Token) (h : a.sameButPlace b) :
    sameOutcome (a.ProcessOne t) (b.ProcessOne t) := by
  obtain ⟨h1, h2, h3, h4, i, p, h5⟩ := h
  unfold Tokenizer.ProcessOne
  simp only [h5, ProcessState_place, ProcessToken_place, h1, h2, h3, h4]
  by_cases herr : (b.context.ProcessState t).1.next_state = .STATE_SYNTAX_ERROR
  · simp only [herr, if_true]
    exact (rfl : b.cout = b.cout)
  · simp only [herr, if_false]
    exact ⟨rfl, rfl, rfl, rfl, i, t.position + (t.token.utf8ByteSize : Int), rfl⟩

theorem TokenizeTokens_sameButPlace : ∀ (toks : List Token) (a b : Tokenizer),
    a.sameButPlace b → sameOutcome (a.TokenizeTokens toks) (b.TokenizeTokens toks)
  | [], _, _, h => h
  | t :: ts, a, b, h => by
    have h1 := ProcessOne_sameButPlace a b t h
    unfold Tokenizer.TokenizeTokens
    cases hp : a.ProcessOne t with
    | error e =>
      cases hq : b.ProcessOne t with
      | error e1 => rw [hp, hq] at h1; exact h1
      | ok b1 => rw [hp, hq] at h1; exact h1.elim
    | ok a1 =>
      cases hq : b.ProcessOne t with
      | error e1 => rw [hp, hq] at h1; exact h1.elim
      | ok b1 =>
        rw [hp, hq] at h1
        exact TokenizeTokens_sameButPlace ts a1 b1 h1

theorem TokenizeTokens_append_error : ∀ (a b : List Token) (tk : Tokenizer) (e : Thrown),
    tk.TokenizeTokens a = .error e → tk.TokenizeTokens (a ++ b) = .error e
  | [], _, tk, e, h => by simp [Tokenizer.TokenizeTokens] at h
  | t :: ts, b, tk, e, h => by
    simp only [Tokenizer.TokenizeTokens, List.cons_append] at h ⊢
    cases hp : tk.ProcessOne t with
    | error e1 => simpa [hp] using h
    | ok tk2 =>
      simp only [hp] at h ⊢
      exact TokenizeTokens_append_error ts b tk2 e h

theorem TokenizeTokens_keeps_index (toks : List Token) (tk tk1 : Tokenizer)
    (h : tk.TokenizeTokens toks = .ok tk1) : tk1.context.index = tk.context.index := by
  obtain ⟨_, p, hctx⟩ := TokenizeTokens_ok_feed toks tk tk1 h
  rw [hctx]
  exact feed_keeps_index toks tk.context

theorem TokenizeLines_fileTokens : ∀ (lines : List String) (a b : Tokenizer),
    a.sameButPlace b →
    sameOutcome (a.TokenizeLines lines) (b.TokenizeTokens (fileTokens a.context.index lines))
  | [], _, _, h => h
  | l :: ls, a, b, h => by
    have h1 := TokenizeTokens_sameButPlace (lineTokens a.context.index l) (a.setPosition 1) b
      (sameButPlace_setPosition h 1)
    unfold Tokenizer.TokenizeLines Tokenizer.TokenizeLine
    simp only [fileTokens]
    cases hp : (a.setPosition 1).TokenizeTokens (lineTokens a.context.index l) with
    | error e =>
      cases hq : b.TokenizeTokens (lineTokens a.context.index l) with
      | ok b1 => rw [hp, hq] at h1; exact h1.elim
      | error e1 =>
        rw [hp, hq] at h1
        rw [TokenizeTokens_append_error _ _ _ _ hq]
        exact h1
    | ok a1 =>
      cases hq : b.TokenizeTokens (lineTokens a.context.index l) with
      | error e1 => rw [hp, hq] at h1; exact h1.elim
      | ok b1 =>
        rw [hp, hq] at h1
        rw [TokenizeTokens_append _ _ _ _ hq]
        have hidx : a1.context.index = a.context.index :=
          TokenizeTokens_keeps_index _ (a.setPosition 1) _ hp
        have h2 : a1.sameButPlace b1 := h1
        have h3 := TokenizeLines_fileTokens ls
          ((a1.setPosition (1 + (l.utf8ByteSize : Int))).setIndex
            ((a1.setPosition (1 + (l.utf8ByteSize : Int))).context.index + 1)) b1
          (sameButPlace_setIndex (sameButPlace_setPosition h2 _) _)
        have hidx2 : ((a1.setPosition (1 + (l.utf8ByteSize : Int))).setIndex
            ((a1.setPosition (1 + (l.utf8ByteSize : Int))).context.index + 1)).context.index =
            a.context.index + 1 := by
          simp only [Tokenizer.setIndex, Tokenizer.setPosition, hidx]
        rw [hidx2] at h3
        exact h3

theorem HandleEnd_place (ctx : ParsingContext) (i p : Int) :
    ({ ctx with index := i, position := p } : ParsingContext).HandleEnd =
      { ctx.HandleEnd with index := i, position := p } := by
  unfold ParsingContext.HandleEnd
  by_cases h : ctx.current_state ≠ .STATE_MODULE_START
  · simp only [h, if_true, ne_eq, not_false_eq_true]
  · simp only [h, if_false, ParsingContext.startModule]

theorem Finish_sameButPlace (a b : Tokenizer) (h : a.sameButPlace b) :
    sameOutcome a.Finish b.Finish := by
  obtain ⟨h1, h2, h3, h4, i, p, h5⟩ := h
  unfold Tokenizer.Finish
  simp only [h5, HandleEnd_place, Stop_place, h1, h2, h3, h4]
  by_cases hterm : b.context.HandleEnd.next_state ≠ .STATE_TERMINATED
  · simp only [hterm, if_true, ne_eq, not_false_eq_true]
    exact (rfl : b.cout = b.cout)
  · simp only [hterm, if_false]
    exact ⟨rfl, rfl, rfl, rfl, i, p, rfl⟩

/-- Reading the lines of a file comes out as reading its tokens one after the other:
both runs end or both throw, and they have written the same output. -/
theorem TokenizeFile_run (a b : Tokenizer) (lines : List String) (h : a.sameButPlace b) :
    sameOutcome (a.TokenizeFile lines) (b.run (fileTokens a.context.index lines)) := by
  have h1 := TokenizeLines_fileTokens lines a b h
  unfold Tokenizer.TokenizeFile Tokenizer.run
  cases hp : a.TokenizeLines lines with
  | error e =>
    cases hq : b.TokenizeTokens (fileTokens a.context.index lines) with
    | ok b1 => rw [hp, hq] at h1; exact h1.elim
    | error e1 => rw [hp, hq] at h1; exact h1
  | ok a1 =>
    cases hq : b.TokenizeTokens (fileTokens a.context.index lines) with
    | error e1 => rw [hp, hq] at h1; exact h1.elim
    | ok b1 =>
      rw [hp, hq] at h1
      have h2 : a1.sameButPlace b1 := h1
      exact Finish_sameButPlace _ _ (sameButPlace_setIndex h2 _)

/-! ## What pass 1 has written when it throws -/

theorem startsNoModule_position : ∀ (toks : List Token) (ctx : ParsingContext) (p : Int),
    ({ ctx with position := p } : ParsingContext).startsNoModule toks =
      ctx.startsNoModule toks
  | [], _, _ => rfl
  | t :: ts, ctx, p => by
    simp only [ParsingContext.startsNoModule, ProcessState_position]
    rw [show ({ (ctx.ProcessState t).1 with position := p } : ParsingContext).AdvanceState =
      { (ctx.ProcessState t).1.AdvanceState with position := p } from rfl,
      startsNoModule_position ts]

theorem ProcessOne_error_cout (tk : Tokenizer) (t : Token) (e : Thrown)
    (h : tk.ProcessOne t = .error e) : e.1.cout = tk.cout := by
  unfold Tokenizer.ProcessOne at h
  simp only at h
  split at h
  · simp only [Except.error.injEq] at h
    rw [← h]
  · exact absurd h (by simp)

theorem Finish_error_cout (tk : Tokenizer) (e : Thrown)
    (h : tk.Finish = .error e) : e.1.cout = tk.cout := by
  unfold Tokenizer.Finish at h
  simp only at h
  split at h
  · simp only [Except.error.injEq] at h
    rw [← h]
  · exact absurd h (by simp)

/-- An accepted token that pass 1 reads in a state other than `STATE_MODULE_START`
writes nothing. -/
theorem ProcessOne_pass1_inside (tk tk1 : Tokenizer) (t : Token)
    (hp : tk.token_processor = .SymbolTableGenerator)
    (hs : tk.context.current_state ≠ .STATE_MODULE_START)
    (h : tk.ProcessOne t = .ok tk1) :
    tk1.cout = tk.cout ∧ tk1.token_processor = .SymbolTableGenerator ∧
    (tk.context.ProcessState t).1.next_state ≠ .STATE_SYNTAX_ERROR ∧
    tk1.context = { (tk.context.ProcessState t).1.AdvanceState with
      position := t.position + (t.token.utf8ByteSize : Int) } := by
  have hkeep := ProcessState_current tk.context t
  unfold Tokenizer.ProcessOne at h
  simp only at h
  split at h
  · exact absurd h (by simp)
  · rename_i herr
    simp only [Except.ok.injEq] at h
    rw [← h]
    refine ⟨?_, hp, herr, rfl⟩
    simp only [hp, TokenProcessor.ProcessToken, SymbolTableGenerator.ProcessToken, hkeep,
      if_neg hs, List.append_nil]

theorem HandleModuleChange_moduleStart (ctx : ParsingContext) (t : Token) (T : SymbolTable)
    (hs : ctx.current_state = .STATE_MODULE_START)
    (herr : (ctx.ProcessState t).1.next_state ≠ .STATE_SYNTAX_ERROR) :
    SymbolTableGenerator.HandleModuleChange (ctx.ProcessState t).1 T =
      SymbolTableGenerator.HandleModuleChange ctx.startModule T := by
  unfold ParsingContext.ProcessState at herr ⊢
  simp only [hs, ParsingContext.HandleModuleStart] at herr ⊢
  by_cases h1 : (!(t.ReadAsInt ctx.definition_count).ok) = true
  · simp only [h1, if_true] at herr
    exact absurd rfl herr
  · by_cases h2 : (t.ReadAsInt ctx.definition_count).val > kMaxDefinitionListSize
    · simp only [h1, h2, if_true, if_false] at herr
      exact absurd rfl herr
    · by_cases h3 : (t.ReadAsInt ctx.definition_count).val ≠ 0
      · simp only [h1, h2, h3, if_true, if_false, Bool.false_eq_true, ne_eq,
          not_false_eq_true]
        rfl
      · simp only [h1, h2, h3, if_false, Bool.false_eq_true]
        rfl

/-- At a module boundary the end of the input and an accepted first token of a further
module make pass 1 write the same: the Rule 5 warnings of the module before. -/
theorem Finish_pass1_moduleStart (tk : Tokenizer)
    (hp : tk.token_processor = .SymbolTableGenerator)
    (hs : tk.context.current_state = .STATE_MODULE_START) :
    ∃ tk1, tk.Finish = .ok tk1 ∧
      tk1.cout = tk.cout ++
        (SymbolTableGenerator.HandleModuleChange tk.context.startModule tk.symbol_table).2 := by
  unfold Tokenizer.Finish
  simp only [ParsingContext.HandleEnd, hs, ne_eq, not_true_eq_false, if_false, hp,
    TokenProcessor.Stop, SymbolTableGenerator.Stop]
  exact ⟨_, rfl, rfl⟩

theorem ProcessOne_pass1_boundary (tk tk1 : Tokenizer) (t : Token)
    (hp : tk.token_processor = .SymbolTableGenerator)
    (hs : tk.context.current_state = .STATE_MODULE_START)
    (h : tk.ProcessOne t = .ok tk1) :
    tk1.cout = tk.cout ++
      (SymbolTableGenerator.HandleModuleChange tk.context.startModule tk.symbol_table).2 ∧
    tk1.token_processor = .SymbolTableGenerator ∧
    tk1.context = { (tk.context.ProcessState t).1.AdvanceState with
      position := t.position + (t.token.utf8ByteSize : Int) } := by
  have hkeep := ProcessState_current tk.context t
  unfold Tokenizer.ProcessOne at h
  simp only at h
  split at h
  · exact absurd h (by simp)
  · rename_i herr
    simp only [Except.ok.injEq] at h
    rw [← h]
    refine ⟨?_, hp, rfl⟩
    simp only [hp, TokenProcessor.ProcessToken, SymbolTableGenerator.ProcessToken, hkeep, hs,
      if_true, HandleModuleChange_moduleStart tk.context t _ hs herr]
    simp

theorem run_cons_ok {tk tk1 : Tokenizer} {t : Token} (ts : List Token)
    (h : tk.ProcessOne t = .ok tk1) : tk.run (t :: ts) = tk1.run ts := by
  simp [Tokenizer.run, Tokenizer.TokenizeTokens, h]

theorem run_cons_error {tk : Tokenizer} {t : Token} {e : Thrown} (ts : List Token)
    (h : tk.ProcessOne t = .error e) : tk.run (t :: ts) = .error e := by
  simp [Tokenizer.run, Tokenizer.TokenizeTokens, h]

/-- When pass 1 throws on tokens none of which is accepted in `STATE_MODULE_START`, it
has written nothing on them. -/
theorem run_startsNoModule : ∀ (later : List Token) (tk : Tokenizer) (e : Thrown),
    tk.token_processor = .SymbolTableGenerator →
    tk.context.startsNoModule later = true →
    tk.run later = .error e → e.1.cout = tk.cout
  | [], tk, e, _, _, h => by
    simp only [Tokenizer.run, Tokenizer.TokenizeTokens] at h
    exact Finish_error_cout tk e h
  | t :: ts, tk, e, hp, hno, h => by
    cases hone : tk.ProcessOne t with
    | error e1 =>
      rw [run_cons_error ts hone] at h
      simp only [Except.error.injEq] at h
      rw [← h]
      exact ProcessOne_error_cout tk t e1 hone
    | ok tk1 =>
      rw [run_cons_ok ts hone] at h
      simp only [ParsingContext.startsNoModule, Bool.or_eq_true, Bool.and_eq_true,
        decide_eq_true_eq] at hno
      have hacc : (tk.context.ProcessState t).1.next_state ≠ .STATE_SYNTAX_ERROR := by
        intro hrej
        unfold Tokenizer.ProcessOne at hone
        simp [hrej] at hone
      rcases hno with hrej | ⟨hs, hrest⟩
      · exact absurd hrej hacc
      · obtain ⟨hc, hp1, _, hctx⟩ := ProcessOne_pass1_inside tk tk1 t hp hs hone
        have hno1 : tk1.context.startsNoModule ts = true := by
          rw [hctx, startsNoModule_position]; exact hrest
        rw [← hc]
        exact run_startsNoModule ts tk1 e hp1 hno1 h

theorem ProcessOne_error_rejected (tk : Tokenizer) (t : Token) (e : Thrown)
    (h : tk.ProcessOne t = .error e) :
    (tk.context.ProcessState t).1.next_state = .STATE_SYNTAX_ERROR := by
  unfold Tokenizer.ProcessOne at h
  simp only at h
  split at h
  · assumption
  · exact absurd h (by simp)

theorem run_append (a b : List Token) (tk tk1 : Tokenizer)
    (h : tk.TokenizeTokens a = .ok tk1) : tk.run (a ++ b) = tk1.run b := by
  simp only [Tokenizer.run, TokenizeTokens_append a b tk tk1 h]

theorem feed_snoc (ctx : ParsingContext) (a : List Token) (t : Token) :
    ctx.feed (a ++ [t]) = ((ctx.feed a).ProcessState t).1.AdvanceState := by
  rw [feed_append]
  rfl

/-- When pass 1 throws after the last token that it accepted in `STATE_MODULE_START`,
it has written what a run on the tokens before that token writes up to its end. -/
theorem run_after_last_start (closed later : List Token) (first : Token)
    (tk1 : Tokenizer) (e : Thrown)
    (hclosed : (Tokenizer.create .SymbolTableGenerator [] []).run closed = .ok tk1)
    (hfirst : ((ParsingContext.init.feed closed).ProcessState first).1.next_state ≠
      .STATE_SYNTAX_ERROR)
    (hlater : (ParsingContext.init.feed (closed ++ [first])).startsNoModule later = true)
    (h : (Tokenizer.create .SymbolTableGenerator [] []).run (closed ++ first :: later) =
      .error e) :
    e.1.cout = tk1.cout := by
  obtain ⟨_, hms⟩ := run_ok_boundary _ _ _ _ _ hclosed
  unfold Tokenizer.run at hclosed
  cases hc : (Tokenizer.create .SymbolTableGenerator [] []).TokenizeTokens closed with
  | error e1 => rw [hc] at hclosed; exact absurd hclosed (by simp)
  | ok tkc =>
    rw [hc] at hclosed
    have hfin : tkc.Finish = .ok tk1 := hclosed
    obtain ⟨_, p, hctx⟩ := TokenizeTokens_ok_feed _ _ _ hc
    have hctx1 : tkc.context = { ParsingContext.init.feed closed with position := p } := hctx
    have hp : tkc.token_processor = .SymbolTableGenerator := by
      have h1 := TokenizeTokens_only_rule5 closed (Tokenizer.create .SymbolTableGenerator [] [])
        ⟨rfl, by intro o ho; simp [Tokenizer.create] at ho⟩
      rw [hc] at h1
      exact h1.1
    have hs : tkc.context.current_state = .STATE_MODULE_START := by
      rw [hctx1]; exact hms
    obtain ⟨tkF, hF, hFc⟩ := Finish_pass1_moduleStart tkc hp hs
    rw [hfin] at hF
    simp only [Except.ok.injEq] at hF
    subst hF
    rw [run_append closed (first :: later) _ tkc hc] at h
    cases hone : tkc.ProcessOne first with
    | error e1 =>
      have hrej := ProcessOne_error_rejected tkc first e1 hone
      rw [hctx1, ProcessState_position] at hrej
      exact absurd hrej hfirst
    | ok tkf =>
      rw [run_cons_ok later hone] at h
      obtain ⟨hcout, hpf, hcf⟩ := ProcessOne_pass1_boundary tkc tkf first hp hs hone
      have hno : tkf.context.startsNoModule later = true := by
        rw [hcf, hctx1, ProcessState_position]
        rw [show ({ ((ParsingContext.init.feed closed).ProcessState first).1 with
            position := p } : ParsingContext).AdvanceState =
          { ((ParsingContext.init.feed closed).ProcessState first).1.AdvanceState with
            position := p } from rfl]
        rw [startsNoModule_position, startsNoModule_position, ← feed_snoc]
        exact hlater
      rw [run_startsNoModule later tkf e hpf hno h, hcout, hFc]

/-- Either no token of the list is accepted in `STATE_MODULE_START`, or there is a last
one that is. -/
theorem last_module_start : ∀ (toks : List Token) (ctx : ParsingContext),
    ctx.startsNoModule toks = true ∨
    ∃ closed first later, toks = closed ++ first :: later ∧ ctx.neverSyntaxError closed ∧
      (ctx.feed closed).current_state = .STATE_MODULE_START ∧
      ((ctx.feed closed).ProcessState first).1.next_state ≠ .STATE_SYNTAX_ERROR ∧
      (ctx.feed (closed ++ [first])).startsNoModule later = true
  | [], _ => Or.inl rfl
  | t :: ts, ctx => by
    by_cases hrej : (ctx.ProcessState t).1.next_state = .STATE_SYNTAX_ERROR
    · left
      simp only [ParsingContext.startsNoModule, hrej, decide_True, Bool.true_or]
    · rcases last_module_start ts (ctx.ProcessState t).1.AdvanceState with hno | hex
      · by_cases hs : ctx.current_state = .STATE_MODULE_START
        · right
          exact ⟨[], t, ts, rfl, trivial, hs, hrej, hno⟩
        · left
          simp only [ParsingContext.startsNoModule, hno, hs, ne_eq, not_false_eq_true,
            decide_True, Bool.and_self, Bool.or_true]
      · right
        obtain ⟨closed, first, later, h1, h2, h3, h4, h5⟩ := hex
        exact ⟨t :: closed, first, later, by rw [h1]; rfl, ⟨hrej, h2⟩, h3, h4, h5⟩

theorem run_ok_of_boundary (toks : List Token)
    (hn : ParsingContext.init.neverSyntaxError toks)
    (hs : (ParsingContext.init.feed toks).current_state = .STATE_MODULE_START) :
    ∃ tk1, (Tokenizer.create .SymbolTableGenerator [] []).run toks = .ok tk1 := by
  obtain ⟨tkc, hc⟩ := TokenizeTokens_of_never toks
    (Tokenizer.create .SymbolTableGenerator [] []) hn
  obtain ⟨_, p, hctx⟩ := TokenizeTokens_ok_feed _ _ _ hc
  have hctx1 : tkc.context = { ParsingContext.init.feed toks with position := p } := hctx
  have hp : tkc.token_processor = .SymbolTableGenerator := by
    have h1 := TokenizeTokens_only_rule5 toks (Tokenizer.create .SymbolTableGenerator [] [])
      ⟨rfl, by intro o ho; simp [Tokenizer.create] at ho⟩
    rw [hc] at h1
    exact h1.1
  obtain ⟨tkF, hF, _⟩ := Finish_pass1_moduleStart tkc hp (by rw [hctx1]; exact hs)
  exact ⟨tkF, by simp only [Tokenizer.run, hc, hF]⟩

/-! ## Verified claims -/

/-- C1: the tokens of a well-formed program (well-formed modules, at most 16
definitions and 16 use symbols per module, at most 512 instructions in all), fed through
`ProcessState` and `AdvanceState` from the initial context, never set `next_state` to
`STATE_SYNTAX_ERROR` and end in `STATE_MODULE_START`, where `HandleEnd` sets
`next_state` to `STATE_TERMINATED`. -/
theorem wellformed_program_terminates (prog : List ObjectModule)
    (hwf : WellFormedProgram prog) :
    ParsingContext.init.neverSyntaxError (programTokens prog) ∧
    (ParsingContext.init.feed (programTokens prog)).current_state = .STATE_MODULE_START ∧
    (ParsingContext.init.feed (programTokens prog)).HandleEnd.next_state =
      .STATE_TERMINATED := by
  obtain ⟨hmods, hsum⟩ := hwf
  obtain ⟨tk1, e1, _, h1s, _⟩ :=
    pass1_program prog (Tokenizer.create .SymbolTableGenerator [] []) rfl rfl
      (by decide) (by decide) (by decide)
      (by show (0 : Int) + 0 + programSize prog ≤ 512; omega) hmods
  obtain ⟨hnever, p, hctx⟩ := TokenizeTokens_ok_feed _ _ _ e1
  have hcs : (ParsingContext.init.feed (programTokens prog)).current_state =
      .STATE_MODULE_START := by
    rw [hctx] at h1s
    exact h1s
  refine ⟨hnever, hcs, ?_⟩
  unfold ParsingContext.HandleEnd
  rw [if_neg (by rw [hcs]; simp)]

theorem wellformed_program_terminates_witness :
    WellFormedProgram [moduleUsingX, moduleDefiningX] ∧
    ParsingContext.init.neverSyntaxError (programTokens [moduleUsingX, moduleDefiningX]) ∧
    (ParsingContext.init.feed
      (programTokens [moduleUsingX, moduleDefiningX])).current_state =
        .STATE_MODULE_START ∧
    (ParsingContext.init.feed
      (programTokens [moduleUsingX, moduleDefiningX])).HandleEnd.next_state =
        .STATE_TERMINATED :=
  ⟨by decide, wellformed_program_terminates [moduleUsingX, moduleDefiningX] (by decide)⟩

/-- C2 (the code at the failing input): on the one-module input `1 X -1 1 X 1 E 1000`
the symbol `X` is defined, with value `-1` in the table that pass 1 produces, and the
instruction `E 1000` refers to it through entry 0 of the use list; pass 2 takes the
value `-1` that `SymbolTable::Value` returns for the sentinel of an absent symbol, emits
`1000` with the diagnostic `X is not defined; zero used` instead of `1000 + (-1)` without
a diagnostic, and prints no Rule 4 warning for `X`. -/
theorem external_sentinel_collision :
    main ["1 X -1 1 X 1 E 1000"] =
      [Output.symbolTableHeader, Output.symbolLine "X" (-1) "", Output.blankLine,
       Output.memoryMapHeader,
       Output.mapLine 0 1000 "Error: X is not defined; zero used"] := by
  decide

/-- C3: after pass 1 ran over a well-formed program, a symbol whose first definition
stands in module `m` (the modules `pre` come before it, so `m` is their number plus one)
with a relative value `r` below the instruction count of `m` has the value
`base(m) + r` in the symbol table, `base(m)` being the sum of the instruction counts of
the modules before `m`, and its owner module is `m`. -/
theorem first_definition_value (pre post : List ObjectModule) (md : ObjectModule)
    (dpre dpost : List (Token × Token)) (sym val : Token) (r : Int)
    (hwf : WellFormedProgram (pre ++ md :: post))
    (hdefs : md.definitions = dpre ++ (sym, val) :: dpost)
    (hpre : ∀ x ∈ pre, ∀ p ∈ x.definitions, p.1.token ≠ sym.token)
    (hdpre : ∀ p ∈ dpre, p.1.token ≠ sym.token)
    (hval : val.isInt r) (hlt : r < md.size) :
    ∃ tk, (Tokenizer.create .SymbolTableGenerator [] []).run
        (programTokens (pre ++ md :: post)) = .ok tk ∧
      ∃ e, tk.symbol_table.find sym.token = some e ∧
        e.value = programSize pre + r ∧ e.module = (pre.length : Int) + 1 := by
  obtain ⟨tk, hrun, _, htab, _⟩ := pass1_run _ hwf
  obtain ⟨⟨e, he, hem, hev⟩, _⟩ := pass1Final_first_definition sym.token sym val r dpre dpost
    md post rfl hval hdefs hdpre pre [] [] 0 0 0 hpre rfl (by decide)
    (by have := hwf.2; omega)
  refine ⟨tk, hrun, e, ?_, ?_, ?_⟩
  · rw [htab]; exact he
  · rw [hev, if_pos hlt]; omega
  · rw [hem]; omega

theorem first_definition_value_witness :
    ∃ tk, (Tokenizer.create .SymbolTableGenerator [] []).run
        (programTokens ([moduleUsingX] ++ moduleDefiningY :: [])) = .ok tk ∧
      ∃ e, tk.symbol_table.find (tok "Y").token = some e ∧
        e.value = programSize [moduleUsingX] + 1 ∧
        e.module = (([moduleUsingX] : List ObjectModule).length : Int) + 1 :=
  first_definition_value [moduleUsingX] [] moduleDefiningY [] [] (tok "Y") (tok "1") 1
    (by decide) rfl (by decide) (by decide) (by decide) (by decide)

/-- C4 (Rule 5): after pass 1 ran over a well-formed program, a symbol whose first
definition stands in module `m` with a relative value `r` that is not below the
instruction count `n` of `m` has exactly the value `base(m)` in the symbol table, and
the warning `Module m: <symbol> too big r (max=n-1) assume zero relative` was written;
`n` is any count from 0 on and `m` may be the last module. -/
theorem rule5_too_big_value (pre post : List ObjectModule) (md : ObjectModule)
    (dpre dpost : List (Token × Token)) (sym val : Token) (r : Int)
    (hwf : WellFormedProgram (pre ++ md :: post))
    (hdefs : md.definitions = dpre ++ (sym, val) :: dpost)
    (hpre : ∀ x ∈ pre, ∀ p ∈ x.definitions, p.1.token ≠ sym.token)
    (hdpre : ∀ p ∈ dpre, p.1.token ≠ sym.token)
    (hval : val.isInt r) (hge : md.size ≤ r) :
    ∃ tk, (Tokenizer.create .SymbolTableGenerator [] []).run
        (programTokens (pre ++ md :: post)) = .ok tk ∧
      (∃ e, tk.symbol_table.find sym.token = some e ∧
        e.value = programSize pre ∧ e.module = (pre.length : Int) + 1) ∧
      Output.rule5Warning ((pre.length : Int) + 1) sym.token r (md.size - 1) ∈ tk.cout := by
  obtain ⟨tk, hrun, _, htab, hout⟩ := pass1_run _ hwf
  obtain ⟨⟨e, he, hem, hev⟩, hwarn⟩ := pass1Final_first_definition sym.token sym val r dpre
    dpost md post rfl hval hdefs hdpre pre [] [] 0 0 0 hpre rfl (by decide)
    (by have := hwf.2; omega)
  refine ⟨tk, hrun, ⟨e, ?_, ?_, ?_⟩, ?_⟩
  · rw [htab]; exact he
  · rw [hev, if_neg (by omega)]; omega
  · rw [hem]; omega
  · rw [hout]
    have := hwarn hge
    simpa using this

theorem rule5_too_big_value_witness :
    ∃ tk, (Tokenizer.create .SymbolTableGenerator [] []).run
        (programTokens ([moduleUsingX] ++ moduleDefiningX :: [])) = .ok tk ∧
      (∃ e, tk.symbol_table.find (tok "X").token = some e ∧
        e.value = programSize [moduleUsingX] ∧
        e.module = (([moduleUsingX] : List ObjectModule).length : Int) + 1) ∧
      Output.rule5Warning ((([moduleUsingX] : List ObjectModule).length : Int) + 1)
        (tok "X").token 5 (moduleDefiningX.size - 1) ∈ tk.cout :=
  rule5_too_big_value [moduleUsingX] [] moduleDefiningX [] [] (tok "X") (tok "5") 5
    (by decide) rfl (by decide) (by decide) (by decide) (by decide)

/-- C5: `AddSymbol` for a name that the table already holds adds no entry and changes
nothing but the note of that name's entry, which becomes the multiple-definition
message: the entry keeps its place, value, owner module, used flag and definition
order, and every other entry is untouched. -/
theorem AddSymbol_existing (T : SymbolTable) (s : String) (value module : Int)
    (h : (T.find s).isSome = true) :
    ∃ pre d post, T = pre ++ (s, d) :: post ∧ (∀ e ∈ pre, e.1 ≠ s) ∧
      T.AddSymbol s value module =
        pre ++ (s, { d with err := multiplyDefinedNote }) :: post ∧
      (T.AddSymbol s value module).length = T.length ∧
      (T.AddSymbol s value module).map
          (fun kv => (kv.1, kv.2.value, kv.2.module, kv.2.used, kv.2.sorting_index)) =
        T.map (fun kv => (kv.1, kv.2.value, kv.2.module, kv.2.used, kv.2.sorting_index)) := by
  obtain ⟨d, hd⟩ := Option.isSome_iff_exists.mp h
  obtain ⟨pre, post, hT, hpre⟩ := find_split T s d hd
  have hadd : T.AddSymbol s value module =
      SymbolTable.modify T s (fun d => { d with err := multiplyDefinedNote }) := by
    simp [SymbolTable.AddSymbol, hd]
  refine ⟨pre, d, post, hT, hpre, ?_, ?_, ?_⟩
  · rw [hadd, hT]
    exact modify_split pre post s d _ hpre
  · rw [hadd, length_modify]
  · rw [hadd]
    exact map_modify
      (fun kv => (kv.1, kv.2.value, kv.2.module, kv.2.used, kv.2.sorting_index))
      (fun d => { d with err := multiplyDefinedNote }) (fun _ _ => rfl) T s

theorem AddSymbol_existing_witness :
    ∃ pre d post, tableWithX = pre ++ ("X", d) :: post ∧ (∀ e ∈ pre, e.1 ≠ "X") ∧
      tableWithX.AddSymbol "X" 77 3 =
        pre ++ ("X", { d with err := multiplyDefinedNote }) :: post ∧
      (tableWithX.AddSymbol "X" 77 3).length = tableWithX.length ∧
      (tableWithX.AddSymbol "X" 77 3).map
          (fun kv => (kv.1, kv.2.value, kv.2.module, kv.2.used, kv.2.sorting_index)) =
        tableWithX.map
          (fun kv => (kv.1, kv.2.value, kv.2.module, kv.2.used, kv.2.sorting_index)) :=
  AddSymbol_existing tableWithX "X" 77 3 (by decide)

/-- C6: after any sequence of `AddSymbol` calls on the empty table, `Print` writes the
header, then one line for each distinct symbol, in the order of the symbols' first
calls (whatever the key order of the map), each line made of the name, the value of the
first call and the note (the multiple-definition message when the symbol was added more
than once, else nothing), then an empty line. -/
theorem Print_definition_order (calls : List (String × Int × Int)) :
    (addAll calls).Print =
      [Output.symbolTableHeader] ++
        (firstNames (calls.map fun c => c.1)).map
          (fun s => Output.symbolLine s (firstValue calls s) (noteOf calls s)) ++
        [Output.blankLine] := by
  obtain ⟨hP, hF, _⟩ := addAll_inv calls
  unfold SymbolTable.Print
  simp only
  rw [sortPairs_unique _ _ hP (indexedFrom_sorted _ 0)]
  rw [PrintLines_indexed (addAll calls) (firstValue calls) (noteOf calls) _ 0
    (fun s hs => hF s ((mem_firstNames _ _).mp hs))]

/-- C7 (Rule 9): an R-mode instruction with raw code `c` in `0..9999`, in a module with
base address `b = module_index` and declared instruction count `n = instruction_count`,
is emitted as `opcode*1000 + b + operand` without a diagnostic when `operand < n`, and as
`opcode*1000 + b` with the diagnostic `Relative address exceeds module size; zero used`
when `operand >= n`; the symbol table and the use list stay as they are.  The base
address is any `int` for which the sum does not overflow, as every base address in
`0..512` is. -/
theorem relative_instruction (token : Token) (ctx : ParsingContext) (st : SymbolTable)
    (ul : UseList) (c : Int)
    (hstate : ctx.current_state = .STATE_INSTRUCTION_CODE_READ)
    (hmode : ctx.last_instruction = 'R') (hc : token.isInt c) (h0 : 0 ≤ c) (h9 : c ≤ 9999)
    (hb1 : -2147483648 ≤ ctx.module_index) (hb2 : ctx.module_index + 9999 ≤ 2147483647) :
    InstructionGenerator.ProcessToken token ctx st ul =
      (st, ul,
        [Output.mapLine (wrap32 (ctx.module_index + ctx.instruction_index))
          (if c % 1000 < ctx.instruction_count
            then c / 1000 * 1000 + ctx.module_index + c % 1000
            else c / 1000 * 1000 + ctx.module_index)
          (if c % 1000 < ctx.instruction_count then ""
            else "Error: Relative address exceeds module size; zero used")]) := by
  rw [ProcessToken_code_read token ctx st ul c hstate hc, hmode,
    Translate_R c ctx st ul h0 h9 hb1 hb2]
  by_cases hlt : c % 1000 < ctx.instruction_count
  · simp only [if_pos hlt]
  · simp only [if_neg hlt]

theorem relative_instruction_witness :
    InstructionGenerator.ProcessToken (tok "1002") (codeReadContext 'R' 10 3) tableWithX
        useListWithX =
      (tableWithX, useListWithX, [Output.mapLine 10 1012 ""]) ∧
    InstructionGenerator.ProcessToken (tok "1003") (codeReadContext 'R' 10 3) tableWithX
        useListWithX =
      (tableWithX, useListWithX,
        [Output.mapLine 10 1010 "Error: Relative address exceeds module size; zero used"]) :=
  ⟨relative_instruction (tok "1002") (codeReadContext 'R' 10 3) tableWithX useListWithX 1002
      (by decide) (by decide) (by decide) (by decide) (by decide) (by decide) (by decide),
   relative_instruction (tok "1003") (codeReadContext 'R' 10 3) tableWithX useListWithX 1003
      (by decide) (by decide) (by decide) (by decide) (by decide) (by decide) (by decide)⟩

/-- C8 (Rule 8): an A-mode instruction with raw code `c` in `0..9999` is emitted
unchanged without a diagnostic when `c mod 1000 < 512`, and as `(c div 1000)*1000` with
the diagnostic `Absolute address exceeds machine size; zero used` when
`c mod 1000 >= 512`; the symbol table and the use list stay as they are. -/
theorem absolute_instruction (token : Token) (ctx : ParsingContext) (st : SymbolTable)
    (ul : UseList) (c : Int)
    (hstate : ctx.current_state = .STATE_INSTRUCTION_CODE_READ)
    (hmode : ctx.last_instruction = 'A') (hc : token.isInt c) (h0 : 0 ≤ c) (h9 : c ≤ 9999) :
    InstructionGenerator.ProcessToken token ctx st ul =
      (st, ul,
        [Output.mapLine (wrap32 (ctx.module_index + ctx.instruction_index))
          (if c % 1000 < 512 then c else c / 1000 * 1000)
          (if c % 1000 < 512 then ""
            else "Error: Absolute address exceeds machine size; zero used")]) := by
  rw [ProcessToken_code_read token ctx st ul c hstate hc, hmode, Translate_A c ctx st ul h0 h9]
  by_cases hlt : c % 1000 < 512
  · simp only [if_pos hlt]
  · simp only [if_neg hlt]

theorem absolute_instruction_witness :
    InstructionGenerator.ProcessToken (tok "1511") (codeReadContext 'A' 10 3) tableWithX
        useListWithX =
      (tableWithX, useListWithX, [Output.mapLine 10 1511 ""]) ∧
    InstructionGenerator.ProcessToken (tok "1512") (codeReadContext 'A' 10 3) tableWithX
        useListWithX =
      (tableWithX, useListWithX,
        [Output.mapLine 10 1000 "Error: Absolute address exceeds machine size; zero used"]) :=
  ⟨absolute_instruction (tok "1511") (codeReadContext 'A' 10 3) tableWithX useListWithX 1511
      (by decide) (by decide) (by decide) (by decide) (by decide),
   absolute_instruction (tok "1512") (codeReadContext 'A' 10 3) tableWithX useListWithX 1512
      (by decide) (by decide) (by decide) (by decide) (by decide)⟩

/-- C9 (Rule 10): an I-mode instruction with any integer raw code `c` is emitted
unchanged without a diagnostic when `c <= 9999`, and as `9999` with the diagnostic
`Illegal immediate value; treated as 9999` when `c > 9999`; in neither case is the
diagnostic the `Illegal opcode` one of Rule 11, and the symbol table and the use list
stay as they are. -/
theorem immediate_instruction (token : Token) (ctx : ParsingContext) (st : SymbolTable)
    (ul : UseList) (c : Int)
    (hstate : ctx.current_state = .STATE_INSTRUCTION_CODE_READ)
    (hmode : ctx.last_instruction = 'I') (hc : token.isInt c) :
    InstructionGenerator.ProcessToken token ctx st ul =
      (st, ul,
        [Output.mapLine (wrap32 (ctx.module_index + ctx.instruction_index))
          (if c ≤ 9999 then c else 9999)
          (if c ≤ 9999 then "" else "Error: Illegal immediate value; treated as 9999")]) ∧
    (if c ≤ 9999 then "" else "Error: Illegal immediate value; treated as 9999") ≠
      "Error: Illegal opcode; treated as 9999" := by
  constructor
  · rw [ProcessToken_code_read token ctx st ul c hstate hc, hmode, Translate_I c ctx st ul]
    by_cases hle : c ≤ 9999
    · simp only [if_pos hle]
    · simp only [if_neg hle]
  · by_cases hle : c ≤ 9999
    · rw [if_pos hle]; decide
    · rw [if_neg hle]; decide

theorem immediate_instruction_witness :
    InstructionGenerator.ProcessToken (tok "9999") (codeReadContext 'I' 10 3) tableWithX
        useListWithX =
      (tableWithX, useListWithX, [Output.mapLine 10 9999 ""]) ∧
    InstructionGenerator.ProcessToken (tok "10000") (codeReadContext 'I' 10 3) tableWithX
        useListWithX =
      (tableWithX, useListWithX,
        [Output.mapLine 10 9999 "Error: Illegal immediate value; treated as 9999"]) :=
  ⟨(immediate_instruction (tok "9999") (codeReadContext 'I' 10 3) tableWithX useListWithX
      9999 (by decide) (by decide) (by decide)).1,
   (immediate_instruction (tok "10000") (codeReadContext 'I' 10 3) tableWithX useListWithX
      10000 (by decide) (by decide) (by decide)).1⟩

/-- C10 (Rule 11): an instruction of mode A, E or R with raw code `c >= 10000` is
emitted as `9999` with the diagnostic `Illegal opcode; treated as 9999`, and the symbol
table and the use list (so every used flag) stay as they are; for a raw code in
`0..9999`, whatever the mode, the diagnostic of the emitted line is not the
`Illegal opcode` one. -/
theorem illegal_opcode (token : Token) (ctx : ParsingContext) (st : SymbolTable)
    (ul : UseList) (c : Int)
    (hstate : ctx.current_state = .STATE_INSTRUCTION_CODE_READ) (hc : token.isInt c) :
    (10000 ≤ c →
      ctx.last_instruction = 'A' ∨ ctx.last_instruction = 'E' ∨ ctx.last_instruction = 'R' →
      InstructionGenerator.ProcessToken token ctx st ul =
        (st, ul,
          [Output.mapLine (wrap32 (ctx.module_index + ctx.instruction_index)) 9999
            "Error: Illegal opcode; treated as 9999"])) ∧
    (0 ≤ c → c ≤ 9999 →
      ∃ v e, (InstructionGenerator.ProcessToken token ctx st ul).2.2 =
          [Output.mapLine (wrap32 (ctx.module_index + ctx.instruction_index)) v e] ∧
        e ≠ "Error: Illegal opcode; treated as 9999") := by
  constructor
  · intro hge hmode
    have hne : ctx.last_instruction ≠ 'I' := by
      rcases hmode with h | h | h <;> rw [h] <;> decide
    rw [ProcessToken_code_read token ctx st ul c hstate hc,
      Translate_rule11 ctx.last_instruction c ctx st ul hne hge]
  · intro h0 h9
    rw [ProcessToken_code_read token ctx st ul c hstate hc]
    exact ⟨_, _, rfl, Translate_not_rule11 ctx.last_instruction c ctx st ul h0 h9⟩

theorem illegal_opcode_witness :
    InstructionGenerator.ProcessToken (tok "10000") (codeReadContext 'E' 10 3) tableWithX
        useListWithX =
      (tableWithX, useListWithX,
        [Output.mapLine 10 9999 "Error: Illegal opcode; treated as 9999"]) ∧
    ∃ v e, (InstructionGenerator.ProcessToken (tok "9000") (codeReadContext 'E' 10 3)
          tableWithX useListWithX).2.2 = [Output.mapLine 10 v e] ∧
        e ≠ "Error: Illegal opcode; treated as 9999" :=
  ⟨(illegal_opcode (tok "10000") (codeReadContext 'E' 10 3) tableWithX useListWithX 10000
      (by decide) (by decide)).1 (by decide) (by decide),
   (illegal_opcode (tok "9000") (codeReadContext 'E' 10 3) tableWithX useListWithX 9000
      (by decide) (by decide)).2 (by decide) (by decide)⟩

/-! ## Verified claims, continued -/

/-- C20: `ReadAsSymbol` succeeds, delivering the token text unchanged, if and only if the
text has a length (in `char`s, as `token_.length()` counts) between 1 and 16 and is an
ASCII letter followed only by ASCII letters and digits; when it fails it leaves the
out-parameter as it was, and the diagnostic is `SYM_TOO_LONG` if the text is longer than
16, whatever its characters, and `SYM_EXPECTED` otherwise. -/
theorem ReadAsSymbol_accepts_exactly_symbols (t : Token) (old : String) :
    ((t.ReadAsSymbol old).ok = true ↔
      (1 ≤ t.token.utf8ByteSize ∧ t.token.utf8ByteSize ≤ 16 ∧
        ∃ c cs, t.token.data = c :: cs ∧ isAsciiLetter c ∧
          ∀ x ∈ cs, isAsciiLetter x ∨ isAsciiDigit x)) ∧
    ((t.ReadAsSymbol old).ok = true → (t.ReadAsSymbol old).val = t.token) ∧
    ((t.ReadAsSymbol old).ok = false →
      (t.ReadAsSymbol old).val = old ∧
      (t.ReadAsSymbol old).err =
        if t.token.utf8ByteSize > 16 then .ERROR_SYM_TOO_LONG else .ERROR_SYM_EXPECTED) := by
  have hreg : matchesSymbolRegex t.token = true ↔
      ∃ c cs, t.token.data = c :: cs ∧ isAsciiLetter c ∧
          ∀ x ∈ cs, isAsciiLetter x ∨ isAsciiDigit x := by
    unfold matchesSymbolRegex
    cases hd : t.token.data with
    | nil => simp
    | cons c cs =>
      simp only [Bool.and_eq_true, List.all_eq_true, isAlpha_iff, isAlphanum_iff, List.cons.injEq,
        isAsciiLetter, isAsciiDigit]
      constructor
      · intro h
        exact ⟨c, cs, ⟨rfl, rfl⟩, h.1, fun x hx => by
          rcases h.2 x hx with h1 | h1 | h1
          · exact Or.inl (Or.inl h1)
          · exact Or.inl (Or.inr h1)
          · exact Or.inr h1⟩
      · rintro ⟨c', cs', ⟨rfl, rfl⟩, h1, h2⟩
        exact ⟨h1, fun x hx => by
          rcases h2 x hx with (h3 | h3) | h3
          · exact Or.inl h3
          · exact Or.inr (Or.inl h3)
          · exact Or.inr (Or.inr h3)⟩
  have hpos : matchesSymbolRegex t.token = true → 1 ≤ t.token.utf8ByteSize := by
    intro h
    obtain ⟨c, cs, hd, _⟩ := hreg.mp h
    unfold String.utf8ByteSize
    rw [show t.token = String.mk t.token.data from rfl, hd]
    exact utf8ByteSize_go_pos c cs
  unfold Token.ReadAsSymbol
  by_cases hlen : t.token.utf8ByteSize > 16
  · rw [if_pos hlen]
    refine ⟨⟨fun h => ?_, fun h => ?_⟩, fun h => ?_, fun _ => ⟨rfl, ?_⟩⟩
    · exact absurd h (by dsimp only; decide)
    · omega
    · exact absurd h (by dsimp only; decide)
    · rw [if_pos hlen]
  · rw [if_neg hlen]
    by_cases hm : matchesSymbolRegex t.token = true
    · have e : (!matchesSymbolRegex t.token) = false := by rw [hm]; rfl
      rw [e, if_neg (by decide)]
      refine ⟨⟨fun _ => ⟨hpos hm, by omega, hreg.mp hm⟩, fun _ => rfl⟩, fun _ => rfl,
        fun h => ?_⟩
      exact absurd h (by dsimp only; decide)
    · have hm' : matchesSymbolRegex t.token = false := by simpa using hm
      have e : (!matchesSymbolRegex t.token) = true := by rw [hm']; rfl
      rw [e, if_pos rfl]
      refine ⟨⟨fun h => ?_, fun h => absurd (hreg.mpr h.2.2) hm⟩,
        fun h => ?_, fun _ => ⟨rfl, ?_⟩⟩
      · exact absurd h (by dsimp only; decide)
      · exact absurd h (by dsimp only; decide)
      · rw [if_neg hlen]

/-- C11 (Rule 6): an E-mode instruction with raw code `c` in `0..9999` whose operand
`c mod 1000` is no index of the use list is emitted unchanged with the diagnostic
`External address exceeds length of uselist; treated as immediate`, and the symbol table
and the use list, so every used flag, stay as they are; the use list that pass 2 builds
from the use symbols of a module has no entry at the index that equals their number. -/
theorem external_beyond_use_list (token : Token) (ctx : ParsingContext) (st : SymbolTable)
    (ul : UseList) (c : Int)
    (hstate : ctx.current_state = .STATE_INSTRUCTION_CODE_READ)
    (hmode : ctx.last_instruction = 'E') (hc : token.isInt c) (h0 : 0 ≤ c) (h9 : c ≤ 9999)
    (hhas : ul.Has (c % 1000) = false) :
    InstructionGenerator.ProcessToken token ctx st ul =
      (st, ul,
        [Output.mapLine (wrap32 (ctx.module_index + ctx.instruction_index)) c
          "Error: External address exceeds length of uselist; treated as immediate"]) ∧
    ∀ uses : List Token, (pass2Uses uses [] 0).Has (uses.length : Int) = false := by
  refine ⟨?_, pass2Uses_no_entry_at_length⟩
  rw [ProcessToken_code_read token ctx st ul c hstate hc, hmode,
    Translate_rule6 c ctx st ul h0 h9 hhas]

theorem external_beyond_use_list_witness :
    InstructionGenerator.ProcessToken (tok "1001") (codeReadContext 'E' 10 3) tableWithX
        useListWithX =
      (tableWithX, useListWithX,
        [Output.mapLine 10 1001
          "Error: External address exceeds length of uselist; treated as immediate"]) ∧
    ∀ uses : List Token, (pass2Uses uses [] 0).Has (uses.length : Int) = false :=
  external_beyond_use_list (tok "1001") (codeReadContext 'E' 10 3) tableWithX useListWithX
    1001 (by decide) (by decide) (by decide) (by decide) (by decide) (by decide)

/-- C12 (the code at the failing input): the table holds `X` with the value -1 and entry
0 of the use list names `X`; for the instruction `E 1000` the lookup returns -1, the
value of `X`, which the code takes for the sentinel of an absent symbol: the line is
`1000` with the diagnostic `X is not defined; zero used`, although `X` has an entry. -/
theorem defined_symbol_reported_undefined :
    tableWithMinusOne.find "X" =
      some { err := "", value := -1, module := 1, used := false, sorting_index := 0 } ∧
    useListWithX.find 0 = some { symbol := "X", used := false } ∧
    InstructionGenerator.ProcessToken (tok "1000") (codeReadContext 'E' 0 1)
        tableWithMinusOne useListWithX =
      ([("X", { err := "", value := -1, module := 1, used := true, sorting_index := 0 })],
       [(0, { symbol := "X", used := true })],
       [Output.mapLine 0 1000 "Error: X is not defined; zero used"]) := by
  decide

/-- C17 (the code at the failing input): in state `STATE_MODULE_START` the token `-1`
parses as the integer -1, which is not within `0..16`; `HandleModuleStart` accepts it
and goes to `STATE_READ_DEFINITION_SYMBOL`, the only test being `> 16`. -/
theorem negative_definition_count_accepted :
    (tok "-1").isInt (-1) ∧
    ParsingContext.init.current_state = .STATE_MODULE_START ∧
    (ParsingContext.init.ProcessState (tok "-1")).1.next_state =
      .STATE_READ_DEFINITION_SYMBOL ∧
    (ParsingContext.init.ProcessState (tok "-1")).2 = .ERROR_OK := by
  decide

/-- C19 (the code at the failing input): in state `STATE_INSTRUCTION_LIST_START` with
module base 1 the token `2147483647` gives `b + k = 2147483648 > 512`; the 32-bit sum
wraps to a negative number, the test `> 512` fails and the token is accepted, without
the diagnostic `TOO_MANY_INSTR`. -/
theorem instruction_count_overflow_accepted :
    (tok "2147483647").isInt 2147483647 ∧
    instrListStartContext.module_index + 2147483647 > 512 ∧
    (instrListStartContext.ProcessState (tok "2147483647")).1.next_state =
      .STATE_INSTRUCTION_TYPE_READ ∧
    (instrListStartContext.ProcessState (tok "2147483647")).2 = .ERROR_OK ∧
    main ["0 0 1 I 5 0 0 2147483647"] =
      [Output.parseError { line_num := 1, position := 25, err := .ERROR_ADDR_EXPECTED }] := by
  decide

/-- C15: in every state that the state machine reaches from the initial context,
`HandleEnd` sets `next_state` to `STATE_TERMINATED` if and only if `current_state` is
`STATE_MODULE_START`; in each of the seven other non-terminal states the end-of-input
part of `TokenizeFile` throws the diagnostic named in the list, taken at the current line
and position, and leaves the output, the symbol table and the use list as they are, the
`Stop` hook not being run. -/
theorem end_of_input (toks : List Token) (tk : Tokenizer) :
    ((ParsingContext.init.feed toks).HandleEnd.next_state = .STATE_TERMINATED ↔
      (ParsingContext.init.feed toks).current_state = .STATE_MODULE_START) ∧
    ∀ s kind, (s, kind) ∈
      [(ParsingState.STATE_READ_DEFINITION_SYMBOL, SyntaxError.ERROR_SYM_EXPECTED),
       (ParsingState.STATE_READ_DEFINITION_VALUE, SyntaxError.ERROR_NUM_EXPECTED),
       (ParsingState.STATE_USE_LIST_START, SyntaxError.ERROR_NUM_EXPECTED),
       (ParsingState.STATE_USE_LIST_READ, SyntaxError.ERROR_SYM_EXPECTED),
       (ParsingState.STATE_INSTRUCTION_LIST_START, SyntaxError.ERROR_NUM_EXPECTED),
       (ParsingState.STATE_INSTRUCTION_TYPE_READ, SyntaxError.ERROR_ADDR_EXPECTED),
       (ParsingState.STATE_INSTRUCTION_CODE_READ, SyntaxError.ERROR_NUM_EXPECTED)] →
      tk.context.current_state = s →
      ∃ e, tk.Finish = .error e ∧
        e.2 = { line_num := tk.context.index, position := tk.context.position, err := kind } ∧
        e.1.cout = tk.cout ∧ e.1.symbol_table = tk.symbol_table ∧
        e.1.use_list = tk.use_list := by
  constructor
  · have hne := feed_ne_terminated toks ParsingContext.init (by decide) (by decide)
    unfold ParsingContext.HandleEnd
    by_cases hms : (ParsingContext.init.feed toks).current_state = .STATE_MODULE_START
    · simp [hms]
    · simp only [ne_eq, hms, not_false_eq_true, if_true, iff_false]
      exact hne
  · intro s kind hmem hs
    exact ⟨_, Finish_mid_module tk s kind hmem hs, rfl, rfl, rfl, rfl⟩

/-- C16 (counterexample): on the input `1 X 3 0 1` / `I 3 2` pass 1 closes module 1 at
the token `2`, writes the Rule 5 warning for `X`, and then hits the end of the input in
the middle of module 2: the output is the warning followed by the parse error, not the
parse error alone. -/
theorem fatal_error_after_warning :
    main ["1 X 3 0 1", "I 3 2"] =
      [Output.rule5Warning 1 "X" 3 0,
       Output.parseError { line_num := 2, position := 6, err := .ERROR_SYM_EXPECTED }] := by
  decide

/-- C16 (amended): when pass 1 throws a fatal grammar error, the complete output of
the program is what pass 1 wrote before, followed by the parse-error message, and what
pass 1 wrote is nothing but Rule 5 warnings: there is no symbol table, no memory map
line and no Rule 4 or Rule 7 warning.  The warnings are those of the modules that pass 1
closed before the error.  If no token of the file was accepted in `STATE_MODULE_START`,
there is none.  Otherwise let `first` be the last token accepted in that state and
`closed` the tokens before it: pass 1 alone runs on `closed` to a clean end, and the
warnings are exactly the output of that run.  One of the two cases always holds. -/
theorem fatal_error_output (lines : List String) (e : Thrown)
    (h : (Tokenizer.create .SymbolTableGenerator [] []).TokenizeFile lines = .error e) :
    main lines = e.1.cout ++ [Output.parseError e.2] ∧
    (∀ o ∈ e.1.cout, o.isRule5Warning = true) ∧
    (ParsingContext.init.startsNoModule (fileTokens 1 lines) = true → e.1.cout = []) ∧
    (∀ closed first later tk1, fileTokens 1 lines = closed ++ first :: later →
      (Tokenizer.create .SymbolTableGenerator [] []).run closed = .ok tk1 →
      ((ParsingContext.init.feed closed).ProcessState first).1.next_state ≠
        .STATE_SYNTAX_ERROR →
      (ParsingContext.init.feed (closed ++ [first])).startsNoModule later = true →
      e.1.cout = tk1.cout) ∧
    (ParsingContext.init.startsNoModule (fileTokens 1 lines) = true ∨
      ∃ closed first later tk1, fileTokens 1 lines = closed ++ first :: later ∧
        (Tokenizer.create .SymbolTableGenerator [] []).run closed = .ok tk1 ∧
        ((ParsingContext.init.feed closed).ProcessState first).1.next_state ≠
          .STATE_SYNTAX_ERROR ∧
        (ParsingContext.init.feed (closed ++ [first])).startsNoModule later = true) := by
  have hb := TokenizeFile_run (Tokenizer.create .SymbolTableGenerator [] [])
    (Tokenizer.create .SymbolTableGenerator [] []) lines (sameButPlace_refl _)
  rw [h] at hb
  have hidx : (Tokenizer.create .SymbolTableGenerator [] []).context.index = 1 := rfl
  rw [hidx] at hb
  cases hr : (Tokenizer.create .SymbolTableGenerator [] []).run (fileTokens 1 lines) with
  | ok tk => rw [hr] at hb; exact hb.elim
  | error e1 =>
    rw [hr] at hb
    have hcout : e.1.cout = e1.1.cout := hb
    refine ⟨?_, ?_, ?_, ?_, ?_⟩
    · simp only [main, linkWith, h]
    · have h1 := TokenizeFile_only_rule5 (Tokenizer.create .SymbolTableGenerator [] []) lines
        ⟨rfl, by intro o ho; simp [Tokenizer.create] at ho⟩
      rw [h] at h1
      exact h1.2
    · intro hno
      rw [hcout]
      exact run_startsNoModule _ (Tokenizer.create .SymbolTableGenerator [] []) e1 rfl hno hr
    · intro closed first later tk1 heq hclosed hfirst hlater
      rw [heq] at hr
      rw [hcout]
      exact run_after_last_start closed later first tk1 e1 hclosed hfirst hlater hr
    · rcases last_module_start (fileTokens 1 lines) ParsingContext.init with hno | hex
      · exact Or.inl hno
      · obtain ⟨closed, first, later, h1, h2, h3, h4, h5⟩ := hex
        obtain ⟨tk1, htk1⟩ := run_ok_of_boundary closed h2 h3
        exact Or.inr ⟨closed, first, later, tk1, h1, htk1, h4, h5⟩

/-- C16 amended, on the input `1 X 3 0 1` / `I 3 2`: the last token accepted in
`STATE_MODULE_START` is the `2` of the second line, and the output before the parse error
is the output of pass 1 on the seven tokens before it, the Rule 5 warning for `X`. -/
theorem fatal_error_output_witness :
    main ["1 X 3 0 1", "I 3 2"] =
      thrownMidModule.1.cout ++ [Output.parseError thrownMidModule.2] ∧
    thrownMidModule.1.cout = pass1BeforeCutModule.cout ∧
    pass1BeforeCutModule.cout = [Output.rule5Warning 1 "X" 3 0] :=
  ⟨(fatal_error_output ["1 X 3 0 1", "I 3 2"] thrownMidModule (by rfl)).1,
    (fatal_error_output ["1 X 3 0 1", "I 3 2"] thrownMidModule (by rfl)).2.2.2.1
      tokensBeforeCutModule { line_num := 2, position := 5, token := "2" } []
      pass1BeforeCutModule (by decide) (by rfl) (by decide) (by decide),
    by decide⟩

/-- C13 (the claim as written fails): the module `0 1 X 1 E -1000` is well-formed, its
use list has the one position 0, and its only instruction has the raw code -1000, which
is not in 0..9999; pass 2 still marks position 0 used (opcode -1, operand 0), so no
Rule 7 warning is written at the end of the module. -/
theorem rule7_negative_code_counts_as_use :
    WellFormedProgram [moduleNegativeCode] ∧
    ((programTokens [moduleNegativeCode]).map fun t => t.token) =
      ["0", "1", "X", "1", "E", "-1000"] ∧
    main ["0 1 X 1 E -1000"] =
      [Output.symbolTableHeader, Output.blankLine, Output.memoryMapHeader,
       Output.mapLine 0 (-1000) "Error: X is not defined; zero used"] := by
  decide

/-- C13 amended (Rule 7): pass 2 on a well-formed program `pre ++ md :: post`, from any
symbol table, ends without a fatal error and its output is the initial output, then
lines `A`, then the memory-map lines `L` of `md` (one for each instruction, with the
addresses from the base of `md` on), then one warning for each use-list position of `md`
that no E-mode instruction of `md` with raw code at most 9999 (negative codes included)
refers to by the truncated remainder of its code by 1000, in increasing position order
and labelled with the module number of `md`, then lines `B`.  The Rule 7 warnings in `A`
carry smaller module numbers and those in `B` greater ones, `A` is empty when `md` is
the first module, the use list is empty at the end, and the boundary hook always leaves
an empty use list. -/
theorem rule7_at_module_boundary (pre post : List ObjectModule) (md : ObjectModule)
    (T : SymbolTable) (out : List Output) (hwf : WellFormedProgram (pre ++ md :: post)) :
    ∃ tk A L B,
      (Tokenizer.create .InstructionGenerator T out).run
        (programTokens (pre ++ md :: post)) = .ok tk ∧
      tk.cout = out ++ A ++ L ++ rule7Lines ((pre.length : Int) + 1) md ++ B ∧
      (pre = [] → A = []) ∧
      (∀ o ∈ A, ∀ l, o.rule7Label = some l → l ≤ (pre.length : Int)) ∧
      L.length = md.instructions.length ∧
      (∀ (k : Nat) (o : Output), L[k]? = some o →
        o.isMapLineAt (programSize pre + (k : Int)) = true) ∧
      (∀ o ∈ B, ∀ l, o.rule7Label = some l → (pre.length : Int) + 1 < l) ∧
      tk.use_list = [] ∧
      ∀ (ctx : ParsingContext) (ul : UseList),
        (InstructionGenerator.HandleModuleChange ctx ul).1 = [] := by
  obtain ⟨tk, hrun, _, _, hul, hcout⟩ := pass2_run (pre ++ md :: post) hwf T out
  obtain ⟨hmods, hsum⟩ := hwf
  have hmd : md.WellFormed := hmods md (by simp)
  -- the boundary before `md` and the one after it
  obtain ⟨A0, hA0, hA0nil, hA0lab⟩ := after_cout pre (Boundary.mk T [] out 0 0 0)
  have hcount := after_count pre (Boundary.mk T [] out 0 0 0)
  have hbase := after_base pre (Boundary.mk T [] out 0 0 0)
  have happ := pass2Final_append pre (md :: post) (Boundary.mk T [] out 0 0 0)
  obtain ⟨b1, hb1⟩ : ∃ b1, b1 = (Boundary.mk T [] out 0 0 0).after pre := ⟨_, rfl⟩
  rw [← hb1] at hA0 hcount hbase happ
  simp only [zero_add] at hcount hbase
  simp only at hA0 happ
  obtain ⟨B, hB, hBlab⟩ := pass2Final_tail post (b1.step md).symbol_table
    (b1.step md).use_list (b1.step md).cout (b1.step md).module_count
    (b1.step md).module_index (b1.step md).instruction_count
  have hstep : pass2Final (md :: post) b1.symbol_table b1.use_list b1.cout b1.module_count
      b1.module_index b1.instruction_count =
      pass2Final post (b1.step md).symbol_table (b1.step md).use_list (b1.step md).cout
        (b1.step md).module_count (b1.step md).module_index (b1.step md).instruction_count :=
    rfl
  have hmc2 : (b1.step md).module_count = (pre.length : Int) + 1 := by
    show b1.module_count + 1 = _
    rw [hcount]
  have hwarn : ((b1.step md).use_list.UnusedSymbols.map fun s =>
      Output.rule7Warning ((pre.length : Int) + 1) s) =
      rule7Lines ((pre.length : Int) + 1) md := by
    rw [step_use_list b1 md hmd, UnusedSymbols_markedUseList]
    rfl
  have hsize : programSize (pre ++ md :: post) =
      programSize pre + md.size + programSize post := by
    rw [programSize_append, programSize_cons]; omega
  have hfit : b1.module_index + b1.instruction_count + 0 +
      (md.instructions.length : Int) ≤ 512 := by
    have h1 := programSize_nonneg post
    have h2 : md.size = (md.instructions.length : Int) := rfl
    rw [hbase]; omega
  obtain ⟨hLlen, hLat⟩ := pass2Instrs_lines (b1.module_index + b1.instruction_count) md.size
    md.instructions b1.symbol_table (pass2Uses md.uses [] 0) 0
    (by have := programSize_nonneg pre; rw [hbase]; omega) hfit
  refine ⟨tk,
    A0 ++ (b1.use_list.UnusedSymbols.map fun s => Output.rule7Warning b1.module_count s),
    (pass2Instrs (b1.module_index + b1.instruction_count) md.size md.instructions
      b1.symbol_table (pass2Uses md.uses [] 0) 0).2.2,
    B, hrun, ?_, ?_, ?_, hLlen, ?_, ?_, ?_, fun _ _ => rfl⟩
  · rw [hcout, happ, hstep, hB, hmc2, hwarn]
    show (b1.cout ++ _ ++ _) ++ _ ++ B = _
    rw [hA0]
    simp only [List.append_assoc]
  · intro hpre
    subst hpre
    rw [hA0nil rfl, hb1]
    rfl
  · intro o ho l hl
    rcases List.mem_append.mp ho with ho | ho
    · have := (hA0lab o ho).1 l hl
      simp only [zero_add] at this
      omega
    · rw [(rule7_warnings_kind _ _ o ho).1] at hl
      simp only [Option.some.injEq] at hl
      omega
  · intro k o hk
    have := (hLat k o hk).1
    rw [hbase] at this
    simpa using this
  · intro o ho l hl
    have := hBlab o ho l hl
    omega
  · rw [hul]
    exact pass2Final_use_list _ _ _ _ _ _ _

/-- C13 amended, at a program of three modules whose second one, `0 2 X Z 1 E 1000`,
leaves position 1 of its use list unused. -/
theorem rule7_at_module_boundary_witness :
    WellFormedProgram ([moduleDefiningX] ++ moduleUsingXZ :: [moduleDefiningY]) ∧
    ∃ tk A L B,
      (Tokenizer.create .InstructionGenerator tableWithX []).run
        (programTokens ([moduleDefiningX] ++ moduleUsingXZ :: [moduleDefiningY])) = .ok tk ∧
      tk.cout = [] ++ A ++ L ++
        rule7Lines ((([moduleDefiningX] : List ObjectModule).length : Int) + 1)
          moduleUsingXZ ++ B ∧
      (([moduleDefiningX] : List ObjectModule) = [] → A = []) ∧
      (∀ o ∈ A, ∀ l, o.rule7Label = some l →
        l ≤ (([moduleDefiningX] : List ObjectModule).length : Int)) ∧
      L.length = moduleUsingXZ.instructions.length ∧
      (∀ (k : Nat) (o : Output), L[k]? = some o →
        o.isMapLineAt (programSize [moduleDefiningX] + (k : Int)) = true) ∧
      (∀ o ∈ B, ∀ l, o.rule7Label = some l →
        (([moduleDefiningX] : List ObjectModule).length : Int) + 1 < l) ∧
      tk.use_list = [] ∧
      ∀ (ctx : ParsingContext) (ul : UseList),
        (InstructionGenerator.HandleModuleChange ctx ul).1 = [] :=
  ⟨by decide,
    rule7_at_module_boundary [moduleDefiningX] [moduleDefiningY] moduleUsingXZ tableWithX []
      (by decide)⟩

/-- C14 (the claim as written fails): the module `1 X 0 1 X 1 E -1000` is well-formed
and defines `X`; its only instruction has the raw code -1000, which is not in 0..9999,
and pass 2 still looks `X` up through position 0 of the use list (opcode -1, operand
0), so no Rule 4 warning is written for `X`. -/
theorem rule4_negative_code_counts_as_use :
    WellFormedProgram [moduleDefiningNegativeCode] ∧
    ((programTokens [moduleDefiningNegativeCode]).map fun t => t.token) =
      ["1", "X", "0", "1", "X", "1", "E", "-1000"] ∧
    main ["1 X 0 1 X 1 E -1000"] =
      [Output.symbolTableHeader, Output.symbolLine "X" 0 "", Output.blankLine,
       Output.memoryMapHeader, Output.mapLine 0 (-1000) ""] := by
  decide

/-- C14 amended (Rule 4): on a well-formed program pass 1 ends without a fatal error,
and pass 2 on the table of pass 1 ends without a fatal error; the keys of that table
are pairwise different, and the output of pass 2 ends with exactly one warning for each
entry of the table whose symbol no module looks up, a lookup being an E-mode
instruction with raw code at most 9999 (negative codes included) whose truncated
remainder by 1000 is a position of the use list of its module that names the symbol.
No Rule 4 warning stands before them, and the lines before them end with the Rule 7
warnings of the last module. -/
theorem rule4_at_end (prog : List ObjectModule) (out : List Output)
    (hwf : WellFormedProgram prog) :
    ∃ tk1 tk X,
      (Tokenizer.create .SymbolTableGenerator [] []).run (programTokens prog) = .ok tk1 ∧
      (Tokenizer.create .InstructionGenerator tk1.symbol_table out).run
        (programTokens prog) = .ok tk ∧
      (tk1.symbol_table.map Prod.fst).Nodup ∧
      tk.cout = out ++ X ++ rule4Lines tk1.symbol_table prog ∧
      (∀ o ∈ X, o.isRule4Warning = false) ∧
      ∀ (pre : List ObjectModule) (last : ObjectModule), prog = pre ++ [last] →
        ∃ Y, X = Y ++ rule7Lines ((pre.length : Int) + 1) last := by
  obtain ⟨tk1, hrun1, _, htable, _⟩ := pass1_run prog hwf
  have hfresh : freshTable tk1.symbol_table := by
    rw [htable]
    exact freshTable_pass1Final prog [] [] 0 0 0 ⟨List.nodup_nil, by intro u hu; simp at hu⟩
  obtain ⟨hkeys, hflags⟩ := hfresh
  obtain ⟨tk, X, hrun2, hcout, hX, hlast⟩ := pass2_rule4 prog tk1.symbol_table out hwf hkeys
    (fun kv hkv => hflags _ (List.mem_map_of_mem (fun kv => kv.2.used) hkv))
  exact ⟨tk1, tk, X, hrun1, hrun2, hkeys, hcout, hX, hlast⟩

/-- C14 amended, at a program of three modules: the first defines `X`, the second looks
`X` up, the third defines `Y`, which no module looks up. -/
theorem rule4_at_end_witness :
    WellFormedProgram [moduleDefiningX, moduleUsingXZ, moduleDefiningY] ∧
    ∃ tk1 tk X,
      (Tokenizer.create .SymbolTableGenerator [] []).run
        (programTokens [moduleDefiningX, moduleUsingXZ, moduleDefiningY]) = .ok tk1 ∧
      (Tokenizer.create .InstructionGenerator tk1.symbol_table []).run
        (programTokens [moduleDefiningX, moduleUsingXZ, moduleDefiningY]) = .ok tk ∧
      (tk1.symbol_table.map Prod.fst).Nodup ∧
      tk.cout = [] ++ X ++
        rule4Lines tk1.symbol_table [moduleDefiningX, moduleUsingXZ, moduleDefiningY] ∧
      (∀ o ∈ X, o.isRule4Warning = false) ∧
      ∀ (pre : List ObjectModule) (last : ObjectModule),
        [moduleDefiningX, moduleUsingXZ, moduleDefiningY] = pre ++ [last] →
        ∃ Y, X = Y ++ rule7Lines ((pre.length : Int) + 1) last :=
  ⟨by decide,
    rule4_at_end [moduleDefiningX, moduleUsingXZ, moduleDefiningY] [] (by decide)⟩

/-! ## Verified claims, concluded -/

/-- C21 (the claim as written fails): the text made of a vertical tab and `5` is not a
decimal integer, yet `ReadAsInt` accepts it as 5, `std::stoi` skipping leading blank
characters and the vertical tab being no delimiter: in state `STATE_MODULE_START` the
token is accepted without `NUM_EXPECTED`, and the input file whose only line is a
vertical tab followed by `0 0 0` is linked without a parse error. -/
theorem blank_prefixed_integer_accepted :
    isDecimalInteger tokenTab5.token = false ∧
    tokenTab5.isInt 5 ∧
    ParsingContext.init.current_state = .STATE_MODULE_START ∧
    (ParsingContext.init.ProcessState tokenTab5).1.next_state ≠ .STATE_SYNTAX_ERROR ∧
    (ParsingContext.init.ProcessState tokenTab5).2 = .ERROR_OK ∧
    main [String.mk [Char.ofNat 11, '0', ' ', '0', ' ', '0']] =
      [Output.symbolTableHeader, Output.blankLine, Output.memoryMapHeader] := by
  decide

/-- C21 amended: in each of the five states that expect an integer, a token whose text
is not an integer text (leading vertical tabs or form feeds if any, an optional sign,
then digits only, denoting a number within the range of `int`) takes the state machine
to `STATE_SYNTAX_ERROR` with `NUM_EXPECTED`, and an integer text never gives
`NUM_EXPECTED`; a text that does not start with a blank character and is not a sign
followed by digits only, such as `42Hello`, is not an integer text.  In
`STATE_INSTRUCTION_TYPE_READ` exactly the texts `I`, `A`, `E`, `R` are accepted and every
other token gives `ADDR_EXPECTED`.  On every rejection the driver throws the message
of the token, the state is `STATE_SYNTAX_ERROR`, and the symbol table, the use list and
the output are as before, the `ProcessToken` hook not being called. -/
theorem wrong_shape_rejected (ctx : ParsingContext) (t : Token) (tk : Tokenizer) :
    (ctx.current_state.expectsInt = true →
      (isIntegerText t.token = false →
        (ctx.ProcessState t).1.next_state = .STATE_SYNTAX_ERROR ∧
        (ctx.ProcessState t).2 = .ERROR_NUM_EXPECTED) ∧
      (isIntegerText t.token = true → (ctx.ProcessState t).2 ≠ .ERROR_NUM_EXPECTED)) ∧
    (isDecimalInteger t.token = false → (∀ c ∈ t.token.data.head?, isspace c = false) →
      isIntegerText t.token = false) ∧
    (ctx.current_state = .STATE_INSTRUCTION_TYPE_READ →
      ((ctx.ProcessState t).1.next_state ≠ .STATE_SYNTAX_ERROR ↔
        (t.token = "I" ∨ t.token = "A" ∨ t.token = "E" ∨ t.token = "R")) ∧
      ((ctx.ProcessState t).1.next_state = .STATE_SYNTAX_ERROR →
        (ctx.ProcessState t).2 = .ERROR_ADDR_EXPECTED)) ∧
    ((tk.context.ProcessState t).1.next_state = .STATE_SYNTAX_ERROR →
      ∃ e, tk.ProcessOne t = .error e ∧ e.1.symbol_table = tk.symbol_table ∧
        e.1.use_list = tk.use_list ∧ e.1.cout = tk.cout ∧
        e.1.context.current_state = .STATE_SYNTAX_ERROR ∧
        e.2 = ErrorMessageForToken t (tk.context.ProcessState t).2) := by
  refine ⟨fun hs => ?_, fun hd hb => ?_, fun hs => ?_, fun herr => ?_⟩
  · obtain ⟨h1, h2⟩ := ProcessState_expectsInt ctx t hs
    constructor
    · intro hno
      apply h1
      cases hok : (t.ReadAsInt 0).ok
      · rfl
      · rw [(ReadAsInt_ok_iff_text t 0).mp hok] at hno
        exact absurd hno (by decide)
    · intro hyes
      exact h2 ((ReadAsInt_ok_iff_text t 0).mpr hyes)
  · unfold isIntegerText
    unfold isDecimalInteger at hd
    have hdrop : t.token.data.dropWhile isspace = t.token.data := by
      cases hdata : t.token.data with
      | nil => rfl
      | cons c cs =>
        have hc : isspace c = false := hb c (by rw [hdata]; rfl)
        simp [List.dropWhile, hc]
    rw [hdrop, hd]
    rfl
  · have hiff := ReadAsIAER_ok_iff t ctx.last_instruction
    unfold ParsingContext.ProcessState
    rw [hs]
    simp only [ParsingContext.HandleInstructionTypeRead]
    cases hok : (t.ReadAsIAER ctx.last_instruction).ok
    · have hno : ¬ (t.token = "I" ∨ t.token = "A" ∨ t.token = "E" ∨ t.token = "R") := by
        intro h
        rw [hiff.mpr h] at hok
        exact absurd hok (by decide)
      simp only [Bool.not_false, if_true, ne_eq, not_true_eq_false, false_iff]
      exact ⟨hno, fun _ => ReadAsIAER_err t _ hok⟩
    · simp only [Bool.not_true, Bool.false_eq_true, if_false, ne_eq, reduceCtorEq,
        not_false_eq_true, true_iff, false_implies, and_true]
      exact hiff.mp hok
  · unfold Tokenizer.ProcessOne
    simp only [herr, if_true]
    refine ⟨_, rfl, rfl, rfl, rfl, ?_, rfl⟩
    simp only [ParsingContext.AdvanceState]

/-- C21 amended, at the token `42Hello` in the initial state. -/
theorem wrong_shape_rejected_witness :
    (ParsingContext.init.ProcessState (tok "42Hello")).1.next_state = .STATE_SYNTAX_ERROR ∧
    (ParsingContext.init.ProcessState (tok "42Hello")).2 = .ERROR_NUM_EXPECTED :=
  ((wrong_shape_rejected ParsingContext.init (tok "42Hello")
    (Tokenizer.create .SymbolTableGenerator [] [])).1 (by decide)).1 (by decide)
/-- C22: pass 2 on a well-formed program `pre ++ md :: post` with `N` instructions in
all, from any symbol table, ends without a fatal error, and the memory-map lines among
what it writes are exactly `N`; the `k`-th of them (from 0) carries the address `k`, and
the line of the instruction at position `j` of `md` stands at place `base + j`, `base`
being the number of instructions of the modules before `md`: it carries the address
`base + j` and the value and the diagnostic that the translation of that very
instruction gives. -/
theorem map_lines_in_program_order (pre post : List ObjectModule) (md : ObjectModule)
    (T : SymbolTable) (out : List Output) (hwf : WellFormedProgram (pre ++ md :: post)) :
    ∃ tk rest,
      (Tokenizer.create .InstructionGenerator T out).run
        (programTokens (pre ++ md :: post)) = .ok tk ∧
      tk.cout = out ++ rest ∧
      (rest.filter Output.isMapLine).length = instructionCount (pre ++ md :: post) ∧
      (∀ (k : Nat) (o : Output), (rest.filter Output.isMapLine)[k]? = some o →
        o.isMapLineAt (k : Int) = true) ∧
      programSize pre = (instructionCount pre : Int) ∧
      ∀ (j : Nat) (p : Token × Token), md.instructions[j]? = some p →
        ∃ T1 ul1, (rest.filter Output.isMapLine)[instructionCount pre + j]? = some
          (Output.mapLine (programSize pre + (j : Int))
            (InstructionGenerator.Translate (p.1.ReadAsIAER (Char.ofNat 0)).val
              (p.2.ReadAsInt 0).val (translateContext (programSize pre) md.size)
              T1 ul1).instruction
            (InstructionGenerator.Translate (p.1.ReadAsIAER (Char.ofNat 0)).val
              (p.2.ReadAsInt 0).val (translateContext (programSize pre) md.size)
              T1 ul1).err) := by
  obtain ⟨tk, hrun, _, _, _, hcout⟩ := pass2_run (pre ++ md :: post) hwf T out
  obtain ⟨_, hsum⟩ := hwf
  have hsize : programSize (pre ++ md :: post) =
      programSize pre + md.size + programSize post := by
    rw [programSize_append, programSize_cons]; omega
  have hpre0 := programSize_nonneg pre
  have hpost0 := programSize_nonneg post
  have hmd0 := size_nonneg md
  obtain ⟨A, hA, hAf⟩ := after_cout_mapLines (pre ++ md :: post) (Boundary.mk T [] out 0 0 0)
  have happ := pass2Final_append (pre ++ md :: post) [] (Boundary.mk T [] out 0 0 0)
  rw [List.append_nil] at happ
  obtain ⟨b1, hb1⟩ : ∃ b1, b1 = (Boundary.mk T [] out 0 0 0).after (pre ++ md :: post) :=
    ⟨_, rfl⟩
  rw [← hb1] at hA happ
  simp only at hA happ
  have hfin : pass2Final [] b1.symbol_table b1.use_list b1.cout b1.module_count
      b1.module_index b1.instruction_count =
      (b1.symbol_table, [], b1.cout ++
        (b1.use_list.UnusedSymbols.map fun s => Output.rule7Warning b1.module_count s) ++
        b1.symbol_table.VerifySymbolUsed) := rfl
  obtain ⟨hlen, hat⟩ := mapLinesOf_length (pre ++ md :: post) (Boundary.mk T [] out 0 0 0)
    (by show (0 : Int) ≤ 0 + 0; omega)
    (by show (0 : Int) + 0 + programSize (pre ++ md :: post) ≤ 512; omega)
  have hfilter : (A ++ (b1.use_list.UnusedSymbols.map fun s =>
      Output.rule7Warning b1.module_count s) ++
      b1.symbol_table.VerifySymbolUsed).filter Output.isMapLine =
      mapLinesOf (pre ++ md :: post) (Boundary.mk T [] out 0 0 0) := by
    simp only [List.filter_append, rule7_warnings_filter, VerifySymbolUsed_filter, hAf,
      List.append_nil]
  refine ⟨tk, A ++ (b1.use_list.UnusedSymbols.map fun s =>
      Output.rule7Warning b1.module_count s) ++ b1.symbol_table.VerifySymbolUsed,
    hrun, ?_, ?_, ?_, programSize_eq_count pre, ?_⟩
  · rw [hcout, happ, hfin, hA]
    simp only [List.append_assoc]
  · rw [hfilter]; exact hlen
  · intro k o hk
    rw [hfilter] at hk
    have := hat k o hk
    simpa using this
  · intro j p hp
    rw [hfilter, mapLinesOf_append]
    obtain ⟨hlpre, _⟩ := mapLinesOf_length pre (Boundary.mk T [] out 0 0 0)
      (by show (0 : Int) ≤ 0 + 0; omega)
      (by show (0 : Int) + 0 + programSize pre ≤ 512; omega)
    have hbase := after_base pre (Boundary.mk T [] out 0 0 0)
    simp only [zero_add] at hbase
    have hj : j < md.instructions.length := by
      rcases Nat.lt_or_ge j md.instructions.length with h | h
      · exact h
      · rw [List.getElem?_eq_none h] at hp; exact absurd hp (by simp)
    have hmdsz : md.size = (md.instructions.length : Int) := rfl
    obtain ⟨hl, _⟩ := pass2Instrs_lines
      (((Boundary.mk T [] out 0 0 0).after pre).module_index +
        ((Boundary.mk T [] out 0 0 0).after pre).instruction_count) md.size
      md.instructions ((Boundary.mk T [] out 0 0 0).after pre).symbol_table
      (pass2Uses md.uses [] 0) 0 (by rw [hbase]; omega) (by rw [hbase]; omega)
    obtain ⟨T1, ul1, hline⟩ := pass2Instrs_line_at
      (((Boundary.mk T [] out 0 0 0).after pre).module_index +
        ((Boundary.mk T [] out 0 0 0).after pre).instruction_count) md.size
      md.instructions ((Boundary.mk T [] out 0 0 0).after pre).symbol_table
      (pass2Uses md.uses [] 0) 0 j p hp
    refine ⟨T1, ul1, ?_⟩
    rw [List.getElem?_append_right (by rw [hlpre]; omega), hlpre,
      show instructionCount pre + j - instructionCount pre = j by omega]
    simp only [mapLinesOf]
    rw [List.getElem?_append_left (by rw [hl]; exact hj), hline, hbase,
      wrap32_eq _ (by omega) (by omega), zero_add]

/-- C22, at a program of three modules with three instructions in all. -/
theorem map_lines_in_program_order_witness :
    WellFormedProgram ([moduleUsingX] ++ moduleDefiningY :: [moduleDefiningX]) ∧
    ∃ tk rest,
      (Tokenizer.create .InstructionGenerator tableWithX []).run
        (programTokens ([moduleUsingX] ++ moduleDefiningY :: [moduleDefiningX])) = .ok tk ∧
      tk.cout = [] ++ rest ∧
      (rest.filter Output.isMapLine).length =
        instructionCount ([moduleUsingX] ++ moduleDefiningY :: [moduleDefiningX]) ∧
      (∀ (k : Nat) (o : Output), (rest.filter Output.isMapLine)[k]? = some o →
        o.isMapLineAt (k : Int) = true) ∧
      programSize [moduleUsingX] = (instructionCount [moduleUsingX] : Int) ∧
      ∀ (j : Nat) (p : Token × Token), moduleDefiningY.instructions[j]? = some p →
        ∃ T1 ul1, (rest.filter Output.isMapLine)[instructionCount [moduleUsingX] + j]? = some
          (Output.mapLine (programSize [moduleUsingX] + (j : Int))
            (InstructionGenerator.Translate (p.1.ReadAsIAER (Char.ofNat 0)).val
              (p.2.ReadAsInt 0).val
              (translateContext (programSize [moduleUsingX]) moduleDefiningY.size)
              T1 ul1).instruction
            (InstructionGenerator.Translate (p.1.ReadAsIAER (Char.ofNat 0)).val
              (p.2.ReadAsInt 0).val
              (translateContext (programSize [moduleUsingX]) moduleDefiningY.size)
              T1 ul1).err) :=
  ⟨by decide,
    map_lines_in_program_order [moduleUsingX] [moduleDefiningX] moduleDefiningY tableWithX []
      (by decide)⟩
/-- C23: for every input file and every symbol table `T` handed to pass 2, the table
that pass 2 leaves behind, whether it ends or throws, has the names of `T` in the same
places, each with the note, the value, the owner module and the definition order that
it has in `T`, and every used flag that is set in `T` is still set; the same holds for
each single `ProcessToken` call, and `Stop` returns the table as it is. -/
theorem pass2_changes_used_flags_only (lines : List String) (T : SymbolTable)
    (out : List Output) :
    T.sameButUsed (resultTokenizer
      ((Tokenizer.create .InstructionGenerator T out).TokenizeFile lines)).symbol_table ∧
    (resultTokenizer
      ((Tokenizer.create .InstructionGenerator T out).TokenizeFile lines)).symbol_table.map
        Prod.fst = T.map Prod.fst ∧
    (resultTokenizer
      ((Tokenizer.create .InstructionGenerator T out).TokenizeFile lines)).symbol_table.map
        (fun kv => (kv.1, kv.2.err, kv.2.value, kv.2.module, kv.2.sorting_index)) =
      T.map (fun kv => (kv.1, kv.2.err, kv.2.value, kv.2.module, kv.2.sorting_index)) ∧
    (∀ (i : Nat) (a b : String × SymbolData), T[i]? = some a →
      (resultTokenizer ((Tokenizer.create .InstructionGenerator T out).TokenizeFile
        lines)).symbol_table[i]? = some b → a.2.used = true → b.2.used = true) ∧
    (∀ (t : Token) (ctx : ParsingContext) (T0 : SymbolTable) (ul : UseList),
      T0.sameButUsed (InstructionGenerator.ProcessToken t ctx T0 ul).1) ∧
    ∀ (ctx : ParsingContext) (T0 : SymbolTable) (ul : UseList),
      (InstructionGenerator.Stop ctx T0 ul).1 = T0 := by
  have h := (TokenizeFile_tableFrom T (Tokenizer.create .InstructionGenerator T out) lines
    ⟨rfl, sameButUsed_refl T⟩).2
  have hmap := sameButUsed_map h
  refine ⟨h, ?_, hmap, sameButUsed_used h, sameButUsed_ProcessToken, fun _ _ _ => rfl⟩
  have := congrArg (List.map Prod.fst) hmap
  simpa [List.map_map, Function.comp_def] using this
/-- C24: the input file with the one line `1 A 0 0 1 A 512` has the tokens `1`, `A`,
`0`, `0`, `1`, `A`, `512`; the run ends without a parse error, the symbol table section
holds the one symbol line `A=0`, and the memory map section holds the one instruction
line `000: 0000 Error: Absolute address exceeds machine size; zero used`.  (The Rule 4
warning for `A` follows.) -/
theorem example_absolute_512 :
    ((lineTokens 1 "1 A 0 0 1 A 512").map fun t => t.token) =
      ["1", "A", "0", "0", "1", "A", "512"] ∧
    main ["1 A 0 0 1 A 512"] =
      [Output.symbolTableHeader, Output.symbolLine "A" 0 "", Output.blankLine,
       Output.memoryMapHeader,
       Output.mapLine 0 0 "Error: Absolute address exceeds machine size; zero used",
       Output.rule4Warning 1 "A"] ∧
    symbolLineText "A" 0 "" = "A=0" ∧
    mapLineText 0 0 "Error: Absolute address exceeds machine size; zero used" =
      "000: 0000 Error: Absolute address exceeds machine size; zero used" := by
  decide
/-- C25 (the claim as written fails): there is no E-mode instruction with opcode 10 or
more for which pass 2 writes the Rule 6 line; whatever the token, the context, the
symbol table and the use list, the line written for such an instruction is not one
that carries the raw code with the diagnostic `External address exceeds length of
uselist; treated as immediate`. -/
theorem no_rule6_line_with_illegal_opcode :
    ¬ ∃ (token : Token) (ctx : ParsingContext) (st : SymbolTable) (ul : UseList) (c i : Int),
      ctx.current_state = .STATE_INSTRUCTION_CODE_READ ∧ ctx.last_instruction = 'E' ∧
      token.isInt c ∧ 10 ≤ c.tdiv 1000 ∧
      (InstructionGenerator.ProcessToken token ctx st ul).2.2 =
        [Output.mapLine i c
          "Error: External address exceeds length of uselist; treated as immediate"] := by
  rintro ⟨token, ctx, st, ul, c, i, hstate, hmode, hc, hop, hline⟩
  have hge : 10000 ≤ c := (tdiv_ge_ten c).mp hop
  rw [ProcessToken_code_read token ctx st ul c hstate hc, hmode,
    Translate_rule11 'E' c ctx st ul (by decide) hge] at hline
  simp only [List.cons.injEq, Output.mapLine.injEq, and_true] at hline
  omega

/-- C25 amended: for every E-mode instruction whose raw code has opcode 10 or more,
whether its operand is an index of the use list or not, pass 2 takes the Rule 11
branch, the guard of Rule 11 standing before the distinction of the modes: the line
carries 9999 with the diagnostic `Illegal opcode; treated as 9999`, and the table and
the use list stay as they are.  Whenever an E-mode instruction gets the Rule 6
diagnostic, its opcode is below 10, its operand is no index of the use list, and the
value of the line is the raw code. -/
theorem illegal_opcode_precedes_rule6 (token : Token) (ctx : ParsingContext)
    (st : SymbolTable) (ul : UseList) (c : Int)
    (hstate : ctx.current_state = .STATE_INSTRUCTION_CODE_READ)
    (hmode : ctx.last_instruction = 'E') (hc : token.isInt c) :
    (10 ≤ c.tdiv 1000 →
      InstructionGenerator.ProcessToken token ctx st ul =
        (st, ul,
          [Output.mapLine (wrap32 (ctx.module_index + ctx.instruction_index)) 9999
            "Error: Illegal opcode; treated as 9999"])) ∧
    ∀ i v, (InstructionGenerator.ProcessToken token ctx st ul).2.2 =
        [Output.mapLine i v
          "Error: External address exceeds length of uselist; treated as immediate"] →
      c.tdiv 1000 < 10 ∧ v = c ∧ ul.Has (c.tmod 1000) = false := by
  have hten := tdiv_ge_ten c
  constructor
  · intro hop
    rw [ProcessToken_code_read token ctx st ul c hstate hc, hmode,
      Translate_rule11 'E' c ctx st ul (by decide) (hten.mp hop)]
  · intro i v hline
    rw [ProcessToken_code_read token ctx st ul c hstate hc, hmode] at hline
    simp only [List.cons.injEq, Output.mapLine.injEq, and_true] at hline
    obtain ⟨_, hv, herr⟩ := hline
    by_cases hge : 10000 ≤ c
    · rw [Translate_rule11 'E' c ctx st ul (by decide) hge] at herr
      exact absurd herr (by dsimp only; decide)
    · have hop : ¬ (c.tdiv kMaxOperand ≥ kMaxOpCode ∧ ('E' : Char) ≠ 'I') :=
        fun h => hge (hten.mp h.1)
      have hlt : c.tdiv 1000 < 10 := by
        by_contra hcon
        exact hge (hten.mp (by show c.tdiv 1000 ≥ 10; omega))
      unfold InstructionGenerator.Translate at hv herr
      simp only [if_neg hop, show ¬ ('E' : Char) = 'A' by decide,
        show ¬ ('E' : Char) = 'I' by decide, show ¬ ('E' : Char) = 'R' by decide,
        if_false, if_true] at hv herr
      cases hhas : ul.Has (c.tmod kMaxOperand)
      · simp only [hhas, Bool.not_false, if_true] at hv
        exact ⟨hlt, hv.symm, rfl⟩
      · simp only [hhas, Bool.not_true, Bool.false_eq_true, if_false] at herr
        exfalso
        cases hget : ul.Get (c.tmod kMaxOperand) with
        | none =>
          simp only [hget] at herr
          exact absurd herr (by decide)
        | some e =>
          simp only [hget] at herr
          split at herr
          · have h2 := congrArg (fun s : String => s.data.reverse.head?) herr
            simp [String.data_append, List.reverse_append] at h2
          · exact absurd herr (by dsimp only; decide)

/-- C25 amended, at the instruction `E 10005` with a use list of one entry. -/
theorem illegal_opcode_precedes_rule6_witness :
    ((10 : Int) ≤ (10005 : Int).tdiv 1000 →
      InstructionGenerator.ProcessToken (tok "10005") (codeReadContext 'E' 10 3) tableWithX
          useListWithX =
        (tableWithX, useListWithX,
          [Output.mapLine
            (wrap32 ((codeReadContext 'E' 10 3).module_index +
              (codeReadContext 'E' 10 3).instruction_index)) 9999
            "Error: Illegal opcode; treated as 9999"])) ∧
    ∀ i v, (InstructionGenerator.ProcessToken (tok "10005") (codeReadContext 'E' 10 3)
        tableWithX useListWithX).2.2 =
        [Output.mapLine i v
          "Error: External address exceeds length of uselist; treated as immediate"] →
      (10005 : Int).tdiv 1000 < 10 ∧ v = 10005 ∧
        useListWithX.Has ((10005 : Int).tmod 1000) = false :=
  illegal_opcode_precedes_rule6 (tok "10005") (codeReadContext 'E' 10 3) tableWithX
    useListWithX 10005 (by decide) (by decide) (by decide)
/-- C26: on a well-formed program `pre ++ md :: post`, right after the state machine
accepted the first token of `md`, the module with number `pre.length + 1`,
`module_count` is that number, `module_index` is the sum of the instruction counts of
the modules before, and `last_module_instruction_count` is the instruction count of the
module before (0 for the first module); after `HandleEnd` at the end of the input,
`next_state` is `STATE_TERMINATED`, `module_count` is the number of modules plus one,
`module_index` is the sum of all instruction counts and `last_module_instruction_count`
is the instruction count of the last module. -/
theorem module_counters (pre post : List ObjectModule) (md : ObjectModule)
    (hwf : WellFormedProgram (pre ++ md :: post)) :
    (∃ rest, programTokens (pre ++ md :: post) =
      programTokens pre ++ md.def_count :: rest) ∧
    ((ParsingContext.init.feed (programTokens pre)).ProcessState md.def_count).1.next_state ≠
      .STATE_SYNTAX_ERROR ∧
    ((ParsingContext.init.feed (programTokens pre)).ProcessState md.def_count).1.module_count =
      (pre.length : Int) + 1 ∧
    ((ParsingContext.init.feed (programTokens pre)).ProcessState md.def_count).1.module_index =
      programSize pre ∧
    ((ParsingContext.init.feed (programTokens pre)).ProcessState
      md.def_count).1.last_module_instruction_count = lastSize 0 pre ∧
    (pre = [] → lastSize 0 pre = 0) ∧
    (∀ pre0 m0, pre = pre0 ++ [m0] → lastSize 0 pre = m0.size) ∧
    (ParsingContext.init.feed (programTokens (pre ++ md :: post))).HandleEnd.next_state =
      .STATE_TERMINATED ∧
    (ParsingContext.init.feed (programTokens (pre ++ md :: post))).HandleEnd.module_count =
      ((pre ++ md :: post).length : Int) + 1 ∧
    (ParsingContext.init.feed (programTokens (pre ++ md :: post))).HandleEnd.module_index =
      programSize (pre ++ md :: post) ∧
    (ParsingContext.init.feed
      (programTokens (pre ++ md :: post))).HandleEnd.last_module_instruction_count =
      lastSize 0 (pre ++ md :: post) := by
  obtain ⟨hmods, hsum⟩ := hwf
  have hsize : programSize (pre ++ md :: post) =
      programSize pre + md.size + programSize post := by
    rw [programSize_append, programSize_cons]; omega
  have hpre0 := programSize_nonneg pre
  have hpost0 := programSize_nonneg post
  have hmd0 := size_nonneg md
  have hmd : md.WellFormed := hmods md (by simp)
  obtain ⟨_, hs1, hc1, hb1, hi1⟩ := feed_program_counters pre
    (fun m hm => hmods m (by simp [hm])) (by omega)
  obtain ⟨_, hs2, hc2, hb2, hi2⟩ := feed_program_counters (pre ++ md :: post) hmods hsum
  obtain ⟨hd, hd16, _⟩ := hmd
  have e1 := ProcessState_moduleStart (ParsingContext.init.feed (programTokens pre))
    md.def_count _ hs1 hd (by omega)
  refine ⟨?_, ?_, ?_, ?_, ?_, fun h => by rw [h]; rfl, fun pre0 m0 h => by
    rw [h]; exact lastSize_snoc pre0 m0 0, ?_, ?_, ?_, ?_⟩
  · refine ⟨pairTokens md.definitions ++ md.use_count :: (md.uses ++
      md.instr_count :: pairTokens md.instructions) ++ programTokens post, ?_⟩
    simp [programTokens, tokens_eq]
  · rw [e1]
    show (if _ then _ else _) ≠ _
    split <;> decide
  · rw [e1]
    show (ParsingContext.init.feed (programTokens pre)).module_count + 1 = _
    rw [hc1]
  · rw [e1]
    show wrap32 ((ParsingContext.init.feed (programTokens pre)).module_index +
      (ParsingContext.init.feed (programTokens pre)).instruction_count) = _
    rw [hb1, wrap32_eq _ (by omega) (by omega)]
  · rw [e1]
    exact hi1
  · unfold ParsingContext.HandleEnd
    rw [if_neg (by rw [hs2]; simp)]
  · unfold ParsingContext.HandleEnd
    rw [if_neg (by rw [hs2]; simp)]
    show (ParsingContext.init.feed (programTokens (pre ++ md :: post))).module_count + 1 = _
    rw [hc2]
  · unfold ParsingContext.HandleEnd
    rw [if_neg (by rw [hs2]; simp)]
    show wrap32 ((ParsingContext.init.feed (programTokens (pre ++ md :: post))).module_index +
      (ParsingContext.init.feed (programTokens (pre ++ md :: post))).instruction_count) = _
    rw [hb2, wrap32_eq _ (by omega) (by omega)]
  · unfold ParsingContext.HandleEnd
    rw [if_neg (by rw [hs2]; simp)]
    exact hi2

/-- C26, at a program of three modules. -/
theorem module_counters_witness :
    WellFormedProgram ([moduleUsingX, moduleDefiningY] ++ moduleDefiningX :: []) ∧
    (∃ rest, programTokens ([moduleUsingX, moduleDefiningY] ++ moduleDefiningX :: []) =
      programTokens [moduleUsingX, moduleDefiningY] ++ moduleDefiningX.def_count :: rest) ∧
    ((ParsingContext.init.feed (programTokens [moduleUsingX, moduleDefiningY])).ProcessState
      moduleDefiningX.def_count).1.next_state ≠ .STATE_SYNTAX_ERROR ∧
    ((ParsingContext.init.feed (programTokens [moduleUsingX, moduleDefiningY])).ProcessState
      moduleDefiningX.def_count).1.module_count =
      (([moduleUsingX, moduleDefiningY] : List ObjectModule).length : Int) + 1 ∧
    ((ParsingContext.init.feed (programTokens [moduleUsingX, moduleDefiningY])).ProcessState
      moduleDefiningX.def_count).1.module_index =
      programSize [moduleUsingX, moduleDefiningY] ∧
    ((ParsingContext.init.feed (programTokens [moduleUsingX, moduleDefiningY])).ProcessState
      moduleDefiningX.def_count).1.last_module_instruction_count =
      lastSize 0 [moduleUsingX, moduleDefiningY] ∧
    (([moduleUsingX, moduleDefiningY] : List ObjectModule) = [] →
      lastSize 0 [moduleUsingX, moduleDefiningY] = 0) ∧
    (∀ pre0 m0, [moduleUsingX, moduleDefiningY] = pre0 ++ [m0] →
      lastSize 0 [moduleUsingX, moduleDefiningY] = m0.size) ∧
    (ParsingContext.init.feed (programTokens
      ([moduleUsingX, moduleDefiningY] ++ moduleDefiningX :: []))).HandleEnd.next_state =
      .STATE_TERMINATED ∧
    (ParsingContext.init.feed (programTokens
      ([moduleUsingX, moduleDefiningY] ++ moduleDefiningX :: []))).HandleEnd.module_count =
      ((([moduleUsingX, moduleDefiningY] ++ moduleDefiningX :: []) :
        List ObjectModule).length : Int) + 1 ∧
    (ParsingContext.init.feed (programTokens
      ([moduleUsingX, moduleDefiningY] ++ moduleDefiningX :: []))).HandleEnd.module_index =
      programSize ([moduleUsingX, moduleDefiningY] ++ moduleDefiningX :: []) ∧
    (ParsingContext.init.feed (programTokens
      ([moduleUsingX, moduleDefiningY] ++
        moduleDefiningX :: []))).HandleEnd.last_module_instruction_count =
      lastSize 0 ([moduleUsingX, moduleDefiningY] ++ moduleDefiningX :: []) :=
  ⟨by decide,
    module_counters [moduleUsingX, moduleDefiningY] [] moduleDefiningX (by decide)⟩
/-- C27 (the code at the failing input): after the tokens `0 0 1 I 5 0 0 2147483647 R`
the state machine, which never went to `STATE_SYNTAX_ERROR`, is in
`STATE_INSTRUCTION_CODE_READ` with module base 1 and instruction count 2147483647, the
sum of the two having wrapped around in the test of `HandleInstructionListStart`.  For
the next token `1999` pass 2 writes the line with address 1 and value 2000: the operand
999 is below the instruction count, the relocated operand is 1000, beyond 512, and the
opcode digit of the line is 2, not 1. -/
theorem relocation_carries_into_opcode :
    (ParsingContext.init.feed tokensBeforeRelative).current_state =
      .STATE_INSTRUCTION_CODE_READ ∧
    (ParsingContext.init.feed tokensBeforeRelative).last_instruction = 'R' ∧
    (ParsingContext.init.feed tokensBeforeRelative).module_index = 1 ∧
    (ParsingContext.init.feed tokensBeforeRelative).instruction_count = 2147483647 ∧
    (resultTokenizer ((Tokenizer.create .InstructionGenerator [] []).TokenizeTokens
      (tokensBeforeRelative ++ [tok "1999"]))).context.current_state =
        .STATE_INSTRUCTION_TYPE_READ ∧
    (resultTokenizer ((Tokenizer.create .InstructionGenerator [] []).TokenizeTokens
      (tokensBeforeRelative ++ [tok "1999"]))).cout =
        [Output.mapLine 0 5 "", Output.mapLine 1 2000 ""] ∧
    (2000 : Int) - (1999 : Int).tdiv 1000 * 1000 = 1000 ∧
    (2000 : Int).tdiv 1000 ≠ (1999 : Int).tdiv 1000 := by
  decide

/-- C28: on a well-formed program whose definitions have relative values from 0 on and
whose instructions have raw codes from 0 on, pass 1 ends with a symbol table in which
every value lies in `0..512`, and pass 2 on that table ends too, every memory-map line
that it writes carrying a value in `0..9999`, whichever of the rules applied to the
instruction. -/
theorem memory_map_values_fit (prog : List ObjectModule) (out : List Output)
    (hwf : WellFormedProgram prog)
    (hdefs : ∀ m ∈ prog, ∀ p ∈ m.definitions, 0 ≤ (p.2.ReadAsInt 0).val)
    (hcodes : ∀ m ∈ prog, ∀ p ∈ m.instructions, 0 ≤ (p.2.ReadAsInt 0).val) :
    ∃ tk1 tk2 rest,
      (Tokenizer.create .SymbolTableGenerator [] []).run (programTokens prog) = .ok tk1 ∧
      (∀ kv ∈ tk1.symbol_table, 0 ≤ kv.2.value ∧ kv.2.value ≤ 512) ∧
      (Tokenizer.create .InstructionGenerator tk1.symbol_table out).run
        (programTokens prog) = .ok tk2 ∧
      tk2.cout = out ++ rest ∧
      ∀ i v e, Output.mapLine i v e ∈ rest → 0 ≤ v ∧ v ≤ 9999 := by
  obtain ⟨tk1, hrun1, _, htable, _⟩ := pass1_run prog hwf
  obtain ⟨tk2, hrun2, _, _, _, hcout⟩ := pass2_run prog hwf tk1.symbol_table out
  obtain ⟨hmods, hsum⟩ := hwf
  have hT : valuesWithin tk1.symbol_table := by
    rw [htable]
    refine valuesWithin_pass1Final prog [] [] 0 0 0 (by intro kv hkv; simp at hkv)
      (le_refl 0) (le_refl 0) (by omega) ?_
    intro m hm p hp
    exact ⟨((hmods m hm).2.2.1 p hp).2, hdefs m hm p hp⟩
  obtain ⟨hT2, A, hA, hAfit⟩ := after_values prog (Boundary.mk tk1.symbol_table [] out 0 0 0)
    hT (le_refl (0 : Int)) (le_refl (0 : Int))
    (by show (0 : Int) + 0 + programSize prog ≤ 512; omega) hcodes
  have happ := pass2Final_append prog [] (Boundary.mk tk1.symbol_table [] out 0 0 0)
  rw [List.append_nil] at happ
  obtain ⟨b1, hb1⟩ : ∃ b1, b1 = (Boundary.mk tk1.symbol_table [] out 0 0 0).after prog :=
    ⟨_, rfl⟩
  rw [← hb1] at hA happ
  simp only at hA happ
  have hfin : pass2Final [] b1.symbol_table b1.use_list b1.cout b1.module_count
      b1.module_index b1.instruction_count =
      (b1.symbol_table, [], b1.cout ++
        (b1.use_list.UnusedSymbols.map fun s => Output.rule7Warning b1.module_count s) ++
        b1.symbol_table.VerifySymbolUsed) := rfl
  refine ⟨tk1, tk2, A ++ (b1.use_list.UnusedSymbols.map fun s =>
      Output.rule7Warning b1.module_count s) ++ b1.symbol_table.VerifySymbolUsed,
    hrun1, hT, hrun2, ?_, ?_⟩
  · rw [hcout, happ, hfin, hA]
    simp only [List.append_assoc]
  · intro i v e hmem
    have hfits : (Output.mapLine i v e).valueFits := by
      simp only [List.mem_append] at hmem
      rcases hmem with (hmem | hmem) | hmem
      · exact hAfit _ hmem
      · exact rule7_warnings_fit _ _ _ hmem
      · exact VerifySymbolUsed_fit _ _ hmem
    exact hfits

/-- C28, at a program whose first module has a definition beyond the module, a relative
instruction and an external reference. -/
theorem memory_map_values_fit_witness :
    WellFormedProgram [moduleWithErrors, moduleDefiningY] ∧
    ∃ tk1 tk2 rest,
      (Tokenizer.create .SymbolTableGenerator [] []).run
        (programTokens [moduleWithErrors, moduleDefiningY]) = .ok tk1 ∧
      (∀ kv ∈ tk1.symbol_table, 0 ≤ kv.2.value ∧ kv.2.value ≤ 512) ∧
      (Tokenizer.create .InstructionGenerator tk1.symbol_table []).run
        (programTokens [moduleWithErrors, moduleDefiningY]) = .ok tk2 ∧
      tk2.cout = [] ++ rest ∧
      ∀ i v e, Output.mapLine i v e ∈ rest → 0 ≤ v ∧ v ≤ 9999 :=
  ⟨by decide,
    memory_map_values_fit [moduleWithErrors, moduleDefiningY] [] (by decide) (by decide)
      (by decide)⟩

/-- C29: two well-formed programs with as many modules that have, module by module, the
same definitions, as many use symbols and as many instructions, whatever their use
symbols, instruction tags and instruction codes are, get the same symbol table from
pass 1, used flags, notes and definition order included, and the same output, which
consists of the Rule 5 warnings; so the printed symbol table is the same too. -/
theorem pass1_sees_definitions_and_sizes (p q : List ObjectModule)
    (hp : WellFormedProgram p) (hq : WellFormedProgram q)
    (hsame : List.Forall₂ ObjectModule.sameDefinitionsAndSizes p q) :
    ∃ tk1 tk2,
      (Tokenizer.create .SymbolTableGenerator [] []).run (programTokens p) = .ok tk1 ∧
      (Tokenizer.create .SymbolTableGenerator [] []).run (programTokens q) = .ok tk2 ∧
      tk1.symbol_table = tk2.symbol_table ∧ tk1.cout = tk2.cout ∧
      (∀ o ∈ tk1.cout, o.isRule5Warning = true) ∧
      tk1.symbol_table.Print = tk2.symbol_table.Print := by
  obtain ⟨tk1, h1, _, ht1, hc1⟩ := pass1_run p hp
  obtain ⟨tk2, h2, _, ht2, hc2⟩ := pass1_run q hq
  have hcongr := pass1Final_congr p q hsame [] [] 0 0 0
  have htable : tk1.symbol_table = tk2.symbol_table := by rw [ht1, ht2, hcongr]
  refine ⟨tk1, tk2, h1, h2, htable, by rw [hc1, hc2, hcongr], ?_, by rw [htable]⟩
  have hr := TokenizeTokens_only_rule5 (programTokens p)
    (Tokenizer.create .SymbolTableGenerator [] [])
    ⟨rfl, by intro o ho; simp [Tokenizer.create] at ho⟩
  unfold Tokenizer.run at h1
  cases hm : (Tokenizer.create .SymbolTableGenerator [] []).TokenizeTokens (programTokens p) with
  | error e => rw [hm] at h1; exact absurd h1 (by simp)
  | ok tkm =>
    rw [hm] at h1 hr
    have hf := Finish_only_rule5 tkm hr
    have h1b : tkm.Finish = .ok tk1 := h1
    rw [h1b] at hf
    exact hf.2

/-- C29, at two programs of two modules that differ in a use symbol and in all
instructions. -/
theorem pass1_sees_definitions_and_sizes_witness :
    WellFormedProgram [moduleUsingX, moduleDefiningY] ∧
    WellFormedProgram [moduleUsingZ, moduleDefiningYRelative] ∧
    ∃ tk1 tk2,
      (Tokenizer.create .SymbolTableGenerator [] []).run
        (programTokens [moduleUsingX, moduleDefiningY]) = .ok tk1 ∧
      (Tokenizer.create .SymbolTableGenerator [] []).run
        (programTokens [moduleUsingZ, moduleDefiningYRelative]) = .ok tk2 ∧
      tk1.symbol_table = tk2.symbol_table ∧ tk1.cout = tk2.cout ∧
      (∀ o ∈ tk1.cout, o.isRule5Warning = true) ∧
      tk1.symbol_table.Print = tk2.symbol_table.Print :=
  ⟨by decide, by decide,
    pass1_sees_definitions_and_sizes [moduleUsingX, moduleDefiningY]
      [moduleUsingZ, moduleDefiningYRelative] (by decide) (by decide)
      (List.Forall₂.cons ⟨rfl, rfl, rfl⟩ (List.Forall₂.cons ⟨rfl, rfl, rfl⟩ List.Forall₂.nil))⟩

/-- C30: the state machine goes the same way under both passes, whatever the symbol
tables and the outputs at the start are: on every input file, and on every token
sequence, both runs end in the same context or both throw in the same context with the
same message.  So when pass 1 ends on a file, `next_state` being `STATE_TERMINATED`,
pass 2 on the same file ends too, in the same context, whatever diagnostics it attaches
to the instructions, and the output of `main` is the output of pass 2, without a parse
error of pass 2. -/
theorem trajectory_independent_of_pass (lines : List String) (toks : List Token)
    (T T1 : SymbolTable) (out out1 : List Output) :
    sameTrajectory ((Tokenizer.create .SymbolTableGenerator T out).TokenizeFile lines)
      ((Tokenizer.create .InstructionGenerator T1 out1).TokenizeFile lines) ∧
    sameTrajectory ((Tokenizer.create .SymbolTableGenerator T out).TokenizeTokens toks)
      ((Tokenizer.create .InstructionGenerator T1 out1).TokenizeTokens toks) ∧
    (∀ tk1, (Tokenizer.create .SymbolTableGenerator T out).TokenizeFile lines = .ok tk1 →
      tk1.context.next_state = .STATE_TERMINATED ∧
      ∃ tk2, (Tokenizer.create .InstructionGenerator T1 out1).TokenizeFile lines = .ok tk2 ∧
        tk2.context = tk1.context) ∧
    (∀ tk1, (Tokenizer.create .SymbolTableGenerator [] []).TokenizeFile lines = .ok tk1 →
      ∃ tk2, (Tokenizer.create .InstructionGenerator tk1.symbol_table
          (tk1.cout ++ tk1.symbol_table.Print ++ [Output.memoryMapHeader])).TokenizeFile
            lines = .ok tk2 ∧
        tk2.context.next_state = .STATE_TERMINATED ∧ main lines = tk2.cout) := by
  have key : ∀ (Ta Tb : SymbolTable) (oa ob : List Output) (tk1 : Tokenizer),
      (Tokenizer.create .SymbolTableGenerator Ta oa).TokenizeFile lines = .ok tk1 →
      ∃ tk2, (Tokenizer.create .InstructionGenerator Tb ob).TokenizeFile lines = .ok tk2 ∧
        tk2.context = tk1.context := by
    intro Ta Tb oa ob tk1 h1
    have hs := TokenizeFile_sameTrajectory (Tokenizer.create .SymbolTableGenerator Ta oa)
      (Tokenizer.create .InstructionGenerator Tb ob) lines rfl
    rw [h1] at hs
    cases h2 : (Tokenizer.create .InstructionGenerator Tb ob).TokenizeFile lines with
    | error e => rw [h2] at hs; exact hs.elim
    | ok tk2 =>
      rw [h2] at hs
      exact ⟨tk2, rfl, (show tk1.context = tk2.context from hs).symm⟩
  refine ⟨TokenizeFile_sameTrajectory _ _ lines rfl, TokenizeTokens_sameTrajectory toks _ _ rfl,
    fun tk1 h1 => ⟨TokenizeFile_ok_terminated _ _ _ h1, key T T1 out out1 tk1 h1⟩,
    fun tk1 h1 => ?_⟩
  obtain ⟨tk2, h2, hctx⟩ := key [] tk1.symbol_table []
    (tk1.cout ++ tk1.symbol_table.Print ++ [Output.memoryMapHeader]) tk1 h1
  refine ⟨tk2, h2, TokenizeFile_ok_terminated _ _ _ h2, ?_⟩
  simp only [main, linkWith, h1, h2]

end Linker
